import Mathlib

/-!
# ghostwriter: the line-based Markdown lexer of `src/MarkdownParser.cpp`

A shallow embedding of `MarkdownParser` (the line classifier `parseLine`, its
block-level helpers, the inline tokenizer `parseInline` / `parseMatches` and
the escape sanitizer `dummyOutEscapeCharacters`), followed by theorems about it.

Conventions of the embedding:

* a `QString` is the list of its UTF-16 code units (`QChar`), each a `Nat`;
* `int` values of the source (token positions, lengths, `indexOf` results) are
  `Int`; line lengths are far below `2^31`, so no wrap-around is modelled;
* the parser object is passed explicitly: every member function takes the
  `MarkdownParser` record and returns the updated one (together with its
  `bool` result where it has one);
* Qt's `QRegExp` is modelled by a small matcher that computes, for a pattern and
  a position, the set of all match ends; `indexIn` picks the leftmost start
  and the longest match there (the shortest one when `setMinimal(true)`);
* the two `while` loops that search a pattern repeatedly run on fuel
  (`length + 1` iterations, one more than the text can supply non-empty
  matches); running out of fuel is reported as `none`.
-/

namespace Ghostwriter

/-! ## Qt strings -/

/-- A UTF-16 code unit. -/
abbrev QChar := Nat

/-- A Qt string: its code units in order. -/
abbrev QString := List QChar

/-- The code unit of an (ASCII) character literal. -/
def qc (c : Char) : QChar := c.toNat

/-- The code units of an (ASCII) string literal. -/
def qs (s : String) : QString := s.toList.map Char.toNat

/-- Qt `QChar::isSpace()`: the ASCII white space U+0009..U+000D and U+0020, then
U+0085, U+00A0 and the Unicode separator categories Zs, Zl, Zp. -/
def isSpace (c : QChar) : Bool :=
  c == 0x20 || (0x09 ≤ c && c ≤ 0x0d) || c == 0x85 || c == 0xa0 || c == 0x1680
    || (0x2000 ≤ c && c ≤ 0x200a) || c == 0x2028 || c == 0x2029 || c == 0x202f
    || c == 0x205f || c == 0x3000

/-- Qt `QString::indexOf(QChar)`: the first index holding `c`, or `-1`. -/
def indexOfChar (text : QString) (c : QChar) : Int :=
  if text.indexOf c < text.length then (text.indexOf c : Int) else -1

/-- The first index at or after `pos` where `pat` starts in `text`, scanning
the suffix `text` of the line that begins at index `pos`. -/
def indexOfStrFrom (pat : QString) : QString → Nat → Int
  | [], pos => if pat.isEmpty then (pos : Int) else -1
  | c :: t, pos => if pat.isPrefixOf (c :: t) then (pos : Int) else indexOfStrFrom pat t (pos + 1)

/-- Qt `QString::indexOf(QString)`: the first index where `pat` starts, or `-1`. -/
def indexOfStr (text pat : QString) : Int := indexOfStrFrom pat text 0

/-- Qt `QString::startsWith`. -/
def startsWith (text pat : QString) : Bool := pat.isPrefixOf text

/-- Qt `QString::endsWith`. -/
def endsWith (text pat : QString) : Bool := pat.isSuffixOf text

/-- The loop `for (i = lo; i < hi; i++) text[i] = c` over a working copy. All
such loops of the source stay inside the string. -/
def fillRange (text : QString) (lo hi : Nat) (c : QChar) : QString :=
  (List.range (hi - lo)).foldl (fun t k => t.set (lo + k) c) text

/-! ## Regular expressions (`QRegExp`) -/

/-- Pattern syntax, as far as the parser's patterns use it. -/
inductive RE where
  /-- One character of a class: a literal, `.`, `\s`, `[...]`. -/
  | cls (p : QChar → Bool)
  /-- The empty pattern. -/
  | eps
  /-- Concatenation. -/
  | seq (a b : RE)
  /-- Alternation `a|b`. -/
  | alt (a b : RE)
  /-- Repetition `a*`. -/
  | star (a : RE)
  /-- The anchor `^`. -/
  | bol
  /-- The anchor `$`. -/
  | eol
  /-- Lookahead: `(?=a)`, or `(?!a)` when `neg` is set. -/
  | look (neg : Bool) (a : RE)

namespace RE

/-- A literal character. -/
def chr (c : Char) : RE := cls (fun x => x == qc c)

/-- The pattern `.`, any character. -/
def dot : RE := cls (fun _ => true)

/-- The class `\s`. -/
def space : RE := cls isSpace

/-- The class `\S`. -/
def nonSpace : RE := cls (fun x => !isSpace x)

/-- Repetition `a+`. -/
def plus (a : RE) : RE := seq a (star a)

/-- Optional `a?`. -/
def opt (a : RE) : RE := alt a eps

/-- Bounded repetition `a{0,3}`. -/
def upTo3 (a : RE) : RE := seq (opt a) (seq (opt a) (opt a))

/-- Repetition `a{3,}`. -/
def atLeast3 (a : RE) : RE := seq a (seq a (seq a (star a)))

/-- Concatenation of a list of patterns. -/
def cat : List RE → RE
  | [] => eps
  | [a] => a
  | a :: rest => seq a (cat rest)

/-- A literal string. -/
def lit (s : String) : RE := cat (s.toList.map chr)

/-- Iteration for `a*`: from the suffix `s`, all suffixes reachable by
repeating `f` (one match of `a`), each round consuming at least one
character. -/
def starLoop (f : QString → List QString) : Nat → QString → List QString
  | 0, s => [s]
  | k + 1, s => s :: ((f s).filter (fun t => decide (t.length < s.length))).flatMap (starLoop f k)

/-- All ends of matches of a pattern that start at the suffix `s` of a subject
string of length `n`: each end is given as the suffix that remains. -/
def ends (n : Nat) : RE → QString → List QString
  | cls _, [] => []
  | cls p, c :: t => if p c then [t] else []
  | eps, s => [s]
  | seq a b, s => (ends n a s).flatMap (fun t => ends n b t)
  | alt a b, s => ends n a s ++ ends n b s
  | star a, s => starLoop (fun t => ends n a t) s.length s
  | bol, s => if s.length = n then [s] else []
  | eol, s => if s.isEmpty then [s] else []
  | look neg a, s => if (ends n a s).isEmpty == neg then [s] else []

end RE

/-- A `QRegExp` object: its pattern and the `setMinimal` flag. -/
structure QRegExp where
  pattern : RE
  minimal : Bool

namespace QRegExp

/-- The length matched at the position of the suffix `s` (subject length
`n`): the longest match, or the shortest one in minimal mode; `none` when
the pattern does not match there. -/
def matchHere (re : QRegExp) (n : Nat) (s : QString) : Option Nat :=
  match (RE.ends n re.pattern s).map (fun t => s.length - t.length) with
  | [] => none
  | l :: ls => some (if re.minimal then ls.foldl min l else ls.foldl max l)

/-- Leftmost match in the suffix `s`, which starts at index `pos`. -/
def searchFrom (re : QRegExp) (n : Nat) : QString → Nat → Option (Nat × Nat)
  | [], pos => (re.matchHere n []).map (fun l => (pos, l))
  | c :: t, pos =>
    match re.matchHere n (c :: t) with
    | some l => some (pos, l)
    | none => searchFrom re n t (pos + 1)

/-- Qt `QRegExp::indexIn(text, offset)` with `matchedLength()`: index and length
of the leftmost match at or after `offset`, `none` for the result `-1`. -/
def indexIn (re : QRegExp) (text : QString) (offset : Nat) : Option (Nat × Nat) :=
  if offset ≤ text.length then re.searchFrom text.length (text.drop offset) offset else none

/-- Qt `QRegExp::exactMatch`: the match at index 0 covers the whole string. -/
def exactMatch (re : QRegExp) (text : QString) : Bool :=
  re.matchHere text.length text == some text.length

end QRegExp

/-! ## States, tokens and the parser object -/

/-- Modelled from the spec: the line states of `MarkdownStates.h` (a header that
is not among the sources), by the names the parser uses. Only the names matter
here, and that the six ATX heading states are consecutive (the parser computes
`MarkdownStateAtxHeading1 + level - 1`). -/
inductive MarkdownState where
  | Unknown
  | ParagraphBreak
  | ListLineBreak
  | Paragraph
  | AtxHeading1
  | AtxHeading2
  | AtxHeading3
  | AtxHeading4
  | AtxHeading5
  | AtxHeading6
  | Blockquote
  | CodeBlock
  | InGithubCodeFence
  | InPandocCodeFence
  | CodeFenceEnd
  | Comment
  | HorizontalRule
  | NumberedList
  | BulletPointList
  | SetextHeading1Line1
  | SetextHeading1Line2
  | SetextHeading2Line1
  | SetextHeading2Line2
deriving DecidableEq, Repr

/-- Modelled from the spec: the token types (declared in a header that is not
among the sources), by the names the parser uses; `TokenUnknown` is the type of
a token whose type was never set. -/
inductive MarkdownTokenType where
  | TokenUnknown
  | TokenAtxHeading1
  | TokenAtxHeading2
  | TokenAtxHeading3
  | TokenAtxHeading4
  | TokenAtxHeading5
  | TokenAtxHeading6
  | TokenSetextHeading1Line1
  | TokenSetextHeading1Line2
  | TokenSetextHeading2Line1
  | TokenSetextHeading2Line2
  | TokenBlockquote
  | TokenNumberedList
  | TokenBulletPointList
  | TokenHorizontalRule
  | TokenCodeBlock
  | TokenGithubCodeFence
  | TokenPandocCodeFence
  | TokenCodeFenceEnd
  | TokenHtmlComment
  | TokenReferenceDefinition
  | TokenImage
  | TokenInlineLink
  | TokenReferenceLink
  | TokenHtmlEntity
  | TokenAutomaticLink
  | TokenVerbatim
  | TokenStrikethrough
  | TokenStrong
  | TokenEmphasis
  | TokenHtmlTag
deriving DecidableEq, Repr

open MarkdownState MarkdownTokenType

/-- The state `MarkdownStateAtxHeading1 + level - 1`, for a level from 1 to 6. -/
def atxHeadingState : Nat → MarkdownState
  | 1 => AtxHeading1
  | 2 => AtxHeading2
  | 3 => AtxHeading3
  | 4 => AtxHeading4
  | 5 => AtxHeading5
  | _ => AtxHeading6

/-- The token type `TokenAtxHeading1 + level - 1`, for a level from 1 to 6. -/
def atxHeadingToken : Nat → MarkdownTokenType
  | 1 => TokenAtxHeading1
  | 2 => TokenAtxHeading2
  | 3 => TokenAtxHeading3
  | 4 => TokenAtxHeading4
  | 5 => TokenAtxHeading5
  | _ => TokenAtxHeading6

/-- Modelled from the spec: a token (class `Token`, not among the sources) has a
type, a span within the line (position and length, zero-based character
offsets), and the lengths of its opening and closing markup, zero unless set. -/
structure Token where
  type : MarkdownTokenType
  position : Int
  length : Int
  openingMarkupLength : Int
  closingMarkupLength : Int
deriving DecidableEq, Repr

/-- Modelled from the spec: the parser object (its class declaration is not
among the sources) holds the three members that `parseLine` stores, and what
`setState`, `addToken` and `requestBacktrack` write: the computed state, the
tokens emitted so far in the order of emission, the backtrack flag. -/
structure MarkdownParser where
  currentState : MarkdownState
  previousState : MarkdownState
  nextState : MarkdownState
  state : MarkdownState
  tokens : List Token
  backtrack : Bool
deriving DecidableEq, Repr

namespace MarkdownParser

/-- The character that replaces escaped and already claimed characters. -/
def DUMMY_CHAR : QChar := qc '@'

def MAX_MARKDOWN_HEADING_LEVEL : Nat := 6

/-- Modelled from the spec: `setState` is declared in a header that is not
among the sources; it records the computed state of the line. -/
def setState (p : MarkdownParser) (s : MarkdownState) : MarkdownParser :=
  { p with state := s }

/-- Modelled from the spec: `getState` (header not among the sources) reads the
state recorded by `setState`. -/
def getState (p : MarkdownParser) : MarkdownState := p.state

/-- Modelled from the spec: `addToken` (header not among the sources) appends
to the token list; tokens are kept in the order discovered. -/
def addToken (p : MarkdownParser) (t : Token) : MarkdownParser :=
  { p with tokens := p.tokens ++ [t] }

/-- Modelled from the spec: `requestBacktrack` (header not among the sources)
sets the backtrack flag. -/
def requestBacktrack (p : MarkdownParser) : MarkdownParser :=
  { p with backtrack := true }

/-- A parser object that has emitted nothing yet and holds state `s`. -/
def fresh (s : MarkdownState) : MarkdownParser :=
  { currentState := s, previousState := s, nextState := s, state := s, tokens := [],
    backtrack := false }

/-! ### The patterns set up by the constructor -/

/-- Pattern `^\s*$` -/
def paragraphBreakRegex : QRegExp :=
  ⟨RE.cat [RE.bol, RE.star RE.space, RE.eol], false⟩

/-- Pattern `^===+\s*$` -/
def heading1SetextRegex : QRegExp :=
  ⟨RE.cat [RE.bol, RE.chr '=', RE.chr '=', RE.plus (RE.chr '='), RE.star RE.space, RE.eol], false⟩

/-- Pattern `^---+\s*$` -/
def heading2SetextRegex : QRegExp :=
  ⟨RE.cat [RE.bol, RE.chr '-', RE.chr '-', RE.plus (RE.chr '-'), RE.star RE.space, RE.eol], false⟩

/-- Pattern `^ {0,3}>.*$` -/
def blockquoteRegex : QRegExp :=
  ⟨RE.cat [RE.bol, RE.upTo3 (RE.chr ' '), RE.chr '>', RE.star RE.dot, RE.eol], false⟩

/-- A line of three backticks or more, then anything: `^[bt][bt][bt]+.*$`
with `[bt]` the backtick. -/
def githubCodeFenceStartRegex : QRegExp :=
  ⟨RE.cat [RE.bol, RE.cls (· == 96), RE.cls (· == 96), RE.plus (RE.cls (· == 96)),
    RE.star RE.dot, RE.eol], false⟩

/-- A line of three backticks or more, then white space only:
`^[bt][bt][bt]+\s*$`. -/
def githubCodeFenceEndRegex : QRegExp :=
  ⟨RE.cat [RE.bol, RE.cls (· == 96), RE.cls (· == 96), RE.plus (RE.cls (· == 96)),
    RE.star RE.space, RE.eol], false⟩

/-- Pattern `^~~~+.*$` -/
def pandocCodeFenceStartRegex : QRegExp :=
  ⟨RE.cat [RE.bol, RE.chr '~', RE.chr '~', RE.plus (RE.chr '~'), RE.star RE.dot, RE.eol], false⟩

/-- Pattern `^~~~+\s*$` -/
def pandocCodeFenceEndRegex : QRegExp :=
  ⟨RE.cat [RE.bol, RE.chr '~', RE.chr '~', RE.plus (RE.chr '~'), RE.star RE.space, RE.eol], false⟩

/-- The characters of the class `[0-9]`. -/
def isDigit (x : QChar) : Bool := decide (qc '0' ≤ x) && decide (x ≤ qc '9')

/-- The class `[0-9]`. -/
def digit : RE := RE.cls isDigit

/-- The class `[a-zA-Z]`. -/
def letter : RE :=
  RE.cls (fun x => (decide (qc 'a' ≤ x) && decide (x ≤ qc 'z'))
    || (decide (qc 'A' ≤ x) && decide (x ≤ qc 'Z')))

/-- The class `[.)]`. -/
def dotOrParen : RE := RE.cls (fun x => x == qc '.' || x == qc ')')

/-- Pattern `^ {0,3}[0-9]+[.)]\s+.*$` -/
def numberedListRegex : QRegExp :=
  ⟨RE.cat [RE.bol, RE.upTo3 (RE.chr ' '), RE.plus digit, dotOrParen, RE.plus RE.space,
    RE.star RE.dot, RE.eol], false⟩

/-- Pattern `^\s*[0-9]+[.)]\s+.*$` -/
def numberedNestedListRegex : QRegExp :=
  ⟨RE.cat [RE.bol, RE.star RE.space, RE.plus digit, dotOrParen, RE.plus RE.space,
    RE.star RE.dot, RE.eol], false⟩

/-- One branch of the rule pattern: `\s*(c\s*){3,}`. -/
def hruleBranch (c : Char) : RE :=
  RE.seq (RE.star RE.space) (RE.atLeast3 (RE.seq (RE.chr c) (RE.star RE.space)))

/-- Pattern `\s*(\*\s*){3,}|(\s*(_\s*){3,})|((\s*(-\s*){3,}))` -/
def hruleRegex : QRegExp :=
  ⟨RE.alt (hruleBranch '*') (RE.alt (hruleBranch '_') (hruleBranch '-')), false⟩

/-- One branch of the emphasis pattern: `c(?![\sc]).*[^\sc]c`. -/
def emphasisBranch (c : Char) : RE :=
  RE.cat [RE.chr c, RE.look true (RE.cls (fun x => isSpace x || x == qc c)), RE.star RE.dot,
    RE.cls (fun x => !(isSpace x || x == qc c)), RE.chr c]

/-- Pattern `(\*(?![\s*]).*[^\s*]\*)|_(?![\s_]).*[^\s_]_`, minimal. -/
def emphasisRegex : QRegExp :=
  ⟨RE.alt (emphasisBranch '*') (emphasisBranch '_'), true⟩

/-- One branch of the strong pattern: `cc(?=\S).*\Scc(?!c)`. -/
def strongBranch (c : Char) : RE :=
  RE.cat [RE.chr c, RE.chr c, RE.look false RE.nonSpace, RE.star RE.dot, RE.nonSpace,
    RE.chr c, RE.chr c, RE.look true (RE.chr c)]

/-- Pattern `\*\*(?=\S).*\S\*\*(?!\*)|__(?=\S).*\S__(?!_)`, minimal. -/
def strongRegex : QRegExp :=
  ⟨RE.alt (strongBranch '*') (strongBranch '_'), true⟩

/-- Pattern `~~.*~~`, minimal. -/
def strikethroughRegex : QRegExp :=
  ⟨RE.cat [RE.chr '~', RE.chr '~', RE.star RE.dot, RE.chr '~', RE.chr '~'], true⟩

/-- A code span, minimal: one backtick, one or more characters other than a
backtick, one backtick; or two or more backticks, one or more characters, two
or more backticks (`[bt][^bt]+[bt]|[bt][bt]+.+[bt][bt]+`). -/
def verbatimRegex : QRegExp :=
  ⟨RE.alt
    (RE.cat [RE.cls (· == 96), RE.plus (RE.cls (fun x => !(x == 96))), RE.cls (· == 96)])
    (RE.cat [RE.cls (· == 96), RE.plus (RE.cls (· == 96)), RE.plus RE.dot,
      RE.cls (· == 96), RE.plus (RE.cls (· == 96))]), true⟩

/-- Pattern `<[^<>]+>`, minimal. -/
def htmlTagRegex : QRegExp :=
  ⟨RE.cat [RE.chr '<', RE.plus (RE.cls (fun x => !(x == qc '<' || x == qc '>'))), RE.chr '>'],
    true⟩

/-- Pattern `&[a-zA-Z]+;|&#x?[0-9]+;` -/
def htmlEntityRegex : QRegExp :=
  ⟨RE.alt (RE.cat [RE.chr '&', RE.plus letter, RE.chr ';'])
    (RE.cat [RE.chr '&', RE.chr '#', RE.opt (RE.chr 'x'), RE.plus digit, RE.chr ';']), false⟩

/-- Pattern `(<[a-zA-Z]+\:.+>)|(<.+@.+>)`, minimal. -/
def automaticLinkRegex : QRegExp :=
  ⟨RE.alt (RE.cat [RE.chr '<', RE.plus letter, RE.chr ':', RE.plus RE.dot, RE.chr '>'])
    (RE.cat [RE.chr '<', RE.plus RE.dot, RE.chr '@', RE.plus RE.dot, RE.chr '>']), true⟩

/-- Pattern `\[.+\]\(.+\)`, minimal. -/
def inlineLinkRegex : QRegExp :=
  ⟨RE.cat [RE.chr '[', RE.plus RE.dot, RE.chr ']', RE.chr '(', RE.plus RE.dot, RE.chr ')'],
    true⟩

/-- Pattern `\[(.+)\]`, minimal. -/
def referenceLinkRegex : QRegExp :=
  ⟨RE.cat [RE.chr '[', RE.plus RE.dot, RE.chr ']'], true⟩

/-- Pattern `^\s*\[.+\]:` -/
def referenceDefinitionRegex : QRegExp :=
  ⟨RE.cat [RE.bol, RE.star RE.space, RE.chr '[', RE.plus RE.dot, RE.chr ']', RE.chr ':'],
    false⟩

/-- Pattern `!\[.*\]\(.+\)`, minimal. -/
def imageRegex : QRegExp :=
  ⟨RE.cat [RE.chr '!', RE.chr '[', RE.star RE.dot, RE.chr ']', RE.chr '(', RE.plus RE.dot,
    RE.chr ')'], true⟩

/-- Pattern `<!--.*-->`, minimal. -/
def htmlInlineCommentRegex : QRegExp :=
  ⟨RE.cat [RE.lit "<!--", RE.star RE.dot, RE.lit "-->"], true⟩

/-! ### Escape handling -/

/-- The scan of `dummyOutEscapeCharacters`, with the `escape` flag as first
argument: an escaped character becomes the dummy, a backslash that is not
itself escaped raises the flag. -/
def dummyOutLoop : Bool → QString → QString
  | _, [] => []
  | true, _ :: t => DUMMY_CHAR :: dummyOutLoop false t
  | false, c :: t => c :: dummyOutLoop (c == qc '\\') t

def dummyOutEscapeCharacters (text : QString) : QString := dummyOutLoop false text

/-! ### Block-level helpers -/

/-- A token at position 0 that spans the whole line, without markup lengths. -/
def lineToken (ty : MarkdownTokenType) (text : QString) : Token :=
  { type := ty, position := 0, length := (text.length : Int), openingMarkupLength := 0,
    closingMarkupLength := 0 }

def parseSetextHeadingLine1 (p : MarkdownParser) (text : QString) : Bool × MarkdownParser :=
  if p.nextState = SetextHeading1Line2 then
    (true, (p.setState SetextHeading1Line1).addToken (lineToken TokenSetextHeading1Line1 text))
  else if p.nextState = SetextHeading2Line2 then
    (true, (p.setState SetextHeading2Line1).addToken (lineToken TokenSetextHeading2Line1 text))
  else
    (false, p)

def parseSetextHeadingLine2 (p : MarkdownParser) (text : QString) : Bool × MarkdownParser :=
  if p.previousState = SetextHeading1Line1 then
    let p1 := p.setState SetextHeading1Line2
    if heading1SetextRegex.exactMatch text then
      (true, p1.addToken (lineToken TokenSetextHeading1Line2 text))
    else
      -- Restart tokenizing on the previous line.
      (false, p1.requestBacktrack)
  else if p.previousState = SetextHeading2Line1 then
    let p1 := p.setState SetextHeading2Line2
    if heading2SetextRegex.exactMatch text then
      (true, p1.addToken (lineToken TokenSetextHeading2Line2 text))
    else
      (false, p1.requestBacktrack)
  else if p.previousState = Paragraph then
    let h1Line2 := heading1SetextRegex.exactMatch text
    let h2Line2 := heading2SetextRegex.exactMatch text
    if h1Line2 || h2Line2 then
      -- Restart tokenizing on the previous line.
      let p1 := p.requestBacktrack
      if h1Line2 then
        (true, (p1.setState SetextHeading1Line2).addToken (lineToken TokenSetextHeading1Line2 text))
      else
        (true, (p1.setState SetextHeading2Line2).addToken (lineToken TokenSetextHeading2Line2 text))
    else
      (false, p)
  else
    (false, p)

/-- The number of pound signs at the front of the sanitized line, counted over
at most `MAX_MARKDOWN_HEADING_LEVEL` characters. -/
def atxLevel (escapedText : QString) : Nat :=
  ((escapedText.take MAX_MARKDOWN_HEADING_LEVEL).takeWhile (· == qc '#')).length

/-- The number of pound signs at the end of the sanitized line, counted from the
last index down while the index stays above `level`. -/
def atxTrailing (escapedText : QString) (level : Nat) : Nat :=
  (((escapedText.drop (level + 1)).reverse).takeWhile (· == qc '#')).length

def parseAtxHeading (p : MarkdownParser) (text : QString) : Bool × MarkdownParser :=
  let escapedText := dummyOutEscapeCharacters text
  let level := atxLevel escapedText
  if 0 < level ∧ level < text.length then
    let trailingPoundCount := atxTrailing escapedText level
    let token : Token :=
      { type := atxHeadingToken level, position := 0, length := (text.length : Int),
        openingMarkupLength := (level : Int), closingMarkupLength := (trailingPoundCount : Int) }
    (true, (p.addToken token).setState (atxHeadingState level))
  else
    (false, p)

def parseNumberedList (p : MarkdownParser) (text : QString) : Bool × MarkdownParser :=
  if ((p.previousState = ParagraphBreak ∨ p.previousState = Unknown)
        ∧ numberedListRegex.exactMatch text = true)
      ∨ ((p.previousState = ListLineBreak ∨ p.previousState = NumberedList)
        ∧ numberedNestedListRegex.exactMatch text = true) then
    let periodIndex := indexOfChar text (qc '.')
    let parenthIndex := indexOfChar text (qc ')')
    let index : Int :=
      if periodIndex < 0 then parenthIndex
      else if parenthIndex < 0 then periodIndex
      else if parenthIndex > periodIndex then periodIndex
      else parenthIndex
    if index ≥ 0 then
      let token : Token :=
        { type := TokenNumberedList, position := 0, length := (text.length : Int),
          openingMarkupLength := index + 1, closingMarkupLength := 0 }
      (true, (p.addToken token).setState NumberedList)
    else
      (false, p)
  else
    (false, p)

/-- The character scan of `parseBulletPointList` from index `i` on, with its
locals `foundBulletChar`, `bulletCharIndex` and `spaceCount`. The result is
`none` where the loop executes `return false`, and otherwise the final
`bulletCharIndex` with `whitespaceFoundAfterBulletChar`. -/
def bulletScan (previousState : MarkdownState) :
    QString → Nat → Bool → Int → Nat → Option (Int × Bool)
  | [], _, _, bulletCharIndex, _ => some (bulletCharIndex, false)
  | c :: t, i, foundBulletChar, bulletCharIndex, spaceCount =>
    if c = qc ' ' then
      if foundBulletChar then
        some (bulletCharIndex, true)
      else if spaceCount + 1 > 3
          ∧ previousState ≠ NumberedList
          ∧ previousState ≠ BulletPointList
          ∧ previousState ≠ ListLineBreak
          ∧ (previousState = ParagraphBreak ∨ previousState = Unknown) then
        none
      else
        bulletScan previousState t (i + 1) foundBulletChar bulletCharIndex (spaceCount + 1)
    else if c = qc '\t' then
      if foundBulletChar then
        some (bulletCharIndex, true)
      else if previousState = ParagraphBreak ∨ previousState = Unknown then
        none
      else
        bulletScan previousState t (i + 1) foundBulletChar bulletCharIndex spaceCount
    else if c = qc '+' ∨ c = qc '-' ∨ c = qc '*' then
      bulletScan previousState t (i + 1) true (i : Int) spaceCount
    else
      none

def parseBulletPointList (p : MarkdownParser) (text : QString) : Bool × MarkdownParser :=
  if p.previousState ≠ Unknown
      ∧ p.previousState ≠ ParagraphBreak
      ∧ p.previousState ≠ ListLineBreak
      ∧ p.previousState ≠ NumberedList
      ∧ p.previousState ≠ BulletPointList then
    (false, p)
  else
    match bulletScan p.previousState text 0 false (-1) 0 with
    | none => (false, p)
    | some (bulletCharIndex, whitespaceFoundAfterBulletChar) =>
      if bulletCharIndex ≥ 0 ∧ whitespaceFoundAfterBulletChar = true then
        let token : Token :=
          { type := TokenBulletPointList, position := 0, length := (text.length : Int),
            openingMarkupLength := bulletCharIndex + 1, closingMarkupLength := 0 }
        (true, (p.addToken token).setState BulletPointList)
      else
        (false, p)

def parseHorizontalRule (p : MarkdownParser) (text : QString) : Bool × MarkdownParser :=
  if hruleRegex.exactMatch text then
    (true, (p.addToken (lineToken TokenHorizontalRule text)).setState HorizontalRule)
  else
    (false, p)

/-- The scan of `parseBlockquote` for the markers at the front of the line:
`markupLength` after the loop, started at index `i`. -/
def blockquoteMarkup : QString → Nat → Int → Int
  | [], _, markupLength => markupLength
  | c :: t, i, markupLength =>
    if c = qc '>' then blockquoteMarkup t (i + 1) ((i : Int) + 1)
    else if !isSpace c then markupLength
    else blockquoteMarkup t (i + 1) markupLength

def parseBlockquote (p : MarkdownParser) (text : QString) : Bool × MarkdownParser :=
  if p.previousState = Blockquote ∨ blockquoteRegex.exactMatch text = true then
    let markupLength := blockquoteMarkup text 0 0
    let token : Token :=
      { type := TokenBlockquote, position := 0, length := (text.length : Int),
        openingMarkupLength := if markupLength > 0 then markupLength else 0,
        closingMarkupLength := 0 }
    (true, (p.addToken token).setState Blockquote)
  else
    (false, p)

def parseCodeBlock (p : MarkdownParser) (text : QString) : Bool × MarkdownParser :=
  if p.previousState = InGithubCodeFence ∨ p.previousState = InPandocCodeFence then
    let p1 := p.setState p.previousState
    if (p.previousState = InGithubCodeFence ∧ githubCodeFenceEndRegex.exactMatch text = true)
        ∨ (p.previousState = InPandocCodeFence ∧ pandocCodeFenceEndRegex.exactMatch text = true)
    then
      (true, (p1.addToken (lineToken TokenCodeFenceEnd text)).setState CodeFenceEnd)
    else
      (true, p1.addToken (lineToken TokenCodeBlock text))
  else if (p.previousState = CodeBlock ∨ p.previousState = ParagraphBreak
        ∨ p.previousState = Unknown)
      ∧ (startsWith text (qs "\t") = true ∨ startsWith text (qs "    ") = true) then
    (true, (p.addToken (lineToken TokenCodeBlock text)).setState CodeBlock)
  else if p.previousState = ParagraphBreak ∨ p.previousState = Paragraph
      ∨ p.previousState = Unknown then
    if githubCodeFenceStartRegex.exactMatch text then
      (true, (p.setState InGithubCodeFence).addToken (lineToken TokenGithubCodeFence text))
    else if pandocCodeFenceStartRegex.exactMatch text then
      (true, (p.setState InPandocCodeFence).addToken (lineToken TokenPandocCodeFence text))
    else
      (false, p)
  else
    (false, p)

def parseMultilineComment (p : MarkdownParser) (text : QString) : Bool × MarkdownParser :=
  if p.previousState = Comment then
    -- Find the end of the comment, if any.
    let index := indexOfStr text (qs "-->")
    if index ≥ 0 then
      (false, p.addToken { type := TokenHtmlComment, position := 0, length := index + 3,
                           openingMarkupLength := 0, closingMarkupLength := 0 })
    else
      (true, (p.addToken (lineToken TokenHtmlComment text)).setState Comment)
  else
    (false, p)

/-! ### Inline tokenizing -/

/-- The `while (index >= 0)` loop of `parseMatches`. The last argument is the
result of the latest pattern search (`none` for a negative index); the first
is the fuel, and `none` is returned when it runs out. -/
def parseMatchesLoop (tokenType : MarkdownTokenType) (regex : QRegExp)
    (markupStartCount markupEndCount : Nat) (replaceMarkupChars replaceAllChars : Bool) :
    Nat → MarkdownParser → QString → Option (Nat × Nat) → Option (MarkdownParser × QString)
  | _, p, text, none => some (p, text)
  | 0, _, _, some _ => none
  | k + 1, p, text, some (index, length) =>
    let token : Token :=
      { type := tokenType, position := (index : Int), length := (length : Int),
        openingMarkupLength := if markupStartCount > 0 then (markupStartCount : Int) else 0,
        closingMarkupLength := if markupEndCount > 0 then (markupEndCount : Int) else 0 }
    let text1 :=
      if replaceAllChars then
        fillRange text index (index + length) DUMMY_CHAR
      else if replaceMarkupChars then
        fillRange (fillRange text index (index + markupStartCount) DUMMY_CHAR)
          (index + length - markupEndCount) (index + length) DUMMY_CHAR
      else
        text
    parseMatchesLoop tokenType regex markupStartCount markupEndCount replaceMarkupChars
      replaceAllChars k (p.addToken token) text1 (regex.indexIn text1 (index + length))

/-- The working text is passed by reference in the source; here the updated
text is returned with the parser. The arguments after `regex` default to
`0, 0, false, false` in the (missing) declaration. -/
def parseMatches (tokenType : MarkdownTokenType) (regex : QRegExp)
    (markupStartCount markupEndCount : Nat) (replaceMarkupChars replaceAllChars : Bool)
    (p : MarkdownParser) (text : QString) : Option (MarkdownParser × QString) :=
  parseMatchesLoop tokenType regex markupStartCount markupEndCount replaceMarkupChars
    replaceAllChars (text.length + 1) p text (regex.indexIn text 0)

/-- The `while (commentStart >= 0)` loop of `parseHtmlComments`, on fuel like
`parseMatchesLoop`. -/
def htmlCommentLoop :
    Nat → MarkdownParser → QString → Option (Nat × Nat) → Option (MarkdownParser × QString)
  | _, p, text, none => some (p, text)
  | 0, _, _, some _ => none
  | k + 1, p, text, some (commentStart, commentLength) =>
    let token : Token :=
      { type := TokenHtmlComment, position := (commentStart : Int),
        length := (commentLength : Int), openingMarkupLength := 0, closingMarkupLength := 0 }
    let text1 := fillRange text commentStart (commentStart + commentLength) DUMMY_CHAR
    htmlCommentLoop k (p.addToken token) text1
      (htmlInlineCommentRegex.indexIn text1 (commentStart + commentLength))

def parseHtmlComments (p : MarkdownParser) (text : QString) :
    Option (MarkdownParser × QString) :=
  -- Check for the end of a multiline comment so that it doesn't get further tokenized.
  let text0 :=
    if p.previousState = Comment then
      fillRange text 0 (indexOfStr text (qs "-->") + 3).toNat DUMMY_CHAR
    else
      text
  -- Now check for inline comments (non-multiline).
  match htmlCommentLoop (text0.length + 1) p text0 (htmlInlineCommentRegex.indexIn text0 0) with
  | none => none
  | some (p1, text1) =>
    -- Find multiline comment start, if any.
    let commentStart := indexOfStr text1 (qs "<!--")
    if commentStart ≥ 0 then
      let token : Token :=
        { type := TokenHtmlComment, position := commentStart,
          length := (text1.length : Int) - commentStart, openingMarkupLength := 0,
          closingMarkupLength := 0 }
      some ((p1.addToken token).setState Comment,
        fillRange text1 commentStart.toNat text1.length DUMMY_CHAR)
    else
      some (p1, text1)

/-- The first part of `parseInline`: the check for a reference definition, on
the sanitized text; returns the parser with the working text. -/
def parseReferenceDefinition (p : MarkdownParser) (escapedText : QString) :
    MarkdownParser × QString :=
  if referenceDefinitionRegex.exactMatch escapedText then
    let colonIndex := indexOfChar escapedText (qc ':')
    let token : Token :=
      { type := TokenReferenceDefinition, position := 0, length := colonIndex + 1,
        openingMarkupLength := 0, closingMarkupLength := 0 }
    -- Replace the first bracket so that the reference definition start
    -- doesn't get highlighted as a reference link.
    let firstBracketIndex := indexOfChar escapedText (qc '[')
    (p.addToken token,
      if firstBracketIndex ≥ 0 then escapedText.set firstBracketIndex.toNat DUMMY_CHAR
      else escapedText)
  else
    (p, escapedText)

/-- The source returns `true` always; the result here is the updated parser. -/
def parseInline (p : MarkdownParser) (text : QString) : Option MarkdownParser :=
  let start := parseReferenceDefinition p (dummyOutEscapeCharacters text)
  (parseHtmlComments start.1 start.2).bind fun r =>
  (parseMatches TokenImage imageRegex 0 0 false true r.1 r.2).bind fun r =>
  (parseMatches TokenInlineLink inlineLinkRegex 0 0 false true r.1 r.2).bind fun r =>
  (parseMatches TokenReferenceLink referenceLinkRegex 0 0 false false r.1 r.2).bind fun r =>
  (parseMatches TokenHtmlEntity htmlEntityRegex 0 0 false false r.1 r.2).bind fun r =>
  (parseMatches TokenAutomaticLink automaticLinkRegex 0 0 false true r.1 r.2).bind fun r =>
  (parseMatches TokenVerbatim verbatimRegex 0 0 false true r.1 r.2).bind fun r =>
  (parseMatches TokenStrikethrough strikethroughRegex 2 2 false false r.1 r.2).bind fun r =>
  (parseMatches TokenStrong strongRegex 2 2 true false r.1 r.2).bind fun r =>
  (parseMatches TokenEmphasis emphasisRegex 1 1 true false r.1 r.2).bind fun r =>
  (parseMatches TokenHtmlTag htmlTagRegex 0 0 false false r.1 r.2).map fun r => r.1

/-! ### The line classifier -/

/-- The short-circuit `||` of two parsing steps: the second runs, on the
parser left by the first, only when the first returned `false`. -/
def orElse (r : Bool × MarkdownParser) (f : MarkdownParser → Bool × MarkdownParser) :
    Bool × MarkdownParser :=
  if r.1 then r else f r.2

/-- The condition of the second branch of `parseLine`:
`parseSetextHeadingLine2 || parseCodeBlock || parseMultilineComment || parseHorizontalRule`. -/
def parseBlockOnly (p : MarkdownParser) (text : QString) : Bool × MarkdownParser :=
  orElse (orElse (orElse (parseSetextHeadingLine2 p text) (parseCodeBlock · text))
    (parseMultilineComment · text)) (parseHorizontalRule · text)

/-- The condition of the third branch of `parseLine`: `parseAtxHeading ||
parseSetextHeadingLine1 || parseBlockquote || parseNumberedList || parseBulletPointList`. -/
def parseBlockWithInline (p : MarkdownParser) (text : QString) : Bool × MarkdownParser :=
  orElse (orElse (orElse (orElse (parseAtxHeading p text) (parseSetextHeadingLine1 · text))
    (parseBlockquote · text)) (parseNumberedList · text)) (parseBulletPointList · text)

/-- The last branch of `parseLine` up to the call of `parseInline`. -/
def parseFallback (p : MarkdownParser) (text : QString) : MarkdownParser :=
  if p.previousState = ListLineBreak ∨ p.previousState = NumberedList
      ∨ p.previousState = BulletPointList then
    let r1 := parseNumberedList p text
    if r1.1 then
      r1.2.setState Paragraph
    else
      let r2 := parseBulletPointList r1.2 text
      if !r2.1 && (startsWith text (qs "\t") || startsWith text (qs "    ")) then
        r2.2.setState r2.2.previousState
      else
        r2.2.setState Paragraph
  else
    p.setState Paragraph

/-- The check at the end of `parseLine`: if the second line of a setext heading
is removed, the first line is reprocessed. -/
def setextBacktrackCheck (p : MarkdownParser) : MarkdownParser :=
  if (p.previousState = SetextHeading1Line1 ∧ p.getState ≠ SetextHeading1Line2)
      ∨ (p.previousState = SetextHeading2Line1 ∧ p.getState ≠ SetextHeading2Line2) then
    p.requestBacktrack
  else
    p

/-- The classifier. The result is `none` only if an inline search loop runs
out of fuel. -/
def parseLine (p0 : MarkdownParser) (text : QString)
    (currentState previousState nextState : MarkdownState) : Option MarkdownParser :=
  let p : MarkdownParser :=
    { p0 with currentState := currentState, previousState := previousState,
              nextState := nextState }
  let classified : Option MarkdownParser :=
    if previousState ≠ CodeBlock ∧ previousState ≠ InGithubCodeFence
        ∧ previousState ≠ InPandocCodeFence ∧ previousState ≠ Comment
        ∧ paragraphBreakRegex.exactMatch text = true then
      if previousState = ListLineBreak ∨ previousState = NumberedList
          ∨ previousState = BulletPointList then
        some (p.setState ListLineBreak)
      else if previousState ≠ CodeBlock
          ∨ (startsWith text (qs "\t") = false ∧ endsWith text (qs "    ") = false) then
        some (p.setState ParagraphBreak)
      else
        some p
    else
      let r1 := parseBlockOnly p text
      if r1.1 then
        -- No further tokenizing required
        some r1.2
      else
        let r2 := parseBlockWithInline r1.2 text
        if r2.1 then
          parseInline r2.2 text
        else
          -- tokenize inline
          parseInline (parseFallback r2.2 text) text
  classified.map setextBacktrackCheck

end MarkdownParser

/-! ## Auxiliary notions used in the statements -/

namespace RE

/-- A pattern that consumes at least one character in every match (a syntactic
sufficient condition). -/
def consuming : RE → Bool
  | cls _ => true
  | seq a b => consuming a || consuming b
  | alt a b => consuming a && consuming b
  | _ => false

end RE

/-- A line of three or more `c`, then white space only: the lines matching
`^ccc+\s*$`. -/
def isUnderline (c : QChar) (text : QString) : Prop :=
  ∃ k ws, text = List.replicate (k + 3) c ++ ws ∧ ∀ x ∈ ws, isSpace x = true

/-- A white-space-only line (the empty line included): the lines matching `^\s*$`. -/
def isBlank (text : QString) : Prop := ∀ x ∈ text, isSpace x = true

open MarkdownState MarkdownTokenType

/-- What a parsing step does to the parser object: the state it sets last (if
it sets one), the tokens it emits, and whether it requests a backtrack. -/
structure Effect where
  st : Option MarkdownState
  toks : List Token
  bt : Bool

namespace Effect

/-- The parser object after a step with the given effect. -/
def apply (e : Effect) (p : MarkdownParser) : MarkdownParser :=
  { p with state := e.st.getD p.state, tokens := p.tokens ++ e.toks,
           backtrack := p.backtrack || e.bt }

/-- The effect of one step followed by another. -/
def andThen (e1 e2 : Effect) : Effect :=
  { st := e2.st.orElse (fun _ => e1.st), toks := e1.toks ++ e2.toks, bt := e1.bt || e2.bt }

/-- The effect of a step that does nothing. -/
def none : Effect := { st := Option.none, toks := [], bt := false }

end Effect

/-- The types of the tokens that inline scanning emits. -/
def inlineTokenTypes : List MarkdownTokenType :=
  [TokenReferenceDefinition, TokenHtmlComment, TokenImage, TokenInlineLink, TokenReferenceLink,
    TokenHtmlEntity, TokenAutomaticLink, TokenVerbatim, TokenStrikethrough, TokenStrong,
    TokenEmphasis, TokenHtmlTag]

/-- Two parser objects that hold the same previous state. -/
def SamePrev (p q : MarkdownParser) : Prop := q.previousState = p.previousState

/-- Two parser objects that hold the same previous and next state. -/
def SamePrevNext (p q : MarkdownParser) : Prop :=
  q.previousState = p.previousState ∧ q.nextState = p.nextState

/-- The types of the tokens that the block-level rules emit. -/
def blockTokenTypes : List MarkdownTokenType :=
  [TokenAtxHeading1, TokenAtxHeading2, TokenAtxHeading3, TokenAtxHeading4, TokenAtxHeading5,
    TokenAtxHeading6, TokenSetextHeading1Line1, TokenSetextHeading1Line2,
    TokenSetextHeading2Line1, TokenSetextHeading2Line2, TokenBlockquote, TokenNumberedList,
    TokenBulletPointList, TokenHorizontalRule, TokenCodeBlock, TokenGithubCodeFence,
    TokenPandocCodeFence, TokenCodeFenceEnd, TokenHtmlComment]

/-- A parsing step acts uniformly on related parser objects: it returns the
same result with the same effect on both; when it returns `true` it has set
the state to one of the states in `A`; and the tokens it emits have block-level
types. -/
def Uniform (R : MarkdownParser → MarkdownParser → Prop) (A : List MarkdownState)
    (f : MarkdownParser → Bool × MarkdownParser) : Prop :=
  ∀ p q, R p q → ∃ (b : Bool) (e : Effect), f p = (b, e.apply p) ∧ f q = (b, e.apply q)
    ∧ (b = true → ∃ s, s ∈ A ∧ e.st = some s)
    ∧ ∀ t ∈ e.toks, t.type ∈ blockTokenTypes

namespace MarkdownParser

/-- The parser object as `parseLine` sets it up from its arguments. -/
def enter (p : MarkdownParser) (currentState previousState nextState : MarkdownState) :
    MarkdownParser :=
  { p with currentState := currentState, previousState := previousState,
           nextState := nextState }

end MarkdownParser

namespace MarkdownParser

/-- The states a line can end in once no rule of the first group
(`parseBlockOnly`) has claimed it. -/
def tailStates : List MarkdownState :=
  [AtxHeading1, AtxHeading2, AtxHeading3, AtxHeading4, AtxHeading5, AtxHeading6,
    SetextHeading1Line1, SetextHeading2Line1, Blockquote, NumberedList, BulletPointList,
    Paragraph, ListLineBreak, Comment]

end MarkdownParser

namespace MarkdownParser

/-- The token that `parseMatches` emits for a match at `index` of length
`length`. -/
def matchToken (tokenType : MarkdownTokenType) (markupStartCount markupEndCount : Nat)
    (index length : Nat) : Token :=
  { type := tokenType, position := (index : Int), length := (length : Int),
    openingMarkupLength := if markupStartCount > 0 then (markupStartCount : Int) else 0,
    closingMarkupLength := if markupEndCount > 0 then (markupEndCount : Int) else 0 }

/-- The token that `parseHtmlComments` emits for a comment that is opened in
the working text `w` and not closed. -/
def openCommentToken (w : QString) : Token :=
  { type := TokenHtmlComment, position := indexOfStr w (qs "<!--"),
    length := (w.length : Int) - indexOfStr w (qs "<!--"), openingMarkupLength := 0,
    closingMarkupLength := 0 }

/-- The token that `parseInline` emits for a reference definition in the
sanitized text `w`. -/
def referenceDefinitionToken (w : QString) : Token :=
  { type := TokenReferenceDefinition, position := 0, length := indexOfChar w (qc ':') + 1,
    openingMarkupLength := 0, closingMarkupLength := 0 }

/-- The pattern searches of inline scanning: token type, pattern, and the
markup lengths passed to `parseMatches` (for the comment search of
`parseHtmlComments`: none). -/
def inlineStages : List (MarkdownTokenType × QRegExp × Nat × Nat) :=
  [(TokenHtmlComment, htmlInlineCommentRegex, 0, 0), (TokenImage, imageRegex, 0, 0),
    (TokenInlineLink, inlineLinkRegex, 0, 0), (TokenReferenceLink, referenceLinkRegex, 0, 0),
    (TokenHtmlEntity, htmlEntityRegex, 0, 0), (TokenAutomaticLink, automaticLinkRegex, 0, 0),
    (TokenVerbatim, verbatimRegex, 0, 0), (TokenStrikethrough, strikethroughRegex, 2, 2),
    (TokenStrong, strongRegex, 2, 2), (TokenEmphasis, emphasisRegex, 1, 1),
    (TokenHtmlTag, htmlTagRegex, 0, 0)]

end MarkdownParser

/-- Position `i` of the line is escaped: it immediately follows a backslash that
is not itself escaped. -/
def isEscaped (text : QString) : Nat → Bool
  | 0 => false
  | i + 1 => text[i]? == some (qc '\\') && !isEscaped text i

/-- The working copy `w` of the line `text` holds the dummy character at every
escaped position. -/
def EscapesMasked (text w : QString) : Prop :=
  ∀ i c, w[i]? = some c → isEscaped text i = true → c = MarkdownParser.DUMMY_CHAR

namespace MarkdownParser

/-- The escape flag at position `i` when the scan starts with flag `b`. -/
def escFrom (b : Bool) (s : QString) : Nat → Bool
  | 0 => b
  | i + 1 => s[i]? == some (qc '\\') && !escFrom b s i

/-- The parts of the result of `parseLine` that the caller reads: the state,
the tokens and the backtrack flag. -/
def view (r : MarkdownParser) : MarkdownState × List Token × Bool :=
  (r.state, r.tokens, r.backtrack)

/-- The states other than the two Setext line-2 states: the next states under
which `parseSetextHeadingLine1` does not fire. -/
def noLookahead : List MarkdownState :=
  [Unknown, ParagraphBreak, ListLineBreak, Paragraph, AtxHeading1, AtxHeading2, AtxHeading3,
    AtxHeading4, AtxHeading5, AtxHeading6, Blockquote, CodeBlock, InGithubCodeFence,
    InPandocCodeFence, CodeFenceEnd, Comment, HorizontalRule, NumberedList, BulletPointList,
    SetextHeading1Line1, SetextHeading2Line1]

end MarkdownParser

/-- Every match of the pattern consumes characters with the property `P` only. -/
def RE.Within (P : QChar → Prop) (r : RE) : Prop :=
  ∀ n s t, t ∈ RE.ends n r s → ∃ w, s = w ++ t ∧ ∀ c ∈ w, P c

/-- A numbered list item: up to three spaces, one or more digits, `.` or `)`,
one or more white-space characters, then anything: the lines matching
`^ {0,3}[0-9]+[.)]\s+.*$`. The components are the number `k` of leading spaces,
the digits `dg`, the marker `m`, the white space `ws` and the rest. -/
def isNumberedItem (text : QString) (k : Nat) (dg : QString) : Prop :=
  ∃ (m : QChar) (ws rest : QString),
    text = List.replicate k (qc ' ') ++ (dg ++ m :: (ws ++ rest))
    ∧ k ≤ 3 ∧ dg ≠ [] ∧ (∀ d ∈ dg, MarkdownParser.isDigit d = true)
    ∧ (m = qc '.' ∨ m = qc ')') ∧ ws ≠ [] ∧ ∀ x ∈ ws, isSpace x = true

/-- A line that starts with at most three spaces followed by a digit. -/
def DigitStart (text : QString) : Prop :=
  ∃ k d tail, MarkdownParser.isDigit d = true ∧ text = List.replicate k (qc ' ') ++ d :: tail ∧ k ≤ 3

/-- The characters a horizontal rule is made of. -/
def isRuleChar (c : QChar) : Prop :=
  isSpace c = true ∨ c = qc '*' ∨ c = qc '_' ∨ c = qc '-'

/-- The number of spaces at the front of the line. -/
def leadingSpaces (text : QString) : Nat := (text.takeWhile (· == qc ' ')).length

/-- The number of digits that follow the leading spaces. -/
def leadingDigits (text : QString) : Nat :=
  ((text.dropWhile (· == qc ' ')).takeWhile MarkdownParser.isDigit).length

/-- Every character of the working copy `w` of the line `text` is the dummy
character or the character of the line at the same position. -/
def Masked (text w : QString) : Prop :=
  ∀ (i : Nat) (c : QChar), w[i]? = some c → c = MarkdownParser.DUMMY_CHAR ∨ text[i]? = some c

/-- The index of the first `.` or `)` of the line (its length if there is
none). -/
def firstMarkerIndex (text : QString) : Nat :=
  (text.takeWhile (fun c => !(c == qc '.' || c == qc ')'))).length

/-- The token starts and ends at positions of the line that are not escaped
(it has natural-number position `i` and length `l > 0`, and neither `i` nor
`i + l - 1` is escaped). -/
def UnescapedEnds (text : QString) (t : Token) : Prop :=
  ∃ i l : Nat, t.position = (i : Int) ∧ t.length = (l : Int) ∧ 0 < l
    ∧ isEscaped text i = false ∧ isEscaped text (i + l - 1) = false

/-- The bullet characters `+`, `-` and `*`. -/
def isBulletChar (c : QChar) : Prop := c = qc '+' ∨ c = qc '-' ∨ c = qc '*'

namespace MarkdownParser

/-- The classification of `parseLine` up to the point where inline scanning
starts: the parser object after the block-level rules (or the fallback), with
the flag that says whether `parseLine` goes on to call `parseInline`. -/
def blockPhase (p : MarkdownParser) (text : QString) : Bool × MarkdownParser :=
  if p.previousState ≠ CodeBlock ∧ p.previousState ≠ InGithubCodeFence
      ∧ p.previousState ≠ InPandocCodeFence ∧ p.previousState ≠ Comment
      ∧ paragraphBreakRegex.exactMatch text = true then
    if p.previousState = ListLineBreak ∨ p.previousState = NumberedList
        ∨ p.previousState = BulletPointList then
      (false, p.setState ListLineBreak)
    else if p.previousState ≠ CodeBlock
        ∨ (startsWith text (qs "\t") = false ∧ endsWith text (qs "    ") = false) then
      (false, p.setState ParagraphBreak)
    else
      (false, p)
  else if (parseBlockOnly p text).1 = true then
    (false, (parseBlockOnly p text).2)
  else if (parseBlockWithInline (parseBlockOnly p text).2 text).1 = true then
    (true, (parseBlockWithInline (parseBlockOnly p text).2 text).2)
  else
    (true, parseFallback (parseBlockWithInline (parseBlockOnly p text).2 text).2 text)

/-- The tokens that the block-level rules can emit for a line, given the
previous and the next state: the token of each rule, under the condition
under which the rule emits it. -/
inductive BlockToken (prev next : MarkdownState) (text : QString) : Token → Prop
  | setext1Line2 : (prev = SetextHeading1Line1 ∨ prev = Paragraph) →
      heading1SetextRegex.exactMatch text = true →
      BlockToken prev next text (lineToken TokenSetextHeading1Line2 text)
  | setext2Line2 : (prev = SetextHeading2Line1 ∨ prev = Paragraph) →
      heading2SetextRegex.exactMatch text = true →
      BlockToken prev next text (lineToken TokenSetextHeading2Line2 text)
  | codeFenceEnd :
      (prev = InGithubCodeFence ∧ githubCodeFenceEndRegex.exactMatch text = true)
        ∨ (prev = InPandocCodeFence ∧ pandocCodeFenceEndRegex.exactMatch text = true) →
      BlockToken prev next text (lineToken TokenCodeFenceEnd text)
  | fencedCode : (prev = InGithubCodeFence ∨ prev = InPandocCodeFence) →
      BlockToken prev next text (lineToken TokenCodeBlock text)
  | indentedCode : (prev = CodeBlock ∨ prev = ParagraphBreak ∨ prev = Unknown) →
      (startsWith text (qs "\t") = true ∨ startsWith text (qs "    ") = true) →
      BlockToken prev next text (lineToken TokenCodeBlock text)
  | githubFence : (prev = ParagraphBreak ∨ prev = Paragraph ∨ prev = Unknown) →
      githubCodeFenceStartRegex.exactMatch text = true →
      BlockToken prev next text (lineToken TokenGithubCodeFence text)
  | pandocFence : (prev = ParagraphBreak ∨ prev = Paragraph ∨ prev = Unknown) →
      pandocCodeFenceStartRegex.exactMatch text = true →
      BlockToken prev next text (lineToken TokenPandocCodeFence text)
  | commentEnd : prev = Comment → indexOfStr text (qs "-->") ≥ 0 →
      BlockToken prev next text ⟨TokenHtmlComment, 0, indexOfStr text (qs "-->") + 3, 0, 0⟩
  | commentLine : prev = Comment → ¬ indexOfStr text (qs "-->") ≥ 0 →
      BlockToken prev next text (lineToken TokenHtmlComment text)
  | horizontalRule : hruleRegex.exactMatch text = true →
      BlockToken prev next text (lineToken TokenHorizontalRule text)
  | atxHeading : 0 < atxLevel (dummyOutEscapeCharacters text) →
      atxLevel (dummyOutEscapeCharacters text) < text.length →
      BlockToken prev next text
        ⟨atxHeadingToken (atxLevel (dummyOutEscapeCharacters text)), 0, (text.length : Int),
          (atxLevel (dummyOutEscapeCharacters text) : Int),
          (atxTrailing (dummyOutEscapeCharacters text)
            (atxLevel (dummyOutEscapeCharacters text)) : Int)⟩
  | setext1Line1 : next = SetextHeading1Line2 →
      BlockToken prev next text (lineToken TokenSetextHeading1Line1 text)
  | setext2Line1 : next = SetextHeading2Line2 →
      BlockToken prev next text (lineToken TokenSetextHeading2Line1 text)
  | blockquote : (prev = Blockquote ∨ blockquoteRegex.exactMatch text = true) →
      BlockToken prev next text
        ⟨TokenBlockquote, 0, (text.length : Int),
          if blockquoteMarkup text 0 0 > 0 then blockquoteMarkup text 0 0 else 0, 0⟩
  | numberedList (index : Int) : index ≥ 0 →
      (index = indexOfChar text (qc '.') ∨ index = indexOfChar text (qc ')')) →
      (((prev = ParagraphBreak ∨ prev = Unknown) ∧ numberedListRegex.exactMatch text = true)
        ∨ ((prev = ListLineBreak ∨ prev = NumberedList)
          ∧ numberedNestedListRegex.exactMatch text = true)) →
      BlockToken prev next text ⟨TokenNumberedList, 0, (text.length : Int), index + 1, 0⟩
  | bulletPointList (b : Int) : b ≥ 0 →
      bulletScan prev text 0 false (-1) 0 = some (b, true) →
      (prev = Unknown ∨ prev = ParagraphBreak ∨ prev = ListLineBreak ∨ prev = NumberedList
        ∨ prev = BulletPointList) →
      BlockToken prev next text ⟨TokenBulletPointList, 0, (text.length : Int), b + 1, 0⟩

/-- The parser objects that hold the given previous and next state and only
tokens with the property `T`. -/
def Holding (prev next : MarkdownState) (T : Token → Prop) (p : MarkdownParser) : Prop :=
  p.previousState = prev ∧ p.nextState = next ∧ ∀ t ∈ p.tokens, T t

end MarkdownParser

/-- The length of the run of `#` characters at the front of a string. -/
def poundRun (s : QString) : Nat := (s.takeWhile (· == qc '#')).length

/-- The number of consecutive `#` characters at the end of a string. -/
def trailingPoundRun (s : QString) : Nat := (s.reverse.takeWhile (· == qc '#')).length

/-- The length of the run of the character `c` at the front of a string. -/
def leadingRun (c : QChar) (s : QString) : Nat := (s.takeWhile (· == c)).length

/-- The length of the run of the character `c` at the end of a string. -/
def trailingRun (c : QChar) (s : QString) : Nat := (s.reverse.takeWhile (· == c)).length

/-- The two shapes of a code span (96 is the backtick): one backtick, one or
more characters other than a backtick, one backtick; or two or more backticks,
one or more characters, two or more backticks. -/
def isCodeSpan (s : QString) : Prop :=
  (∃ mid : QString, s = 96 :: (mid ++ [96]) ∧ mid ≠ [] ∧ ∀ c ∈ mid, c ≠ 96)
  ∨ (∃ (a b : Nat) (mid : QString),
      s = List.replicate (a + 2) 96 ++ (mid ++ List.replicate (b + 2) 96) ∧ mid ≠ [])

/-- The part of the line that a token spans. -/
def spanOf (text : QString) (t : Token) : QString :=
  (text.drop t.position.toNat).take t.length.toNat

namespace RE

/-- Every match of the pattern starts with a character with the property `P`. -/
def FirstIn (P : QChar → Prop) (r : RE) : Prop :=
  ∀ n s t, t ∈ ends n r s → ∃ c u, s = c :: u ∧ P c

/-- Every match of the pattern ends with a character with the property `P`. -/
def LastIn (P : QChar → Prop) (r : RE) : Prop :=
  ∀ n s t, t ∈ ends n r s → ∃ u c, s = u ++ c :: t ∧ P c

end RE

/-- The token types whose matches inline scanning replaces by the dummy
character in full: HTML comments and the patterns that `parseInline` searches
with `replaceAllChars` set. -/
def blankingTypes : List MarkdownTokenType :=
  [TokenHtmlComment, TokenImage, TokenInlineLink, TokenAutomaticLink, TokenVerbatim]

/-- The index `j` lies in the span `[position, position + length)` of the
token. -/
def Token.covers (t : Token) (j : Int) : Prop :=
  t.position ≤ j ∧ j < t.position + t.length

/-- The spans `[position, position + length)` of the two tokens have an index
in common (for tokens of positive length). -/
def Token.overlaps (a b : Token) : Prop :=
  a.position < b.position + b.length ∧ b.position < a.position + a.length

/-- How a token `a` and a token `b` emitted after it lie to each other: if they
have the same type, `b` starts at or after the end of `a`; and if the span of
`a` was replaced by the dummy character, `b` neither starts nor ends inside
it. -/
def Apart (a b : Token) : Prop :=
  (a.type = b.type → a.position + a.length ≤ b.position)
  ∧ (a.type ∈ blankingTypes →
      ¬ a.covers b.position ∧ ¬ a.covers (b.position + b.length - 1))

/-- The tokens emitted so far, in order, and the working text: the tokens are
pairwise apart, and the span of every token of a blanking type holds the
dummy character only. -/
def Scanned (acc : List Token) (w : QString) : Prop :=
  List.Pairwise Apart acc
  ∧ ∀ a ∈ acc, a.type ∈ blankingTypes →
      ∀ j : Nat, a.covers (j : Int) → w[j]? = some MarkdownParser.DUMMY_CHAR

namespace MarkdownParser

/-- The working text after `parseMatches` has replaced the characters of the
match at `index` of length `length`: all of them, or the markup at both ends,
or none. -/
def replaced (replaceMarkupChars replaceAllChars : Bool) (markupStartCount markupEndCount : Nat)
    (text : QString) (index length : Nat) : QString :=
  if replaceAllChars then
    fillRange text index (index + length) DUMMY_CHAR
  else if replaceMarkupChars then
    fillRange (fillRange text index (index + markupStartCount) DUMMY_CHAR)
      (index + length - markupEndCount) (index + length) DUMMY_CHAR
  else
    text

/-- No comment opener `<!--` starts before the offset `off` in the working
text. -/
def NoOpenerBefore (off : Nat) (w : QString) : Prop :=
  ∀ s, s < off → (qs "<!--").isPrefixOf (w.drop s) = false

end MarkdownParser

/-- The three characters a horizontal rule can be drawn with. -/
def isRuleMark (c : QChar) : Prop := c = qc '*' ∨ c = qc '-' ∨ c = qc '_'

/-- A line that consists of three or more occurrences of the character `c`,
each followed by optional white space, after optional white space at the
front. -/
def isRuleLine (c : QChar) (text : QString) : Prop :=
  ∃ (lead : QString) (gaps : List QString),
    text = lead ++ gaps.flatMap (fun g => c :: g) ∧ 3 ≤ gaps.length
    ∧ (∀ x ∈ lead, isSpace x = true) ∧ ∀ g ∈ gaps, ∀ x ∈ g, isSpace x = true

/-- The length of the maximal run of backslashes that ends right before index
`i` of the line. -/
def backslashRun (text : QString) (i : Nat) : Nat :=
  ((text.take i).reverse.takeWhile (· == qc '\\')).length

namespace RE

/-- A lower bound on the number of characters that a match of the pattern
consumes, read off the pattern. -/
def minLength : RE → Nat
  | cls _ => 1
  | seq a b => minLength a + minLength b
  | alt a b => min (minLength a) (minLength b)
  | _ => 0

end RE

/-- The six token types of ATX headings. -/
def atxTokenTypes : List MarkdownTokenType :=
  [TokenAtxHeading1, TokenAtxHeading2, TokenAtxHeading3, TokenAtxHeading4, TokenAtxHeading5,
    TokenAtxHeading6]

/-- The token can be applied to a line of `n` characters without range checks:
its span lies within the line, and its opening and closing markup fit into
the span together. -/
def Token.inBounds (n : Nat) (t : Token) : Prop :=
  0 ≤ t.position ∧ 0 ≤ t.length ∧ t.position + t.length ≤ (n : Int)
    ∧ 0 ≤ t.openingMarkupLength ∧ 0 ≤ t.closingMarkupLength
    ∧ t.openingMarkupLength + t.closingMarkupLength ≤ t.length

namespace MarkdownParser

/-- The patterns that the constructor sets up, other than
`paragraphBreakRegex`, in the order of the constructor. -/
def consumingPatterns : List QRegExp :=
  [heading1SetextRegex, heading2SetextRegex, blockquoteRegex, githubCodeFenceStartRegex,
    githubCodeFenceEndRegex, pandocCodeFenceStartRegex, pandocCodeFenceEndRegex,
    numberedListRegex, numberedNestedListRegex, hruleRegex, emphasisRegex, strongRegex,
    strikethroughRegex, verbatimRegex, htmlTagRegex, htmlEntityRegex, automaticLinkRegex,
    inlineLinkRegex, referenceLinkRegex, referenceDefinitionRegex, imageRegex,
    htmlInlineCommentRegex]

/-- All patterns that the constructor sets up. -/
def constructorPatterns : List QRegExp := paragraphBreakRegex :: consumingPatterns

end MarkdownParser

namespace MarkdownParser

/-- The part of `parseInline` that runs before the code-span search: the
sanitizing of the line, the reference-definition check, the comment search and
the searches for images, inline links, reference links, HTML entities and
automatic links. The result is the parser object with the working text that
the code-span search starts from. -/
def inlineBeforeVerbatim (p : MarkdownParser) (text : QString) :
    Option (MarkdownParser × QString) :=
  let start := parseReferenceDefinition p (dummyOutEscapeCharacters text)
  (parseHtmlComments start.1 start.2).bind fun r =>
  (parseMatches TokenImage imageRegex 0 0 false true r.1 r.2).bind fun r =>
  (parseMatches TokenInlineLink inlineLinkRegex 0 0 false true r.1 r.2).bind fun r =>
  (parseMatches TokenReferenceLink referenceLinkRegex 0 0 false false r.1 r.2).bind fun r =>
  (parseMatches TokenHtmlEntity htmlEntityRegex 0 0 false false r.1 r.2).bind fun r =>
  parseMatches TokenAutomaticLink automaticLinkRegex 0 0 false true r.1 r.2

end MarkdownParser

/-- A line that `parseAtxHeading` takes for a heading: it starts with `#` and
does not consist of one to six `#` alone. -/
def isAtxLine (text : QString) : Prop :=
  (∃ tail, text = qc '#' :: tail) ∧ ∀ k, k ≤ 6 → text ≠ List.replicate k (qc '#')

/-- A blockquote line: up to three spaces, then `>`, then anything: the lines
matching `^ {0,3}>.*$`. -/
def isBlockquoteLine (text : QString) : Prop :=
  ∃ (k : Nat) (rest : QString), k ≤ 3 ∧ text = List.replicate k (qc ' ') ++ qc '>' :: rest

/-- A numbered item at any depth: white space, one or more digits, `.` or `)`,
one or more white-space characters, then anything: the lines matching
`^\s*[0-9]+[.)]\s+.*$`. -/
def isNestedNumberedItem (text : QString) : Prop :=
  ∃ (lead dg : QString) (m : QChar) (ws rest : QString),
    text = lead ++ (dg ++ m :: (ws ++ rest)) ∧ (∀ x ∈ lead, isSpace x = true)
    ∧ dg ≠ [] ∧ (∀ d ∈ dg, MarkdownParser.isDigit d = true)
    ∧ (m = qc '.' ∨ m = qc ')') ∧ ws ≠ [] ∧ ∀ x ∈ ws, isSpace x = true

/-- A bullet item: spaces, tabs and bullet characters up to a bullet character
(at index `b`) that is followed by a space or a tab. -/
def isBulletItem (text : QString) : Prop :=
  ∃ b : Nat, (∃ x, text[b]? = some x ∧ isBulletChar x)
    ∧ (∃ x, text[b + 1]? = some x ∧ (x = qc ' ' ∨ x = qc '\t'))
    ∧ ∀ j < b, ∀ x, text[j]? = some x → x = qc ' ' ∨ x = qc '\t' ∨ isBulletChar x

/-! ## Lemmas on the matcher -/

namespace RE

theorem starLoop_suffix {f : QString → List QString}
    (hf : ∀ s t, t ∈ f s → t <:+ s) :
    ∀ k s t, t ∈ starLoop f k s → t <:+ s := by
  intro k
  induction k with
  | zero =>
    intro s t h
    simp [starLoop] at h
    subst h
    exact List.suffix_refl _
  | succ k ih =>
    intro s t h
    simp only [starLoop, List.mem_cons, List.mem_flatMap, List.mem_filter] at h
    rcases h with h | ⟨u, ⟨hu, _⟩, ht⟩
    · subst h
      exact List.suffix_refl _
    · exact (ih u t ht).trans (hf s u hu)

theorem ends_suffix (n : Nat) : ∀ r s t, t ∈ ends n r s → t <:+ s := by
  intro r
  induction r with
  | cls p =>
    intro s t h
    cases s with
    | nil => simp [ends] at h
    | cons c s =>
      simp only [ends] at h
      split at h
      · simp at h
        rw [h]
        exact List.suffix_cons c s
      · simp at h
  | eps =>
    intro s t h
    simp [ends] at h
    subst h
    exact List.suffix_refl _
  | seq a b iha ihb =>
    intro s t h
    simp only [ends, List.mem_flatMap] at h
    obtain ⟨u, hu, ht⟩ := h
    exact (ihb u t ht).trans (iha s u hu)
  | alt a b iha ihb =>
    intro s t h
    simp only [ends, List.mem_append] at h
    rcases h with h | h
    · exact iha s t h
    · exact ihb s t h
  | star a iha =>
    intro s t h
    simp only [ends] at h
    exact starLoop_suffix iha _ s t h
  | bol =>
    intro s t h
    simp only [ends] at h
    split at h
    · simp at h
      subst h
      exact List.suffix_refl _
    · simp at h
  | eol =>
    intro s t h
    simp only [ends] at h
    split at h
    · simp at h
      subst h
      exact List.suffix_refl _
    · simp at h
  | look neg a _ =>
    intro s t h
    simp only [ends] at h
    split at h
    · simp at h
      subst h
      exact List.suffix_refl _
    · simp at h

theorem mem_ends_cls {n : Nat} {p : QChar → Bool} {s t : QString} :
    t ∈ ends n (cls p) s ↔ ∃ c, s = c :: t ∧ p c = true := by
  cases s with
  | nil => simp [ends]
  | cons c s =>
    simp only [ends]
    split <;> rename_i h
    · simp only [List.mem_singleton, List.cons.injEq]
      constructor
      · intro ht
        exact ⟨c, ⟨rfl, ht.symm⟩, h⟩
      · rintro ⟨d, ⟨_, rfl⟩, _⟩
        rfl
    · simp only [List.not_mem_nil, List.cons.injEq, false_iff, not_exists, not_and]
      rintro d ⟨rfl, _⟩
      exact h

theorem mem_ends_eps {n : Nat} {s t : QString} : t ∈ ends n eps s ↔ t = s := by
  simp [ends]

theorem mem_ends_seq {n : Nat} {a b : RE} {s t : QString} :
    t ∈ ends n (seq a b) s ↔ ∃ u, u ∈ ends n a s ∧ t ∈ ends n b u := by
  simp [ends, List.mem_flatMap]

theorem mem_ends_alt {n : Nat} {a b : RE} {s t : QString} :
    t ∈ ends n (alt a b) s ↔ t ∈ ends n a s ∨ t ∈ ends n b s := by
  simp [ends]

theorem mem_ends_bol {n : Nat} {s t : QString} :
    t ∈ ends n bol s ↔ t = s ∧ s.length = n := by
  simp only [ends]
  split <;> simp_all

theorem mem_ends_eol {n : Nat} {s t : QString} :
    t ∈ ends n eol s ↔ t = s ∧ s = [] := by
  simp only [ends]
  split <;> simp_all

theorem mem_ends_look {n : Nat} {neg : Bool} {a : RE} {s t : QString} :
    t ∈ ends n (look neg a) s ↔ t = s ∧ (ends n a s).isEmpty = neg := by
  simp only [ends]
  split <;> simp_all

theorem mem_ends_chr {n : Nat} {c : Char} {s t : QString} :
    t ∈ ends n (chr c) s ↔ s = qc c :: t := by
  simp [chr, mem_ends_cls]

theorem mem_ends_plus {n : Nat} {a : RE} {s t : QString} :
    t ∈ ends n (plus a) s ↔ ∃ u, u ∈ ends n a s ∧ t ∈ ends n (star a) u := by
  simp [plus, mem_ends_seq]

theorem mem_ends_opt {n : Nat} {a : RE} {s t : QString} :
    t ∈ ends n (opt a) s ↔ t ∈ ends n a s ∨ t = s := by
  simp [opt, mem_ends_alt, mem_ends_eps]

theorem mem_starLoop_cls (n : Nat) (p : QChar → Bool) (t : QString) :
    ∀ k s, s.length ≤ k →
      (t ∈ starLoop (fun u => ends n (cls p) u) k s ↔
        ∃ w, s = w ++ t ∧ ∀ c ∈ w, p c = true) := by
  intro k
  induction k with
  | zero =>
    intro s hs
    have : s = [] := List.length_eq_zero.mp (Nat.le_zero.mp hs)
    subst this
    simp only [starLoop, List.mem_singleton]
    constructor
    · rintro rfl
      exact ⟨[], rfl, by simp⟩
    · rintro ⟨w, hw, _⟩
      have := List.append_eq_nil.mp hw.symm
      exact this.2
  | succ k ih =>
    intro s hs
    simp only [starLoop, List.mem_cons, List.mem_flatMap, List.mem_filter, mem_ends_cls,
      decide_eq_true_eq]
    constructor
    · rintro (rfl | ⟨u, ⟨⟨c, rfl, hc⟩, _⟩, ht⟩)
      · exact ⟨[], rfl, by simp⟩
      · obtain ⟨w, rfl, hw⟩ := (ih u (by simpa using hs)).mp ht
        refine ⟨c :: w, rfl, ?_⟩
        intro d hd
        rcases List.mem_cons.mp hd with rfl | hd
        · exact hc
        · exact hw d hd
    · rintro ⟨w, rfl, hw⟩
      cases w with
      | nil => left; rfl
      | cons c w =>
        right
        refine ⟨w ++ t, ⟨⟨c, rfl, hw c (List.mem_cons_self _ _)⟩, by simp⟩, ?_⟩
        refine (ih (w ++ t) (by simpa using hs)).mpr ⟨w, rfl, ?_⟩
        intro d hd
        exact hw d (List.mem_cons_of_mem _ hd)

theorem mem_ends_star_cls {n : Nat} {p : QChar → Bool} {s t : QString} :
    t ∈ ends n (star (cls p)) s ↔ ∃ w, s = w ++ t ∧ ∀ c ∈ w, p c = true := by
  simp only [ends]
  exact mem_starLoop_cls n p t s.length s (Nat.le_refl _)

theorem ends_length_le {n : Nat} {r : RE} {s t : QString} (h : t ∈ ends n r s) :
    t.length ≤ s.length :=
  (ends_suffix n r s t h).length_le

theorem consuming_lt (n : Nat) :
    ∀ r, consuming r = true → ∀ s t, t ∈ ends n r s → t.length < s.length := by
  intro r
  induction r with
  | cls p =>
    intro _ s t h
    obtain ⟨c, rfl, _⟩ := mem_ends_cls.mp h
    simp
  | eps => intro h; simp [consuming] at h
  | seq a b iha ihb =>
    intro hc s t h
    obtain ⟨u, hu, ht⟩ := mem_ends_seq.mp h
    simp only [consuming, Bool.or_eq_true] at hc
    rcases hc with hc | hc
    · exact Nat.lt_of_le_of_lt (ends_length_le ht) (iha hc s u hu)
    · exact Nat.lt_of_lt_of_le (ihb hc u t ht) (ends_length_le hu)
  | alt a b iha ihb =>
    intro hc s t h
    simp only [consuming, Bool.and_eq_true] at hc
    rcases mem_ends_alt.mp h with h | h
    · exact iha hc.1 s t h
    · exact ihb hc.2 s t h
  | star a _ => intro h; simp [consuming] at h
  | bol => intro h; simp [consuming] at h
  | eol => intro h; simp [consuming] at h
  | look neg a _ => intro h; simp [consuming] at h

end RE

theorem foldl_min_mem (ls : List Nat) : ∀ l, ls.foldl min l ∈ l :: ls := by
  induction ls with
  | nil => intro l; simp
  | cons x xs ih =>
    intro l
    simp only [List.foldl_cons]
    have h := ih (min l x)
    rcases List.mem_cons.mp h with h | h
    · rw [h]
      rcases Nat.le_total l x with hle | hle
      · rw [Nat.min_eq_left hle]; simp
      · rw [Nat.min_eq_right hle]; simp
    · exact List.mem_cons_of_mem _ (List.mem_cons_of_mem _ h)

theorem foldl_max_mem (ls : List Nat) : ∀ l, ls.foldl max l ∈ l :: ls := by
  induction ls with
  | nil => intro l; simp
  | cons x xs ih =>
    intro l
    simp only [List.foldl_cons]
    have h := ih (max l x)
    rcases List.mem_cons.mp h with h | h
    · rw [h]
      rcases Nat.le_total l x with hle | hle
      · rw [Nat.max_eq_right hle]; simp
      · rw [Nat.max_eq_left hle]; simp
    · exact List.mem_cons_of_mem _ (List.mem_cons_of_mem _ h)

theorem foldl_max_ge (ls : List Nat) : ∀ l x, x ∈ l :: ls → x ≤ ls.foldl max l := by
  induction ls with
  | nil => intro l x h; simp at h; simp [h]
  | cons y ys ih =>
    intro l x h
    simp only [List.foldl_cons]
    have hm : max l y ≤ ys.foldl max (max l y) := ih (max l y) (max l y) (List.mem_cons_self _ _)
    rcases List.mem_cons.mp h with h | h
    · rw [h]
      exact Nat.le_trans (Nat.le_max_left l y) hm
    · rcases List.mem_cons.mp h with h | h
      · rw [h]
        exact Nat.le_trans (Nat.le_max_right l y) hm
      · exact ih (max l y) x (List.mem_cons_of_mem _ h)

namespace QRegExp

theorem matchHere_eq_none {re : QRegExp} {n : Nat} {s : QString} :
    re.matchHere n s = none ↔ RE.ends n re.pattern s = [] := by
  unfold matchHere
  cases h : RE.ends n re.pattern s <;> simp

theorem matchHere_some {re : QRegExp} {n : Nat} {s : QString} {l : Nat}
    (h : re.matchHere n s = some l) :
    ∃ t, t ∈ RE.ends n re.pattern s ∧ l = s.length - t.length := by
  unfold matchHere at h
  generalize hm : (RE.ends n re.pattern s).map (fun t => s.length - t.length) = m at h
  cases m with
  | nil => simp at h
  | cons x xs =>
    simp only [Option.some.injEq] at h
    have hmem : l ∈ x :: xs := by
      rw [← h]
      split
      · exact foldl_min_mem xs x
      · exact foldl_max_mem xs x
    rw [← hm] at hmem
    obtain ⟨t, ht, rfl⟩ := List.mem_map.mp hmem
    exact ⟨t, ht, rfl⟩

theorem matchHere_le {re : QRegExp} {n : Nat} {s : QString} {l : Nat}
    (h : re.matchHere n s = some l) : l ≤ s.length := by
  obtain ⟨t, _, rfl⟩ := matchHere_some h
  exact Nat.sub_le _ _

theorem matchHere_pos {re : QRegExp} {n : Nat} {s : QString} {l : Nat}
    (hc : RE.consuming re.pattern = true) (h : re.matchHere n s = some l) : 0 < l := by
  obtain ⟨t, ht, rfl⟩ := matchHere_some h
  have := RE.consuming_lt n _ hc s t ht
  omega

/-- In greedy mode the longest match covers the whole suffix exactly when the
empty suffix is among the match ends. -/
theorem matchHere_full {re : QRegExp} {n : Nat} {s : QString} (hmin : re.minimal = false) :
    re.matchHere n s = some s.length ↔ [] ∈ RE.ends n re.pattern s := by
  unfold matchHere
  generalize hm : (RE.ends n re.pattern s).map (fun t => s.length - t.length) = m
  constructor
  · intro h
    cases m with
    | nil => simp at h
    | cons x xs =>
      simp only [hmin, Bool.false_eq_true, if_false, Option.some.injEq] at h
      have hmem : s.length ∈ x :: xs := by
        rw [← h]
        exact foldl_max_mem xs x
      rw [← hm] at hmem
      obtain ⟨t, ht, hl⟩ := List.mem_map.mp hmem
      have hle := RE.ends_length_le ht
      have : t.length = 0 := by omega
      rw [List.length_eq_zero.mp this] at ht
      exact ht
  · intro h
    have hmem : s.length ∈ m := by
      rw [← hm]
      exact List.mem_map.mpr ⟨[], h, by simp⟩
    cases m with
    | nil => simp at hmem
    | cons x xs =>
      simp only [hmin, Bool.false_eq_true, if_false, Option.some.injEq]
      apply Nat.le_antisymm
      · have h2 := foldl_max_mem xs x
        rw [← hm] at h2
        obtain ⟨t, _, hl⟩ := List.mem_map.mp h2
        rw [← hl]
        exact Nat.sub_le _ _
      · exact foldl_max_ge xs x s.length hmem

theorem exactMatch_iff {re : QRegExp} {text : QString} (hmin : re.minimal = false) :
    re.exactMatch text = true ↔ [] ∈ RE.ends text.length re.pattern text := by
  unfold exactMatch
  rw [beq_iff_eq]
  exact matchHere_full hmin

theorem searchFrom_some {re : QRegExp} {n : Nat} :
    ∀ (s : QString) (pos i l : Nat), re.searchFrom n s pos = some (i, l) →
      ∃ k, i = pos + k ∧ k ≤ s.length ∧ re.matchHere n (s.drop k) = some l := by
  intro s
  induction s with
  | nil =>
    intro pos i l h
    simp only [searchFrom, Option.map_eq_some'] at h
    obtain ⟨a, ha, h2⟩ := h
    simp only [Prod.mk.injEq] at h2
    exact ⟨0, by omega, by simp, by simpa [h2.2] using ha⟩
  | cons c t ih =>
    intro pos i l h
    simp only [searchFrom] at h
    split at h
    · rename_i l2 hl2
      simp only [Option.some.injEq, Prod.mk.injEq] at h
      exact ⟨0, by omega, by simp, by simpa [h.2] using hl2⟩
    · obtain ⟨k, hk, hk2, hm⟩ := ih (pos + 1) i l h
      exact ⟨k + 1, by omega, by simpa using hk2, by simpa using hm⟩

theorem indexIn_some {re : QRegExp} {text : QString} {offset i l : Nat}
    (h : re.indexIn text offset = some (i, l)) :
    offset ≤ i ∧ i ≤ text.length ∧ re.matchHere text.length (text.drop i) = some l := by
  unfold indexIn at h
  split at h
  · rename_i hle
    obtain ⟨k, hk, hk2, hm⟩ := searchFrom_some _ _ _ _ h
    simp only [List.length_drop] at hk2
    refine ⟨by omega, by omega, ?_⟩
    rw [List.drop_drop] at hm
    rw [hk]
    exact hm
  · simp at h

theorem indexIn_bounds {re : QRegExp} {text : QString} {offset i l : Nat}
    (h : re.indexIn text offset = some (i, l)) :
    offset ≤ i ∧ i + l ≤ text.length := by
  obtain ⟨h1, h2, h3⟩ := indexIn_some h
  have := matchHere_le h3
  simp only [List.length_drop] at this
  omega

theorem indexIn_pos {re : QRegExp} {text : QString} {offset i l : Nat}
    (hc : RE.consuming re.pattern = true) (h : re.indexIn text offset = some (i, l)) :
    0 < l :=
  matchHere_pos hc (indexIn_some h).2.2

end QRegExp

theorem all_eq_replicate {c : QChar} : ∀ (w : QString), (∀ x ∈ w, (x == c) = true) →
    w = List.replicate w.length c := by
  intro w
  induction w with
  | nil => intro _; rfl
  | cons a w ih =>
    intro h
    have ha : a = c := by simpa using h a (List.mem_cons_self _ _)
    rw [List.length_cons, List.replicate_succ, ← ih (fun x hx => h x (List.mem_cons_of_mem _ hx)), ha]

theorem underline_ends {c : QChar} {text : QString} :
    [] ∈ RE.ends text.length
      (RE.cat [RE.bol, RE.cls (· == c), RE.cls (· == c), RE.plus (RE.cls (· == c)),
        RE.star RE.space, RE.eol]) text ↔ isUnderline c text := by
  simp only [RE.cat, RE.space, RE.mem_ends_seq, RE.mem_ends_bol, RE.mem_ends_cls,
    RE.mem_ends_plus, RE.mem_ends_star_cls, RE.mem_ends_eol]
  constructor
  · rintro ⟨u0, ⟨rfl, _⟩, u1, ⟨c1, h1, hc1⟩, u2, ⟨c2, h2, hc2⟩, u3, ⟨u4, ⟨c3, h3, hc3⟩, w, hw, hwc⟩,
      u5, ⟨ws, hws, hsp⟩, _, h5⟩
    subst h5
    simp only [beq_iff_eq] at hc1 hc2 hc3
    subst hc1 hc2 hc3
    refine ⟨w.length, ws, ?_, hsp⟩
    rw [h1, h2, h3, hw, hws, all_eq_replicate w hwc]
    simp [List.replicate_succ]
  · rintro ⟨k, ws, rfl, hsp⟩
    refine ⟨_, ⟨rfl, trivial⟩, List.replicate (k + 2) c ++ ws, ⟨c, by simp [List.replicate_succ], by simp⟩,
      List.replicate (k + 1) c ++ ws, ⟨c, by simp [List.replicate_succ], by simp⟩,
      ws, ⟨List.replicate k c ++ ws, ⟨c, by simp [List.replicate_succ], by simp⟩,
        List.replicate k c, rfl, by simp⟩, [], ⟨ws, by simp, hsp⟩, rfl, rfl⟩

namespace MarkdownParser
open MarkdownState MarkdownTokenType

theorem heading1Setext_iff {text : QString} :
    heading1SetextRegex.exactMatch text = true ↔ isUnderline (qc '=') text := by
  rw [QRegExp.exactMatch_iff rfl]
  exact underline_ends

theorem heading2Setext_iff {text : QString} :
    heading2SetextRegex.exactMatch text = true ↔ isUnderline (qc '-') text := by
  rw [QRegExp.exactMatch_iff rfl]
  exact underline_ends

theorem githubCodeFenceEnd_iff {text : QString} :
    githubCodeFenceEndRegex.exactMatch text = true ↔ isUnderline 96 text := by
  rw [QRegExp.exactMatch_iff rfl]
  exact underline_ends

theorem pandocCodeFenceEnd_iff {text : QString} :
    pandocCodeFenceEndRegex.exactMatch text = true ↔ isUnderline (qc '~') text := by
  rw [QRegExp.exactMatch_iff rfl]
  exact underline_ends

theorem paragraphBreak_iff {text : QString} :
    paragraphBreakRegex.exactMatch text = true ↔ isBlank text := by
  rw [QRegExp.exactMatch_iff rfl]
  simp only [paragraphBreakRegex, RE.cat, RE.space, RE.mem_ends_seq, RE.mem_ends_bol,
    RE.mem_ends_star_cls, RE.mem_ends_eol]
  constructor
  · rintro ⟨_, ⟨rfl, _⟩, u, ⟨w, hw, hsp⟩, _, hu⟩
    subst hu
    rw [hw, List.append_nil]
    exact hsp
  · intro h
    exact ⟨text, ⟨rfl, trivial⟩, [], ⟨text, by simp, h⟩, rfl, rfl⟩

theorem isUnderline_head {c : QChar} {text : QString} (h : isUnderline c text) :
    ∃ t, text = c :: t := by
  obtain ⟨k, ws, rfl, _⟩ := h
  exact ⟨List.replicate (k + 2) c ++ ws, by simp [List.replicate_succ]⟩

theorem isUnderline_not_blank {c : QChar} {text : QString} (hc : isSpace c = false)
    (h : isUnderline c text) : ¬ isBlank text := by
  obtain ⟨t, rfl⟩ := isUnderline_head h
  intro hb
  have := hb c (List.mem_cons_self _ _)
  rw [hc] at this
  exact Bool.noConfusion this

theorem isUnderline_ne {c d : QChar} {text : QString} (hcd : c ≠ d)
    (h : isUnderline c text) : ¬ isUnderline d text := by
  obtain ⟨t, rfl⟩ := isUnderline_head h
  intro h2
  obtain ⟨t2, h3⟩ := isUnderline_head h2
  exact hcd (List.cons.inj h3).1

theorem not_blank_exact {text : QString} (h : ¬ isBlank text) :
    paragraphBreakRegex.exactMatch text = false := by
  cases hb : paragraphBreakRegex.exactMatch text
  · rfl
  · exact absurd (paragraphBreak_iff.mp hb) h

theorem not_underline_exact1 {text : QString} (h : ¬ isUnderline (qc '=') text) :
    heading1SetextRegex.exactMatch text = false := by
  cases hb : heading1SetextRegex.exactMatch text
  · rfl
  · exact absurd (heading1Setext_iff.mp hb) h

theorem not_underline_exact2 {text : QString} (h : ¬ isUnderline (qc '-') text) :
    heading2SetextRegex.exactMatch text = false := by
  cases hb : heading2SetextRegex.exactMatch text
  · rfl
  · exact absurd (heading2Setext_iff.mp hb) h

end MarkdownParser

set_option linter.unusedTactic false
set_option linter.unreachableTactic false

open MarkdownState MarkdownTokenType

namespace Effect

theorem apply_none (p : MarkdownParser) : Effect.none.apply p = p := by
  simp [apply, Effect.none]

theorem apply_apply (e1 e2 : Effect) (p : MarkdownParser) :
    e2.apply (e1.apply p) = (e1.andThen e2).apply p := by
  cases h : e2.st <;> simp [apply, andThen, h, Bool.or_assoc]

@[simp] theorem apply_previousState (e : Effect) (p : MarkdownParser) :
    (e.apply p).previousState = p.previousState := rfl

@[simp] theorem apply_nextState (e : Effect) (p : MarkdownParser) :
    (e.apply p).nextState = p.nextState := rfl

@[simp] theorem apply_tokens (e : Effect) (p : MarkdownParser) :
    (e.apply p).tokens = p.tokens ++ e.toks := rfl

@[simp] theorem apply_backtrack (e : Effect) (p : MarkdownParser) :
    (e.apply p).backtrack = (p.backtrack || e.bt) := rfl

@[simp] theorem apply_state (e : Effect) (p : MarkdownParser) :
    (e.apply p).state = e.st.getD p.state := rfl

theorem addToken_eq (p : MarkdownParser) (t : Token) :
    p.addToken t = (Effect.mk Option.none [t] false).apply p := by
  simp [apply, MarkdownParser.addToken]

theorem setState_eq (p : MarkdownParser) (s : MarkdownState) :
    p.setState s = (Effect.mk (some s) [] false).apply p := by
  simp [apply, MarkdownParser.setState]

theorem requestBacktrack_eq (p : MarkdownParser) :
    p.requestBacktrack = (Effect.mk Option.none [] true).apply p := by
  simp [apply, MarkdownParser.requestBacktrack]

end Effect

theorem length_fillRange (text : QString) (lo hi : Nat) (c : QChar) :
    (fillRange text lo hi c).length = text.length := by
  unfold fillRange
  generalize List.range (hi - lo) = ks
  induction ks generalizing text with
  | nil => rfl
  | cons k ks ih => simp [List.foldl_cons, ih]

namespace MarkdownParser

theorem length_dummyOutLoop : ∀ (text : QString) (b : Bool),
    (dummyOutLoop b text).length = text.length := by
  intro text
  induction text with
  | nil => intro b; cases b <;> rfl
  | cons c t ih =>
    intro b
    cases b <;> simp [dummyOutLoop, ih]

theorem length_dummyOutEscapeCharacters (text : QString) :
    (dummyOutEscapeCharacters text).length = text.length :=
  length_dummyOutLoop text false

/-- The search loop of `parseMatches` returns for a pattern that consumes a
character in every match. It keeps an invariant `Inv` of the working text that
the overwriting of characters keeps, and every token it emits satisfies `Q`,
provided the token for any match found in a text satisfying `Inv` does. -/
theorem parseMatchesLoop_total (tokenType : MarkdownTokenType) (regex : QRegExp)
    (ms me : Nat) (rm ra : Bool) (hc : RE.consuming regex.pattern = true)
    (Inv : QString → Prop) (Q : Token → Prop)
    (hfill : ∀ w lo hi, Inv w → Inv (fillRange w lo hi DUMMY_CHAR))
    (hQ : ∀ w off i l, Inv w → regex.indexIn w off = some (i, l) → Q (matchToken tokenType ms me i l)) :
    ∀ (fuel : Nat) (text : QString) (r : Option (Nat × Nat)), Inv text →
      (∀ i l, r = some (i, l) → text.length < fuel + i + l
        ∧ ∃ off, regex.indexIn text off = some (i, l)) →
      ∃ toks text1, text1.length = text.length ∧ Inv text1
        ∧ (∀ t ∈ toks, t.type = tokenType ∧ Q t) ∧
        ∀ p, parseMatchesLoop tokenType regex ms me rm ra fuel p text r
          = some ((Effect.mk Option.none toks false).apply p, text1) := by
  intro fuel
  induction fuel with
  | zero =>
    intro text r hinv h
    cases r with
    | none =>
      exact ⟨[], text, rfl, hinv, by simp, fun p => by simp [parseMatchesLoop, Effect.apply]⟩
    | some il =>
      obtain ⟨i, l⟩ := il
      obtain ⟨hf, off, hoff⟩ := h i l rfl
      have hb := QRegExp.indexIn_bounds hoff
      have hp := QRegExp.indexIn_pos hc hoff
      omega
  | succ k ih =>
    intro text r hinv h
    cases r with
    | none =>
      exact ⟨[], text, rfl, hinv, by simp, fun p => by simp [parseMatchesLoop, Effect.apply]⟩
    | some il =>
      obtain ⟨i, l⟩ := il
      obtain ⟨hf, off, hoff⟩ := h i l rfl
      have hil := (QRegExp.indexIn_bounds hoff).2
      have hl := QRegExp.indexIn_pos hc hoff
      simp only [parseMatchesLoop]
      generalize htext1 : (if ra = true then fillRange text i (i + l) DUMMY_CHAR
        else if rm = true then
          fillRange (fillRange text i (i + ms) DUMMY_CHAR) (i + l - me) (i + l) DUMMY_CHAR
        else text) = text1
      have hlen : text1.length = text.length := by
        rw [← htext1]
        split
        · exact length_fillRange _ _ _ _
        · split
          · rw [length_fillRange, length_fillRange]
          · rfl
      have hinv1 : Inv text1 := by
        rw [← htext1]
        split
        · exact hfill _ _ _ hinv
        · split
          · exact hfill _ _ _ (hfill _ _ _ hinv)
          · exact hinv
      obtain ⟨toks, text2, hlen2, hinv2, htoks, hrun⟩ :=
        ih text1 (regex.indexIn text1 (i + l)) hinv1 (by
          intro i2 l2 hr
          have hb := QRegExp.indexIn_bounds hr
          have hp := QRegExp.indexIn_pos hc hr
          rw [hlen]
          exact ⟨by omega, i + l, hr⟩)
      refine ⟨matchToken tokenType ms me i l :: toks, text2, by rw [hlen2, hlen], hinv2, ?_, ?_⟩
      · intro t ht
        rcases List.mem_cons.mp ht with rfl | ht
        · exact ⟨rfl, hQ text off i l hinv hoff⟩
        · exact htoks t ht
      · intro p
        have htok : (Token.mk tokenType (i : Int) (l : Int) (if ms > 0 then (ms : Int) else 0)
            (if me > 0 then (me : Int) else 0)) = matchToken tokenType ms me i l := rfl
        rw [htok, hrun, Effect.addToken_eq, Effect.apply_apply]
        simp [Effect.andThen]

theorem parseMatches_total (tokenType : MarkdownTokenType) (regex : QRegExp)
    (ms me : Nat) (rm ra : Bool) (hc : RE.consuming regex.pattern = true)
    (Inv : QString → Prop) (Q : Token → Prop)
    (hfill : ∀ w lo hi, Inv w → Inv (fillRange w lo hi DUMMY_CHAR))
    (hQ : ∀ w off i l, Inv w → regex.indexIn w off = some (i, l) → Q (matchToken tokenType ms me i l))
    (text : QString) (hinv : Inv text) :
    ∃ toks text1, text1.length = text.length ∧ Inv text1
      ∧ (∀ t ∈ toks, t.type = tokenType ∧ Q t) ∧
      ∀ p, parseMatches tokenType regex ms me rm ra p text
        = some ((Effect.mk Option.none toks false).apply p, text1) := by
  unfold parseMatches
  apply parseMatchesLoop_total tokenType regex ms me rm ra hc Inv Q hfill hQ _ _ _ hinv
  intro i l hr
  exact ⟨by omega, 0, hr⟩

theorem htmlCommentLoop_eq :
    ∀ (fuel : Nat) (p : MarkdownParser) (text : QString) (r : Option (Nat × Nat)),
      htmlCommentLoop fuel p text r
        = parseMatchesLoop TokenHtmlComment htmlInlineCommentRegex 0 0 false true fuel p text r := by
  intro fuel
  induction fuel with
  | zero =>
    intro p text r
    cases r <;> simp [htmlCommentLoop, parseMatchesLoop]
  | succ k ih =>
    intro p text r
    cases r with
    | none => simp [htmlCommentLoop, parseMatchesLoop]
    | some il =>
      obtain ⟨i, l⟩ := il
      simp [htmlCommentLoop, parseMatchesLoop, ih]

theorem parseHtmlComments_effect (prev : MarkdownState) (text : QString)
    (Inv : QString → Prop) (Q : Token → Prop)
    (hfill : ∀ w lo hi, Inv w → Inv (fillRange w lo hi DUMMY_CHAR))
    (hQ : ∀ w off i l, Inv w → htmlInlineCommentRegex.indexIn w off = some (i, l) →
      Q (matchToken TokenHtmlComment 0 0 i l))
    (hopen : ∀ w, Inv w → indexOfStr w (qs "<!--") ≥ 0 → Q (openCommentToken w))
    (hinv : Inv text) :
    ∃ (e : Effect) (text1 : QString), text1.length = text.length ∧ Inv text1
      ∧ (e.st = none ∨ e.st = some Comment) ∧ e.bt = false
      ∧ (∀ t ∈ e.toks, t.type = TokenHtmlComment ∧ Q t)
      ∧ (e.st = some Comment → ∃ w, Inv w ∧ indexOfStr w (qs "<!--") ≥ 0) ∧
      ∀ p : MarkdownParser, p.previousState = prev →
        parseHtmlComments p text = some (e.apply p, text1) := by
  generalize ht0 : (if prev = Comment then
      fillRange text 0 (indexOfStr text (qs "-->") + 3).toNat DUMMY_CHAR else text) = text0
  have hlen0 : text0.length = text.length := by
    rw [← ht0]
    split
    · exact length_fillRange _ _ _ _
    · rfl
  have hinv0 : Inv text0 := by
    rw [← ht0]
    split
    · exact hfill _ _ _ hinv
    · exact hinv
  obtain ⟨toks, text1, hlen1, hinv1, htoks, hrun⟩ :=
    parseMatches_total TokenHtmlComment htmlInlineCommentRegex 0 0 false true (by rfl) Inv Q
      hfill hQ text0 hinv0
  unfold parseMatches at hrun
  by_cases hcs : indexOfStr text1 (qs "<!--") ≥ 0
  · refine ⟨⟨some Comment, toks ++ [openCommentToken text1], false⟩,
      fillRange text1 (indexOfStr text1 (qs "<!--")).toNat text1.length DUMMY_CHAR,
      by rw [length_fillRange, hlen1, hlen0], hfill _ _ _ hinv1, Or.inr rfl, rfl, ?_,
      fun _ => ⟨text1, hinv1, hcs⟩, ?_⟩
    · intro t ht
      rcases List.mem_append.mp ht with ht | ht
      · exact htoks t ht
      · simp only [List.mem_singleton] at ht
        rw [ht]
        exact ⟨rfl, hopen text1 hinv1 hcs⟩
    · intro p hp
      simp only [parseHtmlComments, hp, ht0, htmlCommentLoop_eq, hrun, hcs, if_true]
      simp [Effect.apply, addToken, setState, openCommentToken]
  · refine ⟨⟨none, toks, false⟩, text1, by rw [hlen1, hlen0], hinv1, Or.inl rfl, rfl, htoks,
      fun h => by simp at h, ?_⟩
    intro p hp
    simp only [parseHtmlComments, hp, ht0, htmlCommentLoop_eq, hrun, hcs, if_false]

theorem parseReferenceDefinition_effect (text : QString)
    (Inv : QString → Prop) (Q : Token → Prop)
    (hset : ∀ w k, Inv w → Inv (w.set k DUMMY_CHAR))
    (hdef : referenceDefinitionRegex.exactMatch text = true →
      Q (referenceDefinitionToken text))
    (hinv : Inv text) :
    ∃ (e : Effect) (text1 : QString), text1.length = text.length ∧ Inv text1
      ∧ e.st = none ∧ e.bt = false
      ∧ (∀ t ∈ e.toks, t.type = TokenReferenceDefinition ∧ Q t) ∧
      ∀ p : MarkdownParser, parseReferenceDefinition p text = (e.apply p, text1) := by
  by_cases h : referenceDefinitionRegex.exactMatch text = true
  · refine ⟨⟨none, [referenceDefinitionToken text], false⟩,
      (if indexOfChar text (qc '[') ≥ 0 then text.set (indexOfChar text (qc '[')).toNat DUMMY_CHAR
        else text), ?_, ?_, rfl, rfl, ?_, ?_⟩
    · split <;> simp
    · split
      · exact hset _ _ hinv
      · exact hinv
    · intro t ht
      simp only [List.mem_singleton] at ht
      rw [ht]
      exact ⟨rfl, hdef h⟩
    · intro p
      simp [parseReferenceDefinition, h, Effect.apply, addToken, referenceDefinitionToken]
  · refine ⟨Effect.none, text, rfl, hinv, rfl, rfl, by simp [Effect.none], ?_⟩
    intro p
    simp [parseReferenceDefinition, h, Effect.apply_none]

/-- What inline scanning does, for any property `Q` of tokens and any invariant
`Inv` of the working text: `parseInline` returns; it sets no state or the state
`Comment`; it requests no backtrack; and every token it emits satisfies `Q`,
provided `Inv` holds for the sanitized line, is kept when characters are
overwritten by the dummy, and makes `Q` hold for the token of every match. -/
theorem parseInline_spec (prev : MarkdownState) (text : QString)
    (Inv : QString → Prop) (Q : Token → Prop)
    (h0 : Inv (dummyOutEscapeCharacters text))
    (hset : ∀ w k, Inv w → Inv (w.set k DUMMY_CHAR))
    (hfill : ∀ w lo hi, Inv w → Inv (fillRange w lo hi DUMMY_CHAR))
    (hdef : referenceDefinitionRegex.exactMatch (dummyOutEscapeCharacters text) = true →
      Q (referenceDefinitionToken (dummyOutEscapeCharacters text)))
    (hopen : ∀ w, Inv w → indexOfStr w (qs "<!--") ≥ 0 → Q (openCommentToken w))
    (hst : ∀ st ∈ inlineStages, ∀ w off i l, Inv w → st.2.1.indexIn w off = some (i, l) →
      Q (matchToken st.1 st.2.2.1 st.2.2.2 i l)) :
    ∃ e : Effect, (e.st = none ∨ e.st = some Comment) ∧ e.bt = false ∧
      (∀ t ∈ e.toks, t.type ∈ inlineTokenTypes ∧ Q t) ∧
      (e.st = some Comment → ∃ w, Inv w ∧ indexOfStr w (qs "<!--") ≥ 0) ∧
      ∀ p : MarkdownParser, p.previousState = prev → parseInline p text = some (e.apply p) := by
  obtain ⟨e0, t0, hl0, hi0, hs0, hb0, hty0, h0⟩ :=
    parseReferenceDefinition_effect (dummyOutEscapeCharacters text) Inv Q hset hdef h0
  obtain ⟨e1, t1, hl1, hi1, hs1, hb1, hty1, hcm1, h1⟩ :=
    parseHtmlComments_effect prev t0 Inv Q hfill
      (hst (TokenHtmlComment, htmlInlineCommentRegex, 0, 0) (by simp [inlineStages])) hopen hi0
  obtain ⟨k2, t2, hl2, hi2, hty2, h2⟩ :=
    parseMatches_total TokenImage imageRegex 0 0 false true (by rfl) Inv Q hfill
      (hst (TokenImage, imageRegex, 0, 0) (by simp [inlineStages])) t1 hi1
  obtain ⟨k3, t3, hl3, hi3, hty3, h3⟩ :=
    parseMatches_total TokenInlineLink inlineLinkRegex 0 0 false true (by rfl) Inv Q hfill
      (hst (TokenInlineLink, inlineLinkRegex, 0, 0) (by simp [inlineStages])) t2 hi2
  obtain ⟨k4, t4, hl4, hi4, hty4, h4⟩ :=
    parseMatches_total TokenReferenceLink referenceLinkRegex 0 0 false false (by rfl) Inv Q hfill
      (hst (TokenReferenceLink, referenceLinkRegex, 0, 0) (by simp [inlineStages])) t3 hi3
  obtain ⟨k5, t5, hl5, hi5, hty5, h5⟩ :=
    parseMatches_total TokenHtmlEntity htmlEntityRegex 0 0 false false (by rfl) Inv Q hfill
      (hst (TokenHtmlEntity, htmlEntityRegex, 0, 0) (by simp [inlineStages])) t4 hi4
  obtain ⟨k6, t6, hl6, hi6, hty6, h6⟩ :=
    parseMatches_total TokenAutomaticLink automaticLinkRegex 0 0 false true (by rfl) Inv Q hfill
      (hst (TokenAutomaticLink, automaticLinkRegex, 0, 0) (by simp [inlineStages])) t5 hi5
  obtain ⟨k7, t7, hl7, hi7, hty7, h7⟩ :=
    parseMatches_total TokenVerbatim verbatimRegex 0 0 false true (by rfl) Inv Q hfill
      (hst (TokenVerbatim, verbatimRegex, 0, 0) (by simp [inlineStages])) t6 hi6
  obtain ⟨k8, t8, hl8, hi8, hty8, h8⟩ :=
    parseMatches_total TokenStrikethrough strikethroughRegex 2 2 false false (by rfl) Inv Q hfill
      (hst (TokenStrikethrough, strikethroughRegex, 2, 2) (by simp [inlineStages])) t7 hi7
  obtain ⟨k9, t9, hl9, hi9, hty9, h9⟩ :=
    parseMatches_total TokenStrong strongRegex 2 2 true false (by rfl) Inv Q hfill
      (hst (TokenStrong, strongRegex, 2, 2) (by simp [inlineStages])) t8 hi8
  obtain ⟨k10, t10, hl10, hi10, hty10, h10⟩ :=
    parseMatches_total TokenEmphasis emphasisRegex 1 1 true false (by rfl) Inv Q hfill
      (hst (TokenEmphasis, emphasisRegex, 1, 1) (by simp [inlineStages])) t9 hi9
  obtain ⟨k11, t11, hl11, hi11, hty11, h11⟩ :=
    parseMatches_total TokenHtmlTag htmlTagRegex 0 0 false false (by rfl) Inv Q hfill
      (hst (TokenHtmlTag, htmlTagRegex, 0, 0) (by simp [inlineStages])) t10 hi10
  refine ⟨⟨e1.st, e0.toks ++ e1.toks ++ k2 ++ k3 ++ k4 ++ k5 ++ k6 ++ k7 ++ k8 ++ k9 ++ k10 ++ k11,
    false⟩, hs1, rfl, ?_, hcm1, ?_⟩
  · intro t ht
    simp only [List.mem_append] at ht
    rcases ht with ((((((((((ht | ht) | ht) | ht) | ht) | ht) | ht) | ht) | ht) | ht) | ht) | ht
    · exact ⟨by rw [(hty0 t ht).1]; decide, (hty0 t ht).2⟩
    · exact ⟨by rw [(hty1 t ht).1]; decide, (hty1 t ht).2⟩
    · exact ⟨by rw [(hty2 t ht).1]; decide, (hty2 t ht).2⟩
    · exact ⟨by rw [(hty3 t ht).1]; decide, (hty3 t ht).2⟩
    · exact ⟨by rw [(hty4 t ht).1]; decide, (hty4 t ht).2⟩
    · exact ⟨by rw [(hty5 t ht).1]; decide, (hty5 t ht).2⟩
    · exact ⟨by rw [(hty6 t ht).1]; decide, (hty6 t ht).2⟩
    · exact ⟨by rw [(hty7 t ht).1]; decide, (hty7 t ht).2⟩
    · exact ⟨by rw [(hty8 t ht).1]; decide, (hty8 t ht).2⟩
    · exact ⟨by rw [(hty9 t ht).1]; decide, (hty9 t ht).2⟩
    · exact ⟨by rw [(hty10 t ht).1]; decide, (hty10 t ht).2⟩
    · exact ⟨by rw [(hty11 t ht).1]; decide, (hty11 t ht).2⟩
  · intro p hp
    simp only [parseInline, h0, h1 (e0.apply p) (by simpa using hp), h2, h3, h4, h5, h6, h7, h8,
      h9, h10, h11, Option.bind_some, Option.some_bind, Option.map_some', Option.some.injEq]
    cases hst : e1.st <;>
      simp [Effect.apply, hs0, hb0, hb1, hst, List.append_assoc]

theorem parseInline_effect (prev : MarkdownState) (text : QString) :
    ∃ e : Effect, (e.st = none ∨ e.st = some Comment) ∧ e.bt = false ∧
      (∀ t ∈ e.toks, t.type ∈ inlineTokenTypes) ∧
      ∀ p : MarkdownParser, p.previousState = prev → parseInline p text = some (e.apply p) := by
  obtain ⟨e, hs, hb, ht, _, h⟩ := parseInline_spec prev text (fun _ => True) (fun _ => True)
    trivial (fun _ _ _ => trivial) (fun _ _ _ _ => trivial) (fun _ => trivial)
    (fun _ _ _ => trivial) (fun _ _ _ _ _ _ _ _ => trivial)
  exact ⟨e, hs, hb, fun t h => (ht t h).1, h⟩

end MarkdownParser

namespace MarkdownParser

theorem Uniform.weaken {A : List MarkdownState} {f : MarkdownParser → Bool × MarkdownParser}
    (h : Uniform SamePrev A f) : Uniform SamePrevNext A f :=
  fun p q hr => h p q hr.1

theorem uniform_orElse {R : MarkdownParser → MarkdownParser → Prop}
    (hR : ∀ p q (e : Effect), R p q → R (e.apply p) (e.apply q))
    {A B : List MarkdownState} {f g : MarkdownParser → Bool × MarkdownParser}
    (hf : Uniform R A f) (hg : Uniform R B g) :
    Uniform R (A ++ B) (fun p => orElse (f p) g) := by
  intro p q hr
  obtain ⟨b1, e1, hp1, hq1, hs1, ht1⟩ := hf p q hr
  cases b1 with
  | true =>
    obtain ⟨s, hs, hst⟩ := hs1 rfl
    exact ⟨true, e1, by simp [orElse, hp1], by simp [orElse, hq1],
      fun _ => ⟨s, List.mem_append_left _ hs, hst⟩, ht1⟩
  | false =>
    obtain ⟨b2, e2, hp2, hq2, hs2, ht2⟩ := hg _ _ (hR p q e1 hr)
    refine ⟨b2, e1.andThen e2, by simp [orElse, hp1, hp2, Effect.apply_apply],
      by simp [orElse, hq1, hq2, Effect.apply_apply], ?_, ?_⟩
    · intro hb
      obtain ⟨s, hs, hst⟩ := hs2 hb
      exact ⟨s, List.mem_append_right _ hs, by simp [Effect.andThen, hst]⟩
    · intro t ht
      rcases List.mem_append.mp ht with ht | ht
      · exact ht1 t ht
      · exact ht2 t ht

theorem samePrev_apply (p q : MarkdownParser) (e : Effect) (h : SamePrev p q) :
    SamePrev (e.apply p) (e.apply q) := h

theorem samePrevNext_apply (p q : MarkdownParser) (e : Effect) (h : SamePrevNext p q) :
    SamePrevNext (e.apply p) (e.apply q) := h

theorem parseSetextHeadingLine2_uniform (text : QString) :
    Uniform SamePrev [SetextHeading1Line2, SetextHeading2Line2]
      (fun p => parseSetextHeadingLine2 p text) := by
  intro p q h
  unfold SamePrev at h
  simp only [parseSetextHeadingLine2, h]
  split_ifs <;>
    (try simp only [Effect.addToken_eq, Effect.setState_eq, Effect.requestBacktrack_eq,
      Effect.apply_apply, Effect.andThen]) <;>
    first
    | (refine ⟨_, _, rfl, rfl, ?_, ?_⟩
       · (simp; try tauto)
       · simp [blockTokenTypes, lineToken])
    | exact ⟨false, Effect.none, by simp [Effect.apply_none], by simp [Effect.apply_none], by simp,
        by simp [Effect.none]⟩

theorem parseCodeBlock_uniform (text : QString) :
    Uniform SamePrev [InGithubCodeFence, InPandocCodeFence, CodeFenceEnd, CodeBlock]
      (fun p => parseCodeBlock p text) := by
  intro p q h
  unfold SamePrev at h
  simp only [parseCodeBlock, h]
  split_ifs <;>
    (try simp only [Effect.addToken_eq, Effect.setState_eq, Effect.requestBacktrack_eq,
      Effect.apply_apply, Effect.andThen]) <;>
    first
    | (refine ⟨_, _, rfl, rfl, ?_, ?_⟩
       · (simp; try tauto)
       · simp [blockTokenTypes, lineToken])
    | exact ⟨false, Effect.none, by simp [Effect.apply_none], by simp [Effect.apply_none], by simp,
        by simp [Effect.none]⟩

theorem parseMultilineComment_uniform (text : QString) :
    Uniform SamePrev [Comment]
      (fun p => parseMultilineComment p text) := by
  intro p q h
  unfold SamePrev at h
  simp only [parseMultilineComment, h]
  split_ifs <;>
    (try simp only [Effect.addToken_eq, Effect.setState_eq, Effect.requestBacktrack_eq,
      Effect.apply_apply, Effect.andThen]) <;>
    first
    | (refine ⟨_, _, rfl, rfl, ?_, ?_⟩
       · (simp; try tauto)
       · simp [blockTokenTypes, lineToken])
    | exact ⟨false, Effect.none, by simp [Effect.apply_none], by simp [Effect.apply_none], by simp,
        by simp [Effect.none]⟩

theorem parseHorizontalRule_uniform (text : QString) :
    Uniform SamePrev [HorizontalRule]
      (fun p => parseHorizontalRule p text) := by
  intro p q h
  unfold SamePrev at h
  simp only [parseHorizontalRule, h]
  split_ifs <;>
    (try simp only [Effect.addToken_eq, Effect.setState_eq, Effect.requestBacktrack_eq,
      Effect.apply_apply, Effect.andThen]) <;>
    first
    | (refine ⟨_, _, rfl, rfl, ?_, ?_⟩
       · (simp; try tauto)
       · simp [blockTokenTypes, lineToken])
    | exact ⟨false, Effect.none, by simp [Effect.apply_none], by simp [Effect.apply_none], by simp,
        by simp [Effect.none]⟩

theorem atxHeadingState_mem (level : Nat) :
    atxHeadingState level ∈
      [AtxHeading1, AtxHeading2, AtxHeading3, AtxHeading4, AtxHeading5, AtxHeading6] := by
  unfold atxHeadingState
  split <;> simp

theorem atxHeadingToken_mem (level : Nat) : atxHeadingToken level ∈ blockTokenTypes := by
  unfold atxHeadingToken
  split <;> simp [blockTokenTypes]

theorem parseAtxHeading_uniform (text : QString) :
    Uniform SamePrev [AtxHeading1, AtxHeading2, AtxHeading3, AtxHeading4, AtxHeading5, AtxHeading6]
      (fun p => parseAtxHeading p text) := by
  intro p q h
  simp only [parseAtxHeading]
  split_ifs
  · simp only [Effect.addToken_eq, Effect.setState_eq, Effect.apply_apply, Effect.andThen]
    refine ⟨_, _, rfl, rfl, fun _ => ⟨_, atxHeadingState_mem _, rfl⟩, ?_⟩
    intro t ht
    simp only [List.nil_append, List.append_nil, List.mem_singleton] at ht
    rw [ht]
    exact atxHeadingToken_mem _
  · exact ⟨false, Effect.none, by simp [Effect.apply_none], by simp [Effect.apply_none], by simp,
      by simp [Effect.none]⟩

theorem parseSetextHeadingLine1_uniform (text : QString) :
    Uniform SamePrevNext [SetextHeading1Line1, SetextHeading2Line1]
      (fun p => parseSetextHeadingLine1 p text) := by
  intro p q h
  obtain ⟨h, hn⟩ := h
  simp only [parseSetextHeadingLine1, h, hn]
  split_ifs <;>
    (try simp only [Effect.addToken_eq, Effect.setState_eq, Effect.requestBacktrack_eq,
      Effect.apply_apply, Effect.andThen]) <;>
    first
    | (refine ⟨_, _, rfl, rfl, ?_, ?_⟩
       · (simp; try tauto)
       · simp [blockTokenTypes, lineToken])
    | exact ⟨false, Effect.none, by simp [Effect.apply_none], by simp [Effect.apply_none], by simp,
        by simp [Effect.none]⟩

theorem parseBlockquote_uniform (text : QString) :
    Uniform SamePrev [Blockquote]
      (fun p => parseBlockquote p text) := by
  intro p q h
  unfold SamePrev at h
  simp only [parseBlockquote, h]
  split_ifs <;>
    (try simp only [Effect.addToken_eq, Effect.setState_eq, Effect.requestBacktrack_eq,
      Effect.apply_apply, Effect.andThen]) <;>
    first
    | (refine ⟨_, _, rfl, rfl, ?_, ?_⟩
       · (simp; try tauto)
       · simp [blockTokenTypes, lineToken])
    | exact ⟨false, Effect.none, by simp [Effect.apply_none], by simp [Effect.apply_none], by simp,
        by simp [Effect.none]⟩

theorem parseNumberedList_uniform (text : QString) :
    Uniform SamePrev [NumberedList]
      (fun p => parseNumberedList p text) := by
  intro p q h
  unfold SamePrev at h
  simp only [parseNumberedList, h]
  split_ifs <;>
    (try simp only [Effect.addToken_eq, Effect.setState_eq, Effect.requestBacktrack_eq,
      Effect.apply_apply, Effect.andThen]) <;>
    first
    | (refine ⟨_, _, rfl, rfl, ?_, ?_⟩
       · (simp; try tauto)
       · simp [blockTokenTypes, lineToken])
    | exact ⟨false, Effect.none, by simp [Effect.apply_none], by simp [Effect.apply_none], by simp,
        by simp [Effect.none]⟩

theorem parseBulletPointList_uniform (text : QString) :
    Uniform SamePrev [BulletPointList] (fun p => parseBulletPointList p text) := by
  intro p q h
  unfold SamePrev at h
  simp only [parseBulletPointList, h]
  by_cases hprev : p.previousState ≠ Unknown ∧ p.previousState ≠ ParagraphBreak
      ∧ p.previousState ≠ ListLineBreak ∧ p.previousState ≠ NumberedList
      ∧ p.previousState ≠ BulletPointList
  · rw [if_pos hprev, if_pos hprev]
    exact ⟨false, Effect.none, by simp [Effect.apply_none], by simp [Effect.apply_none], by simp,
      by simp [Effect.none]⟩
  · rw [if_neg hprev, if_neg hprev]
    cases bulletScan p.previousState text 0 false (-1) 0 with
    | none =>
      exact ⟨false, Effect.none, by simp [Effect.apply_none], by simp [Effect.apply_none],
        by simp, by simp [Effect.none]⟩
    | some r =>
      obtain ⟨i, w⟩ := r
      by_cases hw : i ≥ 0 ∧ w = true
      · simp only [hw, and_self, if_true, Effect.addToken_eq, Effect.setState_eq,
          Effect.apply_apply, Effect.andThen]
        exact ⟨_, _, rfl, rfl, by simp, by simp [blockTokenTypes]⟩
      · simp only [hw, if_false]
        exact ⟨false, Effect.none, by simp [Effect.apply_none], by simp [Effect.apply_none],
          by simp, by simp [Effect.none]⟩

theorem parseBlockOnly_uniform (text : QString) :
    Uniform SamePrev
      ((([SetextHeading1Line2, SetextHeading2Line2]
        ++ [InGithubCodeFence, InPandocCodeFence, CodeFenceEnd, CodeBlock]) ++ [Comment])
        ++ [HorizontalRule])
      (fun p => parseBlockOnly p text) :=
  uniform_orElse samePrev_apply
    (uniform_orElse samePrev_apply
      (uniform_orElse samePrev_apply (parseSetextHeadingLine2_uniform text)
        (parseCodeBlock_uniform text))
      (parseMultilineComment_uniform text))
    (parseHorizontalRule_uniform text)

theorem parseBlockWithInline_uniform (text : QString) :
    Uniform SamePrevNext
      (((([AtxHeading1, AtxHeading2, AtxHeading3, AtxHeading4, AtxHeading5, AtxHeading6]
        ++ [SetextHeading1Line1, SetextHeading2Line1]) ++ [Blockquote]) ++ [NumberedList])
        ++ [BulletPointList])
      (fun p => parseBlockWithInline p text) :=
  uniform_orElse samePrevNext_apply
    (uniform_orElse samePrevNext_apply
      (uniform_orElse samePrevNext_apply
        (uniform_orElse samePrevNext_apply (Uniform.weaken (parseAtxHeading_uniform text))
          (parseSetextHeadingLine1_uniform text))
        (Uniform.weaken (parseBlockquote_uniform text)))
      (Uniform.weaken (parseNumberedList_uniform text)))
    (Uniform.weaken (parseBulletPointList_uniform text))

end MarkdownParser

namespace MarkdownParser

theorem parseFallback_uniform (text : QString) (p q : MarkdownParser) (h : SamePrev p q) :
    ∃ (e : Effect) (s : MarkdownState), e.st = some s
      ∧ s ∈ [Paragraph, ListLineBreak, NumberedList, BulletPointList]
      ∧ parseFallback p text = e.apply p ∧ parseFallback q text = e.apply q
      ∧ ∀ t ∈ e.toks, t.type ∈ blockTokenTypes := by
  have hq : q.previousState = p.previousState := h
  simp only [parseFallback, hq]
  by_cases hlist : p.previousState = ListLineBreak ∨ p.previousState = NumberedList
      ∨ p.previousState = BulletPointList
  · rw [if_pos hlist, if_pos hlist]
    obtain ⟨b1, e1, hp1, hq1, _, ht1⟩ := parseNumberedList_uniform text p q h
    dsimp only at hp1 hq1
    rw [hp1, hq1]
    cases b1 with
    | true =>
      refine ⟨e1.andThen ⟨some Paragraph, [], false⟩, Paragraph, rfl, by simp, ?_, ?_, ?_⟩
      · simp [Effect.setState_eq, Effect.apply_apply]
      · simp [Effect.setState_eq, Effect.apply_apply]
      · simpa [Effect.andThen] using ht1
    | false =>
      obtain ⟨b2, e2, hp2, hq2, _, ht2⟩ :=
        parseBulletPointList_uniform text _ _ (samePrev_apply p q e1 h)
      dsimp only at hp2 hq2
      simp only [hp2, hq2, Bool.false_eq_true, if_false]
      have ht12 : ∀ t ∈ e1.toks ++ e2.toks, t.type ∈ blockTokenTypes := by
        intro t ht
        rcases List.mem_append.mp ht with ht | ht
        · exact ht1 t ht
        · exact ht2 t ht
      by_cases hc : (!b2 && (startsWith text (qs "\t") || startsWith text (qs "    "))) = true
      · simp only [hc, if_true, Effect.apply_previousState, hq]
        refine ⟨(e1.andThen e2).andThen ⟨some p.previousState, [], false⟩, p.previousState, rfl,
          ?_, ?_, ?_, ?_⟩
        · rcases hlist with h1 | h1 | h1 <;> simp [h1]
        · simp [Effect.setState_eq, Effect.apply_apply]
        · simp [Effect.setState_eq, Effect.apply_apply]
        · simpa [Effect.andThen] using ht12
      · simp only [hc, if_false]
        refine ⟨(e1.andThen e2).andThen ⟨some Paragraph, [], false⟩, Paragraph, rfl, by simp,
          ?_, ?_, ?_⟩
        · simp [Effect.setState_eq, Effect.apply_apply]
        · simp [Effect.setState_eq, Effect.apply_apply]
        · simpa [Effect.andThen] using ht12
  · rw [if_neg hlist, if_neg hlist]
    refine ⟨⟨some Paragraph, [], false⟩, Paragraph, rfl, by simp, ?_, ?_, by simp⟩ <;>
      simp [Effect.setState_eq]

theorem setextBacktrackCheck_apply (e : Effect) (s : MarkdownState) (hs : e.st = some s)
    (p : MarkdownParser) :
    setextBacktrackCheck (e.apply p)
      = (e.andThen ⟨none, [],
          decide ((p.previousState = SetextHeading1Line1 ∧ s ≠ SetextHeading1Line2)
            ∨ (p.previousState = SetextHeading2Line1 ∧ s ≠ SetextHeading2Line2))⟩).apply p := by
  simp only [setextBacktrackCheck, getState, Effect.apply_previousState, Effect.apply_state, hs,
    Option.getD_some]
  split_ifs with hc
  · simp [Effect.requestBacktrack_eq, Effect.apply_apply, hc]
  · rw [← Effect.apply_apply]
    simp [hc, Effect.apply]

/-- The branches of `parseLine`, on the parser object set up by `enter`. -/
theorem parseLine_unfold (p0 : MarkdownParser) (text : QString)
    (currentState previousState nextState : MarkdownState) :
    parseLine p0 text currentState previousState nextState
      = Option.map setextBacktrackCheck
        (if previousState ≠ CodeBlock ∧ previousState ≠ InGithubCodeFence
            ∧ previousState ≠ InPandocCodeFence ∧ previousState ≠ Comment
            ∧ paragraphBreakRegex.exactMatch text = true then
          if previousState = ListLineBreak ∨ previousState = NumberedList
              ∨ previousState = BulletPointList then
            some ((enter p0 currentState previousState nextState).setState ListLineBreak)
          else if previousState ≠ CodeBlock
              ∨ (startsWith text (qs "\t") = false ∧ endsWith text (qs "    ") = false) then
            some ((enter p0 currentState previousState nextState).setState ParagraphBreak)
          else
            some (enter p0 currentState previousState nextState)
        else if (parseBlockOnly (enter p0 currentState previousState nextState) text).1 = true then
          some (parseBlockOnly (enter p0 currentState previousState nextState) text).2
        else if (parseBlockWithInline
            (parseBlockOnly (enter p0 currentState previousState nextState) text).2 text).1 = true
        then
          parseInline (parseBlockWithInline
            (parseBlockOnly (enter p0 currentState previousState nextState) text).2 text).2 text
        else
          parseInline (parseFallback (parseBlockWithInline
            (parseBlockOnly (enter p0 currentState previousState nextState) text).2 text).2 text)
            text) := rfl

/-- What a call of `parseLine` does, for any property `Q` of tokens and any
invariant `Inv` of the working text as in `parseInline_spec`: it returns and
sets the state, and its effect on the parser object depends on the text, the
previous and the next state only; it emits tokens of block-level type first,
then the tokens of inline scanning, which satisfy `Q`. -/
theorem parseLine_spec (text : QString) (previousState nextState : MarkdownState)
    (Inv : QString → Prop) (Q : Token → Prop)
    (h0 : Inv (dummyOutEscapeCharacters text))
    (hset : ∀ w k, Inv w → Inv (w.set k DUMMY_CHAR))
    (hfill : ∀ w lo hi, Inv w → Inv (fillRange w lo hi DUMMY_CHAR))
    (hdef : referenceDefinitionRegex.exactMatch (dummyOutEscapeCharacters text) = true →
      Q (referenceDefinitionToken (dummyOutEscapeCharacters text)))
    (hopen : ∀ w, Inv w → indexOfStr w (qs "<!--") ≥ 0 → Q (openCommentToken w))
    (hst : ∀ st ∈ inlineStages, ∀ w off i l, Inv w → st.2.1.indexIn w off = some (i, l) →
      Q (matchToken st.1 st.2.2.1 st.2.2.2 i l))
    (p q : MarkdownParser) (c1 c2 : MarkdownState) :
    ∃ (e : Effect) (s : MarkdownState) (blk inl : List Token), e.st = some s
      ∧ e.toks = blk ++ inl
      ∧ (∀ t ∈ blk, t.type ∈ blockTokenTypes)
      ∧ (∀ t ∈ inl, t.type ∈ inlineTokenTypes ∧ Q t)
      ∧ parseLine p text c1 previousState nextState
          = some (e.apply (enter p c1 previousState nextState))
      ∧ parseLine q text c2 previousState nextState
          = some (e.apply (enter q c2 previousState nextState)) := by
  rw [parseLine_unfold, parseLine_unfold]
  have hP : (enter p c1 previousState nextState).previousState = previousState := rfl
  have hQ : (enter q c2 previousState nextState).previousState = previousState := rfl
  have hR : SamePrevNext (enter p c1 previousState nextState)
      (enter q c2 previousState nextState) := ⟨rfl, rfl⟩
  generalize enter p c1 previousState nextState = P at hP hR ⊢
  generalize enter q c2 previousState nextState = Q0 at hQ hR ⊢
  obtain ⟨e3, hs3, _, ht3, _, h3⟩ :=
    parseInline_spec previousState text Inv Q h0 hset hfill hdef hopen hst
  have fin : ∀ (e : Effect) (s : MarkdownState), e.st = some s →
      ∃ (e2 : Effect) (s2 : MarkdownState), e2.st = some s2 ∧ e2.toks = e.toks
        ∧ setextBacktrackCheck (e.apply P) = e2.apply P
        ∧ setextBacktrackCheck (e.apply Q0) = e2.apply Q0 := by
    intro e s hs
    refine ⟨_, s, ?_, ?_, setextBacktrackCheck_apply e s hs P, ?_⟩
    · simp [Effect.andThen, hs]
    · simp [Effect.andThen]
    · rw [setextBacktrackCheck_apply e s hs Q0, hP, hQ]
  have inl : ∀ (e : Effect) (s : MarkdownState), e.st = some s →
      ∃ (e2 : Effect) (s2 : MarkdownState), e2.st = some s2 ∧ e2.toks = e.toks ++ e3.toks
        ∧ parseInline (e.apply P) text = some (e2.apply P)
        ∧ parseInline (e.apply Q0) text = some (e2.apply Q0) := by
    intro e s hs
    refine ⟨e.andThen e3, (e3.st.getD s), ?_, rfl, ?_, ?_⟩
    · rcases hs3 with h | h <;> simp [Effect.andThen, h, hs]
    · rw [h3 (e.apply P) hP, Effect.apply_apply]
    · rw [h3 (e.apply Q0) hQ, Effect.apply_apply]
  by_cases hblank : previousState ≠ CodeBlock ∧ previousState ≠ InGithubCodeFence
      ∧ previousState ≠ InPandocCodeFence ∧ previousState ≠ Comment
      ∧ paragraphBreakRegex.exactMatch text = true
  · rw [if_pos hblank, if_pos hblank]
    by_cases hlist : previousState = ListLineBreak ∨ previousState = NumberedList
        ∨ previousState = BulletPointList
    · rw [if_pos hlist, if_pos hlist]
      obtain ⟨e2, s2, hs2, ht2, h1, h2⟩ := fin ⟨some ListLineBreak, [], false⟩ ListLineBreak rfl
      exact ⟨e2, s2, [], [], hs2, by simpa using ht2, by simp, by simp,
        by simp [Effect.setState_eq, h1], by simp [Effect.setState_eq, h2]⟩
    · rw [if_neg hlist, if_neg hlist, if_pos (Or.inl hblank.1), if_pos (Or.inl hblank.1)]
      obtain ⟨e2, s2, hs2, ht2, h1, h2⟩ := fin ⟨some ParagraphBreak, [], false⟩ ParagraphBreak rfl
      exact ⟨e2, s2, [], [], hs2, by simpa using ht2, by simp, by simp,
        by simp [Effect.setState_eq, h1], by simp [Effect.setState_eq, h2]⟩
  · rw [if_neg hblank, if_neg hblank]
    obtain ⟨b1, e1, hp1, hq1, hs1, ht1⟩ := parseBlockOnly_uniform text P Q0 hR.1
    dsimp only at hp1 hq1
    rw [hp1, hq1]
    cases b1 with
    | true =>
      obtain ⟨s1, _, hst1⟩ := hs1 rfl
      obtain ⟨e2, s2, hs2, htk, h1, h2⟩ := fin e1 s1 hst1
      exact ⟨e2, s2, e1.toks, [], hs2, by simpa using htk, ht1, by simp, by simp [h1],
        by simp [h2]⟩
    | false =>
      obtain ⟨b2, e2, hp2, hq2, hs2, ht2⟩ :=
        parseBlockWithInline_uniform text _ _ (samePrevNext_apply P Q0 e1 hR)
      dsimp only at hp2 hq2
      simp only [Bool.false_eq_true, if_false, hp2, hq2]
      have ht12 : ∀ t ∈ e1.toks ++ e2.toks, t.type ∈ blockTokenTypes := by
        intro t ht
        rcases List.mem_append.mp ht with ht | ht
        · exact ht1 t ht
        · exact ht2 t ht
      cases b2 with
      | true =>
        obtain ⟨s2, _, hst2⟩ := hs2 rfl
        simp only [if_true, Effect.apply_apply]
        obtain ⟨e4, s4, hs4, htk4, h1, h2⟩ :=
          inl (e1.andThen e2) s2 (by simp [Effect.andThen, hst2])
        obtain ⟨e5, s5, hs5, htk5, h5, h6⟩ := fin e4 s4 hs4
        exact ⟨e5, s5, e1.toks ++ e2.toks, e3.toks, hs5,
          by rw [htk5, htk4]; simp [Effect.andThen], ht12, ht3, by simp [h1, h5],
          by simp [h2, h6]⟩
      | false =>
        simp only [Bool.false_eq_true, if_false]
        obtain ⟨ef, sf, hsf, _, h1, h2, htf⟩ :=
          parseFallback_uniform text _ _
            (samePrev_apply _ _ e2 (samePrev_apply P Q0 e1 hR.1))
        rw [h1, h2]
        simp only [Effect.apply_apply]
        obtain ⟨e4, s4, hs4, htk4, h3a, h4a⟩ :=
          inl ((e1.andThen e2).andThen ef) sf (by simp [Effect.andThen, hsf])
        obtain ⟨e5, s5, hs5, htk5, h5, h6⟩ := fin e4 s4 hs4
        refine ⟨e5, s5, (e1.toks ++ e2.toks) ++ ef.toks, e3.toks, hs5,
          by rw [htk5, htk4]; simp [Effect.andThen], ?_, ht3, by simp [h3a, h5],
          by simp [h4a, h6]⟩
        intro t ht
        rcases List.mem_append.mp ht with ht | ht
        · exact ht12 t ht
        · exact htf t ht

/-- Every call of `parseLine` returns, sets the state, and acts on the parser
object in a way that depends on the text, the previous and the next state
only. -/
theorem parseLine_uniform (text : QString) (previousState nextState : MarkdownState)
    (p q : MarkdownParser) (c1 c2 : MarkdownState) :
    ∃ (e : Effect) (s : MarkdownState), e.st = some s
      ∧ parseLine p text c1 previousState nextState
          = some (e.apply (enter p c1 previousState nextState))
      ∧ parseLine q text c2 previousState nextState
          = some (e.apply (enter q c2 previousState nextState)) := by
  obtain ⟨e, s, _, _, hs, _, _, _, h1, h2⟩ :=
    parseLine_spec text previousState nextState (fun _ => True) (fun _ => True)
      trivial (fun _ _ _ => trivial) (fun _ _ _ _ => trivial) (fun _ => trivial)
      (fun _ _ _ => trivial) (fun _ _ _ _ _ _ _ _ => trivial) p q c1 c2
  exact ⟨e, s, hs, h1, h2⟩

end MarkdownParser

namespace MarkdownParser

theorem setextBacktrackCheck_state (p : MarkdownParser) :
    (setextBacktrackCheck p).state = p.state := by
  unfold setextBacktrackCheck
  split <;> rfl

theorem setextBacktrackCheck_tokens (p : MarkdownParser) :
    (setextBacktrackCheck p).tokens = p.tokens := by
  unfold setextBacktrackCheck
  split <;> rfl

theorem orElse_true_left {r : Bool × MarkdownParser} {f : MarkdownParser → Bool × MarkdownParser}
    (h : r.1 = true) : orElse r f = r := by
  simp [orElse, h]

theorem orElse_false_left {r : Bool × MarkdownParser} {f : MarkdownParser → Bool × MarkdownParser}
    (h : r.1 = false) : orElse r f = f r.2 := by
  simp [orElse, h]

/-- When `parseLine` ends in `Paragraph`, no block rule before the fallback
fired and inline scanning did not open a comment. -/
theorem paragraph_path (p : MarkdownParser) (text : QString)
    (c previousState nextState : MarkdownState) (r : MarkdownParser)
    (h : parseLine p text c previousState nextState = some r) (hs : r.state = Paragraph) :
    ¬ (previousState ≠ CodeBlock ∧ previousState ≠ InGithubCodeFence
        ∧ previousState ≠ InPandocCodeFence ∧ previousState ≠ Comment
        ∧ paragraphBreakRegex.exactMatch text = true)
    ∧ (parseBlockOnly (enter p c previousState nextState) text).1 = false
    ∧ (parseBlockWithInline (parseBlockOnly (enter p c previousState nextState) text).2 text).1
        = false
    ∧ ∃ e : Effect, e.st = none ∧
        ∀ q : MarkdownParser, q.previousState = previousState →
          parseInline q text = some (e.apply q) := by
  rw [parseLine_unfold] at h
  obtain ⟨e3, hs3, _, _, h3⟩ := parseInline_effect previousState text
  have hP : (enter p c previousState nextState).previousState = previousState := rfl
  generalize enter p c previousState nextState = P at h hP ⊢
  by_cases hblank : previousState ≠ CodeBlock ∧ previousState ≠ InGithubCodeFence
      ∧ previousState ≠ InPandocCodeFence ∧ previousState ≠ Comment
      ∧ paragraphBreakRegex.exactMatch text = true
  · exfalso
    rw [if_pos hblank] at h
    by_cases hlist : previousState = ListLineBreak ∨ previousState = NumberedList
        ∨ previousState = BulletPointList
    · rw [if_pos hlist] at h
      simp only [Option.map_some', Option.some.injEq] at h
      rw [← h, setextBacktrackCheck_state] at hs
      simp [setState] at hs
    · rw [if_neg hlist, if_pos (Or.inl hblank.1)] at h
      simp only [Option.map_some', Option.some.injEq] at h
      rw [← h, setextBacktrackCheck_state] at hs
      simp [setState] at hs
  · refine ⟨hblank, ?_⟩
    rw [if_neg hblank] at h
    obtain ⟨b1, e1, hp1, _, hs1, _⟩ := parseBlockOnly_uniform text P P rfl
    dsimp only at hp1
    rw [hp1] at h ⊢
    cases b1 with
    | true =>
      exfalso
      obtain ⟨s1, hm1, hst1⟩ := hs1 rfl
      simp only [if_true, Option.map_some', Option.some.injEq] at h
      rw [← h, setextBacktrackCheck_state] at hs
      simp only [Effect.apply_state, hst1, Option.getD_some] at hs
      rw [hs] at hm1
      simp at hm1
    | false =>
      refine ⟨rfl, ?_⟩
      simp only [Bool.false_eq_true, if_false] at h ⊢
      obtain ⟨b2, e2, hp2, _, hs2, _⟩ := parseBlockWithInline_uniform text (e1.apply P) (e1.apply P)
        ⟨rfl, rfl⟩
      dsimp only at hp2
      rw [hp2] at h ⊢
      cases b2 with
      | true =>
        exfalso
        obtain ⟨s2, hm2, hst2⟩ := hs2 rfl
        simp only [if_true] at h
        rw [h3 _ (by simpa using hP)] at h
        simp only [Option.map_some', Option.some.injEq] at h
        rw [← h, setextBacktrackCheck_state] at hs
        rcases hs3 with h0 | h0
        · simp only [Effect.apply_state, h0, hst2, Option.getD_some, Option.getD_none] at hs
          rw [hs] at hm2
          simp at hm2
        · simp [h0] at hs
      | false =>
        refine ⟨rfl, e3, ?_, h3⟩
        simp only [Bool.false_eq_true, if_false] at h
        rcases hs3 with h0 | h0
        · exact h0
        · exfalso
          obtain ⟨e4, s4, _, _, h4, _⟩ := parseFallback_uniform text (e2.apply (e1.apply P))
            (e2.apply (e1.apply P)) rfl
          rw [h4, h3 _ (by simpa using hP)] at h
          simp only [Option.map_some', Option.some.injEq] at h
          rw [← h, setextBacktrackCheck_state] at hs
          simp [h0] at hs

theorem orElse_fst_false {r : Bool × MarkdownParser} {f : MarkdownParser → Bool × MarkdownParser}
    (h : (orElse r f).1 = false) : r.1 = false := by
  cases hr : r.1
  · rfl
  · rw [orElse_true_left hr, hr] at h
    exact h

/-- With the lookahead `next` (a Setext line-2 state) and the matching line-1
state `line1` and token type `ty`: if a line ends in `Paragraph` under some
lookahead, it ends in `line1` under the lookahead `next`. -/
theorem reclassify_aux (next line1 : MarkdownState) (ty : MarkdownTokenType)
    (hstep : ∀ (x : MarkdownParser) (text : QString), x.nextState = next →
      parseSetextHeadingLine1 x text = (true, (x.setState line1).addToken (lineToken ty text)))
    (p p2 : MarkdownParser) (text : QString)
    (c c2 previousState nextState : MarkdownState) (r : MarkdownParser)
    (h : parseLine p text c previousState nextState = some r) (hs : r.state = Paragraph) :
    ∃ (r2 : MarkdownParser) (new : List Token),
      parseLine p2 text c2 previousState next = some r2
      ∧ r2.state = line1 ∧ r2.tokens = p2.tokens ++ new ∧ lineToken ty text ∈ new := by
  obtain ⟨hblank, hb1, hb2, e, hes, hinl⟩ := paragraph_path p text c previousState nextState r h hs
  rw [parseLine_unfold, if_neg hblank]
  have hQ : (enter p2 c2 previousState next).previousState = previousState := rfl
  have hQn : (enter p2 c2 previousState next).nextState = next := rfl
  have hQt : (enter p2 c2 previousState next).tokens = p2.tokens := rfl
  have hPQ : SamePrev (enter p c previousState nextState) (enter p2 c2 previousState next) := rfl
  generalize enter p c previousState nextState = P at hb1 hb2 hPQ
  generalize enter p2 c2 previousState next = Q at hQ hQn hQt hPQ ⊢
  obtain ⟨b1, e1, hp1, hq1, _⟩ := parseBlockOnly_uniform text P Q hPQ
  dsimp only at hp1 hq1
  rw [hp1] at hb1 hb2
  simp only at hb1
  subst hb1
  simp only at hb2
  rw [hq1]
  simp only [Bool.false_eq_true, if_false]
  have ha : (parseAtxHeading (e1.apply P) text).1 = false := by
    unfold parseBlockWithInline at hb2
    exact orElse_fst_false (orElse_fst_false (orElse_fst_false (orElse_fst_false hb2)))
  obtain ⟨ba, ea, hpa, hqa, _⟩ :=
    parseAtxHeading_uniform text (e1.apply P) (e1.apply Q) (samePrev_apply P Q e1 hPQ)
  dsimp only at hpa hqa
  rw [hpa] at ha
  simp only at ha
  subst ha
  have hbw : parseBlockWithInline (e1.apply Q) text
      = (true, ((ea.apply (e1.apply Q)).setState line1).addToken (lineToken ty text)) := by
    have hn : (ea.apply (e1.apply Q)).nextState = next := by simpa using hQn
    simp [parseBlockWithInline, orElse, hqa, hstep _ _ hn]
  rw [hbw]
  simp only [if_true]
  rw [hinl _ (by simpa [addToken, setState] using hQ)]
  refine ⟨_, e1.toks ++ ea.toks ++ [lineToken ty text] ++ e.toks, rfl, ?_, ?_, by simp⟩
  · rw [setextBacktrackCheck_state]
    simp [hes, addToken, setState]
  · rw [setextBacktrackCheck_tokens]
    simp [addToken, setState, hQt]

/-- The part of `parseLine` after the first group of rules: it returns, and
leaves one of the `tailStates`. -/
theorem inline_tail (X : MarkdownParser) (text : QString) :
    ∃ (e : Effect) (s : MarkdownState), e.st = some s ∧ s ∈ tailStates ∧
      (if (parseBlockWithInline X text).1 = true then
          parseInline (parseBlockWithInline X text).2 text
        else parseInline (parseFallback (parseBlockWithInline X text).2 text) text)
        = some (e.apply X) := by
  obtain ⟨e3, hs3, _, _, h3⟩ := parseInline_effect X.previousState text
  obtain ⟨b2, e2, hp2, _, hs2, _⟩ := parseBlockWithInline_uniform text X X ⟨rfl, rfl⟩
  dsimp only at hp2
  rw [hp2]
  cases b2 with
  | true =>
    obtain ⟨s2, hm2, hst2⟩ := hs2 rfl
    simp only [if_true]
    rw [h3 (e2.apply X) rfl, Effect.apply_apply]
    rcases hs3 with h0 | h0
    · refine ⟨e2.andThen e3, s2, by simp [Effect.andThen, h0, hst2], ?_, rfl⟩
      revert hm2
      cases s2 <;> simp [tailStates]
    · exact ⟨e2.andThen e3, Comment, by simp [Effect.andThen, h0], by simp [tailStates], rfl⟩
  | false =>
    simp only [Bool.false_eq_true, if_false]
    obtain ⟨e4, s4, hs4, hm4, h4, _⟩ := parseFallback_uniform text (e2.apply X) (e2.apply X) rfl
    rw [h4, h3 (e4.apply (e2.apply X)) rfl, Effect.apply_apply, Effect.apply_apply]
    rcases hs3 with h0 | h0
    · refine ⟨e2.andThen (e4.andThen e3), s4, by simp [Effect.andThen, h0, hs4], ?_, rfl⟩
      revert hm4
      cases s4 <;> simp [tailStates]
    · exact ⟨e2.andThen (e4.andThen e3), Comment, by simp [Effect.andThen, h0],
        by simp [tailStates], rfl⟩

/-- After a Setext line 1 of the level with underline character `ch`: the line
is line 2 exactly when it is an underline, and a backtrack is requested exactly
when it is not. -/
theorem setext_line2_aux (prev line2 : MarkdownState) (ty : MarkdownTokenType) (ch : QChar)
    (re : QRegExp) (hre : ∀ text, re.exactMatch text = true ↔ isUnderline ch text)
    (hprev : prev = SetextHeading1Line1 ∨ prev = SetextHeading2Line1)
    (hline2 : line2 ∈ [SetextHeading1Line2, SetextHeading2Line2])
    (hch : isSpace ch = false)
    (hcheck : ∀ (x : MarkdownParser), x.previousState = prev →
      setextBacktrackCheck x = if x.state ≠ line2 then x.requestBacktrack else x)
    (hstep : ∀ (x : MarkdownParser) (text : QString), x.previousState = prev →
      parseSetextHeadingLine2 x text
        = if re.exactMatch text = true then
            (true, (x.setState line2).addToken (lineToken ty text))
          else (false, (x.setState line2).requestBacktrack))
    (p : MarkdownParser) (text : QString) (c next : MarkdownState) :
    ∃ r, parseLine p text c prev next = some r
      ∧ (r.state = line2 ↔ isUnderline ch text)
      ∧ (isUnderline ch text → r.backtrack = p.backtrack)
      ∧ (¬ isUnderline ch text → r.backtrack = true) := by
  rw [parseLine_unfold]
  have hP : (enter p c prev next).previousState = prev := rfl
  have hPb : (enter p c prev next).backtrack = p.backtrack := rfl
  generalize enter p c prev next = P at hP hPb ⊢
  have hl2 : line2 ∉ tailStates ∧ line2 ≠ HorizontalRule ∧ line2 ≠ ParagraphBreak := by
    simp only [List.mem_cons, List.mem_singleton, List.not_mem_nil, or_false] at hline2
    rcases hline2 with h | h <;> subst h <;> simp [tailStates]
  by_cases hu : isUnderline ch text
  · have hb := not_blank_exact (isUnderline_not_blank hch hu)
    simp only [hb, Bool.false_eq_true, and_false, if_false]
    have h1 : parseBlockOnly P text = (true, (P.setState line2).addToken (lineToken ty text)) := by
      simp [parseBlockOnly, orElse, hstep P text hP, (hre text).mpr hu]
    rw [h1]
    simp only [if_true, Option.map_some']
    refine ⟨_, rfl, ?_, ?_, ?_⟩
    · rw [hcheck _ (by simpa [addToken, setState] using hP)]
      simp [addToken, setState, hu]
    · intro _
      rw [hcheck _ (by simpa [addToken, setState] using hP)]
      simp [addToken, setState, hPb]
    · intro h
      exact absurd hu h
  · by_cases hblank : paragraphBreakRegex.exactMatch text = true
    · have hc1 : prev ≠ CodeBlock ∧ prev ≠ InGithubCodeFence ∧ prev ≠ InPandocCodeFence
          ∧ prev ≠ Comment ∧ paragraphBreakRegex.exactMatch text = true := by
        rcases hprev with h | h <;> subst h <;> simp [hblank]
      have hc2 : ¬ (prev = ListLineBreak ∨ prev = NumberedList ∨ prev = BulletPointList) := by
        rcases hprev with h | h <;> subst h <;> simp
      rw [if_pos hc1, if_neg hc2, if_pos (Or.inl hc1.1)]
      simp only [Option.map_some']
      refine ⟨_, rfl, ?_, ?_, ?_⟩
      · rw [hcheck _ (by simpa [setState] using hP)]
        simp only [setState, ne_eq, hu, iff_false]
        split <;> simp [requestBacktrack, Ne.symm hl2.2.2]
      · intro h
        exact absurd h hu
      · intro _
        rw [hcheck _ (by simpa [setState] using hP)]
        simp [setState, requestBacktrack, Ne.symm hl2.2.2]
    · simp only [hblank, Bool.false_eq_true, and_false, if_false]
      have hcb : ∀ x : MarkdownParser, x.previousState = prev →
          parseCodeBlock x text = (false, x) := by
        intro x hx
        rcases hprev with h | h <;> subst h <;> simp [parseCodeBlock, hx]
      have hmc : ∀ x : MarkdownParser, x.previousState = prev →
          parseMultilineComment x text = (false, x) := by
        intro x hx
        rcases hprev with h | h <;> subst h <;> simp [parseMultilineComment, hx]
      have hX : ((P.setState line2).requestBacktrack).previousState = prev := by
        simpa [setState, requestBacktrack] using hP
      generalize hXdef : (P.setState line2).requestBacktrack = X at hX
      have hXb : X.backtrack = true := by
        rw [← hXdef]
        rfl
      have h1 : parseBlockOnly P text = parseHorizontalRule X text := by
        simp [parseBlockOnly, orElse, hstep P text hP, mt (hre text).mp hu, hXdef, hcb X hX, hmc X hX]
      rw [h1]
      by_cases hhr : hruleRegex.exactMatch text = true
      · simp only [parseHorizontalRule, hhr, if_true, Option.map_some']
        refine ⟨_, rfl, ?_, fun h => absurd h hu, ?_⟩
        · rw [hcheck _ (by simpa [setState, addToken] using hX)]
          simp only [setState, addToken, ne_eq, hu, iff_false]
          split <;> simp [requestBacktrack, Ne.symm hl2.2.1]
        · intro _
          rw [hcheck _ (by simpa [setState, addToken] using hX)]
          simp [setState, addToken, requestBacktrack, Ne.symm hl2.2.1]
      · simp only [parseHorizontalRule, hhr, Bool.false_eq_true, if_false]
        obtain ⟨e, s, hs, hm, hrun⟩ := inline_tail X text
        rw [hrun]
        simp only [Option.map_some']
        have hne : s ≠ line2 := fun h => hl2.1 (h ▸ hm)
        refine ⟨_, rfl, ?_, fun h => absurd h hu, ?_⟩
        · rw [hcheck _ (by simpa using hX)]
          simp only [Effect.apply_state, hs, Option.getD_some, ne_eq, hne, not_false_eq_true,
            if_true, hu, iff_false]
          simpa [requestBacktrack, hs] using hne
        · intro _
          rw [hcheck _ (by simpa using hX)]
          simp [Effect.apply_state, hs, hne, requestBacktrack]

theorem not_underline_github {text : QString} (h : ¬ isUnderline 96 text) :
    githubCodeFenceEndRegex.exactMatch text = false := by
  cases hb : githubCodeFenceEndRegex.exactMatch text
  · rfl
  · exact absurd (githubCodeFenceEnd_iff.mp hb) h

theorem not_underline_pandoc {text : QString} (h : ¬ isUnderline (qc '~') text) :
    pandocCodeFenceEndRegex.exactMatch text = false := by
  cases hb : pandocCodeFenceEndRegex.exactMatch text
  · rfl
  · exact absurd (pandocCodeFenceEnd_iff.mp hb) h

end MarkdownParser

namespace MarkdownParser

theorem escFrom_false (s : QString) : ∀ i, escFrom false s i = isEscaped s i := by
  intro i
  induction i with
  | zero => rfl
  | succ i ih => simp [escFrom, isEscaped, ih]

theorem escFrom_cons (b : Bool) (c : QChar) (t : QString) :
    ∀ j, escFrom b (c :: t) (j + 1) = escFrom (!b && c == qc '\\') t j := by
  intro j
  induction j with
  | zero => simp [escFrom, Bool.and_comm]
  | succ j ih =>
    rw [escFrom, ih]
    simp [escFrom]

theorem dummyOutLoop_get : ∀ (s : QString) (b : Bool) (i : Nat) (c : QChar),
    (dummyOutLoop b s)[i]? = some c → escFrom b s i = true → c = DUMMY_CHAR := by
  intro s
  induction s with
  | nil => intro b i c h; cases b <;> simp [dummyOutLoop] at h
  | cons a t ih =>
    intro b i c h he
    cases b with
    | true =>
      cases i with
      | zero =>
        simp [dummyOutLoop] at h
        exact h.symm
      | succ j =>
        simp only [dummyOutLoop, List.getElem?_cons_succ] at h
        rw [escFrom_cons] at he
        exact ih false j c h (by simpa using he)
    | false =>
      cases i with
      | zero => simp [escFrom] at he
      | succ j =>
        simp only [dummyOutLoop, List.getElem?_cons_succ] at h
        rw [escFrom_cons] at he
        exact ih _ j c h (by simpa using he)

theorem escapesMasked_dummyOut (text : QString) :
    EscapesMasked text (dummyOutEscapeCharacters text) := by
  intro i c h he
  exact dummyOutLoop_get text false i c h (by rw [escFrom_false]; exact he)

theorem escapesMasked_set {text w : QString} (h : EscapesMasked text w) (k : Nat) :
    EscapesMasked text (w.set k DUMMY_CHAR) := by
  intro i c hc he
  rw [List.getElem?_set] at hc
  split at hc
  · split at hc
    · simp at hc
      exact hc.symm
    · simp at hc
  · exact h i c hc he

theorem escapesMasked_fillRange {text w : QString} (h : EscapesMasked text w) (lo hi : Nat) :
    EscapesMasked text (fillRange w lo hi DUMMY_CHAR) := by
  unfold fillRange
  generalize List.range (hi - lo) = ks
  induction ks generalizing w with
  | nil => exact h
  | cons k ks ih => exact ih (escapesMasked_set h _)

theorem getElem?_mid (a d c : QChar) (v t : QString) :
    (a :: (v ++ d :: c :: t))[v.length + 2]? = some c := by
  induction v generalizing a with
  | nil => simp
  | cons x v ih =>
    have := ih x
    simpa using this

theorem emphasisBranch_ends {n : Nat} {c : Char} {s t : QString}
    (h : t ∈ RE.ends n (emphasisBranch c) s) :
    ∃ v d, s = qc c :: (v ++ d :: qc c :: t) := by
  simp only [emphasisBranch, RE.cat, RE.mem_ends_seq, RE.mem_ends_chr, RE.mem_ends_look, RE.dot,
    RE.mem_ends_star_cls, RE.mem_ends_cls] at h
  obtain ⟨u1, h1, u2, ⟨h2, _⟩, u3, ⟨v, h3, _⟩, u4, ⟨d, h4, _⟩, h5⟩ := h
  subst h2
  exact ⟨v, d, by rw [h1, h3, h4, h5]⟩

/-- A match of the emphasis pattern starts and ends with the same delimiter,
`*` or `_`, and is at least three characters long. -/
theorem emphasis_match {w : QString} {off i l : Nat}
    (h : emphasisRegex.indexIn w off = some (i, l)) :
    ∃ c, (c = qc '*' ∨ c = qc '_') ∧ w[i]? = some c ∧ w[i + l - 1]? = some c ∧ 3 ≤ l := by
  obtain ⟨_, _, hm⟩ := QRegExp.indexIn_some h
  obtain ⟨t, ht, hl⟩ := QRegExp.matchHere_some hm
  have key : ∃ (c : Char) (v : QString) (d : QChar), (qc c = qc '*' ∨ qc c = qc '_')
      ∧ w.drop i = qc c :: (v ++ d :: qc c :: t) := by
    simp only [emphasisRegex, RE.mem_ends_alt] at ht
    rcases ht with ht | ht
    · obtain ⟨v, d, hs⟩ := emphasisBranch_ends ht
      exact ⟨'*', v, d, Or.inl rfl, hs⟩
    · obtain ⟨v, d, hs⟩ := emphasisBranch_ends ht
      exact ⟨'_', v, d, Or.inr rfl, hs⟩
  obtain ⟨c, v, d, hc, hs⟩ := key
  have hlen : l = v.length + 3 := by
    rw [hl, hs]
    simp
    omega
  refine ⟨qc c, hc, ?_, ?_, by omega⟩
  · have : (w.drop i)[0]? = some (qc c) := by rw [hs]; simp
    simpa using this
  · have : (w.drop i)[v.length + 2]? = some (qc c) := by
      rw [hs]
      exact getElem?_mid _ _ _ _ _
    rw [List.getElem?_drop] at this
    rw [hlen]
    have he : i + (v.length + 3) - 1 = i + (v.length + 2) := by omega
    rw [he]
    exact this

theorem mem_noLookahead {next : MarkdownState}
    (h : next ∉ [SetextHeading1Line2, SetextHeading2Line2]) : next ∈ noLookahead := by
  revert h
  cases next <;> simp [noLookahead]

/-- What `parseLine` yields from a parser object that has emitted nothing, it
yields from every parser object: the same state, the same tokens after those
already held, the same backtrack request. -/
theorem parseLine_of_fresh {text : QString} {previousState nextState s : MarkdownState}
    {toks : List Token} {bt : Bool}
    (h : (parseLine (fresh Unknown) text Unknown previousState nextState).map view
      = some (s, toks, bt))
    (p : MarkdownParser) (c : MarkdownState) :
    ∃ r, parseLine p text c previousState nextState = some r
      ∧ r.state = s ∧ r.tokens = p.tokens ++ toks ∧ r.backtrack = (p.backtrack || bt) := by
  obtain ⟨e, s2, hs, h1, h2⟩ :=
    parseLine_uniform text previousState nextState p (fresh Unknown) c Unknown
  rw [h2] at h
  simp only [Option.map_some', Option.some.injEq, view, Prod.mk.injEq, Effect.apply_state,
    Effect.apply_tokens, Effect.apply_backtrack, hs, Option.getD_some] at h
  obtain ⟨hst, htk, hbt⟩ := h
  have htk2 : e.toks = toks := by simpa [enter, fresh] using htk
  have hbt2 : e.bt = bt := by simpa [enter, fresh] using hbt
  refine ⟨_, h1, ?_, ?_, ?_⟩
  · simp [hs, hst]
  · simp [enter, htk2]
  · simp [enter, hbt2]

end MarkdownParser

namespace MarkdownParser

/-- The token of every match of an inline pattern in a working text with
masked escapes: if it is an emphasis token, its ends are not escaped. -/
theorem emphasis_stage (text : QString) :
    ∀ st ∈ inlineStages, ∀ w off i l, EscapesMasked text w →
      st.2.1.indexIn w off = some (i, l) →
      (matchToken st.1 st.2.2.1 st.2.2.2 i l).type = TokenEmphasis →
        UnescapedEnds text (matchToken st.1 st.2.2.1 st.2.2.2 i l) := by
  intro st hst w off i l hinv hm hty
  simp only [inlineStages, List.mem_cons, List.mem_singleton, List.not_mem_nil,
    or_false] at hst
  rcases hst with rfl | rfl | rfl | rfl | rfl | rfl | rfl | rfl | rfl | rfl | rfl <;>
    first
    | (simp [matchToken] at hty; done)
    | skip
  obtain ⟨c, hc, h1, h2, h3⟩ := emphasis_match hm
  have hne : c ≠ DUMMY_CHAR := by
    rcases hc with rfl | rfl <;> decide
  refine ⟨i, l, rfl, rfl, by omega, ?_, ?_⟩
  · cases he : isEscaped text i
    · rfl
    · exact absurd (hinv i c h1 he) hne
  · cases he : isEscaped text (i + l - 1)
    · rfl
    · exact absurd (hinv (i + l - 1) c h2 he) hne

/-- Every emphasis token that a call of `parseLine` emits starts and ends at a
position that is not escaped. -/
theorem emphasis_not_escaped (p : MarkdownParser) (text : QString)
    (c previousState nextState : MarkdownState) :
    ∃ (r : MarkdownParser) (new : List Token),
      parseLine p text c previousState nextState = some r
      ∧ r.tokens = p.tokens ++ new
      ∧ ∀ t ∈ new, t.type = TokenEmphasis → UnescapedEnds text t := by
  obtain ⟨e, _, blk, inl, _, htoks, hblk, hinl, h1, _⟩ :=
    parseLine_spec text previousState nextState (EscapesMasked text)
      (fun t => t.type = TokenEmphasis → UnescapedEnds text t)
      (escapesMasked_dummyOut text) (fun _ k h => escapesMasked_set h k)
      (fun _ lo hi h => escapesMasked_fillRange h lo hi)
      (fun _ hty => by simp [referenceDefinitionToken] at hty)
      (fun _ _ _ hty => by simp [openCommentToken] at hty)
      (emphasis_stage text) p p c c
  refine ⟨_, e.toks, h1, rfl, ?_⟩
  intro t ht hty
  rw [htoks] at ht
  rcases List.mem_append.mp ht with ht | ht
  · have := hblk t ht
    rw [hty] at this
    simp [blockTokenTypes] at this
  · exact (hinl t ht).2 hty

theorem not_emphasis_eval : ∀ prev ∈ [Unknown, ParagraphBreak, Paragraph], ∀ next ∈ noLookahead,
    (parseLine (fresh Unknown) (qs "\\*not emphasis\\*") Unknown prev next).map view
      = some (Paragraph, [], false) := by
  decide!

theorem is_emphasis_eval : ∀ prev ∈ [Unknown, ParagraphBreak, Paragraph], ∀ next ∈ noLookahead,
    (parseLine (fresh Unknown) (qs "*is emphasis*") Unknown prev next).map view
      = some (Paragraph, [⟨TokenEmphasis, 0, 13, 1, 1⟩], false) := by
  decide!

end MarkdownParser

namespace RE

theorem within_cls {P : QChar → Prop} {p : QChar → Bool} (h : ∀ c, p c = true → P c) :
    Within P (cls p) := by
  intro n s t ht
  obtain ⟨c, rfl, hc⟩ := mem_ends_cls.mp ht
  exact ⟨[c], rfl, by simpa using h c hc⟩

theorem within_seq {P : QChar → Prop} {a b : RE} (ha : Within P a) (hb : Within P b) :
    Within P (seq a b) := by
  intro n s t ht
  obtain ⟨u, hu, htu⟩ := mem_ends_seq.mp ht
  obtain ⟨w1, rfl, h1⟩ := ha n s u hu
  obtain ⟨w2, rfl, h2⟩ := hb n u t htu
  refine ⟨w1 ++ w2, by simp, ?_⟩
  intro c hc
  rcases List.mem_append.mp hc with hc | hc
  · exact h1 c hc
  · exact h2 c hc

theorem within_alt {P : QChar → Prop} {a b : RE} (ha : Within P a) (hb : Within P b) :
    Within P (alt a b) := by
  intro n s t ht
  rcases mem_ends_alt.mp ht with ht | ht
  · exact ha n s t ht
  · exact hb n s t ht

theorem within_starLoop {P : QChar → Prop} {f : QString → List QString}
    (hf : ∀ s t, t ∈ f s → ∃ w, s = w ++ t ∧ ∀ c ∈ w, P c) :
    ∀ k s t, t ∈ starLoop f k s → ∃ w, s = w ++ t ∧ ∀ c ∈ w, P c := by
  intro k
  induction k with
  | zero =>
    intro s t h
    simp only [starLoop, List.mem_singleton] at h
    exact ⟨[], by simp [h], by simp⟩
  | succ k ih =>
    intro s t h
    simp only [starLoop, List.mem_cons, List.mem_flatMap, List.mem_filter] at h
    rcases h with h | ⟨u, ⟨hu, _⟩, ht⟩
    · exact ⟨[], by simp [h], by simp⟩
    · obtain ⟨w1, rfl, h1⟩ := hf s u hu
      obtain ⟨w2, rfl, h2⟩ := ih u t ht
      refine ⟨w1 ++ w2, by simp, ?_⟩
      intro c hc
      rcases List.mem_append.mp hc with hc | hc
      · exact h1 c hc
      · exact h2 c hc

theorem within_star {P : QChar → Prop} {a : RE} (ha : Within P a) : Within P (star a) := by
  intro n s t ht
  simp only [ends] at ht
  exact within_starLoop (ha n) _ s t ht

theorem within_exactMatch {P : QChar → Prop} {re : QRegExp} (h : Within P re.pattern)
    (hmin : re.minimal = false) {text : QString} (hm : re.exactMatch text = true) :
    ∀ c ∈ text, P c := by
  obtain ⟨w, hw, hc⟩ := h _ _ _ ((QRegExp.exactMatch_iff hmin).mp hm)
  rw [hw, List.append_nil]
  exact hc

theorem mem_ends_upTo3_cls {n : Nat} {p : QChar → Bool} {s t : QString} :
    t ∈ ends n (upTo3 (cls p)) s ↔
      ∃ w, s = w ++ t ∧ w.length ≤ 3 ∧ ∀ c ∈ w, p c = true := by
  simp only [upTo3, mem_ends_seq, mem_ends_opt, mem_ends_cls]
  constructor
  · rintro ⟨u1, h1, u2, h2, h3⟩
    rcases h1 with ⟨c1, rfl, hc1⟩ | rfl <;> rcases h2 with ⟨c2, rfl, hc2⟩ | rfl <;>
      rcases h3 with ⟨c3, rfl, hc3⟩ | rfl
    · exact ⟨[c1, c2, c3], rfl, by simp, by simp [hc1, hc2, hc3]⟩
    · exact ⟨[c1, c2], rfl, by simp, by simp [hc1, hc2]⟩
    · exact ⟨[c1, c3], rfl, by simp, by simp [hc1, hc3]⟩
    · exact ⟨[c1], rfl, by simp, by simp [hc1]⟩
    · exact ⟨[c2, c3], rfl, by simp, by simp [hc2, hc3]⟩
    · exact ⟨[c2], rfl, by simp, by simp [hc2]⟩
    · exact ⟨[c3], rfl, by simp, by simp [hc3]⟩
    · exact ⟨[], rfl, by simp, by simp⟩
  · rintro ⟨w, rfl, hlen, hw⟩
    match w, hlen, hw with
    | [], _, _ => exact ⟨_, Or.inr rfl, _, Or.inr rfl, Or.inr rfl⟩
    | [a], _, hw =>
      exact ⟨_, Or.inr rfl, _, Or.inr rfl, Or.inl ⟨a, rfl, hw a (by simp)⟩⟩
    | [a, b], _, hw =>
      exact ⟨_, Or.inr rfl, _, Or.inl ⟨a, rfl, hw a (by simp)⟩, Or.inl ⟨b, rfl, hw b (by simp)⟩⟩
    | [a, b, c], _, hw =>
      exact ⟨_, Or.inl ⟨a, rfl, hw a (by simp)⟩, _, Or.inl ⟨b, rfl, hw b (by simp)⟩,
        Or.inl ⟨c, rfl, hw c (by simp)⟩⟩
    | _ :: _ :: _ :: _ :: _, hlen, _ => simp at hlen

theorem mem_ends_plus_cls {n : Nat} {p : QChar → Bool} {s t : QString} :
    t ∈ ends n (plus (cls p)) s ↔
      ∃ w, s = w ++ t ∧ w ≠ [] ∧ ∀ c ∈ w, p c = true := by
  simp only [mem_ends_plus, mem_ends_cls, mem_ends_star_cls]
  constructor
  · rintro ⟨u, ⟨c, rfl, hc⟩, w, rfl, hw⟩
    refine ⟨c :: w, rfl, by simp, ?_⟩
    intro d hd
    rcases List.mem_cons.mp hd with rfl | hd
    · exact hc
    · exact hw d hd
  · rintro ⟨w, rfl, hne, hw⟩
    cases w with
    | nil => exact absurd rfl hne
    | cons c w =>
      exact ⟨w ++ t, ⟨c, rfl, hw c (by simp)⟩, w, rfl, fun d hd => hw d (by simp [hd])⟩

end RE

namespace MarkdownParser

/-- Two ways to split a string into a run of `sp` and a rest that starts with
another character agree. -/
theorem run_prefix_unique (sp : QChar) :
    ∀ (w1 w2 : QString) (a b : QChar) (x y : QString),
      (∀ c ∈ w1, c = sp) → (∀ c ∈ w2, c = sp) → a ≠ sp → b ≠ sp →
      w1 ++ a :: x = w2 ++ b :: y → w1 = w2 ∧ a = b ∧ x = y := by
  intro w1
  induction w1 with
  | nil =>
    intro w2 a b x y _ h2 ha _ h
    cases w2 with
    | nil =>
      simp only [List.nil_append, List.cons.injEq] at h
      exact ⟨rfl, h.1, h.2⟩
    | cons c w2 =>
      simp only [List.nil_append, List.cons_append, List.cons.injEq] at h
      exact absurd (h.1.trans (h2 c (List.mem_cons_self _ _))) ha
  | cons c w1 ih =>
    intro w2 a b x y h1 h2 ha hb h
    cases w2 with
    | nil =>
      simp only [List.nil_append, List.cons_append, List.cons.injEq] at h
      exact absurd (h.1.symm.trans (h1 c (List.mem_cons_self _ _))) hb
    | cons d w2 =>
      simp only [List.cons_append, List.cons.injEq] at h
      obtain ⟨h3, h4, h5⟩ := ih w2 a b x y (fun e he => h1 e (List.mem_cons_of_mem _ he))
        (fun e he => h2 e (List.mem_cons_of_mem _ he)) ha hb h.2
      exact ⟨by rw [h.1, h3], h4, h5⟩

theorem numberedList_iff {text : QString} :
    numberedListRegex.exactMatch text = true ↔ ∃ k dg, isNumberedItem text k dg := by
  rw [QRegExp.exactMatch_iff rfl]
  simp only [numberedListRegex, RE.cat, digit, dotOrParen, RE.space, RE.dot, RE.chr,
    RE.mem_ends_seq, RE.mem_ends_bol, RE.mem_ends_upTo3_cls, RE.mem_ends_plus_cls,
    RE.mem_ends_cls, RE.mem_ends_star_cls, RE.mem_ends_eol]
  constructor
  · rintro ⟨_, ⟨rfl, _⟩, u1, ⟨sp, h1, hsp3, hsp⟩, u2, ⟨dg, h2, hdg0, hdg⟩, u3, ⟨m, h3, hm⟩,
      u4, ⟨ws, h4, hws0, hws⟩, u5, ⟨rest, h5, _⟩, _, h6⟩
    subst h6
    refine ⟨sp.length, dg, m, ws, rest, ?_, hsp3, hdg0, hdg, by simpa using hm, hws0, hws⟩
    rw [h1, h2, h3, h4, h5, ← all_eq_replicate sp hsp]
    simp
  · rintro ⟨k, dg, m, ws, rest, rfl, hk, hdg0, hdg, hm, hws0, hws⟩
    exact ⟨_, ⟨rfl, trivial⟩, _, ⟨List.replicate k (qc ' '), rfl, by simpa using hk,
      by simp [List.mem_replicate]⟩, _, ⟨dg, rfl, hdg0, hdg⟩, _, ⟨m, rfl, by simpa using hm⟩,
      _, ⟨ws, rfl, hws0, hws⟩, [], ⟨rest, by simp, by simp⟩, rfl, rfl⟩

theorem isDigit_bounds {d : Nat} (h : isDigit d = true) : (48 : Nat) ≤ d ∧ d ≤ (57 : Nat) := by
  simpa [isDigit, qc] using h

theorem isDigit_not_space {d : Nat} (h : isDigit d = true) : isSpace d = false := by
  have hb := isDigit_bounds h
  have h1 : (d == 32) = false := by simp; omega
  have h2 : decide (d ≤ 13) = false := by simp; omega
  have h3 : (d == 133) = false := by simp; omega
  have h4 : (d == 160) = false := by simp; omega
  have h5 : (d == 5760) = false := by simp; omega
  have h6 : decide (8192 ≤ d) = false := by simp; omega
  have h7 : (d == 8232) = false := by simp; omega
  have h8 : (d == 8233) = false := by simp; omega
  have h9 : (d == 8239) = false := by simp; omega
  have h10 : (d == 8287) = false := by simp; omega
  have h11 : (d == 12288) = false := by simp; omega
  simp [isSpace, h1, h2, h3, h4, h5, h6, h7, h8, h9, h10, h11]

/-- A numbered item is its leading spaces, then a digit, then a tail. -/
theorem numbered_shape {text : QString} {k : Nat} {dg : QString}
    (h : isNumberedItem text k dg) :
    ∃ d tail, isDigit d = true ∧ text = List.replicate k (qc ' ') ++ d :: tail ∧ k ≤ 3 := by
  obtain ⟨m, ws, rest, rfl, hk, hdg0, hdg, _, _, _⟩ := h
  cases dg with
  | nil => exact absurd rfl hdg0
  | cons d dg => exact ⟨d, dg ++ m :: (ws ++ rest), hdg d (by simp), by simp, hk⟩


theorem digitStart_head {text : QString} (h : DigitStart text) :
    ∃ c t, text = c :: t ∧ (c = qc ' ' ∨ isDigit c = true) := by
  obtain ⟨k, d, tail, hd, rfl, _⟩ := h
  cases k with
  | zero => exact ⟨d, tail, rfl, Or.inr hd⟩
  | succ k => exact ⟨qc ' ', List.replicate k (qc ' ') ++ d :: tail, by simp [List.replicate_succ],
      Or.inl rfl⟩

theorem digitStart_not_blank {text : QString} (h : DigitStart text) : ¬ isBlank text := by
  obtain ⟨k, d, tail, hd, rfl, _⟩ := h
  intro hb
  have := hb d (by simp)
  rw [isDigit_not_space hd] at this
  exact Bool.noConfusion this

theorem digitStart_not_indented {text : QString} (h : DigitStart text) :
    startsWith text (qs "\t") = false ∧ startsWith text (qs "    ") = false := by
  obtain ⟨k, d, tail, hd, rfl, hk⟩ := h
  have hb := isDigit_bounds hd
  have h32 : ¬ (32 : Nat) = d := by omega
  have h9 : ¬ (9 : Nat) = d := by omega
  match k, hk with
  | 0, _ => simp [startsWith, qs, qc, List.isPrefixOf, h32, h9]
  | 1, _ => simp [startsWith, qs, qc, List.isPrefixOf, List.replicate, h32, h9]
  | 2, _ => simp [startsWith, qs, qc, List.isPrefixOf, List.replicate, h32, h9]
  | 3, _ => simp [startsWith, qs, qc, List.isPrefixOf, List.replicate, h32, h9]

/-- An anchored pattern that starts with a character class matches only lines
that start with a character of the class. -/
theorem exactMatch_head {re : QRegExp} {p : QChar → Bool} {rest : RE} {text : QString}
    (hmin : re.minimal = false) (hpat : re.pattern = RE.seq RE.bol (RE.seq (RE.cls p) rest))
    (hm : re.exactMatch text = true) : ∃ c t, text = c :: t ∧ p c = true := by
  have h := (QRegExp.exactMatch_iff hmin).mp hm
  rw [hpat] at h
  simp only [RE.mem_ends_seq, RE.mem_ends_bol, RE.mem_ends_cls] at h
  obtain ⟨_, ⟨rfl, _⟩, u, ⟨c, hc, hp⟩, _⟩ := h
  exact ⟨c, u, hc, hp⟩

theorem digitStart_not_fence {text : QString} (h : DigitStart text) :
    githubCodeFenceStartRegex.exactMatch text = false
      ∧ pandocCodeFenceStartRegex.exactMatch text = false := by
  obtain ⟨c, t, rfl, hc⟩ := digitStart_head h
  have hne : c ≠ 96 ∧ c ≠ 126 := by
    rcases hc with rfl | hc
    · decide
    · have hb := isDigit_bounds hc
      constructor <;> intro h0 <;> rw [h0] at hb <;> revert hb <;> decide
  constructor
  · cases hm : githubCodeFenceStartRegex.exactMatch (c :: t)
    · rfl
    · obtain ⟨c2, t2, h1, h2⟩ := exactMatch_head rfl rfl hm
      simp only [List.cons.injEq] at h1
      simp only [beq_iff_eq] at h2
      exact absurd (h1.1.trans h2) hne.1
  · cases hm : pandocCodeFenceStartRegex.exactMatch (c :: t)
    · rfl
    · obtain ⟨c2, t2, h1, h2⟩ := exactMatch_head rfl rfl hm
      simp only [List.cons.injEq] at h1
      simp only [beq_iff_eq] at h2
      exact absurd (h1.1.trans h2) hne.2


theorem hruleBranch_within (c : Char) (hc : isRuleChar (qc c)) :
    RE.Within isRuleChar (hruleBranch c) := by
  have hsp : RE.Within isRuleChar (RE.star RE.space) :=
    RE.within_star (RE.within_cls (fun _ h => Or.inl h))
  have hch : RE.Within isRuleChar (RE.seq (RE.chr c) (RE.star RE.space)) :=
    RE.within_seq (RE.within_cls (fun x h => by
      have : x = qc c := by simpa using h
      rw [this]
      exact hc)) hsp
  exact RE.within_seq hsp
    (RE.within_seq hch (RE.within_seq hch (RE.within_seq hch (RE.within_star hch))))

theorem hrule_within : RE.Within isRuleChar hruleRegex.pattern :=
  RE.within_alt (hruleBranch_within '*' (Or.inr (Or.inl rfl)))
    (RE.within_alt (hruleBranch_within '_' (Or.inr (Or.inr (Or.inl rfl))))
      (hruleBranch_within '-' (Or.inr (Or.inr (Or.inr rfl)))))

theorem digitStart_not_hrule {text : QString} (h : DigitStart text) :
    hruleRegex.exactMatch text = false := by
  obtain ⟨k, d, tail, hd, rfl, _⟩ := h
  cases hm : hruleRegex.exactMatch (List.replicate k (qc ' ') ++ d :: tail)
  · rfl
  · exfalso
    have := RE.within_exactMatch hrule_within rfl hm d (by simp)
    have hb := isDigit_bounds hd
    rcases this with h1 | h1 | h1 | h1
    · rw [isDigit_not_space hd] at h1
      exact Bool.noConfusion h1
    · rw [h1] at hb; revert hb; decide
    · rw [h1] at hb; revert hb; decide
    · rw [h1] at hb; revert hb; decide

theorem digitStart_not_atx {text : QString} (h : DigitStart text) (p : MarkdownParser) :
    parseAtxHeading p text = (false, p) := by
  obtain ⟨c, t, rfl, hc⟩ := digitStart_head h
  have hne : c ≠ 35 := by
    rcases hc with rfl | hc
    · decide
    · have hb := isDigit_bounds hc
      intro h0
      rw [h0] at hb
      revert hb
      decide
  have hb : (c == 35) = false := by simpa using hne
  have hl : atxLevel (dummyOutEscapeCharacters (c :: t)) = 0 := by
    simp [atxLevel, dummyOutEscapeCharacters, dummyOutLoop, MAX_MARKDOWN_HEADING_LEVEL,
      List.takeWhile, qc, hb]
  simp [parseAtxHeading, hl]

theorem digitStart_not_blockquote {text : QString} (h : DigitStart text) :
    blockquoteRegex.exactMatch text = false := by
  obtain ⟨k, d, tail, hd, rfl, _⟩ := h
  cases hm : blockquoteRegex.exactMatch (List.replicate k (qc ' ') ++ d :: tail)
  · rfl
  · exfalso
    have h2 := (QRegExp.exactMatch_iff rfl).mp hm
    simp only [blockquoteRegex, RE.cat, RE.chr, RE.mem_ends_seq, RE.mem_ends_bol,
      RE.mem_ends_upTo3_cls, RE.mem_ends_cls] at h2
    obtain ⟨_, ⟨rfl, _⟩, u1, ⟨w, hw, _, hsp⟩, u2, ⟨c, hc, hgt⟩, _⟩ := h2
    have hb := isDigit_bounds hd
    have hcv : c = 62 := by simpa [qc] using hgt
    rw [hc] at hw
    have := run_prefix_unique (qc ' ') (List.replicate k (qc ' ')) w d c tail u2
      (fun e he => (List.mem_replicate.mp he).2) (fun e he => by simpa using hsp e he)
      (by intro h0; rw [h0] at hb; revert hb; decide) (by rw [hcv]; decide) hw
    rw [this.2.1, hcv] at hb
    revert hb
    decide

theorem numbered_counts {text : QString} {k : Nat} {dg : QString}
    (h : isNumberedItem text k dg) : leadingSpaces text = k ∧ leadingDigits text = dg.length := by
  obtain ⟨m, ws, rest, rfl, hk, hdg0, hdg, hm, _, _⟩ := h
  have hsp : ∀ a ∈ List.replicate k (qc ' '), (a == qc ' ') = true := by
    intro a ha
    simp [(List.mem_replicate.mp ha).2]
  have hmd : isDigit m = false := by
    rcases hm with rfl | rfl <;> decide
  cases dg with
  | nil => exact absurd rfl hdg0
  | cons d dg =>
    have hd := hdg d (by simp)
    have hdsp : (d == qc ' ') = false := by
      have hb := isDigit_bounds hd
      simp only [beq_eq_false_iff_ne, ne_eq]
      intro h0
      rw [h0] at hb
      revert hb
      decide
    constructor
    · simp [leadingSpaces, List.takeWhile_append_of_pos hsp, hdsp]
    · have hdd : ∀ a ∈ d :: dg, isDigit a = true := hdg
      simp only [leadingDigits, List.dropWhile_append_of_pos hsp]
      have h1 : List.dropWhile (fun x => x == qc ' ') (d :: dg ++ m :: (ws ++ rest))
          = d :: dg ++ m :: (ws ++ rest) := by
        simp [List.dropWhile, hdsp]
      rw [h1, List.takeWhile_append_of_pos hdd, List.takeWhile_cons_of_neg (by simp [hmd])]
      simp

theorem indexOfChar_found (pre tail : QString) {c : QChar} (h : c ∉ pre) :
    indexOfChar (pre ++ c :: tail) c = (pre.length : Int) := by
  have : List.indexOf c (pre ++ c :: tail) = pre.length := by
    rw [List.indexOf_append_of_not_mem h, List.indexOf_cons_self]
    rfl
  simp [indexOfChar, this]

theorem indexOfChar_later (pre tail : QString) {c m : QChar} (h : c ∉ pre) (hm : m ≠ c) :
    indexOfChar (pre ++ m :: tail) c = -1
      ∨ indexOfChar (pre ++ m :: tail) c > (pre.length : Int) := by
  have hi : List.indexOf c (pre ++ m :: tail) = pre.length + (List.indexOf c tail + 1) := by
    rw [List.indexOf_append_of_not_mem h, List.indexOf_cons_ne _ hm]
  unfold indexOfChar
  rw [hi]
  split
  · right
    omega
  · left
    rfl

/-- On a numbered item after a paragraph break or at the start, the list rule
fires: one token with the marker length, state `NumberedList`. -/
theorem parseNumberedList_item {text : QString} {k : Nat} {dg : QString}
    (h : isNumberedItem text k dg) (p : MarkdownParser)
    (hp : p.previousState = ParagraphBreak ∨ p.previousState = Unknown) :
    parseNumberedList p text
      = (true, (p.addToken ⟨TokenNumberedList, 0, (text.length : Int),
          ((k + dg.length + 1 : Nat) : Int), 0⟩).setState NumberedList) := by
  have hre : numberedListRegex.exactMatch text = true := numberedList_iff.mpr ⟨k, dg, h⟩
  obtain ⟨m, ws, rest, htext, _, _, hdg, hm, _, _⟩ := h
  have hnot : ∀ c : QChar, (c = qc '.' ∨ c = qc ')') →
      c ∉ List.replicate k (qc ' ') ++ dg := by
    intro c hc hmem
    rcases List.mem_append.mp hmem with h1 | h1
    · rw [(List.mem_replicate.mp h1).2] at hc
      revert hc
      decide
    · have hb := isDigit_bounds (hdg c h1)
      rcases hc with rfl | rfl <;> revert hb <;> decide
  have htext2 : text = (List.replicate k (qc ' ') ++ dg) ++ m :: (ws ++ rest) := by
    rw [htext, List.append_assoc]
  have hlen : (List.replicate k (qc ' ') ++ dg).length = k + dg.length := by simp
  have key : (if indexOfChar text (qc '.') < 0 then indexOfChar text (qc ')')
      else if indexOfChar text (qc ')') < 0 then indexOfChar text (qc '.')
      else if indexOfChar text (qc ')') > indexOfChar text (qc '.') then indexOfChar text (qc '.')
      else indexOfChar text (qc ')')) = ((k + dg.length : Nat) : Int) := by
    rcases hm with rfl | rfl
    · have h1 := indexOfChar_found _ (ws ++ rest) (hnot (qc '.') (Or.inl rfl))
      have h2 := indexOfChar_later _ (ws ++ rest) (m := qc '.')
        (hnot (qc ')') (Or.inr rfl)) (by decide)
      rw [← htext2, hlen] at h1 h2
      rw [h1]
      rcases h2 with h2 | h2
      · rw [h2]
        simp
        omega
      · split_ifs <;> omega
    · have h1 := indexOfChar_found _ (ws ++ rest) (hnot (qc ')') (Or.inr rfl))
      have h2 := indexOfChar_later _ (ws ++ rest) (m := qc ')')
        (hnot (qc '.') (Or.inl rfl)) (by decide)
      rw [← htext2, hlen] at h1 h2
      rw [h1]
      rcases h2 with h2 | h2
      · rw [h2]
        simp
      · split_ifs <;> omega
  simp only [parseNumberedList, hre, and_true, hp, true_or, if_true, key]
  have hge : ((k + dg.length : Nat) : Int) ≥ 0 := by omega
  simp only [hge, if_true]
  simp

end MarkdownParser

namespace MarkdownParser

theorem numbered_firstMarker {text : QString} {k : Nat} {dg : QString}
    (h : isNumberedItem text k dg) : firstMarkerIndex text = k + dg.length := by
  obtain ⟨m, ws, rest, rfl, _, _, hdg, hm, _, _⟩ := h
  have hpre : ∀ a ∈ List.replicate k (qc ' ') ++ dg,
      (!(a == qc '.' || a == qc ')')) = true := by
    intro a ha
    rcases List.mem_append.mp ha with h1 | h1
    · rw [(List.mem_replicate.mp h1).2]
      decide
    · have hb := isDigit_bounds (hdg a h1)
      have h2 : (a == qc '.') = false := by
        simp only [beq_eq_false_iff_ne, ne_eq]
        intro h0
        rw [h0] at hb
        revert hb
        decide
      have h3 : (a == qc ')') = false := by
        simp only [beq_eq_false_iff_ne, ne_eq]
        intro h0
        rw [h0] at hb
        revert hb
        decide
      simp [h2, h3]
  have hm2 : (m == qc '.' || m == qc ')') = true := by
    rcases hm with rfl | rfl <;> decide
  unfold firstMarkerIndex
  rw [← List.append_assoc, List.takeWhile_append_of_pos hpre]
  simp [List.takeWhile, hm2]


theorem dummyOutLoop_masked : ∀ (s : QString) (b : Bool) (i : Nat) (c : QChar),
    (dummyOutLoop b s)[i]? = some c → c = DUMMY_CHAR ∨ s[i]? = some c := by
  intro s
  induction s with
  | nil => intro b i c h; cases b <;> simp [dummyOutLoop] at h
  | cons a t ih =>
    intro b i c h
    cases i with
    | zero =>
      cases b with
      | true =>
        simp [dummyOutLoop] at h
        exact Or.inl h.symm
      | false =>
        simp [dummyOutLoop] at h
        exact Or.inr (by simp [h])
    | succ j =>
      cases b with
      | true =>
        simp only [dummyOutLoop, List.getElem?_cons_succ] at h ⊢
        exact ih false j c h
      | false =>
        simp only [dummyOutLoop, List.getElem?_cons_succ] at h ⊢
        exact ih _ j c h

theorem masked_dummyOut (text : QString) : Masked text (dummyOutEscapeCharacters text) :=
  fun i c h => dummyOutLoop_masked text false i c h

theorem masked_set {text w : QString} (h : Masked text w) (k : Nat) :
    Masked text (w.set k DUMMY_CHAR) := by
  intro i c hc
  rw [List.getElem?_set] at hc
  split at hc
  · split at hc
    · simp at hc
      exact Or.inl hc.symm
    · simp at hc
  · exact h i c hc

theorem masked_fillRange {text w : QString} (h : Masked text w) (lo hi : Nat) :
    Masked text (fillRange w lo hi DUMMY_CHAR) := by
  unfold fillRange
  generalize List.range (hi - lo) = ks
  induction ks generalizing w with
  | nil => exact h
  | cons k ks ih => exact ih (masked_set h _)

theorem indexOfStrFrom_found (c0 : QChar) (pat : QString) :
    ∀ (w : QString) (pos : Nat), indexOfStrFrom (c0 :: pat) w pos ≥ 0 → c0 ∈ w := by
  intro w
  induction w with
  | nil =>
    intro pos h
    simp [indexOfStrFrom] at h
  | cons a t ih =>
    intro pos h
    simp only [indexOfStrFrom] at h
    split at h
    · rename_i hp
      simp only [List.isPrefixOf, Bool.and_eq_true, beq_iff_eq] at hp
      simp [hp.1]
    · exact List.mem_cons_of_mem _ (ih _ h)

/-- A comment can only be opened in a line that holds the character `<`. -/
theorem masked_open_comment {text w : QString} (h : Masked text w)
    (hi : indexOfStr w (qs "<!--") ≥ 0) : qc '<' ∈ text := by
  have hmem : qc '<' ∈ w := indexOfStrFrom_found (qc '<') (qs "!--") w 0 hi
  obtain ⟨i, hi2⟩ := List.mem_iff_getElem?.mp hmem
  rcases h i _ hi2 with h1 | h1
  · exact absurd h1 (by decide)
  · exact List.mem_iff_getElem?.mpr ⟨i, h1⟩

/-- Inline scanning, with the guarantee that it sets the state `Comment` only
on a line that holds the character `<`. -/
theorem parseInline_comment (prev : MarkdownState) (text : QString) :
    ∃ e : Effect, (e.st = none ∨ e.st = some Comment) ∧ (e.st = some Comment → qc '<' ∈ text)
      ∧ ∀ p : MarkdownParser, p.previousState = prev → parseInline p text = some (e.apply p) := by
  obtain ⟨e, hs, _, _, hc, h⟩ := parseInline_spec prev text (Masked text) (fun _ => True)
    (masked_dummyOut text) (fun _ k h => masked_set h k) (fun _ lo hi h => masked_fillRange h lo hi)
    (fun _ => trivial) (fun _ _ _ => trivial) (fun _ _ _ _ _ _ _ _ => trivial)
  refine ⟨e, hs, ?_, h⟩
  intro h1
  obtain ⟨w, hw, hi⟩ := hc h1
  exact masked_open_comment hw hi

end MarkdownParser

namespace MarkdownParser

theorem scenario_eval :
    (parseLine (fresh Unknown) (qs "Title") Unknown Unknown Unknown).map view
      = some (Paragraph, [], false)
    ∧ (parseLine (fresh Unknown) (qs "=====") Unknown Paragraph Unknown).map view
      = some (SetextHeading1Line2, [⟨TokenSetextHeading1Line2, 0, 5, 0, 0⟩], true)
    ∧ (parseLine (fresh Unknown) (qs "Title") Unknown Unknown SetextHeading1Line2).map view
      = some (SetextHeading1Line1, [⟨TokenSetextHeading1Line1, 0, 5, 0, 0⟩], false)
    ∧ (parseLine (fresh Unknown) (qs "=====") Unknown SetextHeading1Line1 Unknown).map view
      = some (SetextHeading1Line2, [⟨TokenSetextHeading1Line2, 0, 5, 0, 0⟩], false)
    ∧ (parseLine (fresh Unknown) (qs "") Unknown SetextHeading1Line2 Unknown).map view
      = some (ParagraphBreak, [], false)
    ∧ (parseLine (fresh Unknown) (qs "Some *bold* text.") Unknown ParagraphBreak Unknown).map view
      = some (Paragraph, [⟨TokenEmphasis, 5, 6, 1, 1⟩], false) := by
  refine ⟨?_, ?_, ?_, ?_, ?_, ?_⟩ <;> decide!

end MarkdownParser

namespace MarkdownParser

theorem atxHeadingState_ne_line1 (level : Nat) :
    atxHeadingState level ≠ SetextHeading1Line1 ∧ atxHeadingState level ≠ SetextHeading2Line1 := by
  unfold atxHeadingState
  split <;> simp

/-- When a rule of the third group claims the line with a Setext line-1 state,
the next state is the matching line-2 state. -/
theorem parseBlockWithInline_line1 (X : MarkdownParser) (text : QString)
    (h : (parseBlockWithInline X text).1 = true) :
    ((parseBlockWithInline X text).2.state = SetextHeading1Line1
        → X.nextState = SetextHeading1Line2)
    ∧ ((parseBlockWithInline X text).2.state = SetextHeading2Line1
        → X.nextState = SetextHeading2Line2) := by
  revert h
  unfold parseBlockWithInline
  by_cases ha : 0 < atxLevel (dummyOutEscapeCharacters text)
      ∧ atxLevel (dummyOutEscapeCharacters text) < text.length
  · have := atxHeadingState_ne_line1 (atxLevel (dummyOutEscapeCharacters text))
    simp [orElse, parseAtxHeading, ha, setState, addToken, this.1, this.2]
  · have h0 : parseAtxHeading X text = (false, X) := by simp [parseAtxHeading, ha]
    by_cases h1 : X.nextState = SetextHeading1Line2
    · simp [orElse, h0, parseSetextHeadingLine1, h1, setState, addToken]
    · by_cases h2 : X.nextState = SetextHeading2Line2
      · simp [orElse, h0, parseSetextHeadingLine1, h1, h2, setState, addToken]
      · have h3 : parseSetextHeadingLine1 X text = (false, X) := by
          simp [parseSetextHeadingLine1, h1, h2]
        obtain ⟨b, e, hp, _, hs, _⟩ := uniform_orElse samePrev_apply
          (uniform_orElse samePrev_apply (parseBlockquote_uniform text)
            (parseNumberedList_uniform text)) (parseBulletPointList_uniform text) X X rfl
        dsimp only at hp
        simp only [orElse, h0, h3, Bool.false_eq_true, if_false]
        simp only [orElse] at hp
        rw [hp]
        intro hb
        dsimp only at hb
        obtain ⟨s, hm, hst⟩ := hs hb
        simp only [Effect.apply_state, hst, Option.getD_some]
        revert hm
        cases s <;> simp

end MarkdownParser

namespace MarkdownParser

/-- What an accepting scan of `parseBulletPointList` has seen: either the
bullet character found before the scan started is followed at once by a space
or tab, or the scan passes spaces, tabs and bullet characters only up to a
bullet character that is followed by a space or tab. -/
theorem bulletScan_accept (prev : MarkdownState) :
    ∀ (s : QString) (i : Nat) (found : Bool) (idx : Int) (sc : Nat) (b : Int),
      bulletScan prev s i found idx sc = some (b, true) →
      (found = true ∧ b = idx ∧ ∃ c t, s = c :: t ∧ (c = qc ' ' ∨ c = qc '\t'))
      ∨ ∃ k : Nat, b = ((i + k : Nat) : Int)
          ∧ (∃ c, s[k]? = some c ∧ isBulletChar c)
          ∧ (∃ c, s[k + 1]? = some c ∧ (c = qc ' ' ∨ c = qc '\t'))
          ∧ ∀ j < k, ∀ c, s[j]? = some c → c = qc ' ' ∨ c = qc '\t' ∨ isBulletChar c := by
  intro s
  induction s with
  | nil =>
    intro i found idx sc b h
    simp [bulletScan] at h
  | cons c t ih =>
    intro i found idx sc b h
    rw [bulletScan] at h
    by_cases hsp : c = qc ' '
    · rw [if_pos hsp] at h
      cases found with
      | true =>
        simp only [if_true, Option.some.injEq, Prod.mk.injEq, and_true] at h
        exact Or.inl ⟨rfl, h.symm, c, t, rfl, Or.inl hsp⟩
      | false =>
        simp only [Bool.false_eq_true, if_false] at h
        split at h
        · simp at h
        · rcases ih _ _ _ _ _ h with ⟨hf, _⟩ | ⟨k, hb, hk, hk1, hall⟩
          · simp at hf
          · refine Or.inr ⟨k + 1, by rw [hb]; congr 1; omega, by simpa using hk, by simpa using hk1, ?_⟩
            intro j hj c2 hc2
            cases j with
            | zero =>
              simp only [List.getElem?_cons_zero, Option.some.injEq] at hc2
              exact Or.inl (hc2 ▸ hsp)
            | succ j => exact hall j (by omega) c2 (by simpa using hc2)
    · rw [if_neg hsp] at h
      by_cases htb : c = qc '\t'
      · rw [if_pos htb] at h
        cases found with
        | true =>
          simp only [if_true, Option.some.injEq, Prod.mk.injEq, and_true] at h
          exact Or.inl ⟨rfl, h.symm, c, t, rfl, Or.inr htb⟩
        | false =>
          simp only [Bool.false_eq_true, if_false] at h
          split at h
          · simp at h
          · rcases ih _ _ _ _ _ h with ⟨hf, _⟩ | ⟨k, hb, hk, hk1, hall⟩
            · simp at hf
            · refine Or.inr ⟨k + 1, by rw [hb]; congr 1; omega, by simpa using hk,
                by simpa using hk1, ?_⟩
              intro j hj c2 hc2
              cases j with
              | zero =>
                simp only [List.getElem?_cons_zero, Option.some.injEq] at hc2
                exact Or.inr (Or.inl (hc2 ▸ htb))
              | succ j => exact hall j (by omega) c2 (by simpa using hc2)
      · rw [if_neg htb] at h
        by_cases hbu : c = qc '+' ∨ c = qc '-' ∨ c = qc '*'
        · rw [if_pos hbu] at h
          rcases ih _ _ _ _ _ h with ⟨_, hb, c2, t2, ht2, hc2⟩ | ⟨k, hb, hk, hk1, hall⟩
          · refine Or.inr ⟨0, by simpa using hb, ⟨c, by simp, hbu⟩, ⟨c2, by simp [ht2], hc2⟩, ?_⟩
            intro j hj
            omega
          · refine Or.inr ⟨k + 1, by rw [hb]; congr 1; omega, by simpa using hk,
              by simpa using hk1, ?_⟩
            intro j hj c2 hc2
            cases j with
            | zero =>
              simp only [List.getElem?_cons_zero, Option.some.injEq] at hc2
              exact Or.inr (Or.inr (hc2 ▸ hbu))
            | succ j => exact hall j (by omega) c2 (by simpa using hc2)
        · rw [if_neg hbu] at h
          simp at h

end MarkdownParser

namespace MarkdownParser

theorem parseLine_blockPhase (p : MarkdownParser) (text : QString)
    (c previousState nextState : MarkdownState) :
    parseLine p text c previousState nextState
      = Option.map setextBacktrackCheck
          (if (blockPhase (enter p c previousState nextState) text).1 = true then
            parseInline (blockPhase (enter p c previousState nextState) text).2 text
          else some (blockPhase (enter p c previousState nextState) text).2) := by
  rw [parseLine_unfold]
  have hP : (enter p c previousState nextState).previousState = previousState := rfl
  generalize enter p c previousState nextState = P at hP ⊢
  unfold blockPhase
  rw [hP]
  by_cases h1 : previousState ≠ CodeBlock ∧ previousState ≠ InGithubCodeFence
      ∧ previousState ≠ InPandocCodeFence ∧ previousState ≠ Comment
      ∧ paragraphBreakRegex.exactMatch text = true
  · rw [if_pos h1, if_pos h1]
    by_cases h2 : previousState = ListLineBreak ∨ previousState = NumberedList
        ∨ previousState = BulletPointList
    · rw [if_pos h2, if_pos h2]
      simp
    · rw [if_neg h2, if_neg h2, if_pos (Or.inl h1.1), if_pos (Or.inl h1.1)]
      simp
  · rw [if_neg h1, if_neg h1]
    by_cases h2 : (parseBlockOnly P text).1 = true
    · rw [if_pos h2, if_pos h2]
      simp
    · rw [if_neg h2, if_neg h2]
      by_cases h3 : (parseBlockWithInline (parseBlockOnly P text).2 text).1 = true
      · rw [if_pos h3, if_pos h3]
        simp
      · rw [if_neg h3, if_neg h3]
        simp

/-- The block phase acts on every parser object with the same previous and
next state in the same way, and it sets the state. -/
theorem blockPhase_uniform (text : QString) (p q : MarkdownParser) (h : SamePrevNext p q) :
    ∃ (b : Bool) (e : Effect) (s : MarkdownState), e.st = some s
      ∧ blockPhase p text = (b, e.apply p) ∧ blockPhase q text = (b, e.apply q) := by
  unfold blockPhase
  rw [h.1]
  by_cases h1 : p.previousState ≠ CodeBlock ∧ p.previousState ≠ InGithubCodeFence
      ∧ p.previousState ≠ InPandocCodeFence ∧ p.previousState ≠ Comment
      ∧ paragraphBreakRegex.exactMatch text = true
  · rw [if_pos h1, if_pos h1]
    by_cases h2 : p.previousState = ListLineBreak ∨ p.previousState = NumberedList
        ∨ p.previousState = BulletPointList
    · rw [if_pos h2, if_pos h2]
      exact ⟨false, ⟨some ListLineBreak, [], false⟩, ListLineBreak, rfl,
        by simp [Effect.setState_eq], by simp [Effect.setState_eq]⟩
    · rw [if_neg h2, if_neg h2, if_pos (Or.inl h1.1), if_pos (Or.inl h1.1)]
      exact ⟨false, ⟨some ParagraphBreak, [], false⟩, ParagraphBreak, rfl,
        by simp [Effect.setState_eq], by simp [Effect.setState_eq]⟩
  · rw [if_neg h1, if_neg h1]
    obtain ⟨b1, e1, hp1, hq1, hs1, _⟩ := parseBlockOnly_uniform text p q h.1
    dsimp only at hp1 hq1
    rw [hp1, hq1]
    cases b1 with
    | true =>
      obtain ⟨s1, _, hst1⟩ := hs1 rfl
      exact ⟨false, e1, s1, hst1, by simp, by simp⟩
    | false =>
      obtain ⟨b2, e2, hp2, hq2, hs2, _⟩ :=
        parseBlockWithInline_uniform text _ _ (samePrevNext_apply p q e1 h)
      dsimp only at hp2 hq2
      simp only [Bool.false_eq_true, if_false, hp2, hq2]
      cases b2 with
      | true =>
        obtain ⟨s2, _, hst2⟩ := hs2 rfl
        exact ⟨true, e1.andThen e2, s2, by simp [Effect.andThen, hst2],
          by simp [Effect.apply_apply], by simp [Effect.apply_apply]⟩
      | false =>
        simp only [Bool.false_eq_true, if_false]
        obtain ⟨ef, sf, hsf, _, h1, h2, _⟩ :=
          parseFallback_uniform text _ _ (samePrev_apply _ _ e2 (samePrev_apply p q e1 h.1))
        rw [h1, h2]
        exact ⟨true, (e1.andThen e2).andThen ef, sf, by simp [Effect.andThen, hsf],
          by simp [Effect.apply_apply], by simp [Effect.apply_apply]⟩

theorem holding_orElse {prev next : MarkdownState} {T : Token → Prop}
    {f g : MarkdownParser → Bool × MarkdownParser}
    (hf : ∀ p, Holding prev next T p → Holding prev next T (f p).2)
    (hg : ∀ p, Holding prev next T p → Holding prev next T (g p).2)
    (p : MarkdownParser) (h : Holding prev next T p) :
    Holding prev next T (orElse (f p) g).2 := by
  unfold orElse
  split
  · exact hf p h
  · exact hg _ (hf p h)

theorem holding_setState {prev next : MarkdownState} {T : Token → Prop}
    {p : MarkdownParser} (s : MarkdownState) (h : Holding prev next T p) :
    Holding prev next T (p.setState s) := h

theorem holding_requestBacktrack {prev next : MarkdownState} {T : Token → Prop}
    {p : MarkdownParser} (h : Holding prev next T p) :
    Holding prev next T p.requestBacktrack := h

theorem holding_addToken {prev next : MarkdownState} {T : Token → Prop}
    {p : MarkdownParser} {tok : Token} (h : Holding prev next T p) (ht : T tok) :
    Holding prev next T (p.addToken tok) := by
  refine ⟨h.1, h.2.1, ?_⟩
  intro t htm
  simp only [addToken, List.mem_append, List.mem_singleton] at htm
  rcases htm with htm | htm
  · exact h.2.2 t htm
  · exact htm ▸ ht

theorem parseSetextHeadingLine2_holding (prev next : MarkdownState) (text : QString)
    (p : MarkdownParser) (h : Holding prev next (BlockToken prev next text) p) :
    Holding prev next (BlockToken prev next text) (parseSetextHeadingLine2 p text).2 := by
  have hp := h.1
  simp only [parseSetextHeadingLine2, hp]
  split_ifs with h1 h2 h3 h4 h5 h6 h7
  · exact holding_addToken (holding_setState _ h) (.setext1Line2 (Or.inl h1) h2)
  · exact holding_requestBacktrack (holding_setState _ h)
  · exact holding_addToken (holding_setState _ h) (.setext2Line2 (Or.inl h3) h4)
  · exact holding_requestBacktrack (holding_setState _ h)
  · exact holding_addToken (holding_setState _ (holding_requestBacktrack h))
      (.setext1Line2 (Or.inr h5) h7)
  · refine holding_addToken (holding_setState _ (holding_requestBacktrack h))
      (.setext2Line2 (Or.inr h5) ?_)
    simpa [h7] using h6
  · exact h
  · exact h

theorem parseCodeBlock_holding (prev next : MarkdownState) (text : QString)
    (p : MarkdownParser) (h : Holding prev next (BlockToken prev next text) p) :
    Holding prev next (BlockToken prev next text) (parseCodeBlock p text).2 := by
  have hp := h.1
  simp only [parseCodeBlock, hp]
  split_ifs with h1 h2 h3 h4 h5 h6
  · exact holding_setState _ (holding_addToken (holding_setState _ h) (.codeFenceEnd h2))
  · exact holding_addToken (holding_setState _ h) (.fencedCode h1)
  · exact holding_setState _ (holding_addToken h (.indentedCode h3.1 h3.2))
  · exact holding_addToken (holding_setState _ h) (.githubFence h4 h5)
  · exact holding_addToken (holding_setState _ h) (.pandocFence h4 h6)
  · exact h
  · exact h

theorem parseMultilineComment_holding (prev next : MarkdownState) (text : QString)
    (p : MarkdownParser) (h : Holding prev next (BlockToken prev next text) p) :
    Holding prev next (BlockToken prev next text) (parseMultilineComment p text).2 := by
  have hp := h.1
  simp only [parseMultilineComment, hp]
  split_ifs with h1 h2
  · exact holding_addToken h (.commentEnd h1 h2)
  · exact holding_setState _ (holding_addToken h (.commentLine h1 h2))
  · exact h

theorem parseHorizontalRule_holding (prev next : MarkdownState) (text : QString)
    (p : MarkdownParser) (h : Holding prev next (BlockToken prev next text) p) :
    Holding prev next (BlockToken prev next text) (parseHorizontalRule p text).2 := by
  simp only [parseHorizontalRule]
  split_ifs with h1
  · exact holding_setState _ (holding_addToken h (.horizontalRule h1))
  · exact h

theorem parseAtxHeading_holding (prev next : MarkdownState) (text : QString)
    (p : MarkdownParser) (h : Holding prev next (BlockToken prev next text) p) :
    Holding prev next (BlockToken prev next text) (parseAtxHeading p text).2 := by
  simp only [parseAtxHeading]
  split_ifs with hl
  · exact holding_setState _ (holding_addToken h (.atxHeading hl.1 hl.2))
  · exact h

theorem parseSetextHeadingLine1_holding (prev next : MarkdownState) (text : QString)
    (p : MarkdownParser) (h : Holding prev next (BlockToken prev next text) p) :
    Holding prev next (BlockToken prev next text) (parseSetextHeadingLine1 p text).2 := by
  have hn := h.2.1
  simp only [parseSetextHeadingLine1, hn]
  split_ifs with h1 h2
  · exact holding_addToken (holding_setState _ h) (.setext1Line1 h1)
  · exact holding_addToken (holding_setState _ h) (.setext2Line1 h2)
  · exact h

theorem parseBlockquote_holding (prev next : MarkdownState) (text : QString)
    (p : MarkdownParser) (h : Holding prev next (BlockToken prev next text) p) :
    Holding prev next (BlockToken prev next text) (parseBlockquote p text).2 := by
  have hp := h.1
  simp only [parseBlockquote, hp]
  by_cases hc : prev = Blockquote ∨ blockquoteRegex.exactMatch text = true
  · rw [if_pos hc]
    exact holding_setState _ (holding_addToken h (.blockquote hc))
  · rw [if_neg hc]
    exact h

theorem parseNumberedList_holding (prev next : MarkdownState) (text : QString)
    (p : MarkdownParser) (h : Holding prev next (BlockToken prev next text) p) :
    Holding prev next (BlockToken prev next text) (parseNumberedList p text).2 := by
  have hp := h.1
  simp only [parseNumberedList, hp]
  split_ifs with hc h1 hi h2 hi h3 hi hi
  all_goals first
    | exact h
    | exact holding_setState _ (holding_addToken h (.numberedList _ hi (Or.inl rfl) hc))
    | exact holding_setState _ (holding_addToken h (.numberedList _ hi (Or.inr rfl) hc))

theorem parseBulletPointList_holding (prev next : MarkdownState) (text : QString)
    (p : MarkdownParser) (h : Holding prev next (BlockToken prev next text) p) :
    Holding prev next (BlockToken prev next text) (parseBulletPointList p text).2 := by
  have hp := h.1
  simp only [parseBulletPointList, hp]
  split_ifs with hc
  · exact h
  · split
    · exact h
    · rename_i b w hscan
      split_ifs with hacc
      · refine holding_setState _ (holding_addToken h (.bulletPointList b hacc.1 ?_ ?_))
        · rw [hscan, hacc.2]
        · revert hc
          cases prev <;> simp
      · exact h

theorem parseBlockOnly_holding (prev next : MarkdownState) (text : QString)
    (p : MarkdownParser) (h : Holding prev next (BlockToken prev next text) p) :
    Holding prev next (BlockToken prev next text) (parseBlockOnly p text).2 :=
  holding_orElse
    (holding_orElse
      (holding_orElse (parseSetextHeadingLine2_holding prev next text)
        (parseCodeBlock_holding prev next text))
      (parseMultilineComment_holding prev next text))
    (parseHorizontalRule_holding prev next text) p h

theorem parseBlockWithInline_holding (prev next : MarkdownState) (text : QString)
    (p : MarkdownParser) (h : Holding prev next (BlockToken prev next text) p) :
    Holding prev next (BlockToken prev next text) (parseBlockWithInline p text).2 :=
  holding_orElse
    (holding_orElse
      (holding_orElse
        (holding_orElse (parseAtxHeading_holding prev next text)
          (parseSetextHeadingLine1_holding prev next text))
        (parseBlockquote_holding prev next text))
      (parseNumberedList_holding prev next text))
    (parseBulletPointList_holding prev next text) p h

theorem parseFallback_holding (prev next : MarkdownState) (text : QString)
    (p : MarkdownParser) (h : Holding prev next (BlockToken prev next text) p) :
    Holding prev next (BlockToken prev next text) (parseFallback p text) := by
  have h1 := parseNumberedList_holding prev next text p h
  have h2 := parseBulletPointList_holding prev next text _ h1
  simp only [parseFallback]
  split
  · split
    · exact holding_setState _ h1
    · split
      · exact holding_setState _ h2
      · exact holding_setState _ h2
  · exact holding_setState _ h

theorem blockPhase_holding (prev next : MarkdownState) (text : QString)
    (p : MarkdownParser) (h : Holding prev next (BlockToken prev next text) p) :
    Holding prev next (BlockToken prev next text) (blockPhase p text).2 := by
  unfold blockPhase
  split_ifs
  · exact holding_setState _ h
  · exact holding_setState _ h
  · exact h
  · exact parseBlockOnly_holding prev next text p h
  · exact parseBlockWithInline_holding prev next text _ (parseBlockOnly_holding prev next text p h)
  · exact parseFallback_holding prev next text _
      (parseBlockWithInline_holding prev next text _ (parseBlockOnly_holding prev next text p h))

/-- An effect that sets a state is determined by what it does to a parser
object that holds no tokens and no backtrack request. -/
theorem effect_unique {e1 e2 : Effect} {s1 s2 : MarkdownState} {q : MarkdownParser}
    (h1 : e1.st = some s1) (h2 : e2.st = some s2) (hq : q.tokens = []) (hb : q.backtrack = false)
    (h : e1.apply q = e2.apply q) : e1 = e2 := by
  obtain ⟨st1, t1, b1⟩ := e1
  obtain ⟨st2, t2, b2⟩ := e2
  simp only at h1 h2
  subst h1 h2
  simp only [Effect.apply, Option.getD_some, hq, hb, List.nil_append, Bool.false_or,
    MarkdownParser.mk.injEq, true_and] at h
  obtain ⟨hs, ht, hbb⟩ := h
  rw [hs, ht, hbb]

/-- How a call of `parseLine` is composed, for any property `Q` of tokens and
any invariant `Inv` of the working text as in `parseInline_spec`: the block
phase has an effect `e1` that depends on the text, the previous and the next
state only, sets the state and emits only tokens described by `BlockToken`;
when its flag `b` is set, inline scanning follows with the effect `e3`; the
closing check for a removed Setext underline comes last. -/
theorem parseLine_decompose (text : QString) (previousState nextState : MarkdownState)
    (Inv : QString → Prop) (Q : Token → Prop)
    (h0 : Inv (dummyOutEscapeCharacters text))
    (hset : ∀ w k, Inv w → Inv (w.set k DUMMY_CHAR))
    (hfill : ∀ w lo hi, Inv w → Inv (fillRange w lo hi DUMMY_CHAR))
    (hdef : referenceDefinitionRegex.exactMatch (dummyOutEscapeCharacters text) = true →
      Q (referenceDefinitionToken (dummyOutEscapeCharacters text)))
    (hopen : ∀ w, Inv w → indexOfStr w (qs "<!--") ≥ 0 → Q (openCommentToken w))
    (hst : ∀ st ∈ inlineStages, ∀ w off i l, Inv w → st.2.1.indexIn w off = some (i, l) →
      Q (matchToken st.1 st.2.2.1 st.2.2.2 i l)) :
    ∃ (b : Bool) (e1 e3 : Effect) (s1 : MarkdownState), e1.st = some s1
      ∧ (∀ t ∈ e1.toks, BlockToken previousState nextState text t)
      ∧ (e3.st = none ∨ e3.st = some Comment) ∧ e3.bt = false
      ∧ (∀ t ∈ e3.toks, t.type ∈ inlineTokenTypes ∧ Q t)
      ∧ (∀ P : MarkdownParser, P.previousState = previousState → P.nextState = nextState →
          blockPhase P text = (b, e1.apply P))
      ∧ (∀ P : MarkdownParser, P.previousState = previousState →
          parseInline P text = some (e3.apply P))
      ∧ ∀ (p : MarkdownParser) (c : MarkdownState),
          parseLine p text c previousState nextState
            = some (setextBacktrackCheck
                ((if b = true then e1.andThen e3 else e1).apply
                  (enter p c previousState nextState))) := by
  obtain ⟨e3, hs3, hb3, ht3, _, h3⟩ :=
    parseInline_spec previousState text Inv Q h0 hset hfill hdef hopen hst
  obtain ⟨b, e1, s1, hs1, hq0, _⟩ :=
    blockPhase_uniform text (enter (fresh Unknown) Unknown previousState nextState)
      (enter (fresh Unknown) Unknown previousState nextState) ⟨rfl, rfl⟩
  have hall : ∀ P : MarkdownParser, P.previousState = previousState →
      P.nextState = nextState → blockPhase P text = (b, e1.apply P) := by
    intro P hp hn
    obtain ⟨b2, e2, s2, hs2, hq2, hP2⟩ :=
      blockPhase_uniform text (enter (fresh Unknown) Unknown previousState nextState) P
        ⟨hp, hn⟩
    rw [hq0] at hq2
    simp only [Prod.mk.injEq] at hq2
    rw [hP2, ← hq2.1, ← effect_unique hs1 hs2 rfl rfl hq2.2]
  have htok : ∀ t ∈ e1.toks, BlockToken previousState nextState text t := by
    have hh := blockPhase_holding previousState nextState text
      (enter (fresh Unknown) Unknown previousState nextState) ⟨rfl, rfl, by simp [enter, fresh]⟩
    rw [hq0] at hh
    intro t ht
    exact hh.2.2 t (by simp [enter, fresh, ht])
  refine ⟨b, e1, e3, s1, hs1, htok, hs3, hb3, ht3, hall, h3, ?_⟩
  intro p c
  rw [parseLine_blockPhase, hall _ rfl rfl]
  cases b with
  | true =>
    simp only [if_true]
    rw [h3 _ rfl, Effect.apply_apply]
    rfl
  | false =>
    simp

end MarkdownParser

namespace MarkdownParser

theorem atxHeadingState_ne_bullet (level : Nat) : atxHeadingState level ≠ BulletPointList := by
  unfold atxHeadingState
  split <;> simp

theorem parseBulletPointList_true {X : MarkdownParser} {text : QString}
    (h : (parseBulletPointList X text).1 = true) :
    X.previousState ∈ [Unknown, ParagraphBreak, ListLineBreak, NumberedList, BulletPointList] := by
  unfold parseBulletPointList at h
  split at h
  · simp at h
  · rename_i hc
    revert hc
    cases X.previousState <;> simp

/-- When a rule of the third group claims the line with the state
`BulletPointList`, the previous state is one from which a bullet list can
start. -/
theorem parseBlockWithInline_bullet (X : MarkdownParser) (text : QString)
    (h : (parseBlockWithInline X text).1 = true)
    (hs : (parseBlockWithInline X text).2.state = BulletPointList) :
    X.previousState ∈ [Unknown, ParagraphBreak, ListLineBreak, NumberedList, BulletPointList] := by
  revert h hs
  unfold parseBlockWithInline
  by_cases ha : 0 < atxLevel (dummyOutEscapeCharacters text)
      ∧ atxLevel (dummyOutEscapeCharacters text) < text.length
  · have := atxHeadingState_ne_bullet (atxLevel (dummyOutEscapeCharacters text))
    simp [orElse, parseAtxHeading, ha, setState, addToken, this]
  · have h0 : parseAtxHeading X text = (false, X) := by simp [parseAtxHeading, ha]
    by_cases h1 : X.nextState = SetextHeading1Line2
    · simp [orElse, h0, parseSetextHeadingLine1, h1, setState, addToken]
    · by_cases h2 : X.nextState = SetextHeading2Line2
      · simp [orElse, h0, parseSetextHeadingLine1, h1, h2, setState, addToken]
      · have h3 : parseSetextHeadingLine1 X text = (false, X) := by
          simp [parseSetextHeadingLine1, h1, h2]
        obtain ⟨b, e, hp, _, hs, _⟩ := uniform_orElse samePrev_apply
          (parseBlockquote_uniform text) (parseNumberedList_uniform text) X X rfl
        dsimp only at hp
        simp only [orElse, h0, h3, Bool.false_eq_true, if_false]
        simp only [orElse] at hp
        rw [hp]
        cases b with
        | true =>
          obtain ⟨s, hm, hst⟩ := hs rfl
          simp only [if_true, Effect.apply_state, hst, Option.getD_some]
          intro _ hs2
          rw [hs2] at hm
          simp at hm
        | false =>
          simp only [Bool.false_eq_true, if_false]
          intro hb _
          have := parseBulletPointList_true hb
          simpa using this

theorem parseNumberedList_prev (X : MarkdownParser) (text : QString) :
    (parseNumberedList X text).2.previousState = X.previousState := by
  obtain ⟨b, e, hp, _, _, _⟩ := parseNumberedList_uniform text X X rfl
  dsimp only at hp
  rw [hp]
  rfl

theorem parseBulletPointList_prev (X : MarkdownParser) (text : QString) :
    (parseBulletPointList X text).2.previousState = X.previousState := by
  obtain ⟨b, e, hp, _, _, _⟩ := parseBulletPointList_uniform text X X rfl
  dsimp only at hp
  rw [hp]
  rfl

/-- The fallback leaves the previous state or `Paragraph` as the state. -/
theorem parseFallback_state (X : MarkdownParser) (text : QString) :
    (parseFallback X text).state = Paragraph
    ∨ ((parseFallback X text).state = X.previousState
      ∧ (X.previousState = ListLineBreak ∨ X.previousState = NumberedList
        ∨ X.previousState = BulletPointList)
      ∧ (startsWith text (qs "\t") = true ∨ startsWith text (qs "    ") = true)) := by
  simp only [parseFallback]
  split
  · rename_i hl
    split
    · exact Or.inl rfl
    · split
      · rename_i hc
        refine Or.inr ⟨?_, hl, ?_⟩
        · simp [setState, parseBulletPointList_prev, parseNumberedList_prev]
        · simp only [Bool.and_eq_true, Bool.or_eq_true] at hc
          exact hc.2
      · exact Or.inl rfl
  · exact Or.inl rfl

/-- A line ends the block phase in `BulletPointList` only after one of the
states from which a bullet list can start. -/
theorem blockPhase_bullet (P : MarkdownParser) (text : QString)
    (hP : P.state ≠ BulletPointList)
    (hs : (blockPhase P text).2.state = BulletPointList) :
    P.previousState ∈ [Unknown, ParagraphBreak, ListLineBreak, NumberedList, BulletPointList] := by
  revert hs
  unfold blockPhase
  split_ifs with h1 h2 h3 h4 h5
  · simp [setState]
  · simp [setState]
  · exact fun h => absurd h hP
  · obtain ⟨b1, e1, hp1, _, hs1, _⟩ := parseBlockOnly_uniform text P P rfl
    dsimp only at hp1
    rw [hp1] at h4 ⊢
    obtain ⟨s1, hm1, hst1⟩ := hs1 h4
    simp only [Effect.apply_state, hst1, Option.getD_some]
    intro h
    rw [h] at hm1
    simp at hm1
  · intro hs
    have := parseBlockWithInline_bullet _ text h5 hs
    obtain ⟨b1, e1, hp1, _, _, _⟩ := parseBlockOnly_uniform text P P rfl
    dsimp only at hp1
    rw [hp1] at this
    exact this
  · intro hs
    have hprev : (parseBlockWithInline (parseBlockOnly P text).2 text).2.previousState
        = P.previousState := by
      obtain ⟨b1, e1, hp1, _, _, _⟩ := parseBlockOnly_uniform text P P rfl
      dsimp only at hp1
      obtain ⟨b2, e2, hp2, _, _, _⟩ := parseBlockWithInline_uniform text (e1.apply P)
        (e1.apply P) ⟨rfl, rfl⟩
      dsimp only at hp2
      rw [hp1, hp2]
      rfl
    rcases parseFallback_state (parseBlockWithInline (parseBlockOnly P text).2 text).2 text
      with h | ⟨h, _, _⟩
    · rw [h] at hs
      simp at hs
    · rw [h, hprev] at hs
      simp [hs]

end MarkdownParser


namespace MarkdownParser

theorem atxLevel_eq (s : QString) : atxLevel s = min (poundRun s) 6 := by
  unfold atxLevel poundRun MAX_MARKDOWN_HEADING_LEVEL
  rw [← List.take_takeWhile, List.length_take]
  exact Nat.min_comm _ _

theorem atxTrailing_eq (s : QString) (level : Nat) :
    atxTrailing s level = min (trailingPoundRun s) (s.length - (level + 1)) := by
  unfold atxTrailing trailingPoundRun
  rw [List.reverse_drop, ← List.take_takeWhile, List.length_take]
  exact Nat.min_comm _ _

/-- A sanitized line that starts with `#` is a line that starts with `#`. -/
theorem pound_head {text : QString} (h : 1 ≤ poundRun (dummyOutEscapeCharacters text)) :
    ∃ tail, text = qc '#' :: tail := by
  cases text with
  | nil => simp [poundRun, dummyOutEscapeCharacters, dummyOutLoop] at h
  | cons c t =>
    by_cases hc : c = qc '#'
    · exact ⟨t, by rw [hc]⟩
    · exfalso
      have hb : (c == qc '#') = false := by simpa using hc
      simp [poundRun, dummyOutEscapeCharacters, dummyOutLoop, List.takeWhile, hb] at h

theorem pound_not_blank (tail : QString) :
    paragraphBreakRegex.exactMatch (qc '#' :: tail) = false :=
  not_blank_exact (fun h => absurd (h (qc '#') (by simp)) (by decide))

theorem pound_not_underline (tail : QString) :
    heading1SetextRegex.exactMatch (qc '#' :: tail) = false
      ∧ heading2SetextRegex.exactMatch (qc '#' :: tail) = false := by
  constructor
  · cases hm : heading1SetextRegex.exactMatch (qc '#' :: tail)
    · rfl
    · obtain ⟨t, ht⟩ := isUnderline_head (heading1Setext_iff.mp hm)
      exact absurd (List.cons.inj ht).1 (by decide)
  · cases hm : heading2SetextRegex.exactMatch (qc '#' :: tail)
    · rfl
    · obtain ⟨t, ht⟩ := isUnderline_head (heading2Setext_iff.mp hm)
      exact absurd (List.cons.inj ht).1 (by decide)

theorem pound_not_fence (tail : QString) :
    githubCodeFenceStartRegex.exactMatch (qc '#' :: tail) = false
      ∧ pandocCodeFenceStartRegex.exactMatch (qc '#' :: tail) = false := by
  constructor
  · cases hm : githubCodeFenceStartRegex.exactMatch (qc '#' :: tail)
    · rfl
    · obtain ⟨c2, t2, h1, h2⟩ := exactMatch_head rfl rfl hm
      simp only [List.cons.injEq] at h1
      simp only [beq_iff_eq] at h2
      exact absurd (h1.1.trans h2) (by decide)
  · cases hm : pandocCodeFenceStartRegex.exactMatch (qc '#' :: tail)
    · rfl
    · obtain ⟨c2, t2, h1, h2⟩ := exactMatch_head rfl rfl hm
      simp only [List.cons.injEq] at h1
      simp only [beq_iff_eq] at h2
      exact absurd (h1.1.trans h2) (by decide)

theorem pound_not_hrule (tail : QString) :
    hruleRegex.exactMatch (qc '#' :: tail) = false := by
  cases hm : hruleRegex.exactMatch (qc '#' :: tail)
  · rfl
  · exfalso
    have := RE.within_exactMatch hrule_within rfl hm (qc '#') (by simp)
    revert this
    unfold isRuleChar
    decide

/-- With previous state `Unknown`, `ParagraphBreak` or `Paragraph`, no rule of
the first group claims a line that starts with `#`. -/
theorem pound_parseBlockOnly (P : MarkdownParser) (tail : QString)
    (hprev : P.previousState = Unknown ∨ P.previousState = ParagraphBreak
      ∨ P.previousState = Paragraph) :
    parseBlockOnly P (qc '#' :: tail) = (false, P) := by
  obtain ⟨hu1, hu2⟩ := pound_not_underline tail
  obtain ⟨hf1, hf2⟩ := pound_not_fence tail
  have hhr := pound_not_hrule tail
  have hi1 : startsWith (qc '#' :: tail) (qs "\t") = false := by
    simp [startsWith, qs, qc, List.isPrefixOf]
  have hi2 : startsWith (qc '#' :: tail) (qs "    ") = false := by
    simp [startsWith, qs, qc, List.isPrefixOf]
  rcases hprev with h | h | h <;>
    simp [parseBlockOnly, orElse, parseSetextHeadingLine2, parseCodeBlock,
      parseMultilineComment, parseHorizontalRule, h, hu1, hu2, hf1, hf2, hhr, hi1, hi2]

end MarkdownParser

namespace MarkdownParser

theorem only_pounds_eval : ∀ k ∈ [1, 2, 3, 4, 5, 6],
    ∀ prev ∈ [Unknown, ParagraphBreak, Paragraph], ∀ next ∈ noLookahead,
      (parseLine (fresh Unknown) (List.replicate k (qc '#')) Unknown prev next).map view
        = some (Paragraph, [], false) := by
  decide!

end MarkdownParser

namespace MarkdownParser

/-- After a list state, a rule of the first group either claims the line or
leaves the parser object as it was. -/
theorem list_parseBlockOnly (P : MarkdownParser) (text : QString)
    (hprev : P.previousState = ListLineBreak ∨ P.previousState = NumberedList
      ∨ P.previousState = BulletPointList)
    (h : (parseBlockOnly P text).1 = false) : parseBlockOnly P text = (false, P) := by
  have e1 : parseSetextHeadingLine2 P text = (false, P) := by
    rcases hprev with hp | hp | hp <;> simp [parseSetextHeadingLine2, hp]
  have e2 : parseCodeBlock P text = (false, P) := by
    rcases hprev with hp | hp | hp <;> simp [parseCodeBlock, hp]
  have e3 : parseMultilineComment P text = (false, P) := by
    rcases hprev with hp | hp | hp <;> simp [parseMultilineComment, hp]
  have e4 : parseBlockOnly P text = parseHorizontalRule P text := by
    simp [parseBlockOnly, orElse, e1, e2, e3]
  rw [e4] at h ⊢
  revert h
  unfold parseHorizontalRule
  split <;> simp

theorem parseAtxHeading_false {P : MarkdownParser} {text : QString}
    (h : (parseAtxHeading P text).1 = false) : parseAtxHeading P text = (false, P) := by
  revert h
  unfold parseAtxHeading
  simp only
  split <;> simp

theorem parseSetextHeadingLine1_false {P : MarkdownParser} {text : QString}
    (h : P.nextState ∉ [SetextHeading1Line2, SetextHeading2Line2]) :
    parseSetextHeadingLine1 P text = (false, P) := by
  simp only [List.mem_cons, List.mem_singleton, List.not_mem_nil, or_false, not_or] at h
  simp [parseSetextHeadingLine1, h.1, h.2]

theorem parseBlockquote_false {P : MarkdownParser} {text : QString}
    (h : (parseBlockquote P text).1 = false) : parseBlockquote P text = (false, P) := by
  revert h
  unfold parseBlockquote
  simp only
  split <;> simp

theorem parseNumberedList_false {P : MarkdownParser} {text : QString}
    (h : (parseNumberedList P text).1 = false) : parseNumberedList P text = (false, P) := by
  revert h
  simp only [parseNumberedList]
  split_ifs <;> simp

theorem parseBulletPointList_false {P : MarkdownParser} {text : QString}
    (h : (parseBulletPointList P text).1 = false) : parseBulletPointList P text = (false, P) := by
  revert h
  unfold parseBulletPointList
  split
  · simp
  · split
    · simp
    · split <;> simp

/-- A rule of the third group that does not claim the line leaves the parser
object as it was. -/
theorem parseBlockWithInline_false {P : MarkdownParser} {text : QString}
    (h : (parseBlockWithInline P text).1 = false) :
    parseBlockWithInline P text = (false, P)
    ∧ parseNumberedList P text = (false, P) ∧ parseBulletPointList P text = (false, P) := by
  unfold parseBlockWithInline at h
  have h4 := orElse_fst_false h
  have h3 := orElse_fst_false h4
  have h2 := orElse_fst_false h3
  have h1 := orElse_fst_false h2
  have e1 := parseAtxHeading_false h1
  rw [e1] at h2 h3 h4 h
  simp only [orElse, Bool.false_eq_true, if_false] at h2 h3 h4 h
  have e2 : parseSetextHeadingLine1 P text = (false, P) := by
    revert h2
    unfold parseSetextHeadingLine1
    split
    · simp
    · split <;> simp
  rw [e2] at h3 h4 h
  simp only [Bool.false_eq_true, if_false] at h3 h4 h
  have e3 := parseBlockquote_false h3
  rw [e3] at h4 h
  simp only [Bool.false_eq_true, if_false] at h4 h
  have e4 := parseNumberedList_false h4
  rw [e4] at h
  simp only [Bool.false_eq_true, if_false] at h
  have e5 := parseBulletPointList_false h
  exact ⟨by simp [parseBlockWithInline, orElse, e1, e2, e3, e4, e5], e4, e5⟩

end MarkdownParser

namespace MarkdownParser

/-- The reference-definition pattern has no tail after `]:`, and
`exactMatch` asks for the whole line: a line that matches ends in `]:`. -/
theorem referenceDefinition_ends {w : QString}
    (h : referenceDefinitionRegex.exactMatch w = true) : endsWith w (qs "]:") = true := by
  have h1 := (QRegExp.exactMatch_iff rfl).mp h
  have hpat : referenceDefinitionRegex.pattern
      = RE.seq RE.bol (RE.seq (RE.star RE.space) (RE.seq (RE.chr '[') (RE.seq (RE.plus RE.dot)
          (RE.seq (RE.chr ']') (RE.chr ':'))))) := rfl
  rw [hpat] at h1
  obtain ⟨u1, hu1, h2⟩ := RE.mem_ends_seq.mp h1
  obtain ⟨u2, hu2, h3⟩ := RE.mem_ends_seq.mp h2
  obtain ⟨u3, hu3, h4⟩ := RE.mem_ends_seq.mp h3
  obtain ⟨u4, hu4, h5⟩ := RE.mem_ends_seq.mp h4
  obtain ⟨u5, hu5, h6⟩ := RE.mem_ends_seq.mp h5
  have e5 := RE.mem_ends_chr.mp hu5
  have e6 := RE.mem_ends_chr.mp h6
  have s1 := RE.ends_suffix _ _ _ _ hu1
  have s2 := RE.ends_suffix _ _ _ _ hu2
  have s3 := RE.ends_suffix _ _ _ _ hu3
  have s4 := RE.ends_suffix _ _ _ _ hu4
  have hsuf : u4 <:+ w := s4.trans (s3.trans (s2.trans s1))
  rw [e5, e6] at hsuf
  unfold endsWith
  exact List.isSuffixOf_iff_suffix.mpr hsuf

theorem reference_eval :
    (parseInline (fresh Unknown) (qs "[foo]: http://example.com")).map view
        = some (Unknown, [⟨TokenReferenceLink, 0, 5, 0, 0⟩], false)
    ∧ (parseLine (fresh Unknown) (qs "[foo]: http://example.com") Unknown Unknown Unknown).map view
        = some (Paragraph, [⟨TokenReferenceLink, 0, 5, 0, 0⟩], false)
    ∧ (parseInline (fresh Unknown) (qs "[foo]:")).map view
        = some (Unknown, [⟨TokenReferenceDefinition, 0, 6, 0, 0⟩], false) := by
  refine ⟨?_, ?_, ?_⟩ <;> decide!

end MarkdownParser

namespace QRegExp

/-- A match found by `indexIn` is a piece of the text: the text is a prefix of
length `i`, the match of length `l`, and a rest that the pattern can stop at. -/
theorem indexIn_span {re : QRegExp} {w : QString} {off i l : Nat}
    (h : re.indexIn w off = some (i, l)) :
    ∃ span t, w.drop i = span ++ t ∧ span.length = l
      ∧ t ∈ RE.ends w.length re.pattern (w.drop i) := by
  obtain ⟨_, _, hm⟩ := indexIn_some h
  obtain ⟨t, ht, hl⟩ := matchHere_some hm
  obtain ⟨span, hs⟩ := RE.ends_suffix _ _ _ _ ht
  refine ⟨span, t, hs.symm, ?_, ht⟩
  rw [hl, ← hs]
  simp

end QRegExp

namespace MarkdownParser

theorem all_backtick_replicate (r : QString) (h : ∀ c ∈ r, (c == 96) = true) :
    r = List.replicate r.length 96 :=
  all_eq_replicate r h

/-- Every match of the code-span pattern has one of the two shapes of a code
span. -/
theorem verbatim_ends {n : Nat} {s t : QString}
    (h : t ∈ RE.ends n verbatimRegex.pattern s) : ∃ span, s = span ++ t ∧ isCodeSpan span := by
  have hpat : verbatimRegex.pattern
      = RE.alt
          (RE.seq (RE.cls (· == 96)) (RE.seq (RE.plus (RE.cls (fun x => !(x == 96))))
            (RE.cls (· == 96))))
          (RE.seq (RE.cls (· == 96)) (RE.seq (RE.plus (RE.cls (· == 96)))
            (RE.seq (RE.plus RE.dot) (RE.seq (RE.cls (· == 96))
              (RE.plus (RE.cls (· == 96))))))) := rfl
  rw [hpat] at h
  rcases RE.mem_ends_alt.mp h with h | h
  · obtain ⟨u1, hu1, h⟩ := RE.mem_ends_seq.mp h
    obtain ⟨u2, hu2, h⟩ := RE.mem_ends_seq.mp h
    obtain ⟨c1, hs1, hc1⟩ := RE.mem_ends_cls.mp hu1
    obtain ⟨mid, hs2, hne, hmid⟩ := RE.mem_ends_plus_cls.mp hu2
    obtain ⟨c3, hs3, hc3⟩ := RE.mem_ends_cls.mp h
    simp only [beq_iff_eq] at hc1 hc3
    refine ⟨96 :: (mid ++ [96]), ?_, Or.inl ⟨mid, rfl, hne, ?_⟩⟩
    · rw [hs1, hs2, hs3, hc1, hc3]
      simp
    · intro c hc
      have := hmid c hc
      simpa using this
  · obtain ⟨u1, hu1, h⟩ := RE.mem_ends_seq.mp h
    obtain ⟨u2, hu2, h⟩ := RE.mem_ends_seq.mp h
    obtain ⟨u3, hu3, h⟩ := RE.mem_ends_seq.mp h
    obtain ⟨u4, hu4, h⟩ := RE.mem_ends_seq.mp h
    obtain ⟨c1, hs1, hc1⟩ := RE.mem_ends_cls.mp hu1
    obtain ⟨r1, hs2, hne1, hr1⟩ := RE.mem_ends_plus_cls.mp hu2
    obtain ⟨mid, hs3, hne, _⟩ := RE.mem_ends_plus_cls.mp hu3
    obtain ⟨c4, hs4, hc4⟩ := RE.mem_ends_cls.mp hu4
    obtain ⟨r2, hs5, hne2, hr2⟩ := RE.mem_ends_plus_cls.mp h
    simp only [beq_iff_eq] at hc1 hc4
    have e1 := all_backtick_replicate r1 hr1
    have e2 := all_backtick_replicate r2 hr2
    have l1 : r1.length = (r1.length - 1) + 1 := by
      have := List.length_pos.mpr hne1
      omega
    have l2 : r2.length = (r2.length - 1) + 1 := by
      have := List.length_pos.mpr hne2
      omega
    refine ⟨List.replicate (r1.length - 1 + 2) 96 ++ (mid ++ List.replicate (r2.length - 1 + 2) 96),
      ?_, Or.inr ⟨r1.length - 1, r2.length - 1, mid, rfl, hne⟩⟩
    rw [hs1, hs2, hs3, hs4, hs5, hc1, hc4]
    have f1 : List.replicate (r1.length - 1 + 2) (96 : QChar) = 96 :: r1 := by
      rw [show r1.length - 1 + 2 = r1.length + 1 by omega, List.replicate_succ, ← e1]
    have f2 : List.replicate (r2.length - 1 + 2) (96 : QChar) = 96 :: r2 := by
      rw [show r2.length - 1 + 2 = r2.length + 1 by omega, List.replicate_succ, ← e2]
    rw [f1, f2]
    simp

/-- A code span starts and ends with a backtick and has three characters or
more. -/
theorem isCodeSpan_ends {s : QString} (h : isCodeSpan s) :
    s[0]? = some 96 ∧ s[s.length - 1]? = some 96 ∧ 3 ≤ s.length := by
  rcases h with ⟨mid, rfl, hne, _⟩ | ⟨a, b, mid, rfl, hne⟩
  · have := List.length_pos.mpr hne
    refine ⟨by simp, ?_, by simp; omega⟩
    have hl : (96 :: (mid ++ [96])).length - 1 = mid.length + 1 := by simp
    rw [hl, List.getElem?_cons_succ, List.getElem?_append_right (by omega)]
    simp
  · have := List.length_pos.mpr hne
    refine ⟨by simp [List.replicate_succ], ?_, by simp; omega⟩
    have hl : (List.replicate (a + 2) (96 : QChar) ++ (mid ++ List.replicate (b + 2) 96)).length - 1
        = (a + 2) + (mid.length + (b + 1)) := by
      simp
      omega
    rw [hl, List.getElem?_append_right (by simp), List.getElem?_append_right (by simp)]
    simp only [List.length_replicate]
    rw [List.getElem?_replicate]
    simp

end MarkdownParser

namespace MarkdownParser

/-- In a code span the closing run of backticks is at least as long as the
opening run, or at least two backticks long. -/
theorem isCodeSpan_runs {s : QString} (h : isCodeSpan s) :
    min (leadingRun 96 s) 2 ≤ trailingRun 96 s := by
  rcases h with ⟨mid, rfl, hne, hmid⟩ | ⟨a, b, mid, rfl, hne⟩
  · have h1 : leadingRun 96 (96 :: (mid ++ [96])) = 1 := by
      cases mid with
      | nil => exact absurd rfl hne
      | cons x xs =>
        have hx : (x == 96) = false := by simpa using hmid x (by simp)
        simp [leadingRun, List.takeWhile, hx]
    have h2 : 1 ≤ trailingRun 96 (96 :: (mid ++ [96])) := by
      simp [trailingRun]
    rw [h1]
    exact h2
  · have h2 : b + 2 ≤ trailingRun 96
        (List.replicate (a + 2) 96 ++ (mid ++ List.replicate (b + 2) 96)) := by
      simp [trailingRun]
    omega

end MarkdownParser

/-- The characters of a string after the loop `for (i = lo; i < hi; i++)
text[i] = c`: the character `c` at the indices of the loop inside the string,
the old character elsewhere. -/
theorem getElem?_fillRange (w : QString) (lo hi : Nat) (c : QChar) (j : Nat) :
    (fillRange w lo hi c)[j]?
      = if lo ≤ j ∧ j < hi ∧ j < w.length then some c else w[j]? := by
  unfold fillRange
  have key : ∀ n, ((List.range n).foldl (fun t k => t.set (lo + k) c) w)[j]?
      = if lo ≤ j ∧ j < lo + n ∧ j < w.length then some c else w[j]? := by
    intro n
    induction n with
    | zero =>
      simp only [List.range_zero, List.foldl_nil, Nat.add_zero]
      rw [if_neg (by omega)]
    | succ n ih =>
      rw [List.range_succ, List.foldl_append]
      simp only [List.foldl_cons, List.foldl_nil]
      rw [List.getElem?_set]
      have hlen : ((List.range n).foldl (fun t k => t.set (lo + k) c) w).length = w.length := by
        have := length_fillRange w lo (lo + n) c
        unfold fillRange at this
        simpa using this
      rw [hlen, ih]
      by_cases h1 : lo + n = j
      · rw [if_pos h1]
        subst h1
        by_cases h2 : lo + n < w.length
        · rw [if_pos h2, if_pos ⟨by omega, by omega, h2⟩]
        · rw [if_neg h2, if_neg (by omega)]
          exact (List.getElem?_eq_none (by omega)).symm
      · rw [if_neg h1]
        by_cases h3 : lo ≤ j ∧ j < lo + n ∧ j < w.length
        · rw [if_pos h3, if_pos ⟨h3.1, by omega, h3.2.2⟩]
        · rw [if_neg h3, if_neg (by omega)]
  rw [key (hi - lo)]
  by_cases h : lo ≤ j ∧ j < hi ∧ j < w.length
  · rw [if_pos h, if_pos ⟨h.1, by omega, h.2.2⟩]
  · rw [if_neg h, if_neg (by omega)]

/-- Overwriting a range with `c` keeps every `c` that was there. -/
theorem fillRange_keep {w : QString} {c : QChar} {j : Nat} (lo hi : Nat)
    (h : w[j]? = some c) : (fillRange w lo hi c)[j]? = some c := by
  rw [getElem?_fillRange]
  split
  · rfl
  · exact h

/-- Overwriting a range changes no character that differs from `c` into
another one: a character other than `c` in the result was there before. -/
theorem fillRange_old {w : QString} {c d : QChar} {j : Nat} (lo hi : Nat)
    (h : (fillRange w lo hi c)[j]? = some d) (hd : d ≠ c) : w[j]? = some d := by
  rw [getElem?_fillRange] at h
  split at h
  · simp only [Option.some.injEq] at h
    exact absurd h.symm hd
  · exact h

namespace RE

theorem firstIn_cls {P : QChar → Prop} {p : QChar → Bool} (h : ∀ c, p c = true → P c) :
    FirstIn P (cls p) := by
  intro n s t ht
  obtain ⟨c, hs, hc⟩ := mem_ends_cls.mp ht
  exact ⟨c, t, hs, h c hc⟩

theorem firstIn_seq {P : QChar → Prop} {a : RE} (b : RE) (ha : FirstIn P a) :
    FirstIn P (seq a b) := by
  intro n s t ht
  obtain ⟨u, hu, _⟩ := mem_ends_seq.mp ht
  exact ha n s u hu

theorem firstIn_alt {P : QChar → Prop} {a b : RE} (ha : FirstIn P a) (hb : FirstIn P b) :
    FirstIn P (alt a b) := by
  intro n s t ht
  rcases mem_ends_alt.mp ht with h | h
  · exact ha n s t h
  · exact hb n s t h

theorem lastIn_cls {P : QChar → Prop} {p : QChar → Bool} (h : ∀ c, p c = true → P c) :
    LastIn P (cls p) := by
  intro n s t ht
  obtain ⟨c, hs, hc⟩ := mem_ends_cls.mp ht
  exact ⟨[], c, by simpa using hs, h c hc⟩

theorem lastIn_seq {P : QChar → Prop} (a : RE) {b : RE} (hb : LastIn P b) :
    LastIn P (seq a b) := by
  intro n s t ht
  obtain ⟨u, hu, h2⟩ := mem_ends_seq.mp ht
  obtain ⟨v, hv⟩ := ends_suffix n a s u hu
  obtain ⟨x, c, hx, hc⟩ := hb n u t h2
  exact ⟨v ++ x, c, by rw [← hv, hx]; simp, hc⟩

theorem lastIn_seq_look {P : QChar → Prop} {a : RE} (neg : Bool) (b : RE) (ha : LastIn P a) :
    LastIn P (seq a (look neg b)) := by
  intro n s t ht
  obtain ⟨u, hu, h2⟩ := mem_ends_seq.mp ht
  obtain ⟨h3, _⟩ := mem_ends_look.mp h2
  rw [h3]
  exact ha n s u hu

theorem lastIn_alt {P : QChar → Prop} {a b : RE} (ha : LastIn P a) (hb : LastIn P b) :
    LastIn P (alt a b) := by
  intro n s t ht
  rcases mem_ends_alt.mp ht with h | h
  · exact ha n s t h
  · exact hb n s t h

theorem lastIn_plus_cls {P : QChar → Prop} {p : QChar → Bool} (h : ∀ c, p c = true → P c) :
    LastIn P (plus (cls p)) := by
  intro n s t ht
  obtain ⟨w, hs, hne, hw⟩ := mem_ends_plus_cls.mp ht
  obtain ⟨x, c, hx⟩ : ∃ x c, w = x ++ [c] := by
    rcases List.eq_nil_or_concat w with h0 | ⟨x, c, h0⟩
    · exact absurd h0 hne
    · exact ⟨x, c, by simpa using h0⟩
  refine ⟨x, c, by rw [hs, hx]; simp, h c (hw c (by rw [hx]; simp))⟩

end RE

namespace MarkdownParser

theorem firstIn_chr (c : Char) (h : qc c ≠ DUMMY_CHAR) :
    RE.FirstIn (· ≠ DUMMY_CHAR) (RE.chr c) :=
  RE.firstIn_cls (fun x hx => by
    have : x = qc c := by simpa using hx
    rw [this]
    exact h)

theorem lastIn_chr (c : Char) (h : qc c ≠ DUMMY_CHAR) :
    RE.LastIn (· ≠ DUMMY_CHAR) (RE.chr c) :=
  RE.lastIn_cls (fun x hx => by
    have : x = qc c := by simpa using hx
    rw [this]
    exact h)

theorem firstIn_backtick : RE.FirstIn (· ≠ DUMMY_CHAR) (RE.cls (· == 96)) :=
  RE.firstIn_cls (fun x hx => by
    have : x = 96 := by simpa using hx
    rw [this]
    decide)

theorem lastIn_backtick : RE.LastIn (· ≠ DUMMY_CHAR) (RE.cls (· == 96)) :=
  RE.lastIn_cls (fun x hx => by
    have : x = 96 := by simpa using hx
    rw [this]
    decide)

/-- Every pattern of inline scanning starts with a literal character other
than the dummy character. -/
theorem stage_first : ∀ st ∈ inlineStages, RE.FirstIn (· ≠ DUMMY_CHAR) st.2.1.pattern := by
  intro st hst
  simp only [inlineStages, List.mem_cons, List.mem_singleton, List.not_mem_nil,
    or_false] at hst
  rcases hst with rfl | rfl | rfl | rfl | rfl | rfl | rfl | rfl | rfl | rfl | rfl
  · exact RE.firstIn_seq _ (RE.firstIn_seq _ (firstIn_chr '<' (by decide)))
  · exact RE.firstIn_seq _ (firstIn_chr '!' (by decide))
  · exact RE.firstIn_seq _ (firstIn_chr '[' (by decide))
  · exact RE.firstIn_seq _ (firstIn_chr '[' (by decide))
  · exact RE.firstIn_alt (RE.firstIn_seq _ (firstIn_chr '&' (by decide)))
      (RE.firstIn_seq _ (firstIn_chr '&' (by decide)))
  · exact RE.firstIn_alt (RE.firstIn_seq _ (firstIn_chr '<' (by decide)))
      (RE.firstIn_seq _ (firstIn_chr '<' (by decide)))
  · exact RE.firstIn_alt (RE.firstIn_seq _ firstIn_backtick)
      (RE.firstIn_seq _ firstIn_backtick)
  · exact RE.firstIn_seq _ (firstIn_chr '~' (by decide))
  · exact RE.firstIn_alt (RE.firstIn_seq _ (firstIn_chr '*' (by decide)))
      (RE.firstIn_seq _ (firstIn_chr '_' (by decide)))
  · exact RE.firstIn_alt (RE.firstIn_seq _ (firstIn_chr '*' (by decide)))
      (RE.firstIn_seq _ (firstIn_chr '_' (by decide)))
  · exact RE.firstIn_seq _ (firstIn_chr '<' (by decide))

theorem lastIn_strongBranch (c : Char) (h : qc c ≠ DUMMY_CHAR) :
    RE.LastIn (· ≠ DUMMY_CHAR) (strongBranch c) :=
  RE.lastIn_seq _ (RE.lastIn_seq _ (RE.lastIn_seq _ (RE.lastIn_seq _ (RE.lastIn_seq _
    (RE.lastIn_seq _ (RE.lastIn_seq_look _ _ (lastIn_chr c h)))))))

theorem lastIn_emphasisBranch (c : Char) (h : qc c ≠ DUMMY_CHAR) :
    RE.LastIn (· ≠ DUMMY_CHAR) (emphasisBranch c) :=
  RE.lastIn_seq _ (RE.lastIn_seq _ (RE.lastIn_seq _ (RE.lastIn_seq _ (lastIn_chr c h))))

/-- Every pattern of inline scanning ends with a literal character other than
the dummy character. -/
theorem stage_last : ∀ st ∈ inlineStages, RE.LastIn (· ≠ DUMMY_CHAR) st.2.1.pattern := by
  intro st hst
  simp only [inlineStages, List.mem_cons, List.mem_singleton, List.not_mem_nil,
    or_false] at hst
  rcases hst with rfl | rfl | rfl | rfl | rfl | rfl | rfl | rfl | rfl | rfl | rfl
  · exact RE.lastIn_seq _ (RE.lastIn_seq _ (RE.lastIn_seq _ (RE.lastIn_seq _
      (lastIn_chr '>' (by decide)))))
  · exact RE.lastIn_seq _ (RE.lastIn_seq _ (RE.lastIn_seq _ (RE.lastIn_seq _ (RE.lastIn_seq _
      (RE.lastIn_seq _ (lastIn_chr ')' (by decide)))))))
  · exact RE.lastIn_seq _ (RE.lastIn_seq _ (RE.lastIn_seq _ (RE.lastIn_seq _ (RE.lastIn_seq _
      (lastIn_chr ')' (by decide))))))
  · exact RE.lastIn_seq _ (RE.lastIn_seq _ (lastIn_chr ']' (by decide)))
  · exact RE.lastIn_alt (RE.lastIn_seq _ (RE.lastIn_seq _ (lastIn_chr ';' (by decide))))
      (RE.lastIn_seq _ (RE.lastIn_seq _ (RE.lastIn_seq _ (RE.lastIn_seq _
        (lastIn_chr ';' (by decide))))))
  · exact RE.lastIn_alt
      (RE.lastIn_seq _ (RE.lastIn_seq _ (RE.lastIn_seq _ (RE.lastIn_seq _
        (lastIn_chr '>' (by decide))))))
      (RE.lastIn_seq _ (RE.lastIn_seq _ (RE.lastIn_seq _ (RE.lastIn_seq _
        (lastIn_chr '>' (by decide))))))
  · exact RE.lastIn_alt (RE.lastIn_seq _ (RE.lastIn_seq _ lastIn_backtick))
      (RE.lastIn_seq _ (RE.lastIn_seq _ (RE.lastIn_seq _ (RE.lastIn_seq _
        (RE.lastIn_plus_cls (fun x hx => by
          have : x = 96 := by simpa using hx
          rw [this]
          decide))))))
  · exact RE.lastIn_seq _ (RE.lastIn_seq _ (RE.lastIn_seq _ (RE.lastIn_seq _
      (lastIn_chr '~' (by decide)))))
  · exact RE.lastIn_alt (lastIn_strongBranch '*' (by decide))
      (lastIn_strongBranch '_' (by decide))
  · exact RE.lastIn_alt (lastIn_emphasisBranch '*' (by decide))
      (lastIn_emphasisBranch '_' (by decide))
  · exact RE.lastIn_seq _ (RE.lastIn_seq _ (lastIn_chr '>' (by decide)))

/-- A match of an inline pattern neither starts nor ends at a dummy
character of the working text. -/
theorem stage_edges : ∀ st ∈ inlineStages, ∀ (w : QString) (off i l : Nat),
    st.2.1.indexIn w off = some (i, l) →
      w[i]? ≠ some DUMMY_CHAR ∧ w[i + l - 1]? ≠ some DUMMY_CHAR := by
  intro st hst w off i l hm
  obtain ⟨span, t, hs, hlen, ht⟩ := QRegExp.indexIn_span hm
  constructor
  · obtain ⟨c, u, hc, hne⟩ := stage_first st hst _ _ _ ht
    have : (w.drop i)[0]? = some c := by rw [hc]; simp
    rw [List.getElem?_drop, Nat.add_zero] at this
    rw [this]
    intro h
    exact hne (Option.some.inj h)
  · obtain ⟨u, c, hc, hne⟩ := stage_last st hst _ _ _ ht
    have hul : span = u ++ [c] := by
      have h1 : (u ++ [c]).length = span.length := by
        have := congrArg List.length (hs.symm.trans hc)
        simp at this ⊢
        omega
      have h2 : (u ++ [c]) ++ t = span ++ t := by
        rw [← hs, hc]
        simp
      exact ((List.append_inj h2 h1).1).symm
    have hl : l = u.length + 1 := by rw [← hlen, hul]; simp
    have : (w.drop i)[u.length]? = some c := by
      rw [hc, List.getElem?_append_right (Nat.le_refl _)]
      simp
    rw [List.getElem?_drop] at this
    rw [hl, show i + (u.length + 1) - 1 = i + u.length by omega, this]
    intro h
    exact hne (Option.some.inj h)

end MarkdownParser

namespace MarkdownParser

theorem length_replaced (rm ra : Bool) (ms me : Nat) (w : QString) (i l : Nat) :
    (replaced rm ra ms me w i l).length = w.length := by
  unfold replaced
  split
  · exact length_fillRange _ _ _ _
  · split
    · rw [length_fillRange, length_fillRange]
    · rfl

theorem replaced_keep (rm ra : Bool) (ms me : Nat) {w : QString} (i l : Nat) {j : Nat}
    (h : w[j]? = some DUMMY_CHAR) : (replaced rm ra ms me w i l)[j]? = some DUMMY_CHAR := by
  unfold replaced
  split
  · exact fillRange_keep _ _ h
  · split
    · exact fillRange_keep _ _ (fillRange_keep _ _ h)
    · exact h

theorem matchToken_position (ty : MarkdownTokenType) (ms me i l : Nat) :
    (matchToken ty ms me i l).position = (i : Int) := rfl

theorem matchToken_length (ty : MarkdownTokenType) (ms me i l : Nat) :
    (matchToken ty ms me i l).length = (l : Int) := rfl

theorem matchToken_type (ty : MarkdownTokenType) (ms me i l : Nat) :
    (matchToken ty ms me i l).type = ty := rfl

/-- One more match: the token of a match found at or after `off` in the
working text is apart from the tokens emitted before, and the replacement keeps
the spans of the blanking tokens blank. -/
theorem scanned_step (ty : MarkdownTokenType) (regex : QRegExp) (ms me : Nat) (rm ra : Bool)
    (hc : RE.consuming regex.pattern = true)
    (hedge : ∀ w off i l, regex.indexIn w off = some (i, l) →
      w[i]? ≠ some DUMMY_CHAR ∧ w[i + l - 1]? ≠ some DUMMY_CHAR)
    (hra : ty ∈ blankingTypes → ra = true)
    {text : QString} {off i l : Nat} {acc : List Token}
    (hm : regex.indexIn text off = some (i, l))
    (hsc : Scanned acc text)
    (hoff : ∀ a ∈ acc, a.type = ty → a.position + a.length ≤ (off : Int)) :
    Scanned (acc ++ [matchToken ty ms me i l]) (replaced rm ra ms me text i l)
    ∧ ∀ a ∈ acc ++ [matchToken ty ms me i l], a.type = ty →
        a.position + a.length ≤ ((i + l : Nat) : Int) := by
  obtain ⟨hb1, hb2⟩ := QRegExp.indexIn_bounds hm
  have hl := QRegExp.indexIn_pos hc hm
  obtain ⟨he1, he2⟩ := hedge text off i l hm
  obtain ⟨hpw, hcov⟩ := hsc
  refine ⟨⟨?_, ?_⟩, ?_⟩
  · rw [List.pairwise_append]
    refine ⟨hpw, List.pairwise_singleton _ _, ?_⟩
    intro a ha b hb
    rw [List.mem_singleton] at hb
    rw [hb]
    refine ⟨?_, ?_⟩
    · intro hty
      have := hoff a ha (by rw [hty]; rfl)
      rw [matchToken_position]
      omega
    · intro hbl
      rw [matchToken_position, matchToken_length]
      constructor
      · intro hcv
        exact he1 (hcov a ha hbl i hcv)
      · intro hcv
        have he : (i : Int) + (l : Int) - 1 = ((i + l - 1 : Nat) : Int) := by omega
        rw [he] at hcv
        exact he2 (hcov a ha hbl (i + l - 1) hcv)
  · intro a ha hbl j hcv
    rcases List.mem_append.mp ha with ha | ha
    · exact replaced_keep rm ra ms me i l (hcov a ha hbl j hcv)
    · rw [List.mem_singleton] at ha
      rw [ha] at hbl hcv
      have hra2 := hra hbl
      unfold Token.covers at hcv
      rw [matchToken_position, matchToken_length] at hcv
      unfold replaced
      rw [if_pos hra2, getElem?_fillRange, if_pos ⟨by omega, by omega, by omega⟩]
  · intro a ha hty
    rcases List.mem_append.mp ha with ha | ha
    · have := hoff a ha hty
      omega
    · rw [List.mem_singleton] at ha
      rw [ha, matchToken_position, matchToken_length]
      omega

/-- The search loop of `parseMatches`, started at the offset `off` of a working
text, with the tokens emitted before: the tokens stay pairwise apart. An
invariant `J` of offset and working text may be carried along. -/
theorem parseMatchesLoop_apart (ty : MarkdownTokenType) (regex : QRegExp) (ms me : Nat)
    (rm ra : Bool) (hc : RE.consuming regex.pattern = true)
    (hedge : ∀ w off i l, regex.indexIn w off = some (i, l) →
      w[i]? ≠ some DUMMY_CHAR ∧ w[i + l - 1]? ≠ some DUMMY_CHAR)
    (hra : ty ∈ blankingTypes → ra = true)
    (J : Nat → QString → Prop)
    (hJ : ∀ w off i l, J off w → regex.indexIn w off = some (i, l) →
      J (i + l) (replaced rm ra ms me w i l)) :
    ∀ (fuel : Nat) (text : QString) (off : Nat) (acc : List Token),
      text.length + 1 ≤ fuel + off →
      Scanned acc text →
      (∀ a ∈ acc, a.type = ty → a.position + a.length ≤ (off : Int)) →
      J off text →
      ∃ (toks : List Token) (text1 : QString) (off1 : Nat), text1.length = text.length
        ∧ Scanned (acc ++ toks) text1
        ∧ (∀ t ∈ toks, t.type = ty)
        ∧ (∀ a ∈ acc ++ toks, a.type = ty → a.position + a.length ≤ (off1 : Int))
        ∧ J off1 text1
        ∧ ∀ p, parseMatchesLoop ty regex ms me rm ra fuel p text (regex.indexIn text off)
            = some ((Effect.mk none toks false).apply p, text1) := by
  intro fuel
  induction fuel with
  | zero =>
    intro text off acc hfuel hsc hoff hj
    cases hm : regex.indexIn text off with
    | none =>
      exact ⟨[], text, off, rfl, by simpa using hsc, by simp, by simpa using hoff, hj,
        fun p => by simp [parseMatchesLoop, Effect.apply]⟩
    | some il =>
      obtain ⟨i, l⟩ := il
      have := QRegExp.indexIn_bounds hm
      omega
  | succ k ih =>
    intro text off acc hfuel hsc hoff hj
    cases hm : regex.indexIn text off with
    | none =>
      exact ⟨[], text, off, rfl, by simpa using hsc, by simp, by simpa using hoff, hj,
        fun p => by simp [parseMatchesLoop, Effect.apply]⟩
    | some il =>
      obtain ⟨i, l⟩ := il
      obtain ⟨hb1, hb2⟩ := QRegExp.indexIn_bounds hm
      have hl := QRegExp.indexIn_pos hc hm
      obtain ⟨hsc1, hoff1⟩ := scanned_step ty regex ms me rm ra hc hedge hra hm hsc hoff
      obtain ⟨toks, text2, off1, hlen2, hsc2, hty2, hoff2, hj2, hrun⟩ :=
        ih (replaced rm ra ms me text i l) (i + l) (acc ++ [matchToken ty ms me i l])
          (by rw [length_replaced]; omega) hsc1 hoff1 (hJ text off i l hj hm)
      refine ⟨matchToken ty ms me i l :: toks, text2, off1,
        by rw [hlen2, length_replaced], by simpa using hsc2, ?_, by simpa using hoff2, hj2, ?_⟩
      · intro t ht
        rcases List.mem_cons.mp ht with rfl | ht
        · rfl
        · exact hty2 t ht
      · intro p
        have hstep : parseMatchesLoop ty regex ms me rm ra (k + 1) p text (some (i, l))
            = parseMatchesLoop ty regex ms me rm ra k (p.addToken (matchToken ty ms me i l))
                (replaced rm ra ms me text i l)
                (regex.indexIn (replaced rm ra ms me text i l) (i + l)) := rfl
        rw [hstep, hrun, Effect.addToken_eq, Effect.apply_apply]
        simp [Effect.andThen]

end MarkdownParser

namespace QRegExp

/-- The search is leftmost: before the index it returns there is no match. -/
theorem searchFrom_leftmost {re : QRegExp} {n : Nat} :
    ∀ (s : QString) (pos i l : Nat), re.searchFrom n s pos = some (i, l) →
      ∀ k, pos + k < i → re.matchHere n (s.drop k) = none := by
  intro s
  induction s with
  | nil =>
    intro pos i l h k hk
    simp only [searchFrom, Option.map_eq_some'] at h
    obtain ⟨a, _, h2⟩ := h
    simp only [Prod.mk.injEq] at h2
    omega
  | cons c t ih =>
    intro pos i l h k hk
    simp only [searchFrom] at h
    split at h
    · simp only [Option.some.injEq, Prod.mk.injEq] at h
      omega
    · rename_i hnone
      cases k with
      | zero => simpa using hnone
      | succ k =>
        have := ih (pos + 1) i l h k (by omega)
        simpa using this

theorem indexIn_leftmost {re : QRegExp} {text : QString} {offset i l : Nat}
    (h : re.indexIn text offset = some (i, l)) (s : Nat) (h1 : offset ≤ s) (h2 : s < i) :
    re.matchHere text.length (text.drop s) = none := by
  unfold indexIn at h
  split at h
  · have := searchFrom_leftmost _ _ _ _ h (s - offset) (by omega)
    rw [List.drop_drop] at this
    rw [show offset + (s - offset) = s by omega] at this
    exact this
  · simp at h

end QRegExp

/-- A string is a prefix of the text from index `s` on exactly when its
characters are found there one by one. -/
theorem isPrefixOf_drop_iff (pat : QString) :
    ∀ (w : QString) (s : Nat),
      pat.isPrefixOf (w.drop s) = true ↔ ∀ k, k < pat.length → w[s + k]? = pat[k]? := by
  induction pat with
  | nil =>
    intro w s
    simp
  | cons a p ih =>
    intro w s
    cases hd : w.drop s with
    | nil =>
      simp only [List.isPrefixOf, Bool.false_eq_true, false_iff]
      intro h
      have h0 := h 0 (by simp)
      have hlen : w.length ≤ s := by
        have := congrArg List.length hd
        simp at this
        omega
      rw [List.getElem?_eq_none (by omega)] at h0
      simp at h0
    | cons c t =>
      have hc : w[s]? = some c := by
        have : (w.drop s)[0]? = some c := by rw [hd]; simp
        simpa using this
      have ht : w.drop (s + 1) = t := by
        have : (w.drop s).drop 1 = t := by rw [hd]; simp
        rw [List.drop_drop] at this
        exact this
      simp only [List.isPrefixOf, Bool.and_eq_true, beq_iff_eq]
      rw [← ht, ih w (s + 1)]
      constructor
      · rintro ⟨hac, h⟩ k hk
        cases k with
        | zero => simp [hc, hac]
        | succ k =>
          have := h k (by simpa using hk)
          simpa [Nat.add_assoc, Nat.add_comm 1 k] using this
      · intro h
        refine ⟨?_, ?_⟩
        · have h0 := h 0 (by simp)
          simp only [Nat.add_zero, hc, List.getElem?_cons_zero, Option.some.injEq] at h0
          exact h0.symm
        · intro k hk
          have := h (k + 1) (by simpa using hk)
          simpa [Nat.add_assoc, Nat.add_comm 1 k] using this

/-- Where `indexOf` finds the string, the string is. -/
theorem indexOfStrFrom_spec (pat : QString) :
    ∀ (w : QString) (pos : Nat) (r : Int), indexOfStrFrom pat w pos = r → r ≥ 0 →
      ∃ k : Nat, r = ((pos + k : Nat) : Int) ∧ k ≤ w.length
        ∧ pat.isPrefixOf (w.drop k) = true := by
  intro w
  induction w with
  | nil =>
    intro pos r h hr
    simp only [indexOfStrFrom] at h
    split at h
    · rename_i he
      refine ⟨0, by simp [← h], by simp, ?_⟩
      have : pat = [] := by simpa using he
      simp [this]
    · omega
  | cons c t ih =>
    intro pos r h hr
    simp only [indexOfStrFrom] at h
    split at h
    · rename_i hp
      exact ⟨0, by simp [← h], by simp, by simpa using hp⟩
    · obtain ⟨k, hk, hk2, hpre⟩ := ih (pos + 1) r h hr
      exact ⟨k + 1, by rw [hk]; congr 1; omega, by simpa using hk2, by simpa using hpre⟩

theorem indexOfStr_spec {pat w : QString} (h : indexOfStr w pat ≥ 0) :
    ∃ k : Nat, indexOfStr w pat = (k : Int) ∧ k ≤ w.length
      ∧ pat.isPrefixOf (w.drop k) = true := by
  obtain ⟨k, hk, hk2, hpre⟩ := indexOfStrFrom_spec pat w 0 _ rfl h
  exact ⟨k, by simpa [indexOfStr] using hk, hk2, hpre⟩

namespace MarkdownParser

/-- The matches of the comment pattern: `<!--`, anything, `-->`. -/
theorem comment_ends {n : Nat} {s t : QString} :
    t ∈ RE.ends n htmlInlineCommentRegex.pattern s ↔
      ∃ mid, s = qs "<!--" ++ (mid ++ (qs "-->" ++ t)) := by
  have hp : htmlInlineCommentRegex.pattern
      = RE.seq (RE.seq (RE.chr '<') (RE.seq (RE.chr '!') (RE.seq (RE.chr '-') (RE.chr '-'))))
          (RE.seq (RE.star (RE.cls (fun _ => true)))
            (RE.seq (RE.chr '-') (RE.seq (RE.chr '-') (RE.chr '>')))) := rfl
  have hq1 : qs "<!--" = [qc '<', qc '!', qc '-', qc '-'] := rfl
  have hq2 : qs "-->" = [qc '-', qc '-', qc '>'] := rfl
  rw [hp, hq1, hq2]
  simp only [RE.mem_ends_seq, RE.mem_ends_chr, RE.mem_ends_star_cls]
  constructor
  · rintro ⟨u, ⟨u1, rfl, u2, rfl, u3, rfl, rfl⟩, v, ⟨mid, rfl, _⟩, v1, rfl, v2, rfl, rfl⟩
    exact ⟨mid, by simp⟩
  · rintro ⟨mid, rfl⟩
    exact ⟨mid ++ (qc '-' :: qc '-' :: qc '>' :: t), ⟨_, rfl, _, rfl, _, rfl, rfl⟩,
      qc '-' :: qc '-' :: qc '>' :: t, ⟨mid, rfl, fun _ _ => trivial⟩, _, rfl, _, rfl, rfl⟩

/-- A comment opener in the working text after a replacement was there
before. -/
theorem opener_old {w : QString} (lo hi s : Nat)
    (h : (qs "<!--").isPrefixOf ((fillRange w lo hi DUMMY_CHAR).drop s) = true) :
    (qs "<!--").isPrefixOf (w.drop s) = true := by
  rw [isPrefixOf_drop_iff] at h ⊢
  intro k hk
  have hk4 : k < 4 := hk
  have := h k hk
  have hne : ∀ d, (qs "<!--")[k]? = some d → d ≠ DUMMY_CHAR := by
    intro d hd
    have hq : qs "<!--" = [qc '<', qc '!', qc '-', qc '-'] := rfl
    rw [hq] at hd
    rcases k with _ | _ | _ | _ | k
    · simp at hd; rw [← hd]; decide
    · simp at hd; rw [← hd]; decide
    · simp at hd; rw [← hd]; decide
    · simp at hd; rw [← hd]; decide
    · omega
  obtain ⟨d, hd⟩ : ∃ d, (qs "<!--")[k]? = some d := by
    have : k < (qs "<!--").length := hk
    exact ⟨_, List.getElem?_eq_getElem this⟩
  rw [hd] at this ⊢
  exact fillRange_old lo hi this (hne d hd)

/-- The comment search keeps openers behind it out of the working text: when
no `<!--` starts before the offset, none starts before the end of the match
found next, once the match is replaced. -/
theorem comment_step (w : QString) (off i l : Nat) (hj : NoOpenerBefore off w)
    (hm : htmlInlineCommentRegex.indexIn w off = some (i, l)) :
    NoOpenerBefore (i + l) (replaced false true 0 0 w i l) := by
  intro s hs
  cases hpre : (qs "<!--").isPrefixOf ((replaced false true 0 0 w i l).drop s) with
  | false => rfl
  | true =>
    exfalso
    have hrep : replaced false true 0 0 w i l = fillRange w i (i + l) DUMMY_CHAR := by
      simp [replaced]
    rw [hrep] at hpre
    obtain ⟨hb1, hb2⟩ := QRegExp.indexIn_bounds hm
    by_cases hsi : i ≤ s
    · have h0 := (isPrefixOf_drop_iff _ _ _).mp hpre 0 (by decide)
      rw [Nat.add_zero, getElem?_fillRange, if_pos ⟨hsi, hs, by omega⟩] at h0
      have hq : (qs "<!--")[0]? = some (qc '<') := rfl
      rw [hq] at h0
      exact absurd (Option.some.inj h0) (by decide)
    · have hold := opener_old _ _ _ hpre
      by_cases hso : s < off
      · rw [hj s hso] at hold
        exact absurd hold (by decide)
      · have hnone := QRegExp.indexIn_leftmost hm s (by omega) (by omega)
        rw [QRegExp.matchHere_eq_none] at hnone
        obtain ⟨span, t, hspan, _, ht⟩ := QRegExp.indexIn_span hm
        obtain ⟨mid, hmid⟩ := comment_ends.mp ht
        obtain ⟨x, hx⟩ := List.isPrefixOf_iff_prefix.mp hold
        have hx4 : w.drop (s + 4) = x := by
          have := congrArg (List.drop 4) hx
          rw [List.drop_drop] at this
          rw [← this]
          rfl
        have hi4 : w.drop (i + 4) = mid ++ (qs "-->" ++ t) := by
          have := congrArg (List.drop 4) hmid
          rw [List.drop_drop] at this
          rw [this]
          rfl
        have hxi : x.drop (i - s) = mid ++ (qs "-->" ++ t) := by
          rw [← hx4, List.drop_drop, ← hi4]
          congr 1
          omega
        have hmem : t ∈ RE.ends w.length htmlInlineCommentRegex.pattern (w.drop s) := by
          rw [comment_ends]
          refine ⟨x.take (i - s) ++ mid, ?_⟩
          rw [← hx, List.append_assoc, ← hxi, List.take_append_drop]
        rw [hnone] at hmem
        exact absurd hmem (List.not_mem_nil _)

/-- One pattern search of `parseInline` after the tokens `acc` were emitted,
none of which has the type searched for: the tokens stay pairwise apart. -/
theorem parseMatches_apart (ty : MarkdownTokenType) (regex : QRegExp) (ms me : Nat)
    (rm ra : Bool) (hc : RE.consuming regex.pattern = true)
    (hedge : ∀ w off i l, regex.indexIn w off = some (i, l) →
      w[i]? ≠ some DUMMY_CHAR ∧ w[i + l - 1]? ≠ some DUMMY_CHAR)
    (hra : ty ∈ blankingTypes → ra = true)
    (tys : List MarkdownTokenType) (hty : ty ∉ tys)
    (text : QString) (acc : List Token) (hsc : Scanned acc text)
    (hacc : ∀ a ∈ acc, a.type ∈ tys) :
    ∃ (toks : List Token) (text1 : QString), text1.length = text.length
      ∧ Scanned (acc ++ toks) text1
      ∧ (∀ a ∈ acc ++ toks, a.type ∈ ty :: tys)
      ∧ ∀ p, parseMatches ty regex ms me rm ra p text
          = some ((Effect.mk none toks false).apply p, text1) := by
  obtain ⟨toks, text1, off1, hlen, hsc1, htoks, _, _, hrun⟩ :=
    parseMatchesLoop_apart ty regex ms me rm ra hc hedge hra (fun _ _ => True)
      (fun _ _ _ _ _ _ => trivial) (text.length + 1) text 0 acc (by omega) hsc
      (fun a ha hat => absurd (hat ▸ hacc a ha) hty) trivial
  refine ⟨toks, text1, hlen, hsc1, ?_, hrun⟩
  intro a ha
  rcases List.mem_append.mp ha with ha | ha
  · exact List.mem_cons_of_mem _ (hacc a ha)
  · rw [htoks a ha]
    exact List.mem_cons_self _ _

end MarkdownParser

namespace MarkdownParser

theorem scanned_fill {acc : List Token} {w : QString} (lo hi : Nat) (h : Scanned acc w) :
    Scanned acc (fillRange w lo hi DUMMY_CHAR) :=
  ⟨h.1, fun a ha hb j hj => fillRange_keep lo hi (h.2 a ha hb j hj)⟩

/-- The reference-definition check at the start of `parseInline`: at most one
token, of a type that is not replaced in full. -/
theorem parseReferenceDefinition_apart (text : QString) :
    ∃ (toks : List Token) (text1 : QString), text1.length = text.length
      ∧ Scanned toks text1
      ∧ (∀ a ∈ toks, a.type ∈ [TokenReferenceDefinition])
      ∧ ∀ p : MarkdownParser,
          parseReferenceDefinition p text = ((Effect.mk none toks false).apply p, text1) := by
  by_cases h : referenceDefinitionRegex.exactMatch text = true
  · refine ⟨[referenceDefinitionToken text],
      (if indexOfChar text (qc '[') ≥ 0 then text.set (indexOfChar text (qc '[')).toNat DUMMY_CHAR
        else text), ?_, ⟨List.pairwise_singleton _ _, ?_⟩, ?_, ?_⟩
    · split <;> simp
    · intro a ha hb
      rw [List.mem_singleton] at ha
      rw [ha] at hb
      have hb2 : TokenReferenceDefinition ∈ blankingTypes := hb
      exact absurd hb2 (by decide)
    · intro a ha
      rw [List.mem_singleton] at ha
      rw [ha]
      exact List.mem_singleton.mpr rfl
    · intro p
      simp [parseReferenceDefinition, h, Effect.apply, addToken, referenceDefinitionToken]
  · refine ⟨[], text, rfl, ⟨List.Pairwise.nil, by simp⟩, by simp, ?_⟩
    intro p
    simp [parseReferenceDefinition, h, Effect.apply]

/-- The comment search of `parseInline`, after the reference-definition check:
the tokens stay pairwise apart, the token of a comment left open included. -/
theorem parseHtmlComments_apart (prev : MarkdownState) (text : QString) (acc : List Token)
    (hsc : Scanned acc text) (hacc : ∀ a ∈ acc, a.type ∈ [TokenReferenceDefinition]) :
    ∃ (e : Effect) (text1 : QString), text1.length = text.length
      ∧ Scanned (acc ++ e.toks) text1
      ∧ (∀ a ∈ acc ++ e.toks, a.type ∈ [TokenHtmlComment, TokenReferenceDefinition])
      ∧ e.bt = false
      ∧ ∀ p : MarkdownParser, p.previousState = prev →
          parseHtmlComments p text = some (e.apply p, text1) := by
  generalize ht0 : (if prev = Comment then
      fillRange text 0 (indexOfStr text (qs "-->") + 3).toNat DUMMY_CHAR else text) = text0
  have hlen0 : text0.length = text.length := by
    rw [← ht0]
    split
    · exact length_fillRange _ _ _ _
    · rfl
  have hsc0 : Scanned acc text0 := by
    rw [← ht0]
    split
    · exact scanned_fill _ _ hsc
    · exact hsc
  have hnc : ∀ a ∈ acc, a.type ≠ TokenHtmlComment := by
    intro a ha hat
    have := hacc a ha
    rw [hat] at this
    exact absurd this (by decide)
  obtain ⟨toks, text1, off1, hlen1, hsc1, htoks, hoff1, hj1, hrun⟩ :=
    parseMatchesLoop_apart TokenHtmlComment htmlInlineCommentRegex 0 0 false true (by rfl)
      (stage_edges (TokenHtmlComment, htmlInlineCommentRegex, 0, 0) (by simp [inlineStages]))
      (fun _ => rfl) NoOpenerBefore comment_step (text0.length + 1) text0 0 acc (by omega) hsc0
      (fun a ha hat => absurd hat (hnc a ha)) (fun s hs => absurd hs (Nat.not_lt_zero s))
  have htys : ∀ a ∈ acc ++ toks, a.type ∈ [TokenHtmlComment, TokenReferenceDefinition] := by
    intro a ha
    rcases List.mem_append.mp ha with ha | ha
    · exact List.mem_cons_of_mem _ (hacc a ha)
    · rw [htoks a ha]
      exact List.mem_cons_self _ _
  by_cases hcs : indexOfStr text1 (qs "<!--") ≥ 0
  · obtain ⟨k, hk, hkl, hpre⟩ := indexOfStr_spec hcs
    have hk1 : off1 ≤ k := by
      by_contra hlt
      rw [hj1 k (by omega)] at hpre
      exact absurd hpre (by decide)
    have hk4 : k + 4 ≤ text1.length := by
      have := (List.isPrefixOf_iff_prefix.mp hpre).length_le
      simp only [List.length_drop] at this
      have h4 : (qs "<!--").length = 4 := rfl
      omega
    have hpos : (openCommentToken text1).position = (k : Int) := hk
    have hlng : (openCommentToken text1).length = ((text1.length - k : Nat) : Int) := by
      show (text1.length : Int) - indexOfStr text1 (qs "<!--") = _
      rw [hk]
      omega
    have hord : ∀ a ∈ acc ++ toks, a.type ∈ blankingTypes →
        a.position + a.length ≤ (k : Int) := by
      intro a ha hb
      have h1 : a.type = TokenHtmlComment := by
        rcases List.mem_append.mp ha with ha | ha
        · have := hacc a ha
          rw [List.mem_singleton] at this
          rw [this] at hb
          exact absurd hb (by decide)
        · exact htoks a ha
      have := hoff1 a ha h1
      omega
    refine ⟨⟨some Comment, toks ++ [openCommentToken text1], false⟩,
      fillRange text1 (indexOfStr text1 (qs "<!--")).toNat text1.length DUMMY_CHAR,
      by rw [length_fillRange, hlen1, hlen0], ⟨?_, ?_⟩, ?_, rfl, ?_⟩
    · show List.Pairwise Apart (acc ++ (toks ++ [openCommentToken text1]))
      rw [← List.append_assoc, List.pairwise_append]
      refine ⟨hsc1.1, List.pairwise_singleton _ _, ?_⟩
      intro a ha b hb
      rw [List.mem_singleton] at hb
      rw [hb]
      refine ⟨?_, ?_⟩
      · intro hty
        have := hoff1 a ha (by rw [hty]; rfl)
        rw [hpos]
        omega
      · intro hbl
        have := hord a ha hbl
        rw [hpos, hlng]
        unfold Token.covers
        constructor <;> omega
    · intro a ha hbl j hcv
      rw [hk, Int.toNat_ofNat]
      have ha2 : a ∈ (acc ++ toks) ++ [openCommentToken text1] := by
        simpa [List.append_assoc] using ha
      rcases List.mem_append.mp ha2 with ha3 | ha3
      · exact fillRange_keep _ _ (hsc1.2 a ha3 hbl j hcv)
      · rw [List.mem_singleton] at ha3
        rw [ha3] at hcv
        unfold Token.covers at hcv
        rw [hpos, hlng] at hcv
        rw [getElem?_fillRange, if_pos ⟨by omega, by omega, by omega⟩]
    · intro a ha
      have ha2 : a ∈ (acc ++ toks) ++ [openCommentToken text1] := by
        simpa [List.append_assoc] using ha
      rcases List.mem_append.mp ha2 with ha3 | ha3
      · exact htys a ha3
      · rw [List.mem_singleton] at ha3
        rw [ha3]
        exact List.mem_cons_self _ _
    · intro p hp
      simp only [parseHtmlComments, hp, ht0, htmlCommentLoop_eq, hrun, hcs, if_true]
      simp [Effect.apply, addToken, setState, openCommentToken]
  · refine ⟨⟨none, toks, false⟩, text1, by rw [hlen1, hlen0], hsc1, htys, rfl, ?_⟩
    intro p hp
    simp only [parseHtmlComments, hp, ht0, htmlCommentLoop_eq, hrun, hcs, if_false]

/-- Inline scanning as a whole: the tokens it emits are pairwise apart. -/
theorem parseInline_apart (prev : MarkdownState) (text : QString) :
    ∃ e : Effect, List.Pairwise Apart e.toks ∧ (∀ t ∈ e.toks, t.type ∈ inlineTokenTypes) ∧
      ∀ p : MarkdownParser, p.previousState = prev → parseInline p text = some (e.apply p) := by
  obtain ⟨k0, t0, hl0, hs0, hy0, h0⟩ :=
    parseReferenceDefinition_apart (dummyOutEscapeCharacters text)
  obtain ⟨e1, t1, hl1, hs1, hy1, hb1, h1⟩ := parseHtmlComments_apart prev t0 k0 hs0 hy0
  obtain ⟨k2, t2, hl2, hs2, hy2, h2⟩ :=
    parseMatches_apart TokenImage imageRegex 0 0 false true (by rfl)
      (stage_edges (TokenImage, imageRegex, 0, 0) (by simp [inlineStages])) (fun _ => rfl)
      [TokenHtmlComment, TokenReferenceDefinition] (by decide) t1 (k0 ++ e1.toks) hs1 hy1
  obtain ⟨k3, t3, hl3, hs3, hy3, h3⟩ :=
    parseMatches_apart TokenInlineLink inlineLinkRegex 0 0 false true (by rfl)
      (stage_edges (TokenInlineLink, inlineLinkRegex, 0, 0) (by simp [inlineStages])) (fun _ => rfl)
      [TokenImage, TokenHtmlComment, TokenReferenceDefinition] (by decide) t2 (k0 ++ e1.toks ++ k2) hs2 hy2
  obtain ⟨k4, t4, hl4, hs4, hy4, h4⟩ :=
    parseMatches_apart TokenReferenceLink referenceLinkRegex 0 0 false false (by rfl)
      (stage_edges (TokenReferenceLink, referenceLinkRegex, 0, 0) (by simp [inlineStages])) (fun h => absurd h (by decide))
      [TokenInlineLink, TokenImage, TokenHtmlComment, TokenReferenceDefinition] (by decide) t3 (k0 ++ e1.toks ++ k2 ++ k3) hs3 hy3
  obtain ⟨k5, t5, hl5, hs5, hy5, h5⟩ :=
    parseMatches_apart TokenHtmlEntity htmlEntityRegex 0 0 false false (by rfl)
      (stage_edges (TokenHtmlEntity, htmlEntityRegex, 0, 0) (by simp [inlineStages])) (fun h => absurd h (by decide))
      [TokenReferenceLink, TokenInlineLink, TokenImage, TokenHtmlComment, TokenReferenceDefinition] (by decide) t4 (k0 ++ e1.toks ++ k2 ++ k3 ++ k4) hs4 hy4
  obtain ⟨k6, t6, hl6, hs6, hy6, h6⟩ :=
    parseMatches_apart TokenAutomaticLink automaticLinkRegex 0 0 false true (by rfl)
      (stage_edges (TokenAutomaticLink, automaticLinkRegex, 0, 0) (by simp [inlineStages])) (fun _ => rfl)
      [TokenHtmlEntity, TokenReferenceLink, TokenInlineLink, TokenImage, TokenHtmlComment, TokenReferenceDefinition] (by decide) t5 (k0 ++ e1.toks ++ k2 ++ k3 ++ k4 ++ k5) hs5 hy5
  obtain ⟨k7, t7, hl7, hs7, hy7, h7⟩ :=
    parseMatches_apart TokenVerbatim verbatimRegex 0 0 false true (by rfl)
      (stage_edges (TokenVerbatim, verbatimRegex, 0, 0) (by simp [inlineStages])) (fun _ => rfl)
      [TokenAutomaticLink, TokenHtmlEntity, TokenReferenceLink, TokenInlineLink, TokenImage, TokenHtmlComment, TokenReferenceDefinition] (by decide) t6 (k0 ++ e1.toks ++ k2 ++ k3 ++ k4 ++ k5 ++ k6) hs6 hy6
  obtain ⟨k8, t8, hl8, hs8, hy8, h8⟩ :=
    parseMatches_apart TokenStrikethrough strikethroughRegex 2 2 false false (by rfl)
      (stage_edges (TokenStrikethrough, strikethroughRegex, 2, 2) (by simp [inlineStages])) (fun h => absurd h (by decide))
      [TokenVerbatim, TokenAutomaticLink, TokenHtmlEntity, TokenReferenceLink, TokenInlineLink, TokenImage, TokenHtmlComment, TokenReferenceDefinition] (by decide) t7 (k0 ++ e1.toks ++ k2 ++ k3 ++ k4 ++ k5 ++ k6 ++ k7) hs7 hy7
  obtain ⟨k9, t9, hl9, hs9, hy9, h9⟩ :=
    parseMatches_apart TokenStrong strongRegex 2 2 true false (by rfl)
      (stage_edges (TokenStrong, strongRegex, 2, 2) (by simp [inlineStages])) (fun h => absurd h (by decide))
      [TokenStrikethrough, TokenVerbatim, TokenAutomaticLink, TokenHtmlEntity, TokenReferenceLink, TokenInlineLink, TokenImage, TokenHtmlComment, TokenReferenceDefinition] (by decide) t8 (k0 ++ e1.toks ++ k2 ++ k3 ++ k4 ++ k5 ++ k6 ++ k7 ++ k8) hs8 hy8
  obtain ⟨k10, t10, hl10, hs10, hy10, h10⟩ :=
    parseMatches_apart TokenEmphasis emphasisRegex 1 1 true false (by rfl)
      (stage_edges (TokenEmphasis, emphasisRegex, 1, 1) (by simp [inlineStages])) (fun h => absurd h (by decide))
      [TokenStrong, TokenStrikethrough, TokenVerbatim, TokenAutomaticLink, TokenHtmlEntity, TokenReferenceLink, TokenInlineLink, TokenImage, TokenHtmlComment, TokenReferenceDefinition] (by decide) t9 (k0 ++ e1.toks ++ k2 ++ k3 ++ k4 ++ k5 ++ k6 ++ k7 ++ k8 ++ k9) hs9 hy9
  obtain ⟨k11, t11, hl11, hs11, hy11, h11⟩ :=
    parseMatches_apart TokenHtmlTag htmlTagRegex 0 0 false false (by rfl)
      (stage_edges (TokenHtmlTag, htmlTagRegex, 0, 0) (by simp [inlineStages])) (fun h => absurd h (by decide))
      [TokenEmphasis, TokenStrong, TokenStrikethrough, TokenVerbatim, TokenAutomaticLink, TokenHtmlEntity, TokenReferenceLink, TokenInlineLink, TokenImage, TokenHtmlComment, TokenReferenceDefinition] (by decide) t10 (k0 ++ e1.toks ++ k2 ++ k3 ++ k4 ++ k5 ++ k6 ++ k7 ++ k8 ++ k9 ++ k10) hs10 hy10
  refine ⟨⟨e1.st, k0 ++ e1.toks ++ k2 ++ k3 ++ k4 ++ k5 ++ k6 ++ k7 ++ k8 ++ k9 ++ k10 ++ k11, false⟩, hs11.1, ?_, ?_⟩
  · intro t ht
    have hall : ∀ ty ∈ [TokenHtmlTag, TokenEmphasis, TokenStrong, TokenStrikethrough, TokenVerbatim, TokenAutomaticLink, TokenHtmlEntity, TokenReferenceLink, TokenInlineLink, TokenImage, TokenHtmlComment, TokenReferenceDefinition], ty ∈ inlineTokenTypes := by decide
    exact hall _ (hy11 t ht)
  · intro p hp
    simp only [parseInline, h0, h1 _ (show ((Effect.mk none k0 false).apply p).previousState = prev from hp),
      h2, h3, h4, h5, h6, h7, h8, h9, h10, h11, Option.bind_some, Option.some_bind,
      Option.map_some', Option.some.injEq]
    cases hst : e1.st <;>
      simp [Effect.apply, hb1, hst, List.append_assoc]

end MarkdownParser

theorem backslashRun_zero (text : QString) : backslashRun text 0 = 0 := by
  simp [backslashRun]

theorem backslashRun_succ {text : QString} {i : Nat} {c : QChar} (h : text[i]? = some c) :
    backslashRun text (i + 1)
      = if c == qc '\\' then backslashRun text i + 1 else 0 := by
  unfold backslashRun
  rw [List.take_succ, h]
  simp only [Option.toList_some, List.reverse_append, List.reverse_cons, List.reverse_nil,
    List.nil_append, List.singleton_append, List.takeWhile_cons]
  split <;> simp

/-- A position of the line is escaped exactly when the run of backslashes
before it has odd length. -/
theorem isEscaped_iff_odd (text : QString) :
    ∀ i, i ≤ text.length → (isEscaped text i = true ↔ backslashRun text i % 2 = 1) := by
  intro i
  induction i with
  | zero =>
    intro _
    simp [isEscaped, backslashRun_zero]
  | succ i ih =>
    intro hi
    have hlt : i < text.length := hi
    have hc : text[i]? = some text[i] := List.getElem?_eq_getElem hlt
    have ih2 := ih (Nat.le_of_lt hlt)
    rw [backslashRun_succ hc]
    simp only [isEscaped, hc]
    by_cases hb : text[i] = qc '\\'
    · have hb2 : (text[i] == qc '\\') = true := by simpa using hb
      rw [if_pos hb2]
      cases he : isEscaped text i with
      | true =>
        have := ih2.mp he
        simp [hb]
        omega
      | false =>
        have : ¬ backslashRun text i % 2 = 1 := fun h => by
          have := ih2.mpr h
          rw [he] at this
          exact absurd this (by decide)
        simp [hb]
        omega
    · have hb2 : (text[i] == qc '\\') = false := by simpa using hb
      rw [hb2]
      simp [hb]

namespace MarkdownParser

/-- The scan of `dummyOutEscapeCharacters`, position by position: an escaped
position holds the dummy character, any other position its own character. -/
theorem dummyOutLoop_at : ∀ (s : QString) (b : Bool) (i : Nat),
    (dummyOutLoop b s)[i]?
      = (s[i]?).map (fun c => if escFrom b s i = true then DUMMY_CHAR else c) := by
  intro s
  induction s with
  | nil => intro b i; cases b <;> simp [dummyOutLoop]
  | cons a t ih =>
    intro b i
    cases b with
    | true =>
      cases i with
      | zero => simp [dummyOutLoop, escFrom]
      | succ j =>
        simp only [dummyOutLoop, List.getElem?_cons_succ]
        rw [ih false j, escFrom_cons]
        simp
    | false =>
      cases i with
      | zero => simp [dummyOutLoop, escFrom]
      | succ j =>
        simp only [dummyOutLoop, List.getElem?_cons_succ]
        rw [ih _ j, escFrom_cons]
        simp

theorem dummyOut_at (text : QString) (i : Nat) :
    (dummyOutEscapeCharacters text)[i]?
      = (text[i]?).map (fun c => if backslashRun text i % 2 = 1 then DUMMY_CHAR else c) := by
  unfold dummyOutEscapeCharacters
  rw [dummyOutLoop_at, escFrom_false]
  cases hc : text[i]? with
  | none => rfl
  | some c =>
    have hi : i < text.length := by
      by_contra hn
      rw [List.getElem?_eq_none (by omega)] at hc
      exact absurd hc (by simp)
    simp only [Option.map_some', Option.some.injEq]
    by_cases ho : backslashRun text i % 2 = 1
    · rw [if_pos ((isEscaped_iff_odd text i (Nat.le_of_lt hi)).mpr ho), if_pos ho]
    · rw [if_neg (fun h => ho ((isEscaped_iff_odd text i (Nat.le_of_lt hi)).mp h)), if_neg ho]

/-- A backslash appended to the line leaves the sanitized characters before it
as they are, and is kept itself unless it is escaped. -/
theorem dummyOut_snoc (t : QString) (c : QChar) :
    dummyOutEscapeCharacters (t ++ [c])
      = dummyOutEscapeCharacters t
          ++ [if backslashRun t t.length % 2 = 1 then DUMMY_CHAR else c] := by
  apply List.ext_getElem?
  intro i
  rw [dummyOut_at]
  rcases Nat.lt_trichotomy i t.length with hlt | heq | hgt
  · have hrun : backslashRun (t ++ [c]) i = backslashRun t i := by
      unfold backslashRun
      rw [List.take_append_of_le_length (Nat.le_of_lt hlt)]
    rw [List.getElem?_append_left hlt,
      List.getElem?_append_left (by rw [length_dummyOutEscapeCharacters]; exact hlt),
      dummyOut_at, hrun]
  · subst heq
    have hrun : backslashRun (t ++ [c]) t.length = backslashRun t t.length := by
      unfold backslashRun
      rw [List.take_append_of_le_length (Nat.le_refl _)]
    rw [hrun, List.getElem?_append_right (Nat.le_refl _),
      List.getElem?_append_right (by rw [length_dummyOutEscapeCharacters])]
    simp [length_dummyOutEscapeCharacters]
  · rw [List.getElem?_eq_none (by simp; omega), List.getElem?_eq_none (by
      simp [length_dummyOutEscapeCharacters]; omega)]
    rfl

end MarkdownParser

namespace MarkdownParser

/-- The search loop of `parseMatches` for a pattern whose matches are not
empty, started at the offset `off`: it returns, keeps the length of the working
text, and emits tokens that lie within the text at or after `off`, each
starting at or after the end of the one before. -/
theorem parseMatchesLoop_ordered (ty : MarkdownTokenType) (regex : QRegExp) (ms me : Nat)
    (rm ra : Bool)
    (hpos : ∀ w off i l, regex.indexIn w off = some (i, l) → 0 < l) :
    ∀ (fuel : Nat) (text : QString) (off : Nat), text.length + 1 ≤ fuel + off →
      ∃ (toks : List Token) (text1 : QString), text1.length = text.length
        ∧ List.Pairwise (fun a b => a.position + a.length ≤ b.position) toks
        ∧ (∀ t ∈ toks, t.type = ty ∧ (off : Int) ≤ t.position ∧ 0 < t.length
            ∧ t.position + t.length ≤ (text.length : Int))
        ∧ ∀ p, parseMatchesLoop ty regex ms me rm ra fuel p text (regex.indexIn text off)
            = some ((Effect.mk none toks false).apply p, text1) := by
  intro fuel
  induction fuel with
  | zero =>
    intro text off hfuel
    cases hm : regex.indexIn text off with
    | none =>
      exact ⟨[], text, rfl, List.Pairwise.nil, by simp,
        fun p => by simp [parseMatchesLoop, Effect.apply]⟩
    | some il =>
      obtain ⟨i, l⟩ := il
      have := QRegExp.indexIn_bounds hm
      have := hpos _ _ _ _ hm
      omega
  | succ k ih =>
    intro text off hfuel
    cases hm : regex.indexIn text off with
    | none =>
      exact ⟨[], text, rfl, List.Pairwise.nil, by simp,
        fun p => by simp [parseMatchesLoop, Effect.apply]⟩
    | some il =>
      obtain ⟨i, l⟩ := il
      obtain ⟨hb1, hb2⟩ := QRegExp.indexIn_bounds hm
      have hl := hpos _ _ _ _ hm
      obtain ⟨toks, text2, hlen2, hpw, htoks, hrun⟩ :=
        ih (replaced rm ra ms me text i l) (i + l) (by rw [length_replaced]; omega)
      rw [length_replaced] at hlen2 htoks
      refine ⟨matchToken ty ms me i l :: toks, text2, hlen2, ?_, ?_, ?_⟩
      · rw [List.pairwise_cons]
        refine ⟨?_, hpw⟩
        intro b hb
        have := (htoks b hb).2.1
        rw [matchToken_position, matchToken_length]
        omega
      · intro t ht
        rcases List.mem_cons.mp ht with rfl | ht
        · refine ⟨rfl, ?_, ?_, ?_⟩
          · rw [matchToken_position]; omega
          · rw [matchToken_length]; omega
          · rw [matchToken_position, matchToken_length]; omega
        · obtain ⟨h1, h2, h3, h4⟩ := htoks t ht
          exact ⟨h1, by omega, h3, h4⟩
      · intro p
        have hstep : parseMatchesLoop ty regex ms me rm ra (k + 1) p text (some (i, l))
            = parseMatchesLoop ty regex ms me rm ra k (p.addToken (matchToken ty ms me i l))
                (replaced rm ra ms me text i l)
                (regex.indexIn (replaced rm ra ms me text i l) (i + l)) := rfl
        rw [hstep, hrun, Effect.addToken_eq, Effect.apply_apply]
        simp [Effect.andThen]

/-- Every pattern of the constructor other than `paragraphBreakRegex` consumes
a character in every match. -/
theorem consumingPatterns_consuming :
    ∀ re ∈ consumingPatterns, RE.consuming re.pattern = true := by
  intro re hre
  simp only [consumingPatterns, List.mem_cons, List.mem_singleton, List.not_mem_nil,
    or_false] at hre
  rcases hre with h | h | h | h | h | h | h | h | h | h | h | h | h | h | h | h | h | h | h
    | h | h | h <;> rw [h] <;> rfl

end MarkdownParser

namespace RE

theorem starLoop_succ {f : QString → List QString} :
    ∀ (k : Nat) (s t : QString), t ∈ starLoop f k s → t ∈ starLoop f (k + 1) s := by
  intro k
  induction k with
  | zero =>
    intro s t h
    simp only [starLoop, List.mem_singleton] at h
    rw [h]
    simp [starLoop]
  | succ k ih =>
    intro s t h
    rw [starLoop, List.mem_cons] at h
    rw [starLoop, List.mem_cons]
    rcases h with h | h
    · exact Or.inl h
    · right
      rw [List.mem_flatMap] at h ⊢
      obtain ⟨u, hu, ht⟩ := h
      exact ⟨u, hu, ih u t ht⟩

theorem starLoop_mono {f : QString → List QString} {k m : Nat} (h : k ≤ m) {s t : QString}
    (ht : t ∈ starLoop f k s) : t ∈ starLoop f m s := by
  induction h with
  | refl => exact ht
  | step _ ih => exact starLoop_succ _ s t ih

theorem mem_ends_star_self (n : Nat) (a : RE) (s : QString) : s ∈ ends n (star a) s := by
  simp only [ends]
  cases s.length <;> simp [starLoop]

/-- One more round of `a*`: a match of `a` that consumes a character, followed
by a match of `a*`, is a match of `a*`. -/
theorem mem_ends_star_step {n : Nat} {a : RE} {s u t : QString} (hu : u ∈ ends n a s)
    (hlt : u.length < s.length) (ht : t ∈ ends n (star a) u) : t ∈ ends n (star a) s := by
  simp only [ends] at ht ⊢
  obtain ⟨k, hk⟩ : ∃ k, s.length = k + 1 := ⟨s.length - 1, by omega⟩
  rw [hk, starLoop, List.mem_cons]
  right
  rw [List.mem_flatMap]
  refine ⟨u, ?_, starLoop_mono (by omega) ht⟩
  rw [List.mem_filter]
  exact ⟨hu, by simpa using hlt⟩

end RE

namespace MarkdownParser

/-- One item of a rule: the character, then white space. -/
theorem rule_item (n : Nat) (c : Char) (g tail : QString) (hg : ∀ x ∈ g, isSpace x = true) :
    tail ∈ RE.ends n (RE.seq (RE.chr c) (RE.star RE.space)) (qc c :: (g ++ tail)) := by
  rw [RE.mem_ends_seq]
  refine ⟨g ++ tail, RE.mem_ends_chr.mpr rfl, ?_⟩
  exact RE.mem_ends_star_cls.mpr ⟨g, rfl, hg⟩

theorem rule_items (n : Nat) (c : Char) : ∀ (gaps : List QString),
    (∀ g ∈ gaps, ∀ x ∈ g, isSpace x = true) →
    [] ∈ RE.ends n (RE.star (RE.seq (RE.chr c) (RE.star RE.space)))
      (gaps.flatMap (fun g => qc c :: g)) := by
  intro gaps
  induction gaps with
  | nil =>
    intro _
    exact RE.mem_ends_star_self n _ []
  | cons g rest ih =>
    intro h
    have hrest := ih (fun g2 hg2 => h g2 (List.mem_cons_of_mem _ hg2))
    rw [List.flatMap_cons, List.cons_append]
    exact RE.mem_ends_star_step (rule_item n c g _ (h g (List.mem_cons_self _ _)))
      (by simp; omega) hrest

/-- A rule line of the character `c` is matched in full by the branch of the
rule pattern for `c`. -/
theorem hruleBranch_accepts (n : Nat) (c : Char) {text : QString} (h : isRuleLine (qc c) text) :
    [] ∈ RE.ends n (hruleBranch c) text := by
  obtain ⟨lead, gaps, rfl, hlen, hlead, hgaps⟩ := h
  obtain ⟨g1, g2, g3, rest, rfl⟩ : ∃ g1 g2 g3 rest, gaps = g1 :: g2 :: g3 :: rest := by
    match gaps, hlen with
    | g1 :: g2 :: g3 :: rest, _ => exact ⟨g1, g2, g3, rest, rfl⟩
  have hr := rule_items n c rest (fun g hg => hgaps g (by simp [hg]))
  unfold hruleBranch RE.atLeast3
  rw [RE.mem_ends_seq]
  refine ⟨_, RE.mem_ends_star_cls.mpr ⟨lead, rfl, hlead⟩, ?_⟩
  simp only [List.flatMap_cons, List.cons_append]
  rw [RE.mem_ends_seq]
  refine ⟨_, rule_item n c g1 _ (hgaps g1 (by simp)), ?_⟩
  rw [RE.mem_ends_seq]
  refine ⟨_, rule_item n c g2 _ (hgaps g2 (by simp)), ?_⟩
  rw [RE.mem_ends_seq]
  exact ⟨_, rule_item n c g3 _ (hgaps g3 (by simp)), hr⟩

theorem ruleLine_exact {ch : QChar} {text : QString} (hch : isRuleMark ch)
    (h : isRuleLine ch text) : hruleRegex.exactMatch text = true := by
  rw [QRegExp.exactMatch_iff rfl]
  show [] ∈ RE.ends text.length
    (RE.alt (hruleBranch '*') (RE.alt (hruleBranch '_') (hruleBranch '-'))) text
  rw [RE.mem_ends_alt, RE.mem_ends_alt]
  rcases hch with rfl | rfl | rfl
  · exact Or.inl (hruleBranch_accepts _ '*' h)
  · exact Or.inr (Or.inr (hruleBranch_accepts _ '-' h))
  · exact Or.inr (Or.inl (hruleBranch_accepts _ '_' h))

theorem ruleLine_not_blank {ch : QChar} {text : QString} (hch : isRuleMark ch)
    (h : isRuleLine ch text) : paragraphBreakRegex.exactMatch text = false := by
  apply not_blank_exact
  intro hb
  obtain ⟨lead, gaps, rfl, hlen, _, _⟩ := h
  obtain ⟨g1, rest, rfl⟩ : ∃ g1 rest, gaps = g1 :: rest := by
    match gaps, hlen with
    | g1 :: rest, _ => exact ⟨g1, rest, rfl⟩
  have := hb ch (by simp)
  rcases hch with rfl | rfl | rfl <;> revert this <;> decide

/-- A line that the rule pattern matches in full is no code fence start. -/
theorem hrule_not_fence {text : QString} (hm : hruleRegex.exactMatch text = true) :
    githubCodeFenceStartRegex.exactMatch text = false
      ∧ pandocCodeFenceStartRegex.exactMatch text = false := by
  have hall := RE.within_exactMatch hrule_within rfl hm
  constructor
  · cases hf : githubCodeFenceStartRegex.exactMatch text
    · rfl
    · exfalso
      obtain ⟨c2, t2, h1, h2⟩ := exactMatch_head rfl rfl hf
      simp only [beq_iff_eq] at h2
      have := hall c2 (by rw [h1]; simp)
      rw [h2] at this
      revert this
      unfold isRuleChar
      decide
  · cases hf : pandocCodeFenceStartRegex.exactMatch text
    · rfl
    · exfalso
      obtain ⟨c2, t2, h1, h2⟩ := exactMatch_head rfl rfl hf
      simp only [beq_iff_eq] at h2
      have := hall c2 (by rw [h1]; simp)
      rw [h2] at this
      revert this
      unfold isRuleChar
      decide

/-- After a paragraph break or at the start of the document, a line that the
rule pattern matches in full and that is not indented like code is claimed by
`parseHorizontalRule`. -/
theorem hrule_parseBlockOnly (P : MarkdownParser) (text : QString)
    (hprev : P.previousState = Unknown ∨ P.previousState = ParagraphBreak)
    (hm : hruleRegex.exactMatch text = true)
    (hi1 : startsWith text (qs "\t") = false) (hi2 : startsWith text (qs "    ") = false) :
    parseBlockOnly P text
      = (true, (P.addToken (lineToken TokenHorizontalRule text)).setState HorizontalRule) := by
  obtain ⟨hf1, hf2⟩ := hrule_not_fence hm
  rcases hprev with h | h <;>
    simp [parseBlockOnly, orElse, parseSetextHeadingLine2, parseCodeBlock,
      parseMultilineComment, parseHorizontalRule, h, hf1, hf2, hm, hi1, hi2]

theorem hruleBranch_one (c : Char) :
    RE.Within (fun x => isSpace x = true ∨ x = qc c) (hruleBranch c) := by
  have hsp : RE.Within (fun x => isSpace x = true ∨ x = qc c) (RE.star RE.space) :=
    RE.within_star (RE.within_cls (fun _ h => Or.inl h))
  have hch : RE.Within (fun x => isSpace x = true ∨ x = qc c)
      (RE.seq (RE.chr c) (RE.star RE.space)) :=
    RE.within_seq (RE.within_cls (fun x h => by
      have : x = qc c := by simpa using h
      exact Or.inr this)) hsp
  exact RE.within_seq hsp
    (RE.within_seq hch (RE.within_seq hch (RE.within_seq hch (RE.within_star hch))))

/-- A line with two different rule characters is not matched in full by the
rule pattern. -/
theorem mixed_not_hrule {text : QString} {a b : QChar} (ha : isRuleMark a) (hb : isRuleMark b)
    (hab : a ≠ b) (hat : a ∈ text) (hbt : b ∈ text) : hruleRegex.exactMatch text = false := by
  cases hm : hruleRegex.exactMatch text
  · rfl
  · exfalso
    have h := (QRegExp.exactMatch_iff rfl).mp hm
    have h2 : [] ∈ RE.ends text.length
        (RE.alt (hruleBranch '*') (RE.alt (hruleBranch '_') (hruleBranch '-'))) text := h
    rw [RE.mem_ends_alt, RE.mem_ends_alt] at h2
    have key : ∀ c : Char, [] ∈ RE.ends text.length (hruleBranch c) text →
        ∀ x ∈ text, isSpace x = true ∨ x = qc c := by
      intro c hc
      obtain ⟨w, hw, hall⟩ := hruleBranch_one c _ _ _ hc
      rw [hw, List.append_nil]
      exact hall
    have hns : ∀ x, isRuleMark x → isSpace x = false := by
      intro x hx
      rcases hx with rfl | rfl | rfl <;> decide
    have fin : ∀ c : Char, (∀ x ∈ text, isSpace x = true ∨ x = qc c) → False := by
      intro c hall
      have h1 := hall a hat
      have h2 := hall b hbt
      rw [hns a ha] at h1
      rw [hns b hb] at h2
      simp only [Bool.false_eq_true, false_or] at h1 h2
      exact hab (h1.trans h2.symm)
    rcases h2 with h2 | h2 | h2
    · exact fin _ (key _ h2)
    · exact fin _ (key _ h2)
    · exact fin _ (key _ h2)

/-- A line that the rule pattern does not match in full never ends in the
state `HorizontalRule`. -/
theorem not_hrule_state {text : QString} (hm : hruleRegex.exactMatch text = false)
    (p : MarkdownParser) (c previousState nextState : MarkdownState) :
    ∃ r, parseLine p text c previousState nextState = some r ∧ r.state ≠ HorizontalRule := by
  rw [parseLine_unfold]
  have hP : SamePrev (enter p c previousState nextState) (enter p c previousState nextState) :=
    rfl
  generalize enter p c previousState nextState = P at hP ⊢
  split_ifs with h1 h2 h3 h4 h5
  · exact ⟨_, rfl, by rw [setextBacktrackCheck_state]; simp [setState]⟩
  · exact ⟨_, rfl, by rw [setextBacktrackCheck_state]; simp [setState]⟩
  · exact absurd (Or.inl h1.1) h3
  · obtain ⟨b, e, hp, _, hs, _⟩ :=
      uniform_orElse samePrev_apply
        (uniform_orElse samePrev_apply (parseSetextHeadingLine2_uniform text)
          (parseCodeBlock_uniform text))
        (parseMultilineComment_uniform text) P P hP
    dsimp only at hp
    have hbo : parseBlockOnly P text = orElse (b, e.apply P) (parseHorizontalRule · text) := by
      unfold parseBlockOnly
      rw [hp]
    cases b with
    | true =>
      obtain ⟨s, hsm, hst⟩ := hs rfl
      rw [hbo, orElse_true_left rfl]
      refine ⟨_, rfl, ?_⟩
      rw [setextBacktrackCheck_state]
      simp only [Effect.apply_state, hst, Option.getD_some]
      revert hsm
      cases s <;> simp
    | false =>
      rw [hbo, orElse_false_left rfl] at h4
      simp [parseHorizontalRule, hm] at h4
  · obtain ⟨e, s, hes, hsm, hrun⟩ := inline_tail (parseBlockOnly P text).2 text
    rw [if_pos h5] at hrun
    rw [hrun]
    refine ⟨_, rfl, ?_⟩
    rw [setextBacktrackCheck_state]
    simp only [Effect.apply_state, hes, Option.getD_some]
    revert hsm
    cases s <;> simp [tailStates]
  · obtain ⟨e, s, hes, hsm, hrun⟩ := inline_tail (parseBlockOnly P text).2 text
    rw [if_neg h5] at hrun
    rw [hrun]
    refine ⟨_, rfl, ?_⟩
    rw [setextBacktrackCheck_state]
    simp only [Effect.apply_state, hes, Option.getD_some]
    revert hsm
    cases s <;> simp [tailStates]

end MarkdownParser

namespace MarkdownParser

theorem orElse_backtrack {r : Bool × MarkdownParser}
    {g : MarkdownParser → Bool × MarkdownParser}
    (hg : ∀ q, (g q).2.backtrack = q.backtrack) :
    (orElse r g).2.backtrack = r.2.backtrack := by
  unfold orElse
  split
  · rfl
  · exact hg _

theorem parseCodeBlock_backtrack (p : MarkdownParser) (text : QString) :
    (parseCodeBlock p text).2.backtrack = p.backtrack := by
  simp only [parseCodeBlock]
  split_ifs <;> rfl

theorem parseMultilineComment_backtrack (p : MarkdownParser) (text : QString) :
    (parseMultilineComment p text).2.backtrack = p.backtrack := by
  simp only [parseMultilineComment]
  split_ifs <;> rfl

theorem parseHorizontalRule_backtrack (p : MarkdownParser) (text : QString) :
    (parseHorizontalRule p text).2.backtrack = p.backtrack := by
  simp only [parseHorizontalRule]
  split_ifs <;> rfl

theorem parseAtxHeading_backtrack (p : MarkdownParser) (text : QString) :
    (parseAtxHeading p text).2.backtrack = p.backtrack := by
  simp only [parseAtxHeading]
  split_ifs <;> rfl

theorem parseSetextHeadingLine1_backtrack (p : MarkdownParser) (text : QString) :
    (parseSetextHeadingLine1 p text).2.backtrack = p.backtrack := by
  simp only [parseSetextHeadingLine1]
  split_ifs <;> rfl

theorem parseBlockquote_backtrack (p : MarkdownParser) (text : QString) :
    (parseBlockquote p text).2.backtrack = p.backtrack := by
  simp only [parseBlockquote]
  by_cases hc : p.previousState = Blockquote ∨ blockquoteRegex.exactMatch text = true
  · rw [if_pos hc]
    rfl
  · rw [if_neg hc]

theorem parseNumberedList_backtrack (p : MarkdownParser) (text : QString) :
    (parseNumberedList p text).2.backtrack = p.backtrack := by
  simp only [parseNumberedList]
  split_ifs <;> rfl

theorem parseBulletPointList_backtrack (p : MarkdownParser) (text : QString) :
    (parseBulletPointList p text).2.backtrack = p.backtrack := by
  simp only [parseBulletPointList]
  split_ifs
  · rfl
  · split
    · rfl
    · split_ifs <;> rfl

theorem parseFallback_backtrack (p : MarkdownParser) (text : QString) :
    (parseFallback p text).backtrack = p.backtrack := by
  have h1 := parseNumberedList_backtrack p text
  have h2 := parseBulletPointList_backtrack (parseNumberedList p text).2 text
  simp only [parseFallback]
  split
  · split
    · exact h1
    · split
      · exact h2.trans h1
      · exact h2.trans h1
  · rfl

/-- Where `parseSetextHeadingLine2` requests a backtrack when the previous
line is not a Setext line 1: after a paragraph, on an underline. -/
theorem parseSetextHeadingLine2_backtrack (p : MarkdownParser) (text : QString)
    (h1 : p.previousState ≠ SetextHeading1Line1) (h2 : p.previousState ≠ SetextHeading2Line1) :
    (parseSetextHeadingLine2 p text).2.backtrack
      = (p.backtrack || (decide (p.previousState = Paragraph)
          && (heading1SetextRegex.exactMatch text || heading2SetextRegex.exactMatch text))) := by
  simp only [parseSetextHeadingLine2, if_neg h1, if_neg h2]
  by_cases hp : p.previousState = Paragraph
  · rw [if_pos hp]
    cases hh1 : heading1SetextRegex.exactMatch text <;>
      cases hh2 : heading2SetextRegex.exactMatch text <;>
      simp [hp, requestBacktrack, setState, addToken]
  · rw [if_neg hp]
    simp [hp]

theorem parseBlockOnly_backtrack (p : MarkdownParser) (text : QString)
    (h1 : p.previousState ≠ SetextHeading1Line1) (h2 : p.previousState ≠ SetextHeading2Line1) :
    (parseBlockOnly p text).2.backtrack
      = (p.backtrack || (decide (p.previousState = Paragraph)
          && (heading1SetextRegex.exactMatch text || heading2SetextRegex.exactMatch text))) := by
  unfold parseBlockOnly
  rw [orElse_backtrack (fun q => parseHorizontalRule_backtrack q text),
    orElse_backtrack (fun q => parseMultilineComment_backtrack q text),
    orElse_backtrack (fun q => parseCodeBlock_backtrack q text),
    parseSetextHeadingLine2_backtrack p text h1 h2]

theorem parseBlockWithInline_backtrack (p : MarkdownParser) (text : QString) :
    (parseBlockWithInline p text).2.backtrack = p.backtrack := by
  unfold parseBlockWithInline
  rw [orElse_backtrack (fun q => parseBulletPointList_backtrack q text),
    orElse_backtrack (fun q => parseNumberedList_backtrack q text),
    orElse_backtrack (fun q => parseBlockquote_backtrack q text),
    orElse_backtrack (fun q => parseSetextHeadingLine1_backtrack q text),
    parseAtxHeading_backtrack]

theorem blank_not_underline {text : QString}
    (hb : paragraphBreakRegex.exactMatch text = true) :
    heading1SetextRegex.exactMatch text = false
      ∧ heading2SetextRegex.exactMatch text = false := by
  have hbl := paragraphBreak_iff.mp hb
  constructor
  · exact not_underline_exact1 (fun h => isUnderline_not_blank (by decide) h hbl)
  · exact not_underline_exact2 (fun h => isUnderline_not_blank (by decide) h hbl)

/-- The backtrack flag after the block phase when the previous line is not a
Setext line 1: it is raised only after a paragraph, on an underline. -/
theorem blockPhase_backtrack (p : MarkdownParser) (text : QString)
    (h1 : p.previousState ≠ SetextHeading1Line1) (h2 : p.previousState ≠ SetextHeading2Line1) :
    (blockPhase p text).2.backtrack
      = (p.backtrack || (decide (p.previousState = Paragraph)
          && (heading1SetextRegex.exactMatch text || heading2SetextRegex.exactMatch text))) := by
  have hbo := parseBlockOnly_backtrack p text h1 h2
  unfold blockPhase
  split_ifs with hb
  · obtain ⟨e1, e2⟩ := blank_not_underline hb.2.2.2.2
    simp [setState, e1, e2]
  · obtain ⟨e1, e2⟩ := blank_not_underline hb.2.2.2.2
    simp [setState, e1, e2]
  · obtain ⟨e1, e2⟩ := blank_not_underline hb.2.2.2.2
    simp [e1, e2]
  · exact hbo
  · rw [parseBlockWithInline_backtrack]
    exact hbo
  · rw [parseFallback_backtrack, parseBlockWithInline_backtrack]
    exact hbo

/-- The backtrack flag after `parseLine` when the previous line is not a Setext
line 1. -/
theorem parseLine_backtrack (p : MarkdownParser) (text : QString)
    (c previousState nextState : MarkdownState)
    (h1 : previousState ≠ SetextHeading1Line1) (h2 : previousState ≠ SetextHeading2Line1) :
    ∃ r, parseLine p text c previousState nextState = some r
      ∧ r.backtrack = (p.backtrack || (decide (previousState = Paragraph)
          && (heading1SetextRegex.exactMatch text || heading2SetextRegex.exactMatch text))) := by
  rw [parseLine_blockPhase]
  have hbp := blockPhase_backtrack (enter p c previousState nextState) text h1 h2
  obtain ⟨b, e, s, _, hbe, _⟩ :=
    blockPhase_uniform text (enter p c previousState nextState)
      (enter p c previousState nextState) ⟨rfl, rfl⟩
  have hprev : (blockPhase (enter p c previousState nextState) text).2.previousState
      = previousState := by
    rw [hbe]
    rfl
  have hcheck : ∀ x : MarkdownParser, x.previousState = previousState →
      setextBacktrackCheck x = x := by
    intro x hx
    simp [setextBacktrackCheck, hx, h1, h2]
  obtain ⟨e3, _, hb3, _, h3⟩ := parseInline_effect previousState text
  split_ifs
  · rw [h3 _ hprev]
    refine ⟨_, rfl, ?_⟩
    rw [hcheck _ (by simpa using hprev)]
    simp only [Effect.apply_backtrack, hb3, Bool.or_false]
    exact hbp
  · refine ⟨_, rfl, ?_⟩
    rw [hcheck _ hprev]
    exact hbp

end MarkdownParser

namespace RE

theorem minLength_le (n : Nat) :
    ∀ r s t, t ∈ ends n r s → t.length + minLength r ≤ s.length := by
  intro r
  induction r with
  | cls p =>
    intro s t h
    obtain ⟨c, rfl, _⟩ := mem_ends_cls.mp h
    simp [minLength]
  | eps => intro s t h; simpa [minLength] using ends_length_le h
  | seq a b iha ihb =>
    intro s t h
    obtain ⟨u, hu, ht⟩ := mem_ends_seq.mp h
    have h1 := iha s u hu
    have h2 := ihb u t ht
    simp only [minLength]
    omega
  | alt a b iha ihb =>
    intro s t h
    simp only [minLength]
    rcases mem_ends_alt.mp h with h | h
    · have := iha s t h
      omega
    · have := ihb s t h
      omega
  | star a _ => intro s t h; simpa [minLength] using ends_length_le h
  | bol => intro s t h; simpa [minLength] using ends_length_le h
  | eol => intro s t h; simpa [minLength] using ends_length_le h
  | look neg a _ => intro s t h; simpa [minLength] using ends_length_le h

end RE

namespace QRegExp

/-- A match found by `indexIn` is at least as long as the pattern demands. -/
theorem indexIn_minLength {re : QRegExp} {w : QString} {off i l : Nat}
    (h : re.indexIn w off = some (i, l)) : RE.minLength re.pattern ≤ l := by
  obtain ⟨_, _, hm⟩ := indexIn_some h
  obtain ⟨t, ht, hl⟩ := matchHere_some hm
  have := RE.minLength_le _ _ _ _ ht
  omega

end QRegExp

theorem indexOfChar_bounds (text : QString) (c : QChar) :
    -1 ≤ indexOfChar text c ∧ indexOfChar text c < (text.length : Int) := by
  unfold indexOfChar
  split
  · constructor <;> omega
  · constructor <;> omega

/-- Where `indexOf` finds a string, the string fits into the text. -/
theorem indexOfStr_fits {pat w : QString} (h : indexOfStr w pat ≥ 0) :
    indexOfStr w pat + (pat.length : Int) ≤ (w.length : Int) := by
  obtain ⟨k, hk, hkl, hpre⟩ := indexOfStr_spec h
  have := (List.isPrefixOf_iff_prefix.mp hpre).length_le
  simp only [List.length_drop] at this
  rw [hk]
  omega

namespace MarkdownParser

theorem blockquoteMarkup_le : ∀ (s : QString) (i : Nat) (m : Int), m ≤ (i : Int) →
    blockquoteMarkup s i m ≤ ((i + s.length : Nat) : Int) := by
  intro s
  induction s with
  | nil =>
    intro i m hm
    simpa [blockquoteMarkup] using hm
  | cons c t ih =>
    intro i m hm
    simp only [blockquoteMarkup]
    split
    · have := ih (i + 1) ((i : Int) + 1) (by omega)
      simp only [List.length_cons]
      omega
    · split
      · simp only [List.length_cons]
        omega
      · have := ih (i + 1) m (by omega)
        simp only [List.length_cons]
        omega

theorem bulletScan_bound (prev : MarkdownState) : ∀ (s : QString) (i : Nat) (f : Bool)
    (b0 : Int) (sc : Nat) (r : Int) (w : Bool), b0 < (i : Int) →
    bulletScan prev s i f b0 sc = some (r, w) → r < ((i + s.length : Nat) : Int) := by
  intro s
  induction s with
  | nil =>
    intro i f b0 sc r w hb h
    simp only [bulletScan, Option.some.injEq, Prod.mk.injEq] at h
    simp only [List.length_nil]
    omega
  | cons c t ih =>
    intro i f b0 sc r w hb h
    simp only [bulletScan] at h
    simp only [List.length_cons]
    split at h
    · split at h
      · simp only [Option.some.injEq, Prod.mk.injEq] at h
        omega
      · split at h
        · exact absurd h (by simp)
        · have := ih (i + 1) f b0 (sc + 1) r w (by omega) h
          omega
    · split at h
      · split at h
        · simp only [Option.some.injEq, Prod.mk.injEq] at h
          omega
        · split at h
          · exact absurd h (by simp)
          · have := ih (i + 1) f b0 sc r w (by omega) h
            omega
      · split at h
        · have := ih (i + 1) true (i : Int) sc r w (by omega) h
          omega
        · exact absurd h (by simp)

/-- Every token of a block-level rule lies within the line, and its markup fits
into it; for an ATX heading the markup leaves a character over. -/
theorem blockToken_inBounds {prev next : MarkdownState} {text : QString} {t : Token}
    (h : BlockToken prev next text t) :
    t.inBounds text.length
      ∧ (t.type ∈ atxTokenTypes →
          t.openingMarkupLength + t.closingMarkupLength ≤ t.length - 1) := by
  have hline : ∀ ty, ty ∉ atxTokenTypes →
      (lineToken ty text).inBounds text.length
        ∧ ((lineToken ty text).type ∈ atxTokenTypes →
            (lineToken ty text).openingMarkupLength + (lineToken ty text).closingMarkupLength
              ≤ (lineToken ty text).length - 1) := by
    intro ty hty
    refine ⟨?_, fun h => absurd h hty⟩
    simp only [Token.inBounds, lineToken]
    omega
  cases h with
  | setext1Line2 => exact hline _ (by decide)
  | setext2Line2 => exact hline _ (by decide)
  | codeFenceEnd => exact hline _ (by decide)
  | fencedCode => exact hline _ (by decide)
  | indentedCode => exact hline _ (by decide)
  | githubFence => exact hline _ (by decide)
  | pandocFence => exact hline _ (by decide)
  | commentLine => exact hline _ (by decide)
  | horizontalRule => exact hline _ (by decide)
  | setext1Line1 => exact hline _ (by decide)
  | setext2Line1 => exact hline _ (by decide)
  | commentEnd _ hi =>
    have hfit := indexOfStr_fits hi
    have h3 : ((qs "-->").length : Int) = 3 := rfl
    refine ⟨?_, fun h => absurd (show TokenHtmlComment ∈ atxTokenTypes from h) (by decide)⟩
    simp only [Token.inBounds]
    omega
  | atxHeading h0 h1 =>
    have htr := atxTrailing_eq (dummyOutEscapeCharacters text)
      (atxLevel (dummyOutEscapeCharacters text))
    rw [length_dummyOutEscapeCharacters] at htr
    have key : (atxLevel (dummyOutEscapeCharacters text) : Int)
        + (atxTrailing (dummyOutEscapeCharacters text)
            (atxLevel (dummyOutEscapeCharacters text)) : Int) ≤ (text.length : Int) - 1 := by
      omega
    refine ⟨?_, fun _ => key⟩
    simp only [Token.inBounds]
    omega
  | blockquote _ =>
    have hle := blockquoteMarkup_le text 0 0 (by simp)
    refine ⟨?_, fun h => absurd (show TokenBlockquote ∈ atxTokenTypes from h) (by decide)⟩
    simp only [Token.inBounds]
    split <;> omega
  | numberedList index hi hidx _ =>
    have hb : index < (text.length : Int) := by
      rcases hidx with h | h <;> rw [h] <;> exact (indexOfChar_bounds _ _).2
    refine ⟨?_, fun h => absurd (show TokenNumberedList ∈ atxTokenTypes from h) (by decide)⟩
    simp only [Token.inBounds]
    omega
  | bulletPointList b hb hscan _ =>
    have hlt := bulletScan_bound prev text 0 false (-1) 0 b true (by decide) hscan
    refine ⟨?_, fun h => absurd (show TokenBulletPointList ∈ atxTokenTypes from h) (by decide)⟩
    simp only [Token.inBounds]
    omega

/-- The markup counts that `parseInline` passes for a pattern fit into every
match of the pattern. -/
theorem stage_markup : ∀ st ∈ inlineStages, st.2.2.1 + st.2.2.2 ≤ RE.minLength st.2.1.pattern := by
  intro st hst
  simp only [inlineStages, List.mem_cons, List.mem_singleton, List.not_mem_nil,
    or_false] at hst
  rcases hst with h | h | h | h | h | h | h | h | h | h | h <;> rw [h] <;> decide

theorem stage_inBounds (text : QString) :
    ∀ st ∈ inlineStages, ∀ (w : QString) (off i l : Nat), w.length = text.length →
      st.2.1.indexIn w off = some (i, l) →
      (matchToken st.1 st.2.2.1 st.2.2.2 i l).inBounds text.length := by
  intro st hst w off i l hw hm
  obtain ⟨_, hb⟩ := QRegExp.indexIn_bounds hm
  have hmin := QRegExp.indexIn_minLength hm
  have hmk := stage_markup st hst
  simp only [Token.inBounds, matchToken]
  refine ⟨by omega, by omega, by omega, ?_, ?_, ?_⟩
  · split <;> omega
  · split <;> omega
  · split <;> split <;> omega

end MarkdownParser

namespace MarkdownParser

/-- After a list state, for a non-blank line that no rule of the first group
claims: `parseLine` returns; the state is `Comment` exactly when inline
scanning of the line ends in `Comment`; if no rule of the third group claims
the line, the fallback keeps the previous state for an indented line and sets
`Paragraph` otherwise; and if the numbered-list or the bullet-list rule is the
first of the third group to fire, its state is the result. -/
theorem list_rules_aux (p : MarkdownParser) (text : QString)
    (c previousState nextState : MarkdownState)
    (hprev : previousState ∈ [ListLineBreak, NumberedList, BulletPointList])
    (hblank : ¬ isBlank text)
    (hfirst : (parseBlockOnly (enter p c previousState nextState) text).1 = false) :
    ∃ r, parseLine p text c previousState nextState = some r
      ∧ (r.state = Comment ↔
          ∃ q, parseInline (fresh previousState) text = some q ∧ q.state = Comment)
      ∧ (qc '<' ∉ text → r.state ≠ Comment)
      ∧ ((parseBlockWithInline (enter p c previousState nextState) text).1 = false →
          (startsWith text (qs "\t") = true ∨ startsWith text (qs "    ") = true →
            r.state = previousState ∨ r.state = Comment)
          ∧ (¬ (startsWith text (qs "\t") = true ∨ startsWith text (qs "    ") = true) →
            r.state = Paragraph ∨ r.state = Comment))
      ∧ ((parseAtxHeading (enter p c previousState nextState) text).1 = false →
          nextState ∉ [SetextHeading1Line2, SetextHeading2Line2] →
          (parseBlockquote (enter p c previousState nextState) text).1 = false →
          ((parseNumberedList (enter p c previousState nextState) text).1 = true →
            r.state = NumberedList ∨ r.state = Comment)
          ∧ ((parseNumberedList (enter p c previousState nextState) text).1 = false →
            (parseBulletPointList (enter p c previousState nextState) text).1 = true →
            r.state = BulletPointList ∨ r.state = Comment)) := by
  have hprev2 : previousState = ListLineBreak ∨ previousState = NumberedList
      ∨ previousState = BulletPointList := by simpa using hprev
  have hnc : previousState ≠ Comment := by
    rcases hprev2 with h | h | h <;> rw [h] <;> decide
  obtain ⟨e, hes, hlt, hrun⟩ := parseInline_comment previousState text
  have hfresh := hrun (fresh previousState) rfl
  have hP : (enter p c previousState nextState).previousState = previousState := rfl
  have hPn : (enter p c previousState nextState).nextState = nextState := rfl
  rw [parseLine_unfold]
  generalize enter p c previousState nextState = P at hP hPn hfirst ⊢
  have hb1 := list_parseBlockOnly P text (by rw [hP]; exact hprev2) hfirst
  rw [if_neg (by simp [not_blank_exact hblank]), hb1]
  simp only [Bool.false_eq_true, if_false]
  -- what the rest of `parseLine` computes, by the state set before inline scanning
  have key : ∀ (X : MarkdownParser) (s : MarkdownState), X.previousState = previousState →
      X.state = s → s ≠ Comment →
      ∃ r, parseInline X text = some r
        ∧ ((setextBacktrackCheck r).state = Comment ↔
            ∃ q, parseInline (fresh previousState) text = some q ∧ q.state = Comment)
        ∧ (qc '<' ∉ text → (setextBacktrackCheck r).state ≠ Comment)
        ∧ ((setextBacktrackCheck r).state = s ∨ (setextBacktrackCheck r).state = Comment) := by
    intro X s hX hs hsc
    refine ⟨_, hrun X hX, ?_, ?_, ?_⟩
    · rw [setextBacktrackCheck_state, hfresh]
      rcases hes with h | h
      · simp [h, hs, hsc, fresh, hnc]
      · simp [h]
    · intro hlt2
      rw [setextBacktrackCheck_state]
      rcases hes with h | h
      · simp [h, hs, hsc]
      · exact absurd (hlt h) hlt2
    · rw [setextBacktrackCheck_state]
      rcases hes with h | h <;> simp [h, hs]
  by_cases hb2 : (parseBlockWithInline P text).1 = true
  · rw [if_pos hb2]
    have hX : (parseBlockWithInline P text).2.previousState = previousState := by
      obtain ⟨b2, e2, hp2, _, _, _⟩ := parseBlockWithInline_uniform text P P ⟨rfl, rfl⟩
      dsimp only at hp2
      rw [hp2]
      exact hP
    have hsc : (parseBlockWithInline P text).2.state ≠ Comment := by
      obtain ⟨b2, e2, hp2, _, hs2, _⟩ := parseBlockWithInline_uniform text P P ⟨rfl, rfl⟩
      dsimp only at hp2
      rw [hp2] at hb2 ⊢
      obtain ⟨s2, hm2, hst2⟩ := hs2 hb2
      simp only [Effect.apply_state, hst2, Option.getD_some]
      revert hm2
      cases s2 <;> simp
    obtain ⟨r, hr, h1, h2, h3⟩ := key _ _ hX rfl hsc
    rw [hr]
    refine ⟨_, rfl, h1, h2, fun h => absurd hb2 (by simp [h]), ?_⟩
    intro ha hn hq
    have ea := parseAtxHeading_false ha
    have es : parseSetextHeadingLine1 P text = (false, P) :=
      parseSetextHeadingLine1_false (by rw [hPn]; exact hn)
    have eq := parseBlockquote_false hq
    constructor
    · intro hnum
      have hst : (parseBlockWithInline P text).2.state = NumberedList := by
        obtain ⟨b4, e4, hp4, _, hs4, _⟩ := parseNumberedList_uniform text P P rfl
        dsimp only at hp4
        rw [hp4] at hnum
        obtain ⟨s4, hm4, hst4⟩ := hs4 hnum
        simp only [List.mem_singleton] at hm4
        simp only at hnum
        simp [parseBlockWithInline, orElse, ea, es, eq, hp4, hnum, hst4, hm4]
      rw [hst] at h3
      exact h3
    · intro hnum hbul
      have en := parseNumberedList_false hnum
      have hst : (parseBlockWithInline P text).2.state = BulletPointList := by
        obtain ⟨b5, e5, hp5, _, hs5, _⟩ := parseBulletPointList_uniform text P P rfl
        dsimp only at hp5
        rw [hp5] at hbul
        obtain ⟨s5, hm5, hst5⟩ := hs5 hbul
        simp only [List.mem_singleton] at hm5
        simp only at hbul
        simp [parseBlockWithInline, orElse, ea, es, eq, en, hp5, hbul, hst5, hm5]
      rw [hst] at h3
      exact h3
  · rw [if_neg hb2]
    obtain ⟨e0, e4, e5⟩ := parseBlockWithInline_false (by simpa using hb2)
    rw [e0]
    by_cases hind : startsWith text (qs "\t") = true ∨ startsWith text (qs "    ") = true
    · have hfb : parseFallback P text = P.setState previousState := by
        have : (startsWith text (qs "\t") || startsWith text (qs "    ")) = true := by
          simpa using hind
        simp [parseFallback, hP, hprev2, e4, e5, this]
      obtain ⟨r, hr, h1, h2, h3⟩ := key (P.setState previousState) previousState hP rfl hnc
      rw [hfb, hr]
      refine ⟨_, rfl, h1, h2, fun _ => ⟨fun _ => h3, fun h => absurd hind h⟩, ?_⟩
      intro ha hn hq
      exact ⟨fun h => by simp [e4] at h, fun _ h => by simp [e5] at h⟩
    · have hfb : parseFallback P text = P.setState Paragraph := by
        have : (startsWith text (qs "\t") || startsWith text (qs "    ")) = false := by
          simpa using hind
        simp [parseFallback, hP, hprev2, e4, e5, this]
      obtain ⟨r, hr, h1, h2, h3⟩ := key (P.setState Paragraph) Paragraph hP rfl (by decide)
      rw [hfb, hr]
      refine ⟨_, rfl, h1, h2, fun _ => ⟨fun h => absurd h hind, fun _ => h3⟩, ?_⟩
      intro ha hn hq
      exact ⟨fun h => by simp [e4] at h, fun _ h => by simp [e5] at h⟩

end MarkdownParser

namespace MarkdownParser

/-- The code-span search and the searches after it continue from where
`inlineBeforeVerbatim` stops. -/
theorem parseInline_split (p : MarkdownParser) (text : QString) :
    parseInline p text
      = (inlineBeforeVerbatim p text).bind fun r =>
        (parseMatches TokenVerbatim verbatimRegex 0 0 false true r.1 r.2).bind fun r =>
        (parseMatches TokenStrikethrough strikethroughRegex 2 2 false false r.1 r.2).bind fun r =>
        (parseMatches TokenStrong strongRegex 2 2 true false r.1 r.2).bind fun r =>
        (parseMatches TokenEmphasis emphasisRegex 1 1 true false r.1 r.2).bind fun r =>
        (parseMatches TokenHtmlTag htmlTagRegex 0 0 false false r.1 r.2).map fun r => r.1 := by
  simp only [parseInline, inlineBeforeVerbatim, Option.bind_assoc]

/-- The search loop of `parseMatches` with an invariant `J` of the offset and
the working text: every token it emits satisfies `Q`, provided the token of a
match found from an offset at which `J` holds does. -/
theorem parseMatchesLoop_tracked (ty : MarkdownTokenType) (regex : QRegExp) (ms me : Nat)
    (rm ra : Bool) (hc : RE.consuming regex.pattern = true)
    (J : Nat → QString → Prop) (Q : Token → Prop)
    (hJ : ∀ w off i l, J off w → regex.indexIn w off = some (i, l) →
      J (i + l) (replaced rm ra ms me w i l))
    (hQ : ∀ w off i l, J off w → regex.indexIn w off = some (i, l) →
      Q (matchToken ty ms me i l)) :
    ∀ (fuel : Nat) (text : QString) (off : Nat), text.length + 1 ≤ fuel + off → J off text →
      ∃ (toks : List Token) (text1 : QString), text1.length = text.length
        ∧ (∀ t ∈ toks, t.type = ty ∧ Q t)
        ∧ ∀ p, parseMatchesLoop ty regex ms me rm ra fuel p text (regex.indexIn text off)
            = some ((Effect.mk none toks false).apply p, text1) := by
  intro fuel
  induction fuel with
  | zero =>
    intro text off hfuel hj
    cases hm : regex.indexIn text off with
    | none =>
      exact ⟨[], text, rfl, by simp, fun p => by simp [parseMatchesLoop, Effect.apply]⟩
    | some il =>
      obtain ⟨i, l⟩ := il
      have := QRegExp.indexIn_bounds hm
      have := QRegExp.indexIn_pos hc hm
      omega
  | succ k ih =>
    intro text off hfuel hj
    cases hm : regex.indexIn text off with
    | none =>
      exact ⟨[], text, rfl, by simp, fun p => by simp [parseMatchesLoop, Effect.apply]⟩
    | some il =>
      obtain ⟨i, l⟩ := il
      obtain ⟨hb1, hb2⟩ := QRegExp.indexIn_bounds hm
      have hl := QRegExp.indexIn_pos hc hm
      obtain ⟨toks, text2, hlen2, htoks, hrun⟩ :=
        ih (replaced rm ra ms me text i l) (i + l) (by rw [length_replaced]; omega)
          (hJ text off i l hj hm)
      rw [length_replaced] at hlen2
      refine ⟨matchToken ty ms me i l :: toks, text2, hlen2, ?_, ?_⟩
      · intro t ht
        rcases List.mem_cons.mp ht with rfl | ht
        · exact ⟨rfl, hQ text off i l hj hm⟩
        · exact htoks t ht
      · intro p
        have hstep : parseMatchesLoop ty regex ms me rm ra (k + 1) p text (some (i, l))
            = parseMatchesLoop ty regex ms me rm ra k (p.addToken (matchToken ty ms me i l))
                (replaced rm ra ms me text i l)
                (regex.indexIn (replaced rm ra ms me text i l) (i + l)) := rfl
        rw [hstep, hrun, Effect.addToken_eq, Effect.apply_apply]
        simp [Effect.andThen]

/-- Two working texts that agree from an index on have the same pieces from
there on. -/
theorem take_drop_agree {w w0 : QString} {off i : Nat} (l : Nat)
    (h : ∀ j, off ≤ j → w[j]? = w0[j]?) (hi : off ≤ i) :
    (w.drop i).take l = (w0.drop i).take l := by
  apply List.ext_getElem?
  intro k
  rw [List.getElem?_take, List.getElem?_take, List.getElem?_drop, List.getElem?_drop,
    h (i + k) (by omega)]

/-- A match of the code-span pattern, as a piece of the working text: it has
one of the two shapes of a code span. -/
theorem verbatim_span {w : QString} {off i l : Nat}
    (hm : verbatimRegex.indexIn w off = some (i, l)) : isCodeSpan ((w.drop i).take l) := by
  obtain ⟨span, t, hs, hlen, ht⟩ := QRegExp.indexIn_span hm
  obtain ⟨span2, hs2, hshape⟩ := verbatim_ends ht
  have hsp : span2 = span := by
    have h1 : span2.length = span.length := by
      have := congrArg List.length (hs.symm.trans hs2)
      simp only [List.length_append] at this
      omega
    exact (List.append_inj (hs2.symm.trans hs) h1).1
  rw [hsp] at hshape
  have htake : (w.drop i).take l = span := by
    rw [hs, ← hlen]
    simp
  rw [htake]
  exact hshape

/-- The code-span search on the working text `w0`: every token it emits spans a
piece of `w0` that has the shape of a code span. -/
theorem parseMatches_verbatim (w0 : QString) :
    ∃ (toks : List Token) (w1 : QString), w1.length = w0.length
      ∧ (∀ t ∈ toks, t.type = TokenVerbatim
          ∧ ∃ i l : Nat, t.position = (i : Int) ∧ t.length = (l : Int) ∧ i + l ≤ w0.length
              ∧ isCodeSpan ((w0.drop i).take l))
      ∧ ∀ p, parseMatches TokenVerbatim verbatimRegex 0 0 false true p w0
          = some ((Effect.mk none toks false).apply p, w1) := by
  unfold parseMatches
  refine parseMatchesLoop_tracked TokenVerbatim verbatimRegex 0 0 false true (by rfl)
    (fun off w => w.length = w0.length ∧ ∀ j, off ≤ j → w[j]? = w0[j]?)
    (fun t => ∃ i l : Nat, t.position = (i : Int) ∧ t.length = (l : Int) ∧ i + l ≤ w0.length
      ∧ isCodeSpan ((w0.drop i).take l))
    ?_ ?_ (w0.length + 1) w0 0 (by omega) ⟨rfl, fun _ _ => rfl⟩
  · rintro w off i l ⟨hlen, hag⟩ hm
    obtain ⟨hb1, hb2⟩ := QRegExp.indexIn_bounds hm
    refine ⟨by rw [length_replaced]; exact hlen, ?_⟩
    intro j hj
    have hrep : replaced false true 0 0 w i l = fillRange w i (i + l) DUMMY_CHAR := by
      simp [replaced]
    rw [hrep, getElem?_fillRange, if_neg (by omega)]
    exact hag j (by omega)
  · rintro w off i l ⟨hlen, hag⟩ hm
    obtain ⟨hb1, hb2⟩ := QRegExp.indexIn_bounds hm
    refine ⟨i, l, rfl, rfl, by omega, ?_⟩
    rw [← take_drop_agree l hag hb1]
    exact verbatim_span hm

/-- The part of inline scanning before the code-span search: its effect and
the working text it leaves depend on the text and the previous state only,
and the working text masks the line. -/
theorem inlineBeforeVerbatim_effect (prev : MarkdownState) (text : QString) :
    ∃ (e : Effect) (w : QString), w.length = text.length ∧ Masked text w
      ∧ (e.st = none ∨ e.st = some Comment) ∧ e.bt = false
      ∧ (∀ t ∈ e.toks, t.type ≠ TokenVerbatim)
      ∧ ∀ p : MarkdownParser, p.previousState = prev →
          inlineBeforeVerbatim p text = some (e.apply p, w) := by
  obtain ⟨e0, t0, hl0, hi0, hs0, hb0, hty0, h0⟩ :=
    parseReferenceDefinition_effect (dummyOutEscapeCharacters text) (Masked text)
      (fun _ => True) (fun _ k h => masked_set h k) (fun _ => trivial) (masked_dummyOut text)
  obtain ⟨e1, t1, hl1, hi1, hs1, hb1, hty1, _, h1⟩ :=
    parseHtmlComments_effect prev t0 (Masked text) (fun _ => True)
      (fun _ lo hi h => masked_fillRange h lo hi) (fun _ _ _ _ _ _ => trivial)
      (fun _ _ _ => trivial) hi0
  obtain ⟨k2, t2, hl2, hi2, hty2, h2⟩ :=
    parseMatches_total TokenImage imageRegex 0 0 false true (by rfl) (Masked text)
      (fun _ => True) (fun _ lo hi h => masked_fillRange h lo hi)
      (fun _ _ _ _ _ _ => trivial) t1 hi1
  obtain ⟨k3, t3, hl3, hi3, hty3, h3⟩ :=
    parseMatches_total TokenInlineLink inlineLinkRegex 0 0 false true (by rfl) (Masked text)
      (fun _ => True) (fun _ lo hi h => masked_fillRange h lo hi)
      (fun _ _ _ _ _ _ => trivial) t2 hi2
  obtain ⟨k4, t4, hl4, hi4, hty4, h4⟩ :=
    parseMatches_total TokenReferenceLink referenceLinkRegex 0 0 false false (by rfl)
      (Masked text) (fun _ => True) (fun _ lo hi h => masked_fillRange h lo hi)
      (fun _ _ _ _ _ _ => trivial) t3 hi3
  obtain ⟨k5, t5, hl5, hi5, hty5, h5⟩ :=
    parseMatches_total TokenHtmlEntity htmlEntityRegex 0 0 false false (by rfl) (Masked text)
      (fun _ => True) (fun _ lo hi h => masked_fillRange h lo hi)
      (fun _ _ _ _ _ _ => trivial) t4 hi4
  obtain ⟨k6, t6, hl6, hi6, hty6, h6⟩ :=
    parseMatches_total TokenAutomaticLink automaticLinkRegex 0 0 false true (by rfl)
      (Masked text) (fun _ => True) (fun _ lo hi h => masked_fillRange h lo hi)
      (fun _ _ _ _ _ _ => trivial) t5 hi5
  refine ⟨⟨e1.st, e0.toks ++ e1.toks ++ k2 ++ k3 ++ k4 ++ k5 ++ k6, false⟩, t6,
    by rw [hl6, hl5, hl4, hl3, hl2, hl1, hl0, length_dummyOutEscapeCharacters], hi6, hs1, rfl,
    ?_, ?_⟩
  · intro t ht
    simp only [List.mem_append] at ht
    rcases ht with (((((ht | ht) | ht) | ht) | ht) | ht) | ht
    · rw [(hty0 t ht).1]; decide
    · rw [(hty1 t ht).1]; decide
    · rw [(hty2 t ht).1]; decide
    · rw [(hty3 t ht).1]; decide
    · rw [(hty4 t ht).1]; decide
    · rw [(hty5 t ht).1]; decide
    · rw [(hty6 t ht).1]; decide
  · intro p hp
    simp only [inlineBeforeVerbatim, h0, h1 (e0.apply p) (by simpa using hp), h2, h3, h4, h5,
      h6, Option.bind_some, Option.some_bind, Option.some.injEq]
    cases hst : e1.st <;>
      simp [Effect.apply, hs0, hb0, hb1, hst, List.append_assoc]

/-- Inline scanning with the working text `w` that the code-span search starts
from: every code-span token spans a piece of `w` that has the shape of a code
span, and starts and ends at a backtick of the line. -/
theorem parseInline_code_spans (prev : MarkdownState) (text : QString) :
    ∃ (e0 e : Effect) (w : QString), w.length = text.length ∧ Masked text w
      ∧ (∀ p : MarkdownParser, p.previousState = prev →
          inlineBeforeVerbatim p text = some (e0.apply p, w))
      ∧ (∀ t ∈ e.toks, t.type = TokenVerbatim →
          ∃ i l : Nat, t.position = (i : Int) ∧ t.length = (l : Int) ∧ i + l ≤ text.length
            ∧ isCodeSpan ((w.drop i).take l)
            ∧ text[i]? = some 96 ∧ text[i + l - 1]? = some 96)
      ∧ ∀ p : MarkdownParser, p.previousState = prev → parseInline p text = some (e.apply p) := by
  obtain ⟨e0, w, hlw, hmask, hs0, hb0, hty0, hpre⟩ := inlineBeforeVerbatim_effect prev text
  obtain ⟨k7, t7, hl7, hty7, h7⟩ := parseMatches_verbatim w
  obtain ⟨k8, t8, hl8, _, hty8, h8⟩ :=
    parseMatches_total TokenStrikethrough strikethroughRegex 2 2 false false (by rfl)
      (fun _ => True) (fun _ => True) (fun _ _ _ _ => trivial) (fun _ _ _ _ _ _ => trivial)
      t7 trivial
  obtain ⟨k9, t9, hl9, _, hty9, h9⟩ :=
    parseMatches_total TokenStrong strongRegex 2 2 true false (by rfl)
      (fun _ => True) (fun _ => True) (fun _ _ _ _ => trivial) (fun _ _ _ _ _ _ => trivial)
      t8 trivial
  obtain ⟨k10, t10, hl10, _, hty10, h10⟩ :=
    parseMatches_total TokenEmphasis emphasisRegex 1 1 true false (by rfl)
      (fun _ => True) (fun _ => True) (fun _ _ _ _ => trivial) (fun _ _ _ _ _ _ => trivial)
      t9 trivial
  obtain ⟨k11, t11, hl11, _, hty11, h11⟩ :=
    parseMatches_total TokenHtmlTag htmlTagRegex 0 0 false false (by rfl)
      (fun _ => True) (fun _ => True) (fun _ _ _ _ => trivial) (fun _ _ _ _ _ _ => trivial)
      t10 trivial
  refine ⟨e0, ⟨e0.st, e0.toks ++ k7 ++ k8 ++ k9 ++ k10 ++ k11, false⟩, w, hlw, hmask, hpre,
    ?_, ?_⟩
  · intro t ht hty
    simp only [List.mem_append] at ht
    rcases ht with ((((ht | ht) | ht) | ht) | ht) | ht
    · exact absurd hty (hty0 t ht)
    · obtain ⟨_, i, l, hp, hl, hb, hshape⟩ := hty7 t ht
      obtain ⟨g0, g1, g3⟩ := isCodeSpan_ends hshape
      have hlen : ((w.drop i).take l).length = l := by
        simp only [List.length_take, List.length_drop]
        omega
      rw [hlen] at g1
      have w0 : w[i]? = some 96 := by
        have := g0
        rw [List.getElem?_take, if_pos (by omega), List.getElem?_drop] at this
        simpa using this
      have w1 : w[i + l - 1]? = some 96 := by
        have := g1
        rw [List.getElem?_take, if_pos (by omega), List.getElem?_drop] at this
        rw [show i + l - 1 = i + (l - 1) by omega]
        exact this
      have hne : (96 : QChar) ≠ DUMMY_CHAR := by decide
      refine ⟨i, l, hp, hl, by omega, hshape, ?_, ?_⟩
      · rcases hmask i 96 w0 with h | h
        · exact absurd h hne
        · exact h
      · rcases hmask (i + l - 1) 96 w1 with h | h
        · exact absurd h hne
        · exact h
    · rw [(hty8 t ht).1] at hty; exact absurd hty (by decide)
    · rw [(hty9 t ht).1] at hty; exact absurd hty (by decide)
    · rw [(hty10 t ht).1] at hty; exact absurd hty (by decide)
    · rw [(hty11 t ht).1] at hty; exact absurd hty (by decide)
  · intro p hp
    rw [parseInline_split, hpre p hp]
    simp only [Option.some_bind, Option.bind_some, h7, h8, h9, h10, h11, Option.map_some',
      Option.some.injEq]
    cases hst : e0.st <;>
      simp [Effect.apply, hb0, hst, List.append_assoc]

end MarkdownParser

namespace MarkdownParser

/-- One item of a rule, taken apart: the character, then white space. -/
theorem rule_item_shape {n : Nat} {c : Char} {s u : QString}
    (h : u ∈ RE.ends n (RE.seq (RE.chr c) (RE.star RE.space)) s) :
    ∃ g, s = qc c :: (g ++ u) ∧ ∀ x ∈ g, isSpace x = true := by
  obtain ⟨v, hv, hu⟩ := RE.mem_ends_seq.mp h
  have hv2 := RE.mem_ends_chr.mp hv
  simp only [RE.space] at hu
  obtain ⟨g, hg, hsp⟩ := RE.mem_ends_star_cls.mp hu
  exact ⟨g, by rw [hv2, hg], hsp⟩

theorem starLoop_items (n : Nat) (c : Char) : ∀ (k : Nat) (s t : QString),
    t ∈ RE.starLoop (fun u => RE.ends n (RE.seq (RE.chr c) (RE.star RE.space)) u) k s →
    ∃ gaps : List QString, s = gaps.flatMap (fun g => qc c :: g) ++ t
      ∧ ∀ g ∈ gaps, ∀ x ∈ g, isSpace x = true := by
  intro k
  induction k with
  | zero =>
    intro s t h
    simp only [RE.starLoop, List.mem_singleton] at h
    exact ⟨[], by simp [h], by simp⟩
  | succ k ih =>
    intro s t h
    simp only [RE.starLoop, List.mem_cons, List.mem_flatMap, List.mem_filter] at h
    rcases h with h | ⟨u, ⟨hu, _⟩, ht⟩
    · exact ⟨[], by simp [h], by simp⟩
    · obtain ⟨g, hs, hg⟩ := rule_item_shape hu
      obtain ⟨gaps, hgs, hall⟩ := ih u t ht
      refine ⟨g :: gaps, ?_, ?_⟩
      · rw [hs, hgs]
        simp
      · intro g2 hg2
        rcases List.mem_cons.mp hg2 with rfl | hg2
        · exact hg
        · exact hall g2 hg2

/-- A line matched in full by the branch of the rule pattern for `c` is a rule
line of `c`. -/
theorem hruleBranch_shape {n : Nat} {c : Char} {text : QString}
    (h : [] ∈ RE.ends n (hruleBranch c) text) : isRuleLine (qc c) text := by
  unfold hruleBranch RE.atLeast3 at h
  obtain ⟨u0, hu0, h⟩ := RE.mem_ends_seq.mp h
  obtain ⟨u1, hu1, h⟩ := RE.mem_ends_seq.mp h
  obtain ⟨u2, hu2, h⟩ := RE.mem_ends_seq.mp h
  obtain ⟨u3, hu3, h⟩ := RE.mem_ends_seq.mp h
  simp only [RE.space] at hu0
  obtain ⟨lead, hlead, hsp⟩ := RE.mem_ends_star_cls.mp hu0
  obtain ⟨g1, hg1, hs1⟩ := rule_item_shape hu1
  obtain ⟨g2, hg2, hs2⟩ := rule_item_shape hu2
  obtain ⟨g3, hg3, hs3⟩ := rule_item_shape hu3
  simp only [RE.ends] at h
  obtain ⟨gaps, hgs, hall⟩ := starLoop_items n c _ _ _ h
  refine ⟨lead, g1 :: g2 :: g3 :: gaps, ?_, by simp, hsp, ?_⟩
  · rw [hlead, hg1, hg2, hg3, hgs]
    simp
  · intro g hg
    simp only [List.mem_cons] at hg
    rcases hg with rfl | rfl | rfl | hg
    · exact hs1
    · exact hs2
    · exact hs3
    · exact hall g hg

/-- The lines that the rule pattern matches in full are the rule lines. -/
theorem hrule_iff {text : QString} :
    hruleRegex.exactMatch text = true ↔ ∃ ch, isRuleMark ch ∧ isRuleLine ch text := by
  constructor
  · intro hm
    have h := (QRegExp.exactMatch_iff rfl).mp hm
    have h2 : [] ∈ RE.ends text.length
        (RE.alt (hruleBranch '*') (RE.alt (hruleBranch '_') (hruleBranch '-'))) text := h
    rw [RE.mem_ends_alt, RE.mem_ends_alt] at h2
    rcases h2 with h2 | h2 | h2
    · exact ⟨qc '*', Or.inl rfl, hruleBranch_shape h2⟩
    · exact ⟨qc '_', Or.inr (Or.inr rfl), hruleBranch_shape h2⟩
    · exact ⟨qc '-', Or.inr (Or.inl rfl), hruleBranch_shape h2⟩
  · rintro ⟨ch, hch, hl⟩
    exact ruleLine_exact hch hl

/-- The lines that the blockquote pattern matches in full. -/
theorem blockquote_iff {text : QString} :
    blockquoteRegex.exactMatch text = true ↔ isBlockquoteLine text := by
  rw [QRegExp.exactMatch_iff rfl]
  simp only [blockquoteRegex, RE.cat, RE.chr, RE.dot, RE.mem_ends_seq, RE.mem_ends_bol,
    RE.mem_ends_upTo3_cls, RE.mem_ends_cls, RE.mem_ends_star_cls, RE.mem_ends_eol]
  constructor
  · rintro ⟨_, ⟨rfl, _⟩, u1, ⟨w, hw, hlen, hsp⟩, u2, ⟨c, hc, hgt⟩, u3, ⟨rest, h5, _⟩, _, h6⟩
    have hcv : c = qc '>' := by simpa using hgt
    refine ⟨w.length, u2, hlen, ?_⟩
    rw [hw, hc, hcv, ← all_eq_replicate w hsp]
  · rintro ⟨k, rest, hk, rfl⟩
    exact ⟨_, ⟨rfl, trivial⟩, _, ⟨List.replicate k (qc ' '), rfl, by simpa using hk,
      by simp [List.mem_replicate]⟩, _, ⟨qc '>', rfl, by simp⟩, [], ⟨rest, by simp, by simp⟩,
      rfl, rfl⟩

/-- The lines that the pattern for nested numbered items matches in full. -/
theorem numberedNested_iff {text : QString} :
    numberedNestedListRegex.exactMatch text = true ↔ isNestedNumberedItem text := by
  rw [QRegExp.exactMatch_iff rfl]
  simp only [numberedNestedListRegex, RE.cat, digit, dotOrParen, RE.space, RE.dot, RE.chr,
    RE.mem_ends_seq, RE.mem_ends_bol, RE.mem_ends_plus_cls,
    RE.mem_ends_cls, RE.mem_ends_star_cls, RE.mem_ends_eol]
  constructor
  · rintro ⟨_, ⟨rfl, _⟩, u1, ⟨sp, h1, hsp⟩, u2, ⟨dg, h2, hdg0, hdg⟩, u3, ⟨m, h3, hm⟩,
      u4, ⟨ws, h4, hws0, hws⟩, u5, ⟨rest, h5, _⟩, _, h6⟩
    subst h6
    refine ⟨sp, dg, m, ws, rest, ?_, hsp, hdg0, hdg, by simpa using hm, hws0, hws⟩
    rw [h1, h2, h3, h4, h5]
    simp
  · rintro ⟨sp, dg, m, ws, rest, rfl, hsp, hdg0, hdg, hm, hws0, hws⟩
    exact ⟨_, ⟨rfl, trivial⟩, _, ⟨sp, rfl, hsp⟩, _, ⟨dg, rfl, hdg0, hdg⟩, _,
      ⟨m, rfl, by simpa using hm⟩, _, ⟨ws, rfl, hws0, hws⟩, [], ⟨rest, by simp, by simp⟩,
      rfl, rfl⟩

end MarkdownParser

namespace MarkdownParser

theorem bulletChar_facts {x : QChar} (h : isBulletChar x) :
    isSpace x = false ∧ isDigit x = false ∧ x ≠ qc '>' ∧ x ≠ qc '#' ∧ x ≠ qc ' '
      ∧ x ≠ qc '\t' := by
  rcases h with rfl | rfl | rfl <;> decide

theorem bulletish_facts {x : QChar} (h : x = qc ' ' ∨ x = qc '\t' ∨ isBulletChar x) :
    isDigit x = false ∧ x ≠ qc '>' ∧ x ≠ qc '#' := by
  rcases h with rfl | rfl | h
  · decide
  · decide
  · exact ⟨(bulletChar_facts h).2.1, (bulletChar_facts h).2.2.1, (bulletChar_facts h).2.2.2.1⟩

theorem digit_facts {d : QChar} (h : isDigit d = true) :
    isSpace d = false ∧ d ≠ qc '>' ∧ d ≠ qc '#' ∧ d ≠ qc ' ' ∧ ¬ isRuleChar d := by
  have hb := isDigit_bounds h
  have hs := isDigit_not_space h
  refine ⟨hs, ?_, ?_, ?_, ?_⟩
  · intro h0; rw [h0] at hb; revert hb; decide
  · intro h0; rw [h0] at hb; revert hb; decide
  · intro h0; rw [h0] at hb; revert hb; decide
  · rintro (h0 | h0 | h0 | h0)
    · rw [hs] at h0; exact absurd h0 (by decide)
    · rw [h0] at hb; revert hb; decide
    · rw [h0] at hb; revert hb; decide
    · rw [h0] at hb; revert hb; decide

/-- In a nested numbered item the first character that is no white space is a
digit. -/
theorem nested_digit_at {text : QString} (h : isNestedNumberedItem text) :
    ∃ (n0 : Nat) (d : QChar), text[n0]? = some d ∧ isDigit d = true
      ∧ ∀ j < n0, ∀ x, text[j]? = some x → isSpace x = true := by
  obtain ⟨lead, dg, m, ws, rest, rfl, hlead, hdg0, hdg, _, _, _⟩ := h
  cases dg with
  | nil => exact absurd rfl hdg0
  | cons d dg =>
    refine ⟨lead.length, d, ?_, hdg d (by simp), ?_⟩
    · rw [List.getElem?_append_right (Nat.le_refl _)]
      simp
    · intro j hj x hx
      rw [List.getElem?_append_left hj] at hx
      exact hlead x (List.getElem?_mem hx)

/-- In a blockquote line the first character that is no space is `>`. -/
theorem blockquote_mark_at {text : QString} (h : isBlockquoteLine text) :
    ∃ k : Nat, text[k]? = some (qc '>') ∧ ∀ j < k, text[j]? = some (qc ' ') := by
  obtain ⟨k, rest, _, rfl⟩ := h
  refine ⟨k, ?_, ?_⟩
  · rw [List.getElem?_append_right (by simp)]
    simp
  · intro j hj
    rw [List.getElem?_append_left (by simpa using hj), List.getElem?_replicate]
    simp [hj]

theorem nested_not_blank {text : QString} (h : isNestedNumberedItem text) : ¬ isBlank text := by
  obtain ⟨n0, d, hd, hdig, _⟩ := nested_digit_at h
  intro hb
  have := hb d (List.getElem?_mem hd)
  rw [(digit_facts hdig).1] at this
  exact absurd this (by decide)

theorem nested_not_hrule {text : QString} (h : isNestedNumberedItem text) :
    hruleRegex.exactMatch text = false := by
  obtain ⟨n0, d, hd, hdig, _⟩ := nested_digit_at h
  cases hm : hruleRegex.exactMatch text
  · rfl
  · exact absurd (RE.within_exactMatch hrule_within rfl hm d (List.getElem?_mem hd))
      (digit_facts hdig).2.2.2.2

theorem nested_not_atx {text : QString} (h : isNestedNumberedItem text) : ¬ isAtxLine text := by
  obtain ⟨n0, d, hd, hdig, hbefore⟩ := nested_digit_at h
  rintro ⟨⟨tail, rfl⟩, _⟩
  cases n0 with
  | zero =>
    simp only [List.getElem?_cons_zero, Option.some.injEq] at hd
    exact (digit_facts hdig).2.2.1 hd.symm
  | succ n0 =>
    have := hbefore 0 (by omega) (qc '#') (by simp)
    exact absurd this (by decide)

theorem nested_not_blockquote {text : QString} (h : isNestedNumberedItem text) :
    ¬ isBlockquoteLine text := by
  obtain ⟨n0, d, hd, hdig, hbefore⟩ := nested_digit_at h
  intro hq
  obtain ⟨k, hk, hsp⟩ := blockquote_mark_at hq
  rcases Nat.lt_trichotomy n0 k with hlt | heq | hgt
  · have := hsp n0 hlt
    rw [hd] at this
    exact (digit_facts hdig).2.2.2.1 (Option.some.inj this)
  · rw [heq, hk] at hd
    exact (digit_facts hdig).2.1 (Option.some.inj hd).symm
  · have := hbefore k hgt (qc '>') hk
    exact absurd this (by decide)

theorem nested_not_bullet {text : QString} (h : isNestedNumberedItem text) :
    ¬ isBulletItem text := by
  obtain ⟨n0, d, hd, hdig, hbefore⟩ := nested_digit_at h
  rintro ⟨b, ⟨x, hx, hbx⟩, _, hpre⟩
  rcases Nat.lt_trichotomy n0 b with hlt | heq | hgt
  · have := (bulletish_facts (hpre n0 hlt d hd)).1
    rw [hdig] at this
    exact absurd this (by decide)
  · rw [heq, hx] at hd
    have := (bulletChar_facts hbx).2.1
    rw [Option.some.inj hd, hdig] at this
    exact absurd this (by decide)
  · have := hbefore b hgt x hx
    rw [(bulletChar_facts hbx).1] at this
    exact absurd this (by decide)

theorem bullet_not_blank {text : QString} (h : isBulletItem text) : ¬ isBlank text := by
  obtain ⟨b, ⟨x, hx, hbx⟩, _, _⟩ := h
  intro hb
  have := hb x (List.getElem?_mem hx)
  rw [(bulletChar_facts hbx).1] at this
  exact absurd this (by decide)

theorem bullet_not_atx {text : QString} (h : isBulletItem text) : ¬ isAtxLine text := by
  obtain ⟨b, ⟨x, hx, hbx⟩, _, hpre⟩ := h
  rintro ⟨⟨tail, rfl⟩, _⟩
  cases b with
  | zero =>
    simp only [List.getElem?_cons_zero, Option.some.injEq] at hx
    exact (bulletChar_facts hbx).2.2.2.1 hx.symm
  | succ b =>
    exact (bulletish_facts (hpre 0 (by omega) (qc '#') (by simp))).2.2 rfl

theorem bullet_not_blockquote {text : QString} (h : isBulletItem text) :
    ¬ isBlockquoteLine text := by
  obtain ⟨b, ⟨x, hx, hbx⟩, _, hpre⟩ := h
  intro hq
  obtain ⟨k, hk, hsp⟩ := blockquote_mark_at hq
  rcases Nat.lt_trichotomy k b with hlt | heq | hgt
  · exact (bulletish_facts (hpre k hlt (qc '>') hk)).2.1 rfl
  · rw [heq, hx] at hk
    exact (bulletChar_facts hbx).2.2.1 (Option.some.inj hk)
  · have := hsp b hgt
    rw [hx] at this
    exact (bulletChar_facts hbx).2.2.2.2.1 (Option.some.inj this)

theorem isAtxLine_head {text : QString} (h : isAtxLine text) :
    text.head? = some (qc '#') := by
  obtain ⟨⟨tail, rfl⟩, _⟩ := h
  rfl

end MarkdownParser

namespace MarkdownParser

/-- A line that is no ATX heading line is not claimed by `parseAtxHeading`. -/
theorem not_atx_parse {text : QString} (h : ¬ isAtxLine text) (P : MarkdownParser) :
    parseAtxHeading P text = (false, P) := by
  by_cases hstart : ∃ tail, text = qc '#' :: tail
  · have hk : ∃ k, k ≤ 6 ∧ text = List.replicate k (qc '#') := by
      by_contra hn
      apply h
      refine ⟨hstart, ?_⟩
      intro k hk he
      exact hn ⟨k, hk, he⟩
    obtain ⟨k, hk, rfl⟩ := hk
    have hno : ¬ (0 < atxLevel (dummyOutEscapeCharacters (List.replicate k (qc '#')))
        ∧ atxLevel (dummyOutEscapeCharacters (List.replicate k (qc '#')))
          < (List.replicate k (qc '#')).length) := by
      interval_cases k <;> decide
    simp only [parseAtxHeading, if_neg hno]
  · have hl : atxLevel (dummyOutEscapeCharacters text) = 0 := by
      cases text with
      | nil => rfl
      | cons c t =>
        have hne : c ≠ qc '#' := fun hc => hstart ⟨t, by rw [hc]⟩
        have hb : (c == qc '#') = false := by simpa using hne
        simp [atxLevel, dummyOutEscapeCharacters, dummyOutLoop, MAX_MARKDOWN_HEADING_LEVEL,
          List.takeWhile, hb]
    simp [parseAtxHeading, hl]

/-- After a list state, the first group of rules comes down to the horizontal
rule. -/
theorem list_blockOnly_hrule (P : MarkdownParser) (text : QString)
    (hprev : P.previousState = ListLineBreak ∨ P.previousState = NumberedList
      ∨ P.previousState = BulletPointList) :
    parseBlockOnly P text = parseHorizontalRule P text := by
  have e1 : parseSetextHeadingLine2 P text = (false, P) := by
    rcases hprev with hp | hp | hp <;> simp [parseSetextHeadingLine2, hp]
  have e2 : parseCodeBlock P text = (false, P) := by
    rcases hprev with hp | hp | hp <;> simp [parseCodeBlock, hp]
  have e3 : parseMultilineComment P text = (false, P) := by
    rcases hprev with hp | hp | hp <;> simp [parseMultilineComment, hp]
  simp [parseBlockOnly, orElse, e1, e2, e3]

theorem indexOfChar_mem {text : QString} {c : QChar} (h : c ∈ text) :
    indexOfChar text c ≥ 0 := by
  unfold indexOfChar
  rw [if_pos (List.indexOf_lt_length.mpr h)]
  omega

/-- After `ListLineBreak` or `NumberedList`, the numbered-list rule accepts a
nested numbered item. -/
theorem nested_parseNumberedList {text : QString} (h : isNestedNumberedItem text)
    (P : MarkdownParser)
    (hprev : P.previousState = ListLineBreak ∨ P.previousState = NumberedList) :
    (parseNumberedList P text).1 = true := by
  have hre := numberedNested_iff.mpr h
  obtain ⟨lead, dg, m, ws, rest, htext, _, _, _, hm, _, _⟩ := h
  have hmem : m ∈ text := by
    rw [htext]
    simp
  have h1 := indexOfChar_bounds text (qc '.')
  have h2 := indexOfChar_bounds text (qc ')')
  have hcond : ((P.previousState = ParagraphBreak ∨ P.previousState = Unknown)
        ∧ numberedListRegex.exactMatch text = true)
      ∨ ((P.previousState = ListLineBreak ∨ P.previousState = NumberedList)
        ∧ numberedNestedListRegex.exactMatch text = true) := Or.inr ⟨hprev, hre⟩
  have hidx : (if indexOfChar text (qc '.') < 0 then indexOfChar text (qc ')')
      else if indexOfChar text (qc ')') < 0 then indexOfChar text (qc '.')
      else if indexOfChar text (qc ')') > indexOfChar text (qc '.') then indexOfChar text (qc '.')
      else indexOfChar text (qc ')')) ≥ 0 := by
    rcases hm with rfl | rfl
    · have := indexOfChar_mem hmem
      split_ifs <;> omega
    · have := indexOfChar_mem hmem
      split_ifs <;> omega
  simp only [parseNumberedList, if_pos hcond, if_pos hidx]

/-- After a list state the scan of `parseBulletPointList` accepts as soon as a
bullet character is followed by a space or tab, when only spaces, tabs and
bullet characters come before. -/
theorem bulletScan_reach (prev : MarkdownState)
    (hprev : prev = ListLineBreak ∨ prev = NumberedList ∨ prev = BulletPointList) :
    ∀ (s : QString) (i : Nat) (found : Bool) (idx : Int) (sc : Nat),
      (found = true → idx ≥ 0) →
      (∃ j : Nat, (∃ x, s[j]? = some x ∧ (x = qc ' ' ∨ x = qc '\t'))
        ∧ (found = true ∨ ∃ m, m < j ∧ ∃ x, s[m]? = some x ∧ isBulletChar x)
        ∧ ∀ m < j, ∀ x, s[m]? = some x → x = qc ' ' ∨ x = qc '\t' ∨ isBulletChar x) →
      ∃ b : Int, b ≥ 0 ∧ bulletScan prev s i found idx sc = some (b, true) := by
  have hnp : ¬ (prev = ParagraphBreak ∨ prev = Unknown) := by
    rcases hprev with h | h | h <;> rw [h] <;> decide
  have hsc : ∀ sc : Nat, ¬ (sc + 1 > 3 ∧ prev ≠ NumberedList ∧ prev ≠ BulletPointList
      ∧ prev ≠ ListLineBreak ∧ (prev = ParagraphBreak ∨ prev = Unknown)) :=
    fun _ h => hnp h.2.2.2.2
  intro s
  induction s with
  | nil =>
    rintro i found idx sc _ ⟨j, ⟨x, hx, _⟩, _⟩
    simp at hx
  | cons c t ih =>
    rintro i found idx sc hidx ⟨j, ⟨x, hx, hxs⟩, hfound, hpre⟩
    -- the condition for the tail, when the scan moves on
    have tailcond : ∀ found2 : Bool, c ≠ qc ' ' ∨ found = false → c ≠ qc '\t' ∨ found = false →
        (found2 = true ∨ (found2 = found ∧ ¬ isBulletChar c)) →
        ∃ j2 : Nat, (∃ x, t[j2]? = some x ∧ (x = qc ' ' ∨ x = qc '\t'))
          ∧ (found2 = true ∨ ∃ m, m < j2 ∧ ∃ x, t[m]? = some x ∧ isBulletChar x)
          ∧ ∀ m < j2, ∀ x, t[m]? = some x → x = qc ' ' ∨ x = qc '\t' ∨ isBulletChar x := by
      intro found2 hc1 hc2 hf2
      cases j with
      | zero =>
        exfalso
        simp only [List.getElem?_cons_zero, Option.some.injEq] at hx
        rcases hfound with hf | ⟨m, hm, _⟩
        · rcases hxs with h | h
          · rcases hc1 with h1 | h1
            · exact h1 (hx ▸ h)
            · rw [hf] at h1; exact absurd h1 (by decide)
          · rcases hc2 with h1 | h1
            · exact h1 (hx ▸ h)
            · rw [hf] at h1; exact absurd h1 (by decide)
        · omega
      | succ j =>
        refine ⟨j, ⟨x, by simpa using hx, hxs⟩, ?_, ?_⟩
        · rcases hf2 with hf2 | ⟨hf2, hnb⟩
          · exact Or.inl hf2
          · rcases hfound with hf | ⟨m, hm, y, hy, hby⟩
            · exact Or.inl (hf2.trans hf)
            · cases m with
              | zero =>
                simp only [List.getElem?_cons_zero, Option.some.injEq] at hy
                exact absurd (hy ▸ hby) hnb
              | succ m => exact Or.inr ⟨m, by omega, y, by simpa using hy, hby⟩
        · intro m hm y hy
          exact hpre (m + 1) (by omega) y (by simpa using hy)
    rw [bulletScan]
    by_cases hsp : c = qc ' '
    · rw [if_pos hsp]
      cases found with
      | true => exact ⟨idx, hidx rfl, by simp⟩
      | false =>
        simp only [Bool.false_eq_true, if_false, if_neg (hsc sc)]
        exact ih _ _ _ _ (by simp) (tailcond false (Or.inr rfl) (Or.inr rfl)
          (Or.inr ⟨rfl, fun hb => (bulletChar_facts hb).2.2.2.2.1 hsp⟩))
    · rw [if_neg hsp]
      by_cases htb : c = qc '\t'
      · rw [if_pos htb]
        cases found with
        | true => exact ⟨idx, hidx rfl, by simp⟩
        | false =>
          simp only [Bool.false_eq_true, if_false, if_neg hnp]
          exact ih _ _ _ _ (by simp) (tailcond false (Or.inr rfl) (Or.inr rfl)
            (Or.inr ⟨rfl, fun hb => (bulletChar_facts hb).2.2.2.2.2 htb⟩))
      · rw [if_neg htb]
        by_cases hbu : c = qc '+' ∨ c = qc '-' ∨ c = qc '*'
        · rw [if_pos hbu]
          exact ih _ _ _ _ (fun _ => by omega) (tailcond true (Or.inl hsp) (Or.inl htb)
            (Or.inl rfl))
        · exfalso
          cases j with
          | zero =>
            simp only [List.getElem?_cons_zero, Option.some.injEq] at hx
            rcases hxs with h | h
            · exact hsp (hx ▸ h)
            · exact htb (hx ▸ h)
          | succ j =>
            rcases hpre 0 (by omega) c (by simp) with h | h | h
            · exact hsp h
            · exact htb h
            · exact hbu h

/-- After a list state, `parseBulletPointList` accepts exactly the bullet
items. -/
theorem bullet_iff {text : QString} (P : MarkdownParser)
    (hprev : P.previousState = ListLineBreak ∨ P.previousState = NumberedList
      ∨ P.previousState = BulletPointList) :
    (parseBulletPointList P text).1 = true ↔ isBulletItem text := by
  have hguard : ¬ (P.previousState ≠ Unknown ∧ P.previousState ≠ ParagraphBreak
      ∧ P.previousState ≠ ListLineBreak ∧ P.previousState ≠ NumberedList
      ∧ P.previousState ≠ BulletPointList) := by
    rcases hprev with h | h | h <;> rw [h] <;> decide
  constructor
  · intro h
    unfold parseBulletPointList at h
    rw [if_neg hguard] at h
    split at h
    · simp at h
    · rename_i bidx ws hscan
      split at h
      · rename_i hacc
        rw [hacc.2] at hscan
        rcases bulletScan_accept _ _ _ _ _ _ _ hscan with ⟨hf, _⟩ | ⟨k, _, hk, hk1, hall⟩
        · simp at hf
        · exact ⟨k, hk, hk1, hall⟩
      · simp at h
  · rintro ⟨b, ⟨x, hx, hbx⟩, hnext, hpre⟩
    obtain ⟨r, hr, hscan⟩ := bulletScan_reach P.previousState hprev text 0 false (-1) 0
      (by simp) ⟨b + 1, hnext, Or.inr ⟨b, by omega, x, hx, hbx⟩, fun m hm y hy => by
        rcases Nat.lt_or_ge m b with h1 | h1
        · exact hpre m h1 y hy
        · have : m = b := by omega
          rw [this, hx] at hy
          exact Or.inr (Or.inr (Option.some.inj hy ▸ hbx))⟩
    unfold parseBulletPointList
    rw [if_neg hguard, hscan]
    simp [hr]

end MarkdownParser

namespace MarkdownParser

/-- After a list state and without Setext lookahead, no rule of the third
group claims a line that is no ATX heading line, no blockquote line, no bullet
item and (unless the previous state is `BulletPointList`) no nested numbered
item. -/
theorem list_blockWithInline_false (P : MarkdownParser) (text : QString)
    (hprev : P.previousState = ListLineBreak ∨ P.previousState = NumberedList
      ∨ P.previousState = BulletPointList)
    (hnext : P.nextState ∉ [SetextHeading1Line2, SetextHeading2Line2])
    (hatx : ¬ isAtxLine text) (hquote : ¬ isBlockquoteLine text)
    (hnum : ¬ isNestedNumberedItem text ∨ P.previousState = BulletPointList)
    (hbul : ¬ isBulletItem text) :
    (parseBlockWithInline P text).1 = false := by
  have ea := not_atx_parse hatx P
  have es : parseSetextHeadingLine1 P text = (false, P) := parseSetextHeadingLine1_false hnext
  have hq : blockquoteRegex.exactMatch text = false := by
    cases hm : blockquoteRegex.exactMatch text
    · rfl
    · exact absurd (blockquote_iff.mp hm) hquote
  have eq : parseBlockquote P text = (false, P) := by
    rcases hprev with h | h | h <;> simp [parseBlockquote, h, hq]
  have en : parseNumberedList P text = (false, P) := by
    rcases hnum with hn | hn
    · have hre : numberedNestedListRegex.exactMatch text = false := by
        cases hm : numberedNestedListRegex.exactMatch text
        · rfl
        · exact absurd (numberedNested_iff.mp hm) hn
      rcases hprev with h | h | h <;> simp [parseNumberedList, h, hre]
    · simp [parseNumberedList, hn]
  have eb : parseBulletPointList P text = (false, P) := by
    apply parseBulletPointList_false
    cases hb : (parseBulletPointList P text).1
    · rfl
    · exact absurd ((bullet_iff P hprev).mp hb) hbul
  simp [parseBlockWithInline, orElse, ea, es, eq, en, eb]

end MarkdownParser

/-! ## The claims -/

namespace MarkdownParser
open MarkdownState MarkdownTokenType

/-- C1. A line matching `^===+\s*$` parsed with previous state `Paragraph` (any
current and next state) ends in `SetextHeading1Line2`, emits exactly one token
(`TokenSetextHeading1Line2`, position 0, the length of the line) and requests a
backtrack; a line matching `^---+\s*$` likewise gives `SetextHeading2Line2` with
one `TokenSetextHeading2Line2` token and a backtrack request. -/
theorem setext_underline_after_paragraph (p : MarkdownParser) (text : QString)
    (currentState nextState : MarkdownState) :
    (isUnderline (qc '=') text →
      ∃ r, parseLine p text currentState Paragraph nextState = some r
        ∧ r.state = SetextHeading1Line2
        ∧ r.tokens = p.tokens ++ [⟨TokenSetextHeading1Line2, 0, (text.length : Int), 0, 0⟩]
        ∧ r.backtrack = true)
    ∧ (isUnderline (qc '-') text →
      ∃ r, parseLine p text currentState Paragraph nextState = some r
        ∧ r.state = SetextHeading2Line2
        ∧ r.tokens = p.tokens ++ [⟨TokenSetextHeading2Line2, 0, (text.length : Int), 0, 0⟩]
        ∧ r.backtrack = true) := by
  constructor
  · intro h
    have hb := not_blank_exact (isUnderline_not_blank (by decide) h)
    have h1 := heading1Setext_iff.mpr h
    simp [parseLine, parseBlockOnly, orElse, parseSetextHeadingLine2, setextBacktrackCheck,
      getState, setState, addToken, requestBacktrack, lineToken, hb, h1]
  · intro h
    have hb := not_blank_exact (isUnderline_not_blank (by decide) h)
    have h2 := heading2Setext_iff.mpr h
    have h1 := not_underline_exact1 (isUnderline_ne (by decide) h)
    simp [parseLine, parseBlockOnly, orElse, parseSetextHeadingLine2, setextBacktrackCheck,
      getState, setState, addToken, requestBacktrack, lineToken, hb, h1, h2]

/-- C1 at the lines `====  ` and `---`. -/
theorem setext_underline_after_paragraph_witness :
    (∃ r, parseLine (fresh Unknown) (qs "====  ") Unknown Paragraph Unknown = some r
        ∧ r.state = SetextHeading1Line2
        ∧ r.tokens = (fresh Unknown).tokens ++ [⟨TokenSetextHeading1Line2, 0, ((qs "====  ").length : Int), 0, 0⟩]
        ∧ r.backtrack = true)
    ∧ (∃ r, parseLine (fresh Unknown) (qs "---") Unknown Paragraph Unknown = some r
        ∧ r.state = SetextHeading2Line2
        ∧ r.tokens = (fresh Unknown).tokens ++ [⟨TokenSetextHeading2Line2, 0, ((qs "---").length : Int), 0, 0⟩]
        ∧ r.backtrack = true) :=
  ⟨(setext_underline_after_paragraph (fresh Unknown) (qs "====  ") Unknown Unknown).1
      ⟨1, qs "  ", by decide, by decide⟩,
   (setext_underline_after_paragraph (fresh Unknown) (qs "---") Unknown Unknown).2
      ⟨0, [], by decide, by decide⟩⟩

/-- C2. Reclassification after a backtrack succeeds: if `parseLine` on a text
with some previous and next state ends in `Paragraph`, then on the same text
and previous state with next state `SetextHeading1Line2` it returns, ends in
`SetextHeading1Line1` and emits a `TokenSetextHeading1Line1` token at position
0 that covers the whole line; with next state `SetextHeading2Line2` it ends in
`SetextHeading2Line1` with a `TokenSetextHeading2Line1` token. The second call
may start from any parser object and any current state. -/
theorem reclassify_after_backtrack (p p2 : MarkdownParser) (text : QString)
    (c c2 previousState nextState : MarkdownState) (r : MarkdownParser)
    (h : parseLine p text c previousState nextState = some r) (hs : r.state = Paragraph) :
    (∃ (r2 : MarkdownParser) (new : List Token),
      parseLine p2 text c2 previousState SetextHeading1Line2 = some r2
      ∧ r2.state = SetextHeading1Line1 ∧ r2.tokens = p2.tokens ++ new
      ∧ (⟨TokenSetextHeading1Line1, 0, (text.length : Int), 0, 0⟩ : Token) ∈ new)
    ∧ (∃ (r2 : MarkdownParser) (new : List Token),
      parseLine p2 text c2 previousState SetextHeading2Line2 = some r2
      ∧ r2.state = SetextHeading2Line1 ∧ r2.tokens = p2.tokens ++ new
      ∧ (⟨TokenSetextHeading2Line1, 0, (text.length : Int), 0, 0⟩ : Token) ∈ new) :=
  ⟨reclassify_aux SetextHeading1Line2 SetextHeading1Line1 TokenSetextHeading1Line1
      (fun x text hx => by simp [parseSetextHeadingLine1, hx])
      p p2 text c c2 previousState nextState r h hs,
    reclassify_aux SetextHeading2Line2 SetextHeading2Line1 TokenSetextHeading2Line1
      (fun x text hx => by simp [parseSetextHeadingLine1, hx])
      p p2 text c c2 previousState nextState r h hs⟩

/-- C2 at the line `Title` after a paragraph break. -/
theorem reclassify_after_backtrack_witness :
    (∃ (r2 : MarkdownParser) (new : List Token),
      parseLine (fresh Unknown) (qs "Title") Unknown ParagraphBreak SetextHeading1Line2 = some r2
      ∧ r2.state = SetextHeading1Line1 ∧ r2.tokens = (fresh Unknown).tokens ++ new
      ∧ (⟨TokenSetextHeading1Line1, 0, ((qs "Title").length : Int), 0, 0⟩ : Token) ∈ new)
    ∧ (∃ (r2 : MarkdownParser) (new : List Token),
      parseLine (fresh Unknown) (qs "Title") Unknown ParagraphBreak SetextHeading2Line2 = some r2
      ∧ r2.state = SetextHeading2Line1 ∧ r2.tokens = (fresh Unknown).tokens ++ new
      ∧ (⟨TokenSetextHeading2Line1, 0, ((qs "Title").length : Int), 0, 0⟩ : Token) ∈ new) :=
  reclassify_after_backtrack (fresh Unknown) (fresh Unknown) (qs "Title") Unknown Unknown
    ParagraphBreak Unknown
    { currentState := Unknown, previousState := ParagraphBreak, nextState := Unknown,
      state := Paragraph, tokens := [], backtrack := false }
    (by decide!) rfl

/-- C3. Undoing a Setext heading: with previous state `SetextHeading1Line1`
(any text, current and next state) `parseLine` returns, and the resulting state
is `SetextHeading1Line2` exactly when the line matches `^===+\s*$`; when it
matches, the backtrack flag is left as it was, and when it does not (blank
lines and `-` underlines included) a backtrack is requested. Symmetrically for
`SetextHeading2Line1` with `^---+\s*$` and `SetextHeading2Line2`. -/
theorem setext_line2_or_undo (p : MarkdownParser) (text : QString)
    (currentState nextState : MarkdownState) :
    (∃ r, parseLine p text currentState SetextHeading1Line1 nextState = some r
      ∧ (r.state = SetextHeading1Line2 ↔ isUnderline (qc '=') text)
      ∧ (isUnderline (qc '=') text → r.backtrack = p.backtrack)
      ∧ (¬ isUnderline (qc '=') text → r.backtrack = true))
    ∧ (∃ r, parseLine p text currentState SetextHeading2Line1 nextState = some r
      ∧ (r.state = SetextHeading2Line2 ↔ isUnderline (qc '-') text)
      ∧ (isUnderline (qc '-') text → r.backtrack = p.backtrack)
      ∧ (¬ isUnderline (qc '-') text → r.backtrack = true)) := by
  constructor
  · apply setext_line2_aux SetextHeading1Line1 SetextHeading1Line2 TokenSetextHeading1Line2
      (qc '=') heading1SetextRegex (fun _ => heading1Setext_iff) (Or.inl rfl) (by simp)
      (by decide)
    · intro x hx
      simp [setextBacktrackCheck, getState, hx]
    · intro x text hx
      simp only [parseSetextHeadingLine2, hx, if_true]
  · apply setext_line2_aux SetextHeading2Line1 SetextHeading2Line2 TokenSetextHeading2Line2
      (qc '-') heading2SetextRegex (fun _ => heading2Setext_iff) (Or.inr rfl) (by simp)
      (by decide)
    · intro x hx
      simp [setextBacktrackCheck, getState, hx]
    · intro x text hx
      simp [parseSetextHeadingLine2, hx]

/-- C3 at the underline `===` (line 2, no backtrack request from a parser whose
flag is clear) and at the line `---` (not an `=` underline: backtrack). -/
theorem setext_line2_or_undo_witness :
    (∃ r, parseLine (fresh Unknown) (qs "===") Unknown SetextHeading1Line1 Unknown = some r
      ∧ r.state = SetextHeading1Line2 ∧ r.backtrack = false)
    ∧ (∃ r, parseLine (fresh Unknown) (qs "---") Unknown SetextHeading1Line1 Unknown = some r
      ∧ r.state ≠ SetextHeading1Line2 ∧ r.backtrack = true) := by
  have hu : isUnderline (qc '=') (qs "===") := ⟨0, [], by decide, by decide⟩
  have hn : ¬ isUnderline (qc '=') (qs "---") :=
    isUnderline_ne (c := qc '-') (by decide) ⟨0, [], by decide, by decide⟩
  obtain ⟨r1, h1, hs1, hb1, _⟩ :=
    (setext_line2_or_undo (fresh Unknown) (qs "===") Unknown Unknown).1
  obtain ⟨r2, h2, hs2, _, hb2⟩ :=
    (setext_line2_or_undo (fresh Unknown) (qs "---") Unknown Unknown).1
  exact ⟨⟨r1, h1, hs1.mpr hu, hb1 hu⟩, ⟨r2, h2, fun h => hn (hs2.mp h), hb2 hn⟩⟩

/-- C4. Inside a fence every line is code until the closing line of the fence:
with previous state `InGithubCodeFence` (any text, blank lines included)
`parseLine` emits exactly one token at position 0 that covers the whole line
and leaves the backtrack flag as it was; if the line is three or more
backticks followed by white space only, the token is `TokenCodeFenceEnd` and
the state `CodeFenceEnd`, otherwise the token is `TokenCodeBlock` and the state
stays `InGithubCodeFence`, in particular for a line matching `^~~~+\s*$`. The
same holds for `InPandocCodeFence` with `^~~~+\s*$`, where a line of backticks
does not close the fence. -/
theorem fence_interior (p : MarkdownParser) (text : QString)
    (currentState nextState : MarkdownState) :
    (∃ r, parseLine p text currentState InGithubCodeFence nextState = some r
      ∧ r.backtrack = p.backtrack
      ∧ (isUnderline 96 text → r.state = CodeFenceEnd
          ∧ r.tokens = p.tokens ++ [⟨TokenCodeFenceEnd, 0, (text.length : Int), 0, 0⟩])
      ∧ (¬ isUnderline 96 text → r.state = InGithubCodeFence
          ∧ r.tokens = p.tokens ++ [⟨TokenCodeBlock, 0, (text.length : Int), 0, 0⟩])
      ∧ (isUnderline (qc '~') text → r.state = InGithubCodeFence))
    ∧ (∃ r, parseLine p text currentState InPandocCodeFence nextState = some r
      ∧ r.backtrack = p.backtrack
      ∧ (isUnderline (qc '~') text → r.state = CodeFenceEnd
          ∧ r.tokens = p.tokens ++ [⟨TokenCodeFenceEnd, 0, (text.length : Int), 0, 0⟩])
      ∧ (¬ isUnderline (qc '~') text → r.state = InPandocCodeFence
          ∧ r.tokens = p.tokens ++ [⟨TokenCodeBlock, 0, (text.length : Int), 0, 0⟩])
      ∧ (isUnderline 96 text → r.state = InPandocCodeFence)) := by
  constructor
  · by_cases hu : isUnderline 96 text
    · have h1 := githubCodeFenceEnd_iff.mpr hu
      have h2 : ¬ isUnderline (qc '~') text := isUnderline_ne (by decide) hu
      simp [parseLine, parseBlockOnly, orElse, parseSetextHeadingLine2, parseCodeBlock,
        setextBacktrackCheck, getState, setState, addToken, lineToken, h1, hu, h2]
    · have h1 := not_underline_github hu
      simp [parseLine, parseBlockOnly, orElse, parseSetextHeadingLine2, parseCodeBlock,
        setextBacktrackCheck, getState, setState, addToken, lineToken, h1, hu]
  · by_cases hu : isUnderline (qc '~') text
    · have h1 := pandocCodeFenceEnd_iff.mpr hu
      have h2 : ¬ isUnderline 96 text := isUnderline_ne (by decide) hu
      simp [parseLine, parseBlockOnly, orElse, parseSetextHeadingLine2, parseCodeBlock,
        setextBacktrackCheck, getState, setState, addToken, lineToken, h1, hu, h2]
    · have h1 := not_underline_pandoc hu
      simp [parseLine, parseBlockOnly, orElse, parseSetextHeadingLine2, parseCodeBlock,
        setextBacktrackCheck, getState, setState, addToken, lineToken, h1, hu]

/-- C4 inside a backtick fence: the line of three backticks closes it, the
line `~~~` does not. -/
theorem fence_interior_witness :
    (∃ r, parseLine (fresh Unknown) [96, 96, 96] Unknown InGithubCodeFence Unknown = some r
      ∧ r.state = CodeFenceEnd
      ∧ r.tokens = (fresh Unknown).tokens ++ [⟨TokenCodeFenceEnd, 0, 3, 0, 0⟩])
    ∧ (∃ r, parseLine (fresh Unknown) (qs "~~~") Unknown InGithubCodeFence Unknown = some r
      ∧ r.state = InGithubCodeFence
      ∧ r.tokens = (fresh Unknown).tokens ++ [⟨TokenCodeBlock, 0, 3, 0, 0⟩]) := by
  have hu : isUnderline 96 [96, 96, 96] := ⟨0, [], by decide, by decide⟩
  have hn : ¬ isUnderline 96 (qs "~~~") :=
    isUnderline_ne (c := qc '~') (by decide) ⟨0, [], by decide, by decide⟩
  obtain ⟨r1, h1, _, hm1, _, _⟩ :=
    (fence_interior (fresh Unknown) [96, 96, 96] Unknown Unknown).1
  obtain ⟨r2, h2, _, _, hm2, _⟩ :=
    (fence_interior (fresh Unknown) (qs "~~~") Unknown Unknown).1
  exact ⟨⟨r1, h1, (hm1 hu).1, (hm1 hu).2⟩, ⟨r2, h2, (hm2 hn).1, (hm2 hn).2⟩⟩

/-- C5. Idempotence: for every text, previous state and next state, two calls of
`parseLine` both return, with the same resulting state, the same emitted
tokens (`new`, after the tokens the parser object held before) and the same
backtrack request (`requested`), whatever the parser objects `p`, `q` held
before (their stored state included) and whatever is passed as current state
(`c1`, `c2`): every path assigns the state, and the result does not depend on
the incoming current state. -/
theorem parseLine_idempotent (p q : MarkdownParser) (text : QString)
    (c1 c2 previousState nextState : MarkdownState) :
    ∃ (r1 r2 : MarkdownParser) (new : List Token) (requested : Bool),
      parseLine p text c1 previousState nextState = some r1
      ∧ parseLine q text c2 previousState nextState = some r2
      ∧ r1.state = r2.state
      ∧ r1.tokens = p.tokens ++ new ∧ r2.tokens = q.tokens ++ new
      ∧ r1.backtrack = (p.backtrack || requested) ∧ r2.backtrack = (q.backtrack || requested) := by
  obtain ⟨e, s, hs, h1, h2⟩ := parseLine_uniform text previousState nextState p q c1 c2
  exact ⟨_, _, e.toks, e.bt, h1, h2, by simp [hs], rfl, rfl, rfl, rfl⟩

/-- C6. Escape handling. Parsed with previous state `Unknown`, `ParagraphBreak` or
`Paragraph` and a next state that is no Setext line-2 state, the text
`\*not emphasis\*` yields the state `Paragraph` and no token at all (so no
emphasis token), and the text `*is emphasis*` yields exactly one token, an
emphasis token at position 0 of length 13 with opening and closing markup
length 1. In general, for every text, previous and next state, every emphasis
token that `parseLine` emits starts and ends at a position that is not escaped,
i.e. that does not immediately follow an unescaped backslash. -/
theorem escape_handling :
    (∀ (p : MarkdownParser) (c prev next : MarkdownState),
      prev ∈ [Unknown, ParagraphBreak, Paragraph] →
      next ∉ [SetextHeading1Line2, SetextHeading2Line2] →
      ∃ r, parseLine p (qs "\\*not emphasis\\*") c prev next = some r
        ∧ r.state = Paragraph ∧ r.tokens = p.tokens)
    ∧ (∀ (p : MarkdownParser) (c prev next : MarkdownState),
      prev ∈ [Unknown, ParagraphBreak, Paragraph] →
      next ∉ [SetextHeading1Line2, SetextHeading2Line2] →
      ∃ r, parseLine p (qs "*is emphasis*") c prev next = some r
        ∧ r.state = Paragraph ∧ r.tokens = p.tokens ++ [⟨TokenEmphasis, 0, 13, 1, 1⟩])
    ∧ (∀ (p : MarkdownParser) (text : QString) (c prev next : MarkdownState),
      ∃ (r : MarkdownParser) (new : List Token), parseLine p text c prev next = some r
        ∧ r.tokens = p.tokens ++ new
        ∧ ∀ t ∈ new, t.type = TokenEmphasis →
          ∃ i l : Nat, t.position = (i : Int) ∧ t.length = (l : Int) ∧ 0 < l
            ∧ isEscaped text i = false ∧ isEscaped text (i + l - 1) = false) := by
  refine ⟨?_, ?_, ?_⟩
  · intro p c prev next hp hn
    obtain ⟨r, h, hs, ht, _⟩ :=
      parseLine_of_fresh (not_emphasis_eval prev hp next (mem_noLookahead hn)) p c
    exact ⟨r, h, hs, by simpa using ht⟩
  · intro p c prev next hp hn
    obtain ⟨r, h, hs, ht, _⟩ :=
      parseLine_of_fresh (is_emphasis_eval prev hp next (mem_noLookahead hn)) p c
    exact ⟨r, h, hs, ht⟩
  · intro p text c prev next
    exact emphasis_not_escaped p text c prev next

/-- C6 after a paragraph break, with no line following. -/
theorem escape_handling_witness :
    (∃ r, parseLine (fresh Unknown) (qs "\\*not emphasis\\*") Unknown ParagraphBreak Unknown
        = some r ∧ r.state = Paragraph ∧ r.tokens = (fresh Unknown).tokens)
    ∧ (∃ r, parseLine (fresh Unknown) (qs "*is emphasis*") Unknown ParagraphBreak Unknown
        = some r ∧ r.state = Paragraph
        ∧ r.tokens = (fresh Unknown).tokens ++ [⟨TokenEmphasis, 0, 13, 1, 1⟩]) :=
  ⟨escape_handling.1 (fresh Unknown) Unknown ParagraphBreak Unknown (by decide) (by decide),
    escape_handling.2.1 (fresh Unknown) Unknown ParagraphBreak Unknown (by decide) (by decide)⟩

/-- C7. Bullet list rejection: a line that begins with four or more spaces
followed by a bullet character `+`, `-` or `*` (such as four spaces and
`- item`), parsed with previous state `ParagraphBreak` or `Unknown`, ends in
state `CodeBlock`; exactly one token is emitted, a `TokenCodeBlock` token at
position 0 with the length of the line, and no `TokenBulletPointList` token. -/
theorem indented_bullet_is_code (p : MarkdownParser) (k : Nat) (b : QChar) (rest : QString)
    (currentState previousState nextState : MarkdownState)
    (hk : 4 ≤ k) (hb : b = qc '+' ∨ b = qc '-' ∨ b = qc '*')
    (hprev : previousState = ParagraphBreak ∨ previousState = Unknown) :
    ∃ r, parseLine p (List.replicate k (qc ' ') ++ b :: rest) currentState previousState
          nextState = some r
      ∧ r.state = CodeBlock
      ∧ r.tokens = p.tokens ++ [⟨TokenCodeBlock, 0,
          ((List.replicate k (qc ' ') ++ b :: rest).length : Int), 0, 0⟩]
      ∧ ∀ t ∈ r.tokens, t ∉ p.tokens → t.type ≠ TokenBulletPointList := by
  obtain ⟨j, rfl⟩ : ∃ j, k = j + 4 := ⟨k - 4, by omega⟩
  generalize htext : List.replicate (j + 4) (qc ' ') ++ b :: rest = text
  have hnb : paragraphBreakRegex.exactMatch text = false := by
    apply not_blank_exact
    intro hbl
    have hmem : b ∈ text := by
      rw [← htext]
      simp
    have := hbl b hmem
    rcases hb with h | h | h <;> subst h <;> revert this <;> decide
  have hstart : startsWith text (qs "    ") = true := by
    rw [← htext]
    simp [startsWith, qs, qc, List.replicate_succ, List.isPrefixOf]
  have key : ∃ r, parseLine p text currentState previousState nextState = some r
      ∧ r.state = CodeBlock
      ∧ r.tokens = p.tokens ++ [⟨TokenCodeBlock, 0, (text.length : Int), 0, 0⟩] := by
    rcases hprev with h | h <;> subst h <;>
      simp [parseLine, parseBlockOnly, orElse, parseSetextHeadingLine2, parseCodeBlock,
        setextBacktrackCheck, getState, setState, addToken, lineToken, hnb, hstart]
  obtain ⟨r, h1, h2, h3⟩ := key
  refine ⟨r, h1, h2, h3, ?_⟩
  intro t ht hnt
  rw [h3] at ht
  rcases List.mem_append.mp ht with ht | ht
  · exact absurd ht hnt
  · simp only [List.mem_singleton] at ht
    rw [ht]
    simp

/-- C7 at the line of four spaces and `- item`, after a paragraph break. -/
theorem indented_bullet_is_code_witness :
    ∃ r, parseLine (fresh Unknown) (qs "    - item") Unknown ParagraphBreak Unknown = some r
      ∧ r.state = CodeBlock
      ∧ r.tokens = (fresh Unknown).tokens ++ [⟨TokenCodeBlock, 0, 10, 0, 0⟩]
      ∧ ∀ t ∈ r.tokens, t ∉ (fresh Unknown).tokens → t.type ≠ TokenBulletPointList :=
  indented_bullet_is_code (fresh Unknown) 4 (qc '-') (qs " item") Unknown ParagraphBreak
    Unknown (by decide) (by decide) (by decide)

/-- C8, as amended. Numbered list marker extraction: for every line matching
`^ {0,3}[0-9]+[.)]\s+.*$` (leading spaces `k`, digits `dg`), parsed with
previous state `ParagraphBreak` or `Unknown` and a next state that is no Setext
line-2 state, `parseLine` returns and the first token it emits is a
`TokenNumberedList` token at position 0 that spans the whole line and whose
opening markup length is the number of leading spaces plus the number of
digits plus one, i.e. the index of the first `.` or `)` plus one. The
resulting state is `NumberedList`, except that it is `Comment` exactly when
inline scanning of the line ends in the state `Comment` (an HTML comment is
opened and not closed on the line); it is `NumberedList` for every such line
without the character `<`. -/
theorem numbered_list_marker (p : MarkdownParser) (text : QString) (k : Nat) (dg : QString)
    (c previousState nextState : MarkdownState)
    (hitem : isNumberedItem text k dg)
    (hprev : previousState = ParagraphBreak ∨ previousState = Unknown)
    (hnext : nextState ∉ [SetextHeading1Line2, SetextHeading2Line2]) :
    ∃ (r : MarkdownParser) (rest : List Token),
      parseLine p text c previousState nextState = some r
      ∧ r.tokens = p.tokens ++ (⟨TokenNumberedList, 0, (text.length : Int),
          ((leadingSpaces text + leadingDigits text + 1 : Nat) : Int), 0⟩ : Token) :: rest
      ∧ leadingSpaces text = k ∧ leadingDigits text = dg.length
      ∧ firstMarkerIndex text = leadingSpaces text + leadingDigits text
      ∧ (r.state = NumberedList ∨ r.state = Comment)
      ∧ (r.state = Comment ↔
          ∃ q, parseInline (fresh previousState) text = some q ∧ q.state = Comment)
      ∧ (qc '<' ∉ text → r.state = NumberedList) := by
  obtain ⟨d, tail, hd, htext, hk⟩ := numbered_shape hitem
  have hds : DigitStart text := ⟨k, d, tail, hd, htext, hk⟩
  obtain ⟨hc1, hc2⟩ := numbered_counts hitem
  have hfm := numbered_firstMarker hitem
  have hnb := not_blank_exact (digitStart_not_blank hds)
  obtain ⟨hi1, hi2⟩ := digitStart_not_indented hds
  obtain ⟨hf1, hf2⟩ := digitStart_not_fence hds
  have hhr := digitStart_not_hrule hds
  have hbq := digitStart_not_blockquote hds
  obtain ⟨e, hes, hlt, hrun⟩ := parseInline_comment previousState text
  simp only [List.mem_cons, List.mem_singleton, List.not_mem_nil, or_false, not_or] at hnext
  rw [parseLine_unfold]
  have hP : (enter p c previousState nextState).previousState = previousState := rfl
  have hPn : (enter p c previousState nextState).nextState = nextState := rfl
  have hPt : (enter p c previousState nextState).tokens = p.tokens := rfl
  generalize enter p c previousState nextState = P at hP hPn hPt ⊢
  have hb1 : parseBlockOnly P text = (false, P) := by
    rcases hprev with h | h <;>
      simp [parseBlockOnly, orElse, parseSetextHeadingLine2, parseCodeBlock,
        parseMultilineComment, parseHorizontalRule, hP, h, hi1, hi2, hf1, hf2, hhr]
  have hb2 : parseBlockWithInline P text
      = (true, (P.addToken ⟨TokenNumberedList, 0, (text.length : Int),
          ((k + dg.length + 1 : Nat) : Int), 0⟩).setState NumberedList) := by
    have hat := digitStart_not_atx hds P
    have hnl := parseNumberedList_item hitem P (by rw [hP]; exact hprev)
    have hbqf : parseBlockquote P text = (false, P) := by
      rcases hprev with h | h <;> simp [parseBlockquote, hP, h, hbq]
    simp [parseBlockWithInline, orElse, hat, parseSetextHeadingLine1, hPn, hnext.1, hnext.2,
      hbqf, hnl]
  rw [if_neg (by simp [hnb]), hb1]
  simp only [Bool.false_eq_true, if_false, hb2, if_true]
  rw [hrun _ (by simpa [addToken, setState] using hP)]
  simp only [Option.map_some']
  have hfresh := hrun (fresh previousState) rfl
  have hnc : previousState ≠ Comment := by
    rcases hprev with h | h <;> rw [h] <;> decide
  refine ⟨_, e.toks, rfl, ?_, hc1, hc2, by rw [hfm, hc1, hc2], ?_, ?_, ?_⟩
  · rw [setextBacktrackCheck_tokens]
    simp [addToken, setState, hPt, hc1, hc2]
  · rw [setextBacktrackCheck_state]
    rcases hes with h | h <;> simp [h, addToken, setState]
  · rw [setextBacktrackCheck_state, hfresh]
    rcases hes with h | h
    · simp [h, addToken, setState, fresh, hnc]
    · simp [h]
  · intro hlt2
    rw [setextBacktrackCheck_state]
    rcases hes with h | h
    · simp [h, addToken, setState]
    · exact absurd (hlt h) hlt2

/-- C8 at the line `12) do it`: the opening markup length is 3. -/
theorem numbered_list_marker_witness :
    ∃ (r : MarkdownParser) (rest : List Token),
      parseLine (fresh Unknown) (qs "12) do it") Unknown ParagraphBreak Unknown = some r
      ∧ r.tokens = (fresh Unknown).tokens ++ (⟨TokenNumberedList, 0, 9, 3, 0⟩ : Token) :: rest
      ∧ r.state = NumberedList := by
  obtain ⟨r, rest, h1, h2, h3, h4, _, _, _, h5⟩ :=
    numbered_list_marker (fresh Unknown) (qs "12) do it") 0 (qs "12") Unknown ParagraphBreak
      Unknown ⟨qc ')', qs " ", qs "do it", by decide, by decide, by decide, by decide, by decide,
        by decide, by decide⟩ (by decide) (by decide)
  refine ⟨r, rest, h1, ?_, h5 (by decide)⟩
  rw [h2, h3, h4]
  rfl

/-- C8 fails as stated at the line `1. <!--`: it is a numbered item parsed
after a paragraph break, and the resulting state is `Comment`. -/
theorem numbered_list_state_counterexample :
    numberedListRegex.exactMatch (qs "1. <!--") = true
    ∧ (parseLine (fresh Unknown) (qs "1. <!--") Unknown ParagraphBreak Unknown).map view
        = some (Comment, [⟨TokenNumberedList, 0, 7, 2, 0⟩, ⟨TokenHtmlComment, 3, 4, 0, 0⟩], false)
    ∧ Comment ≠ NumberedList := by
  decide!

/-- C9. The end-to-end scenario over the lines `Title`, `=====`, the empty line
and `Some *bold* text.`, from any parser object and current state, where a
line that is not classified yet has state `Unknown`: `Title` after `Unknown` is
first `Paragraph`; `=====` after `Paragraph` is `SetextHeading1Line2` with a
backtrack request; `Title` parsed again with next state `SetextHeading1Line2`
is `SetextHeading1Line1`; `=====` parsed again after `SetextHeading1Line1` is
`SetextHeading1Line2` with no further backtrack request; the empty line is
`ParagraphBreak`; `Some *bold* text.` is `Paragraph` with exactly one token, an
emphasis token at position 5 of length 6 with opening and closing markup
length 1. -/
theorem end_to_end_scenario (p : MarkdownParser) (c : MarkdownState) :
    (∃ r, parseLine p (qs "Title") c Unknown Unknown = some r
      ∧ r.state = Paragraph ∧ r.tokens = p.tokens ∧ r.backtrack = p.backtrack)
    ∧ (∃ r, parseLine p (qs "=====") c Paragraph Unknown = some r
      ∧ r.state = SetextHeading1Line2
      ∧ r.tokens = p.tokens ++ [⟨TokenSetextHeading1Line2, 0, 5, 0, 0⟩] ∧ r.backtrack = true)
    ∧ (∃ r, parseLine p (qs "Title") c Unknown SetextHeading1Line2 = some r
      ∧ r.state = SetextHeading1Line1
      ∧ r.tokens = p.tokens ++ [⟨TokenSetextHeading1Line1, 0, 5, 0, 0⟩]
      ∧ r.backtrack = p.backtrack)
    ∧ (∃ r, parseLine p (qs "=====") c SetextHeading1Line1 Unknown = some r
      ∧ r.state = SetextHeading1Line2
      ∧ r.tokens = p.tokens ++ [⟨TokenSetextHeading1Line2, 0, 5, 0, 0⟩]
      ∧ r.backtrack = p.backtrack)
    ∧ (∃ r, parseLine p (qs "") c SetextHeading1Line2 Unknown = some r
      ∧ r.state = ParagraphBreak ∧ r.tokens = p.tokens ∧ r.backtrack = p.backtrack)
    ∧ (∃ r, parseLine p (qs "Some *bold* text.") c ParagraphBreak Unknown = some r
      ∧ r.state = Paragraph ∧ r.tokens = p.tokens ++ [⟨TokenEmphasis, 5, 6, 1, 1⟩]
      ∧ r.backtrack = p.backtrack) := by
  obtain ⟨h1, h2, h3, h4, h5, h6⟩ := scenario_eval
  refine ⟨?_, ?_, ?_, ?_, ?_, ?_⟩
  · obtain ⟨r, h, hs, ht, hb⟩ := parseLine_of_fresh h1 p c
    exact ⟨r, h, hs, by simpa using ht, by simpa using hb⟩
  · obtain ⟨r, h, hs, ht, hb⟩ := parseLine_of_fresh h2 p c
    exact ⟨r, h, hs, ht, by simpa using hb⟩
  · obtain ⟨r, h, hs, ht, hb⟩ := parseLine_of_fresh h3 p c
    exact ⟨r, h, hs, ht, by simpa using hb⟩
  · obtain ⟨r, h, hs, ht, hb⟩ := parseLine_of_fresh h4 p c
    exact ⟨r, h, hs, ht, by simpa using hb⟩
  · obtain ⟨r, h, hs, ht, hb⟩ := parseLine_of_fresh h5 p c
    exact ⟨r, h, hs, by simpa using ht, by simpa using hb⟩
  · obtain ⟨r, h, hs, ht, hb⟩ := parseLine_of_fresh h6 p c
    exact ⟨r, h, hs, ht, by simpa using hb⟩

/-- C10. Blank-line classification: for every white-space-only line (the empty
line included) whose previous state is not `CodeBlock`, `InGithubCodeFence`,
`InPandocCodeFence` or `Comment`, `parseLine` emits no token, and the resulting
state is `ListLineBreak` if the previous state is `ListLineBreak`,
`NumberedList` or `BulletPointList`, and `ParagraphBreak` otherwise. -/
theorem blank_line_state (p : MarkdownParser) (text : QString)
    (currentState previousState nextState : MarkdownState)
    (hblank : isBlank text)
    (hprev : previousState ∉ [CodeBlock, InGithubCodeFence, InPandocCodeFence, Comment]) :
    ∃ r, parseLine p text currentState previousState nextState = some r
      ∧ r.tokens = p.tokens
      ∧ r.state = if previousState ∈ [ListLineBreak, NumberedList, BulletPointList]
          then ListLineBreak else ParagraphBreak := by
  have hb := paragraphBreak_iff.mpr hblank
  simp only [List.mem_cons, List.mem_singleton, List.not_mem_nil, or_false, not_or] at hprev
  obtain ⟨h1, h2, h3, h4⟩ := hprev
  rw [parseLine_unfold, if_pos ⟨h1, h2, h3, h4, hb⟩]
  by_cases hlist : previousState = ListLineBreak ∨ previousState = NumberedList
      ∨ previousState = BulletPointList
  · rw [if_pos hlist]
    refine ⟨_, rfl, ?_, ?_⟩
    · rw [setextBacktrackCheck_tokens]
      rfl
    · rw [setextBacktrackCheck_state]
      simp [setState, hlist]
  · rw [if_neg hlist, if_pos (Or.inl h1)]
    refine ⟨_, rfl, ?_, ?_⟩
    · rw [setextBacktrackCheck_tokens]
      rfl
    · rw [setextBacktrackCheck_state]
      simp [setState, hlist]

/-- C10 at the empty line after a bullet item and at a line of two spaces
after a paragraph. -/
theorem blank_line_state_witness :
    (∃ r, parseLine (fresh Unknown) [] Unknown BulletPointList Unknown = some r
      ∧ r.tokens = (fresh Unknown).tokens ∧ r.state = ListLineBreak)
    ∧ (∃ r, parseLine (fresh Unknown) (qs "  ") Unknown Paragraph Unknown = some r
      ∧ r.tokens = (fresh Unknown).tokens ∧ r.state = ParagraphBreak) :=
  ⟨blank_line_state (fresh Unknown) [] Unknown BulletPointList Unknown
      (by unfold isBlank; decide) (by decide),
    blank_line_state (fresh Unknown) (qs "  ") Unknown Paragraph Unknown
      (by unfold isBlank; decide) (by decide)⟩

/-- C11, where the code departs from the claim. With previous state `CodeBlock`
the blank-line branch of `parseLine` is never entered (its guard asks for a
previous state other than `CodeBlock`), so the test for continued code-block
content inside that branch is never reached: no line at all ends in
`ParagraphBreak` after a `CodeBlock` line, and the empty line ends in
`Paragraph`, with no token and no backtrack request. -/
theorem blank_after_code_block (p : MarkdownParser) (c nextState : MarkdownState) :
    (∀ text, ∃ r, parseLine p text c CodeBlock nextState = some r
      ∧ r.state ≠ ParagraphBreak)
    ∧ (∃ r, parseLine p [] c CodeBlock Unknown = some r
      ∧ r.state = Paragraph ∧ r.tokens = p.tokens ∧ r.backtrack = p.backtrack) := by
  constructor
  · intro text
    rw [parseLine_unfold, if_neg (by simp)]
    generalize enter p c CodeBlock nextState = P
    obtain ⟨b1, e1, hp1, _, hs1, _⟩ := parseBlockOnly_uniform text P P rfl
    dsimp only at hp1
    rw [hp1]
    cases b1 with
    | true =>
      obtain ⟨s1, hm1, hst1⟩ := hs1 rfl
      refine ⟨_, by simp only [if_true, Option.map_some']; rfl, ?_⟩
      rw [setextBacktrackCheck_state]
      simp only [Effect.apply_state, hst1, Option.getD_some]
      revert hm1
      cases s1 <;> simp
    | false =>
      simp only [Bool.false_eq_true, if_false]
      obtain ⟨e, s, hs, hm, h⟩ := inline_tail (e1.apply P) text
      rw [h]
      refine ⟨_, by simp only [if_true, Option.map_some']; rfl, ?_⟩
      rw [setextBacktrackCheck_state]
      simp only [Effect.apply_state, hs, Option.getD_some]
      revert hm
      cases s <;> simp [tailStates]
  · obtain ⟨r, h, hs, ht, hb⟩ := parseLine_of_fresh
      (show (parseLine (fresh Unknown) [] Unknown CodeBlock Unknown).map view
        = some (Paragraph, [], false) by decide!) p c
    exact ⟨r, h, hs, by simpa using ht, by simpa using hb⟩
/-- C12, as amended. Token spans: for every line, `parseInline` returns, and the
tokens it emits in one pass lie pairwise apart in this sense. Two tokens of the
same type never overlap: the later one starts at or after the end of the
earlier one. And no token starts or ends inside the span of a token emitted
before it whose match was replaced by the dummy character in full (HTML
comment, image, inline link, automatic link, code span): it lies before that
span, after it, or around all of it. Tokens whose match is left in the working
text (reference link, HTML entity, strikethrough) or loses only its markup
(strong, emphasis) can overlap later tokens of other types. -/
theorem inline_tokens_apart (p : MarkdownParser) (text : QString) :
    ∃ (r : MarkdownParser) (new : List Token),
      parseInline p text = some r ∧ r.tokens = p.tokens ++ new
      ∧ (∀ t ∈ new, t.type ∈ inlineTokenTypes)
      ∧ List.Pairwise Apart new
      ∧ List.Pairwise (fun a b => a.type = b.type → ¬ Token.overlaps a b) new := by
  obtain ⟨e, hap, hty, hrun⟩ := parseInline_apart p.previousState text
  refine ⟨e.apply p, e.toks, hrun p rfl, rfl, hty, hap, ?_⟩
  refine hap.imp ?_
  intro a b hab heq hov
  have h1 := hab.1 heq
  have h2 := hov.2
  omega

/-- C12 fails as stated at the line `[*a*]`: inline scanning emits a reference
link token for the whole line and an emphasis token for `*a*` inside it, so
the spans `[0, 5)` and `[1, 4)` overlap. After a list line, `parseLine` gives
the same tokens. -/
theorem inline_overlap_counterexample :
    (parseInline (fresh Unknown) (qs "[*a*]")).map view
        = some (Unknown, [⟨TokenReferenceLink, 0, 5, 0, 0⟩, ⟨TokenEmphasis, 1, 3, 1, 1⟩], false)
    ∧ (parseLine (fresh Unknown) (qs "[*a*]") Unknown ListLineBreak Unknown).map view
        = some (Paragraph, [⟨TokenReferenceLink, 0, 5, 0, 0⟩, ⟨TokenEmphasis, 1, 3, 1, 1⟩],
            false)
    ∧ Token.overlaps ⟨TokenReferenceLink, 0, 5, 0, 0⟩ ⟨TokenEmphasis, 1, 3, 1, 1⟩ := by
  refine ⟨?_, ?_, ?_, ?_⟩ <;> decide!

/-- C13, where the code departs from the claim. `parseInline` tests the
sanitized line with `exactMatch` against a pattern that stops at `]:`, so a
reference definition is recognized only when nothing follows the colon: for
every line, previous and next state, if `parseLine` emits a
`TokenReferenceDefinition` token then the sanitized line ends in `]:`. On the
line `[foo]: http://example.com` inline scanning emits no reference definition
token and emits a `TokenReferenceLink` token for `[foo]` (position 0, length
5); on the line `[foo]:` it emits the reference definition token (position 0,
length 6) and no reference link. -/
theorem reference_definition_whole_line :
    (∀ (p : MarkdownParser) (text : QString) (c previousState nextState : MarkdownState),
      ∃ (r : MarkdownParser) (new : List Token),
        parseLine p text c previousState nextState = some r ∧ r.tokens = p.tokens ++ new
        ∧ ((∃ t ∈ new, t.type = TokenReferenceDefinition) →
            endsWith (dummyOutEscapeCharacters text) (qs "]:") = true))
    ∧ (parseInline (fresh Unknown) (qs "[foo]: http://example.com")).map view
        = some (Unknown, [⟨TokenReferenceLink, 0, 5, 0, 0⟩], false)
    ∧ (parseLine (fresh Unknown) (qs "[foo]: http://example.com") Unknown Unknown Unknown).map view
        = some (Paragraph, [⟨TokenReferenceLink, 0, 5, 0, 0⟩], false)
    ∧ (parseInline (fresh Unknown) (qs "[foo]:")).map view
        = some (Unknown, [⟨TokenReferenceDefinition, 0, 6, 0, 0⟩], false) := by
  refine ⟨?_, reference_eval⟩
  intro p text c previousState nextState
  obtain ⟨b, e1, e3, s1, _, ht1, _, _, ht3, _, _, hline⟩ :=
    parseLine_decompose text previousState nextState (fun _ => True)
      (fun t => t.type = TokenReferenceDefinition →
        endsWith (dummyOutEscapeCharacters text) (qs "]:") = true)
      trivial (fun _ _ _ => trivial) (fun _ _ _ _ => trivial)
      (fun h _ => referenceDefinition_ends h)
      (fun _ _ _ hty => by simp [openCommentToken] at hty)
      (by
        intro st hst w off i l _ _ hty
        simp only [inlineStages, List.mem_cons, List.mem_singleton, List.not_mem_nil,
          or_false] at hst
        rcases hst with h | h | h | h | h | h | h | h | h | h | h <;>
          rw [h] at hty <;> simp [matchToken] at hty)
  refine ⟨_, (if b = true then e1.andThen e3 else e1).toks, hline p c, ?_, ?_⟩
  · rw [setextBacktrackCheck_tokens]
    rfl
  · rintro ⟨t, ht, hty⟩
    have hblk : ∀ t ∈ e1.toks, t.type ≠ TokenReferenceDefinition := by
      intro t ht hty
      have hbt := ht1 t ht
      cases hbt with
      | atxHeading =>
        revert hty
        simp only [atxHeadingToken]
        split <;> simp
      | _ => simp [lineToken] at hty
    cases b with
    | true =>
      simp only [if_true, Effect.andThen, List.mem_append] at ht
      rcases ht with ht | ht
      · exact absurd hty (hblk t ht)
      · exact (ht3 t ht).2 hty
    | false => exact absurd hty (hblk t (by simpa using ht))

/-- C14, as amended. ATX headings: with previous state `Unknown`,
`ParagraphBreak` or `Paragraph` (any next state), for every line whose
sanitized text starts with a run of `k ≥ 1` characters `#`, let the level be
`min k 6`; if the level is less than the length of the line, `parseLine`
returns and the first token it emits is the ATX heading token of that level at
position 0, spanning the whole line, with opening markup length equal to the
level and closing markup length equal to the number of consecutive `#` at the
end of the sanitized line at indices greater than the level. The resulting
state is the ATX heading state of that level, except that it is `Comment`
exactly when inline scanning of the line ends in the state `Comment` (an HTML
comment is opened and not closed on the line); it is the heading state for
every such line without the character `<`. No space after the run is required:
`#foo` is a heading of level 1. A line that consists of 1 to 6 characters `#`
only is not a heading: `parseAtxHeading` rejects it, and without Setext
lookahead it ends in `Paragraph` with no token. -/
theorem atx_heading :
    (∀ (p : MarkdownParser) (text : QString) (c previousState nextState : MarkdownState)
      (k : Nat),
      previousState ∈ [Unknown, ParagraphBreak, Paragraph] →
      poundRun (dummyOutEscapeCharacters text) = k → 1 ≤ k → min k 6 < text.length →
      ∃ (r : MarkdownParser) (rest : List Token),
        parseLine p text c previousState nextState = some r
        ∧ r.tokens = p.tokens ++ (⟨atxHeadingToken (min k 6), 0, (text.length : Int),
            ((min k 6 : Nat) : Int),
            ((min (trailingPoundRun (dummyOutEscapeCharacters text))
              (text.length - (min k 6 + 1)) : Nat) : Int)⟩ : Token) :: rest
        ∧ (r.state = atxHeadingState (min k 6) ∨ r.state = Comment)
        ∧ (r.state = Comment ↔
            ∃ q, parseInline (fresh previousState) text = some q ∧ q.state = Comment)
        ∧ (qc '<' ∉ text → r.state = atxHeadingState (min k 6)))
    ∧ (∀ (p : MarkdownParser) (c previousState nextState : MarkdownState),
      previousState ∈ [Unknown, ParagraphBreak, Paragraph] →
      ∃ (r : MarkdownParser) (rest : List Token),
        parseLine p (qs "#foo") c previousState nextState = some r
        ∧ r.state = AtxHeading1
        ∧ r.tokens = p.tokens ++ (⟨TokenAtxHeading1, 0, 4, 1, 0⟩ : Token) :: rest)
    ∧ (∀ (p : MarkdownParser) (c previousState nextState : MarkdownState) (k : Nat),
      1 ≤ k → k ≤ 6 → previousState ∈ [Unknown, ParagraphBreak, Paragraph] →
      nextState ∉ [SetextHeading1Line2, SetextHeading2Line2] →
      parseAtxHeading p (List.replicate k (qc '#')) = (false, p)
      ∧ ∃ r, parseLine p (List.replicate k (qc '#')) c previousState nextState = some r
        ∧ r.state = Paragraph ∧ r.tokens = p.tokens) := by
  have general : ∀ (p : MarkdownParser) (text : QString)
      (c previousState nextState : MarkdownState) (k : Nat),
      previousState ∈ [Unknown, ParagraphBreak, Paragraph] →
      poundRun (dummyOutEscapeCharacters text) = k → 1 ≤ k → min k 6 < text.length →
      ∃ (r : MarkdownParser) (rest : List Token),
        parseLine p text c previousState nextState = some r
        ∧ r.tokens = p.tokens ++ (⟨atxHeadingToken (min k 6), 0, (text.length : Int),
            ((min k 6 : Nat) : Int),
            ((min (trailingPoundRun (dummyOutEscapeCharacters text))
              (text.length - (min k 6 + 1)) : Nat) : Int)⟩ : Token) :: rest
        ∧ (r.state = atxHeadingState (min k 6) ∨ r.state = Comment)
        ∧ (r.state = Comment ↔
            ∃ q, parseInline (fresh previousState) text = some q ∧ q.state = Comment)
        ∧ (qc '<' ∉ text → r.state = atxHeadingState (min k 6)) := by
    intro p text c previousState nextState k hprev hk hk1 hlen
    obtain ⟨tail, htext⟩ := pound_head (by rw [hk]; exact hk1)
    have hprev2 : previousState = Unknown ∨ previousState = ParagraphBreak
        ∨ previousState = Paragraph := by simpa using hprev
    have hlevel : atxLevel (dummyOutEscapeCharacters text) = min k 6 := by
      rw [atxLevel_eq, hk]
    have hlen2 : text.length = (dummyOutEscapeCharacters text).length :=
      (length_dummyOutEscapeCharacters text).symm
    obtain ⟨e, hes, hlt, hrun⟩ := parseInline_comment previousState text
    rw [parseLine_unfold]
    have hP : (enter p c previousState nextState).previousState = previousState := rfl
    have hPt : (enter p c previousState nextState).tokens = p.tokens := rfl
    generalize enter p c previousState nextState = P at hP hPt ⊢
    have hb1 : parseBlockOnly P text = (false, P) := by
      rw [htext]
      exact pound_parseBlockOnly P tail (by rw [hP]; exact hprev2)
    have hnb : paragraphBreakRegex.exactMatch text = false := by
      rw [htext]
      exact pound_not_blank tail
    have hpos : 0 < min k 6 := by omega
    have hb2 : parseBlockWithInline P text
        = (true, (P.addToken ⟨atxHeadingToken (min k 6), 0, (text.length : Int),
            ((min k 6 : Nat) : Int),
            ((min (trailingPoundRun (dummyOutEscapeCharacters text))
              (text.length - (min k 6 + 1)) : Nat) : Int)⟩).setState
            (atxHeadingState (min k 6))) := by
      simp only [parseBlockWithInline, orElse, parseAtxHeading, hlevel, atxTrailing_eq, hlen2]
      rw [← hlen2]
      simp [hpos, hlen]
    rw [if_neg (by simp [hnb]), hb1]
    simp only [Bool.false_eq_true, if_false, hb2, if_true]
    rw [hrun _ (by simpa [addToken, setState] using hP)]
    simp only [Option.map_some']
    have hfresh := hrun (fresh previousState) rfl
    have hnc : previousState ≠ Comment := by
      rcases hprev2 with h | h | h <;> rw [h] <;> decide
    have hac : atxHeadingState (min k 6) ≠ Comment := by
      unfold atxHeadingState
      split <;> simp
    refine ⟨_, e.toks, rfl, ?_, ?_, ?_, ?_⟩
    · rw [setextBacktrackCheck_tokens]
      simp [addToken, setState, hPt]
    · rw [setextBacktrackCheck_state]
      rcases hes with h | h <;> simp [h, addToken, setState]
    · rw [setextBacktrackCheck_state, hfresh]
      rcases hes with h | h
      · simp [h, addToken, setState, fresh, hnc, hac]
      · simp [h]
    · intro hlt2
      rw [setextBacktrackCheck_state]
      rcases hes with h | h
      · simp [h, addToken, setState]
      · exact absurd (hlt h) hlt2
  refine ⟨general, ?_, ?_⟩
  · intro p c previousState nextState hprev
    obtain ⟨r, rest, h, ht, _, _, hs⟩ :=
      general p (qs "#foo") c previousState nextState 1 hprev (by decide) (by decide)
        (by decide)
    exact ⟨r, rest, h, hs (by decide), ht⟩
  · intro p c previousState nextState k hk1 hk6 hprev hnext
    have hk : k ∈ [1, 2, 3, 4, 5, 6] := by
      simp only [List.mem_cons, List.mem_singleton, List.not_mem_nil, or_false]
      omega
    constructor
    · have hl : atxLevel (dummyOutEscapeCharacters (List.replicate k (qc '#'))) = k := by
        simp only [List.mem_cons, List.mem_singleton, List.not_mem_nil, or_false] at hk
        rcases hk with h | h | h | h | h | h <;> rw [h] <;> decide
      simp [parseAtxHeading, hl]
    · obtain ⟨r, h, hs, ht, _⟩ :=
        parseLine_of_fresh (only_pounds_eval k hk previousState hprev nextState
          (mem_noLookahead hnext)) p c
      exact ⟨r, h, hs, by simpa using ht⟩

/-- C14 at the line `## Title ##` after a paragraph break: a heading of level 2
whose closing markup has length 2. -/
theorem atx_heading_witness :
    ∃ (r : MarkdownParser) (rest : List Token),
      parseLine (fresh Unknown) (qs "## Title ##") Unknown ParagraphBreak Unknown = some r
      ∧ r.tokens = (fresh Unknown).tokens ++ (⟨TokenAtxHeading2, 0, 11, 2, 2⟩ : Token) :: rest
      ∧ r.state = AtxHeading2 := by
  obtain ⟨r, rest, h, ht, _, _, hs⟩ :=
    atx_heading.1 (fresh Unknown) (qs "## Title ##") Unknown ParagraphBreak Unknown 2
      (by decide) (by decide) (by decide) (by decide)
  exact ⟨r, rest, h, ht, hs (by decide)⟩

/-- C14 fails as stated at the line `# <!--`: its sanitized text starts with a
run of one `#`, the level 1 is less than the length 6, it is parsed after a
paragraph break, and the resulting state is `Comment`, not `AtxHeading1`. -/
theorem atx_heading_state_counterexample :
    poundRun (dummyOutEscapeCharacters (qs "# <!--")) = 1
    ∧ (parseLine (fresh Unknown) (qs "# <!--") Unknown ParagraphBreak Unknown).map view
        = some (Comment, [⟨TokenAtxHeading1, 0, 6, 1, 0⟩, ⟨TokenHtmlComment, 2, 4, 0, 0⟩], false)
    ∧ Comment ≠ AtxHeading1 := by
  decide!
/-- C15, as amended. Code-span delimiters. Let `w` be the working text from which
the code-span search of `parseInline` starts: the line with the escaped
characters and the matches of the earlier searches (comments, images, inline
links, automatic links) replaced by the dummy character, as computed by
`inlineBeforeVerbatim`; it has the length of the line and differs from the
line only where it holds the dummy character. Then each `TokenVerbatim` token
that `parseInline` emits lies within the line, starts and ends at a backtick of
the line, and its span in `w` has one of the two shapes of the code-span
pattern: one backtick, one or more characters other than a backtick, one
backtick; or two or more backticks, one or more characters, two or more
backticks. So the closing run is at least as long as the opening run or at
least two backticks long; the lengths are not compared beyond that. The same
holds for the tokens that `parseLine` emits, for every previous and next
state. -/
theorem code_span_delimiters (p : MarkdownParser) (text : QString)
    (c previousState nextState : MarkdownState) :
    (∃ (r q : MarkdownParser) (w : QString) (new : List Token),
      parseInline p text = some r ∧ r.tokens = p.tokens ++ new
      ∧ inlineBeforeVerbatim p text = some (q, w)
      ∧ w.length = text.length ∧ Masked text w
      ∧ ∀ t ∈ new, t.type = TokenVerbatim →
        ∃ i l : Nat, t.position = (i : Int) ∧ t.length = (l : Int) ∧ i + l ≤ text.length
          ∧ isCodeSpan ((w.drop i).take l)
          ∧ min (leadingRun 96 ((w.drop i).take l)) 2 ≤ trailingRun 96 ((w.drop i).take l)
          ∧ text[i]? = some 96 ∧ text[i + l - 1]? = some 96)
    ∧ (∃ (r q : MarkdownParser) (w : QString) (new : List Token),
      parseLine p text c previousState nextState = some r ∧ r.tokens = p.tokens ++ new
      ∧ inlineBeforeVerbatim (enter p c previousState nextState) text = some (q, w)
      ∧ w.length = text.length ∧ Masked text w
      ∧ ∀ t ∈ new, t.type = TokenVerbatim →
        ∃ i l : Nat, t.position = (i : Int) ∧ t.length = (l : Int) ∧ i + l ≤ text.length
          ∧ isCodeSpan ((w.drop i).take l)
          ∧ min (leadingRun 96 ((w.drop i).take l)) 2 ≤ trailingRun 96 ((w.drop i).take l)
          ∧ text[i]? = some 96 ∧ text[i + l - 1]? = some 96) := by
  constructor
  · obtain ⟨e0, e, w, hlw, hmask, hpre, htoks, hrun⟩ :=
      parseInline_code_spans p.previousState text
    refine ⟨e.apply p, e0.apply p, w, e.toks, hrun p rfl, rfl, hpre p rfl, hlw, hmask, ?_⟩
    intro t ht hty
    obtain ⟨i, l, hp, hl, hb, hshape, h0, h1⟩ := htoks t ht hty
    exact ⟨i, l, hp, hl, hb, hshape, isCodeSpan_runs hshape, h0, h1⟩
  · obtain ⟨e0, e, w, hlw, hmask, hpre, htoks, hrun⟩ :=
      parseInline_code_spans previousState text
    obtain ⟨b, e1, e3, s1, _, ht1, _, _, _, _, h3, hline⟩ :=
      parseLine_decompose text previousState nextState (fun _ => True) (fun _ => True)
        trivial (fun _ _ _ => trivial) (fun _ _ _ _ => trivial) (fun _ => trivial)
        (fun _ _ _ => trivial) (fun _ _ _ _ _ _ _ _ => trivial)
    have heq : e3.toks = e.toks := by
      have h1 := h3 (fresh previousState) rfl
      rw [hrun (fresh previousState) rfl] at h1
      have h2 := congrArg MarkdownParser.tokens (Option.some.inj h1)
      simpa [fresh] using h2.symm
    refine ⟨_, e0.apply (enter p c previousState nextState), w,
      (if b = true then e1.andThen e3 else e1).toks, hline p c, ?_, hpre _ rfl, hlw, hmask, ?_⟩
    · rw [setextBacktrackCheck_tokens]
      rfl
    · intro t ht hty
      have hblk : ∀ t ∈ e1.toks, t.type ≠ TokenVerbatim := by
        intro t ht hty
        have hbt := ht1 t ht
        cases hbt with
        | atxHeading =>
          revert hty
          simp only [atxHeadingToken]
          split <;> simp
        | _ => simp [lineToken] at hty
      have hin : t ∈ e.toks := by
        rw [← heq]
        cases b with
        | true =>
          simp only [if_true, Effect.andThen, List.mem_append] at ht
          rcases ht with ht | ht
          · exact absurd hty (hblk t ht)
          · exact ht
        | false => exact absurd hty (hblk t (by simpa using ht))
      obtain ⟨i, l, hp, hl, hb, hshape, h0, h1⟩ := htoks t hin hty
      exact ⟨i, l, hp, hl, hb, hshape, isCodeSpan_runs hshape, h0, h1⟩

/-- C15 fails as stated at the line of three backticks, `a`, two backticks:
inline scanning emits one code-span token for the whole line, whose span
begins with a run of three backticks and ends with a run of two. After a list
line, `parseLine` gives the same token. -/
theorem code_span_counterexample :
    (parseInline (fresh Unknown) (qs "```a``")).map view
        = some (Unknown, [⟨TokenVerbatim, 0, 6, 0, 0⟩], false)
    ∧ (parseLine (fresh Unknown) (qs "```a``") Unknown ListLineBreak Unknown).map view
        = some (Paragraph, [⟨TokenVerbatim, 0, 6, 0, 0⟩], false)
    ∧ spanOf (qs "```a``") ⟨TokenVerbatim, 0, 6, 0, 0⟩ = qs "```a``"
    ∧ leadingRun 96 (spanOf (qs "```a``") ⟨TokenVerbatim, 0, 6, 0, 0⟩) = 3
    ∧ trailingRun 96 (spanOf (qs "```a``") ⟨TokenVerbatim, 0, 6, 0, 0⟩) = 2 := by
  refine ⟨?_, ?_, ?_, ?_, ?_⟩ <;> decide!

/-- C16. Setext line 1 fires only on lookahead: for every text, previous and
next state, `parseLine` returns; if it ends in `SetextHeading1Line1` then the
next state is `SetextHeading1Line2`, and if it ends in `SetextHeading2Line1`
then the next state is `SetextHeading2Line2`. Hence a line parsed with a next
state that is no Setext line-2 state (a former heading line whose underline
was removed) is never left tagged as a Setext heading line 1. -/
theorem setext_line1_only_on_lookahead (p : MarkdownParser) (text : QString)
    (c previousState nextState : MarkdownState) :
    ∃ r, parseLine p text c previousState nextState = some r
      ∧ (r.state = SetextHeading1Line1 → nextState = SetextHeading1Line2)
      ∧ (r.state = SetextHeading2Line1 → nextState = SetextHeading2Line2)
      ∧ (nextState ∉ [SetextHeading1Line2, SetextHeading2Line2] →
          r.state ≠ SetextHeading1Line1 ∧ r.state ≠ SetextHeading2Line1) := by
  suffices hmain : ∃ r, parseLine p text c previousState nextState = some r
      ∧ (r.state = SetextHeading1Line1 → nextState = SetextHeading1Line2)
      ∧ (r.state = SetextHeading2Line1 → nextState = SetextHeading2Line2) by
    obtain ⟨r, h, h1, h2⟩ := hmain
    refine ⟨r, h, h1, h2, fun hn => ⟨fun hs => hn ?_, fun hs => hn ?_⟩⟩
    · simp [h1 hs]
    · simp [h2 hs]
  rw [parseLine_unfold]
  have hPn : (enter p c previousState nextState).nextState = nextState := rfl
  generalize enter p c previousState nextState = P at hPn ⊢
  by_cases hblank : previousState ≠ CodeBlock ∧ previousState ≠ InGithubCodeFence
      ∧ previousState ≠ InPandocCodeFence ∧ previousState ≠ Comment
      ∧ paragraphBreakRegex.exactMatch text = true
  · rw [if_pos hblank]
    by_cases hlist : previousState = ListLineBreak ∨ previousState = NumberedList
        ∨ previousState = BulletPointList
    · rw [if_pos hlist]
      exact ⟨_, rfl, by simp [setextBacktrackCheck_state, setState],
        by simp [setextBacktrackCheck_state, setState]⟩
    · rw [if_neg hlist, if_pos (Or.inl hblank.1)]
      exact ⟨_, rfl, by simp [setextBacktrackCheck_state, setState],
        by simp [setextBacktrackCheck_state, setState]⟩
  · rw [if_neg hblank]
    obtain ⟨b1, e1, hp1, _, hs1, _⟩ := parseBlockOnly_uniform text P P rfl
    dsimp only at hp1
    rw [hp1]
    cases b1 with
    | true =>
      obtain ⟨s1, hm1, hst1⟩ := hs1 rfl
      refine ⟨_, by simp only [if_true, Option.map_some']; rfl, ?_, ?_⟩ <;>
      · rw [setextBacktrackCheck_state]
        simp only [Effect.apply_state, hst1, Option.getD_some]
        revert hm1
        cases s1 <;> simp
    | false =>
      simp only [Bool.false_eq_true, if_false]
      obtain ⟨e3, hs3, _, _, h3⟩ := parseInline_effect (e1.apply P).previousState text
      have hXn : (e1.apply P).nextState = nextState := by simp [hPn]
      generalize e1.apply P = X at h3 hXn ⊢
      by_cases hb2 : (parseBlockWithInline X text).1 = true
      · obtain ⟨l1, l2⟩ := parseBlockWithInline_line1 X text hb2
        obtain ⟨b2, e2, hp2, _, _, _⟩ := parseBlockWithInline_uniform text X X ⟨rfl, rfl⟩
        dsimp only at hp2
        rw [if_pos hb2]
        rw [hp2] at l1 l2 ⊢
        rw [h3 (e2.apply X) rfl]
        refine ⟨_, rfl, ?_, ?_⟩
        · rw [setextBacktrackCheck_state]
          intro h
          rw [← hXn]
          apply l1
          rcases hs3 with h0 | h0
          · simpa [Effect.apply, h0] using h
          · simp [Effect.apply, h0] at h
        · rw [setextBacktrackCheck_state]
          intro h
          rw [← hXn]
          apply l2
          rcases hs3 with h0 | h0
          · simpa [Effect.apply, h0] using h
          · simp [Effect.apply, h0] at h
      · rw [if_neg hb2]
        obtain ⟨b2, e2, hp2, _, _, _⟩ := parseBlockWithInline_uniform text X X ⟨rfl, rfl⟩
        dsimp only at hp2
        rw [hp2]
        obtain ⟨e4, s4, hs4, hm4, h4, _⟩ := parseFallback_uniform text (e2.apply X) (e2.apply X) rfl
        rw [h4, h3 (e4.apply (e2.apply X)) rfl]
        refine ⟨_, rfl, ?_, ?_⟩ <;>
        · rw [setextBacktrackCheck_state]
          rcases hs3 with h0 | h0
          · simp only [Effect.apply_state, h0, hs4, Option.getD_some, Option.getD_none]
            revert hm4
            cases s4 <;> simp
          · simp [Effect.apply, h0]

/-- C17. Bullet lists start only from allowed states: for every text, previous
and next state `parseLine` returns, and if it ends in the state
`BulletPointList` or emits a `TokenBulletPointList` token, then the previous
state is one of `Unknown`, `ParagraphBreak`, `ListLineBreak`, `NumberedList`,
`BulletPointList`. In particular the line `- item` directly after a
`Paragraph` line is not a bullet list: it ends in `Paragraph` with no token. -/
theorem bullet_list_only_from_allowed (p : MarkdownParser) (text : QString)
    (c previousState nextState : MarkdownState) :
    (∃ (r : MarkdownParser) (new : List Token),
      parseLine p text c previousState nextState = some r ∧ r.tokens = p.tokens ++ new
      ∧ ((r.state = BulletPointList ∨ ∃ t ∈ new, t.type = TokenBulletPointList) →
          previousState ∈
            [Unknown, ParagraphBreak, ListLineBreak, NumberedList, BulletPointList]))
    ∧ (∃ r, parseLine p (qs "- item") c Paragraph Unknown = some r
      ∧ r.state = Paragraph ∧ r.tokens = p.tokens) := by
  constructor
  · obtain ⟨b, e1, e3, s1, hs1, ht1, hs3, _, ht3, hblk, _, hline⟩ :=
      parseLine_decompose text previousState nextState (fun _ => True) (fun _ => True)
        trivial (fun _ _ _ => trivial) (fun _ _ _ _ => trivial) (fun _ => trivial)
        (fun _ _ _ => trivial) (fun _ _ _ _ _ _ _ _ => trivial)
    have hstate : s1 = BulletPointList → previousState ∈
        [Unknown, ParagraphBreak, ListLineBreak, NumberedList, BulletPointList] := by
      intro h
      have h0 := hblk (enter (fresh Unknown) Unknown previousState nextState) rfl rfl
      have := blockPhase_bullet (enter (fresh Unknown) Unknown previousState nextState) text
        (by simp [enter, fresh]) (by rw [h0]; simp [hs1, h])
      simpa [enter] using this
    have htok : ∀ t ∈ e1.toks, t.type = TokenBulletPointList → previousState ∈
        [Unknown, ParagraphBreak, ListLineBreak, NumberedList, BulletPointList] := by
      intro t ht hty
      have hbt := ht1 t ht
      cases hbt with
      | bulletPointList b _ _ hprev =>
        revert hprev
        cases previousState <;> simp
      | atxHeading =>
        exfalso
        revert hty
        simp only [atxHeadingToken]
        split <;> simp
      | _ => simp [lineToken] at hty
    refine ⟨_, (if b = true then e1.andThen e3 else e1).toks, hline p c, ?_, ?_⟩
    · rw [setextBacktrackCheck_tokens]
      rfl
    · rw [setextBacktrackCheck_state]
      rintro (h | ⟨t, ht, hty⟩)
      · apply hstate
        cases b with
        | true =>
          rcases hs3 with h3 | h3
          · simpa [Effect.apply, Effect.andThen, h3, hs1] using h
          · simp [Effect.apply, Effect.andThen, h3] at h
        | false => simpa [Effect.apply, hs1] using h
      · cases b with
        | true =>
          simp only [if_true, Effect.andThen, List.mem_append] at ht
          rcases ht with ht | ht
          · exact htok t ht hty
          · have := (ht3 t ht).1
            rw [hty] at this
            simp [inlineTokenTypes] at this
        | false => exact htok t (by simpa using ht) hty
  · obtain ⟨r, h, hs, ht, _⟩ := parseLine_of_fresh
      (show (parseLine (fresh Unknown) (qs "- item") Unknown Paragraph Unknown).map view
        = some (Paragraph, [], false) by decide!) p c
    exact ⟨r, h, hs, by simpa using ht⟩

/-- C18. Bullet marker extraction: whenever `parseBulletPointList` accepts a
line, it sets the state `BulletPointList` and emits one token, of type
`TokenBulletPointList`, at position 0, with the length of the line and with
opening markup length `b + 1`, where `b` is the index of the bullet character:
the character at `b` is `+`, `-` or `*`, the character at `b + 1` exists and is
a space or a tab, and every character before `b` is a space, a tab or another
bullet character. -/
theorem bullet_marker (p r : MarkdownParser) (text : QString)
    (h : parseBulletPointList p text = (true, r)) :
    ∃ b : Nat,
      r = (p.addToken ⟨TokenBulletPointList, 0, (text.length : Int), (b : Int) + 1, 0⟩).setState
            BulletPointList
      ∧ (∃ x, text[b]? = some x ∧ isBulletChar x)
      ∧ (∃ x, text[b + 1]? = some x ∧ (x = qc ' ' ∨ x = qc '\t'))
      ∧ ∀ j < b, ∀ x, text[j]? = some x → x = qc ' ' ∨ x = qc '\t' ∨ isBulletChar x := by
  unfold parseBulletPointList at h
  split at h
  · simp at h
  · split at h
    · simp at h
    · rename_i bidx ws hscan
      split at h
      · rename_i hacc
        rw [hacc.2] at hscan
        rcases bulletScan_accept _ _ _ _ _ _ _ hscan with ⟨hf, _⟩ | ⟨k, hb, hk, hk1, hall⟩
        · simp at hf
        · simp only [Nat.zero_add] at hb
          simp only [Prod.mk.injEq, true_and] at h
          exact ⟨k, by rw [← h, hb], hk, hk1, hall⟩
      · simp at h

/-- C18 at the line `- item` after a paragraph break: the line is accepted, the
bullet character is at index 0 and the opening markup length is 1. -/
theorem bullet_marker_witness :
    parseBulletPointList (fresh ParagraphBreak) (qs "- item")
      = (true, ((fresh ParagraphBreak).addToken ⟨TokenBulletPointList, 0, 6, 1, 0⟩).setState
          BulletPointList)
    ∧ ∃ b : Nat,
      ((((fresh ParagraphBreak).addToken ⟨TokenBulletPointList, 0, 6, 1, 0⟩).setState
          BulletPointList)
        = ((fresh ParagraphBreak).addToken
            ⟨TokenBulletPointList, 0, ((qs "- item").length : Int), (b : Int) + 1, 0⟩).setState
              BulletPointList)
      ∧ (∃ x, (qs "- item")[b]? = some x ∧ isBulletChar x)
      ∧ (∃ x, (qs "- item")[b + 1]? = some x ∧ (x = qc ' ' ∨ x = qc '\t'))
      ∧ ∀ j < b, ∀ x, (qs "- item")[j]? = some x → x = qc ' ' ∨ x = qc '\t' ∨ isBulletChar x :=
  ⟨by decide, bullet_marker (fresh ParagraphBreak)
    (((fresh ParagraphBreak).addToken ⟨TokenBulletPointList, 0, 6, 1, 0⟩).setState
      BulletPointList) (qs "- item") (by decide)⟩
/-- C19, as amended. List continuation, for a line parsed with previous state
`ListLineBreak`, `NumberedList` or `BulletPointList` and a next state that is
no Setext line 2, when the line is not blank and no horizontal rule (three or
more of one of `*`, `-`, `_` with white space around them). `parseLine`
returns, and the state is `Comment` exactly when inline scanning of the line
ends in the state `Comment` (an HTML comment is opened and not closed on the
line), which needs the character `<`. Apart from that exception:
a line that is no ATX heading line, no blockquote line, no numbered item and no
bullet item keeps the previous state if it starts with a tab or four spaces,
and ends in `Paragraph` otherwise; a numbered item (`^\s*[0-9]+[.)]\s+.*$`)
after `ListLineBreak` or `NumberedList` ends in `NumberedList`; a bullet item
ends in `BulletPointList`. After `BulletPointList` the numbered-list rule does
not apply, and a numbered item is treated like a line that is no list item. -/
theorem list_continuation (p : MarkdownParser) (text : QString)
    (c previousState nextState : MarkdownState)
    (hprev : previousState ∈ [ListLineBreak, NumberedList, BulletPointList])
    (hnext : nextState ∉ [SetextHeading1Line2, SetextHeading2Line2])
    (hblank : ¬ isBlank text)
    (hrule : ¬ ∃ ch, isRuleMark ch ∧ isRuleLine ch text) :
    ∃ r, parseLine p text c previousState nextState = some r
      ∧ (r.state = Comment ↔
          ∃ q, parseInline (fresh previousState) text = some q ∧ q.state = Comment)
      ∧ (qc '<' ∉ text → r.state ≠ Comment)
      ∧ (¬ isAtxLine text → ¬ isBlockquoteLine text → ¬ isNestedNumberedItem text →
          ¬ isBulletItem text →
          (startsWith text (qs "\t") = true ∨ startsWith text (qs "    ") = true →
            r.state = previousState ∨ r.state = Comment)
          ∧ (¬ (startsWith text (qs "\t") = true ∨ startsWith text (qs "    ") = true) →
            r.state = Paragraph ∨ r.state = Comment))
      ∧ (isNestedNumberedItem text → previousState ≠ BulletPointList →
          r.state = NumberedList ∨ r.state = Comment)
      ∧ (isBulletItem text → r.state = BulletPointList ∨ r.state = Comment)
      ∧ (isNestedNumberedItem text → previousState = BulletPointList →
          (startsWith text (qs "\t") = true ∨ startsWith text (qs "    ") = true →
            r.state = BulletPointList ∨ r.state = Comment)
          ∧ (¬ (startsWith text (qs "\t") = true ∨ startsWith text (qs "    ") = true) →
            r.state = Paragraph ∨ r.state = Comment)) := by
  have hprev2 : previousState = ListLineBreak ∨ previousState = NumberedList
      ∨ previousState = BulletPointList := by simpa using hprev
  have hhr : hruleRegex.exactMatch text = false := by
    cases hm : hruleRegex.exactMatch text
    · rfl
    · exact absurd (hrule_iff.mp hm) hrule
  have hfirst : (parseBlockOnly (enter p c previousState nextState) text).1 = false := by
    rw [list_blockOnly_hrule _ text hprev2]
    simp [parseHorizontalRule, hhr]
  obtain ⟨r, hr, h1, h2, hfb, hlist⟩ :=
    list_rules_aux p text c previousState nextState hprev hblank hfirst
  have hquote : ∀ h : ¬ isBlockquoteLine text,
      (parseBlockquote (enter p c previousState nextState) text).1 = false := by
    intro h
    have hq : blockquoteRegex.exactMatch text = false := by
      cases hm : blockquoteRegex.exactMatch text
      · rfl
      · exact absurd (blockquote_iff.mp hm) h
    rcases hprev2 with h0 | h0 | h0 <;> simp [parseBlockquote, enter, h0, hq]
  have hatx : ∀ h : ¬ isAtxLine text,
      (parseAtxHeading (enter p c previousState nextState) text).1 = false := by
    intro h
    rw [not_atx_parse h]
  refine ⟨r, hr, h1, h2, ?_, ?_, ?_, ?_⟩
  · intro ha hq hn hb
    exact hfb (list_blockWithInline_false _ text hprev2 hnext ha hq (Or.inl hn) hb)
  · intro hitem hnb
    have hp : previousState = ListLineBreak ∨ previousState = NumberedList := by
      rcases hprev2 with h | h | h
      · exact Or.inl h
      · exact Or.inr h
      · exact absurd h hnb
    exact (hlist (hatx (nested_not_atx hitem)) hnext (hquote (nested_not_blockquote hitem))).1
      (nested_parseNumberedList hitem _ hp)
  · intro hitem
    have hnum : (parseNumberedList (enter p c previousState nextState) text).1 = false := by
      have hre : numberedNestedListRegex.exactMatch text = false := by
        cases hm : numberedNestedListRegex.exactMatch text
        · rfl
        · exact absurd hitem (nested_not_bullet (numberedNested_iff.mp hm))
      rcases hprev2 with h0 | h0 | h0 <;> simp [parseNumberedList, enter, h0, hre]
    exact (hlist (hatx (bullet_not_atx hitem)) hnext (hquote (bullet_not_blockquote hitem))).2
      hnum ((bullet_iff _ hprev2).mpr hitem)
  · intro hitem hbp
    exact hfb (list_blockWithInline_false _ text hprev2 hnext (nested_not_atx hitem)
      (nested_not_blockquote hitem) (Or.inr hbp) (nested_not_bullet hitem)) |>.imp
        (fun h => by rw [← hbp]; exact h) id

/-- C19 after a numbered item: the indented line `\tmore` keeps the state
`NumberedList`, the line `more` ends in `Paragraph`, the numbered item `2. two`
ends in `NumberedList` and the bullet item `- b` in `BulletPointList`. -/
theorem list_continuation_witness :
    (∃ r, parseLine (fresh Unknown) (qs "\tmore") Unknown NumberedList Unknown = some r
      ∧ r.state = NumberedList)
    ∧ (∃ r, parseLine (fresh Unknown) (qs "more") Unknown NumberedList Unknown = some r
      ∧ r.state = Paragraph)
    ∧ (∃ r, parseLine (fresh Unknown) (qs "2. two") Unknown NumberedList Unknown = some r
      ∧ r.state = NumberedList)
    ∧ (∃ r, parseLine (fresh Unknown) (qs "- b") Unknown NumberedList Unknown = some r
      ∧ r.state = BulletPointList) := by
  have hP : (fresh NumberedList).previousState = ListLineBreak
      ∨ (fresh NumberedList).previousState = NumberedList
      ∨ (fresh NumberedList).previousState = BulletPointList := Or.inr (Or.inl rfl)
  refine ⟨?_, ?_, ?_, ?_⟩
  · obtain ⟨r, h, _, hlt, hfb, _⟩ :=
      list_continuation (fresh Unknown) (qs "\tmore") Unknown NumberedList Unknown (by decide)
        (by decide) (by unfold isBlank; decide)
        (fun h => absurd (hrule_iff.mpr h) (by decide))
    refine ⟨r, h, ?_⟩
    rcases (hfb
        (fun h => absurd (isAtxLine_head h) (by decide))
        (fun h => absurd (blockquote_iff.mpr h) (by decide))
        (fun h => absurd (numberedNested_iff.mpr h) (by decide))
        (fun h => absurd ((bullet_iff (fresh NumberedList) hP).mpr h) (by decide))).1
        (by decide) with hs | hs
    · exact hs
    · exact absurd hs (hlt (by decide))
  · obtain ⟨r, h, _, hlt, hfb, _⟩ :=
      list_continuation (fresh Unknown) (qs "more") Unknown NumberedList Unknown (by decide)
        (by decide) (by unfold isBlank; decide)
        (fun h => absurd (hrule_iff.mpr h) (by decide))
    refine ⟨r, h, ?_⟩
    rcases (hfb
        (fun h => absurd (isAtxLine_head h) (by decide))
        (fun h => absurd (blockquote_iff.mpr h) (by decide))
        (fun h => absurd (numberedNested_iff.mpr h) (by decide))
        (fun h => absurd ((bullet_iff (fresh NumberedList) hP).mpr h) (by decide))).2
        (by decide) with hs | hs
    · exact hs
    · exact absurd hs (hlt (by decide))
  · obtain ⟨r, h, _, hlt, _, hnum, _, _⟩ :=
      list_continuation (fresh Unknown) (qs "2. two") Unknown NumberedList Unknown (by decide)
        (by decide) (by unfold isBlank; decide)
        (fun h => absurd (hrule_iff.mpr h) (by decide))
    refine ⟨r, h, ?_⟩
    rcases hnum (numberedNested_iff.mp (by decide)) (by decide) with hs | hs
    · exact hs
    · exact absurd hs (hlt (by decide))
  · obtain ⟨r, h, _, hlt, _, _, hbul, _⟩ :=
      list_continuation (fresh Unknown) (qs "- b") Unknown NumberedList Unknown (by decide)
        (by decide) (by unfold isBlank; decide)
        (fun h => absurd (hrule_iff.mpr h) (by decide))
    refine ⟨r, h, ?_⟩
    rcases hbul ((bullet_iff (fresh NumberedList) hP).mp (by decide)) with hs | hs
    · exact hs
    · exact absurd hs (hlt (by decide))

/-- C19 fails as stated at the line `x <!--` after a numbered item: the line is
not blank, no rule claims it, it does not start with a tab or four spaces, and
the resulting state is `Comment`, not `Paragraph`. And a list item does not
always continue the list: after a bullet item the bullet item `- - -` is a
horizontal rule, the bullet item `- a` with a Setext underline as next line is
a Setext heading, and the numbered item `1. x` ends in `Paragraph`. -/
theorem list_continuation_counterexample :
    paragraphBreakRegex.exactMatch (qs "x <!--") = false
    ∧ (parseBlockOnly (enter (fresh Unknown) Unknown NumberedList Unknown) (qs "x <!--")).1 = false
    ∧ (parseBlockWithInline (enter (fresh Unknown) Unknown NumberedList Unknown)
        (qs "x <!--")).1 = false
    ∧ startsWith (qs "x <!--") (qs "\t") = false
    ∧ startsWith (qs "x <!--") (qs "    ") = false
    ∧ (parseLine (fresh Unknown) (qs "x <!--") Unknown NumberedList Unknown).map view
        = some (Comment, [⟨TokenHtmlComment, 2, 4, 0, 0⟩], false)
    ∧ Comment ≠ Paragraph
    ∧ (parseLine (fresh Unknown) (qs "- - -") Unknown BulletPointList Unknown).map view
        = some (HorizontalRule, [⟨TokenHorizontalRule, 0, 5, 0, 0⟩], false)
    ∧ (parseLine (fresh Unknown) (qs "- a") Unknown BulletPointList SetextHeading1Line2).map
          view
        = some (SetextHeading1Line1, [⟨TokenSetextHeading1Line1, 0, 3, 0, 0⟩], false)
    ∧ (parseLine (fresh Unknown) (qs "1. x") Unknown BulletPointList Unknown).map view
        = some (Paragraph, [], false) := by
  refine ⟨?_, ?_, ?_, ?_, ?_, ?_, ?_, ?_, ?_, ?_⟩ <;> decide!

/-- C21. Horizontal rule: with previous state `Unknown` or `ParagraphBreak`, a
line that does not start with a tab or four spaces and consists of three or
more occurrences of one character among `*`, `-` and `_`, with optional white
space before, between and after them, ends in the state `HorizontalRule`, and
exactly one token is emitted, a `TokenHorizontalRule` token at position 0 with
the length of the line; no backtrack is requested. A line that holds two
different characters among `*`, `-` and `_` (such as `*-*`) is no horizontal
rule, whatever the previous and the next state: the state is not
`HorizontalRule` and no `TokenHorizontalRule` token is emitted. -/
theorem horizontal_rule (p : MarkdownParser) (text : QString)
    (c previousState nextState : MarkdownState) :
    ((previousState = Unknown ∨ previousState = ParagraphBreak) →
      (∃ ch, isRuleMark ch ∧ isRuleLine ch text) →
      startsWith text (qs "\t") = false → startsWith text (qs "    ") = false →
      ∃ r, parseLine p text c previousState nextState = some r
        ∧ r.state = HorizontalRule
        ∧ r.tokens = p.tokens ++ [⟨TokenHorizontalRule, 0, (text.length : Int), 0, 0⟩]
        ∧ r.backtrack = p.backtrack)
    ∧ ((∃ a b, isRuleMark a ∧ isRuleMark b ∧ a ≠ b ∧ a ∈ text ∧ b ∈ text) →
      hruleRegex.exactMatch text = false
      ∧ ∃ (r : MarkdownParser) (new : List Token),
        parseLine p text c previousState nextState = some r
        ∧ r.state ≠ HorizontalRule ∧ r.tokens = p.tokens ++ new
        ∧ ∀ t ∈ new, t.type ≠ TokenHorizontalRule) := by
  constructor
  · rintro hprev ⟨ch, hch, hline⟩ hi1 hi2
    have hm := ruleLine_exact hch hline
    have hnb := ruleLine_not_blank hch hline
    rw [parseLine_unfold, if_neg (fun h => by rw [hnb] at h; exact absurd h.2.2.2.2 (by decide)),
      hrule_parseBlockOnly _ text hprev hm hi1 hi2]
    refine ⟨_, rfl, ?_, ?_, ?_⟩
    · rw [setextBacktrackCheck_state]
      rfl
    · rw [setextBacktrackCheck_tokens]
      rfl
    · rcases hprev with h | h <;> subst h <;>
        simp [setextBacktrackCheck, enter, addToken, setState]
  · rintro ⟨a, b, ha, hb, hab, hat, hbt⟩
    have hm := mixed_not_hrule ha hb hab hat hbt
    refine ⟨hm, ?_⟩
    obtain ⟨r, hr, hst⟩ := not_hrule_state hm p c previousState nextState
    obtain ⟨bb, e1, e3, s1, _, ht1, _, _, ht3, _, _, hline⟩ :=
      parseLine_decompose text previousState nextState (fun _ => True) (fun _ => True)
        trivial (fun _ _ _ => trivial) (fun _ _ _ _ => trivial) (fun _ => trivial)
        (fun _ _ _ => trivial) (fun _ _ _ _ _ _ _ _ => trivial)
    have hr2 := hline p c
    rw [hr] at hr2
    have hreq := Option.some.inj hr2
    refine ⟨r, (if bb = true then e1.andThen e3 else e1).toks, hr, hst, ?_, ?_⟩
    · rw [hreq, setextBacktrackCheck_tokens]
      rfl
    · have hblk : ∀ t ∈ e1.toks, t.type ≠ TokenHorizontalRule := by
        intro t ht
        have hbt2 := ht1 t ht
        cases hbt2 with
        | horizontalRule h =>
          rw [hm] at h
          exact absurd h (by decide)
        | atxHeading =>
          simp only [atxHeadingToken]
          split <;> simp
        | _ => simp [lineToken]
      have hinl : ∀ t ∈ e3.toks, t.type ≠ TokenHorizontalRule := by
        intro t ht hty
        have := (ht3 t ht).1
        rw [hty] at this
        exact absurd this (by decide)
      intro t ht
      cases bb with
      | true =>
        simp only [if_true, Effect.andThen, List.mem_append] at ht
        rcases ht with ht | ht
        · exact hblk t ht
        · exact hinl t ht
      | false => exact hblk t (by simpa using ht)

/-- C21 at the lines `- - -` after a paragraph break and `*-*`. -/
theorem horizontal_rule_witness :
    (∃ r, parseLine (fresh Unknown) (qs "- - -") Unknown ParagraphBreak Unknown = some r
        ∧ r.state = HorizontalRule
        ∧ r.tokens = (fresh Unknown).tokens
            ++ [⟨TokenHorizontalRule, 0, ((qs "- - -").length : Int), 0, 0⟩]
        ∧ r.backtrack = (fresh Unknown).backtrack)
    ∧ (hruleRegex.exactMatch (qs "*-*") = false
      ∧ ∃ (r : MarkdownParser) (new : List Token),
        parseLine (fresh Unknown) (qs "*-*") Unknown Unknown Unknown = some r
        ∧ r.state ≠ HorizontalRule ∧ r.tokens = (fresh Unknown).tokens ++ new
        ∧ ∀ t ∈ new, t.type ≠ TokenHorizontalRule) :=
  ⟨(horizontal_rule (fresh Unknown) (qs "- - -") Unknown ParagraphBreak Unknown).1
      (Or.inr rfl)
      ⟨qc '-', Or.inr (Or.inl rfl), [], [qs " ", qs " ", []], by decide, by decide,
        by decide, by decide⟩
      (by decide) (by decide),
   (horizontal_rule (fresh Unknown) (qs "*-*") Unknown Unknown Unknown).2
      ⟨qc '*', qc '-', Or.inl rfl, Or.inr (Or.inl rfl), by decide, by decide, by decide⟩⟩
/-- C22, as amended. Escape sanitizing: for every text, `dummyOutEscapeCharacters`
returns a string of the same length in which position `i` holds the dummy
character `@` if the maximal run of backslashes ending at position `i - 1` has
odd length, and the character of the text otherwise. So position `i` holds `@`
exactly when that run is odd or the text itself has `@` there. In the text of
two backslashes and `*` the first backslash and the `*` are kept (the second
backslash is escaped), and a backslash at the end of the text changes nothing
before it and is kept unless it is escaped itself. -/
theorem escape_sanitizing (text : QString) :
    (dummyOutEscapeCharacters text).length = text.length
    ∧ (∀ i, (dummyOutEscapeCharacters text)[i]?
        = (text[i]?).map (fun c => if backslashRun text i % 2 = 1 then DUMMY_CHAR else c))
    ∧ (∀ i, (dummyOutEscapeCharacters text)[i]? = some DUMMY_CHAR
        ↔ i < text.length ∧ (backslashRun text i % 2 = 1 ∨ text[i]? = some DUMMY_CHAR))
    ∧ dummyOutEscapeCharacters (qs "\\\\*") = qs "\\@*"
    ∧ dummyOutEscapeCharacters (text ++ [qc '\\'])
        = dummyOutEscapeCharacters text
            ++ [if backslashRun text text.length % 2 = 1 then DUMMY_CHAR else qc '\\'] := by
  refine ⟨length_dummyOutEscapeCharacters text, dummyOut_at text, ?_, by decide,
    dummyOut_snoc text _⟩
  intro i
  rw [dummyOut_at]
  cases hc : text[i]? with
  | none =>
    have hi : ¬ i < text.length := by
      intro hlt
      rw [List.getElem?_eq_getElem hlt] at hc
      exact absurd hc (by simp)
    simp [hi]
  | some c =>
    have hi : i < text.length := by
      by_contra hn
      rw [List.getElem?_eq_none (by omega)] at hc
      exact absurd hc (by simp)
    simp only [Option.map_some', Option.some.injEq, hi, true_and]
    by_cases ho : backslashRun text i % 2 = 1
    · simp [ho]
    · simp [ho]

/-- C22 fails as stated at the text `@`: the sanitized text holds `@` at
position 0, and the run of backslashes before position 0 is empty, so its
length is even. -/
theorem escape_placeholder_counterexample :
    dummyOutEscapeCharacters (qs "@") = qs "@"
    ∧ (dummyOutEscapeCharacters (qs "@"))[0]? = some DUMMY_CHAR
    ∧ backslashRun (qs "@") 0 = 0 := by
  refine ⟨?_, ?_, ?_⟩ <;> decide
/-- C23. Backtrack requests: for every text, previous and next state there is a
flag `bt` (does `parseLine` request a backtrack on this line) such that, for
every parser object and current state, `parseLine` returns with the backtrack
flag raised exactly if it was raised before or `bt` holds. If `bt` holds then
the previous state is `Paragraph`, `SetextHeading1Line1` or
`SetextHeading2Line1`; and with previous state `Paragraph`, `bt` holds exactly
when the line matches `^===+\s*$` or `^---+\s*$`. -/
theorem backtrack_only_around_setext (text : QString)
    (previousState nextState : MarkdownState) :
    ∃ bt : Bool,
      (∀ (p : MarkdownParser) (c : MarkdownState),
        ∃ r, parseLine p text c previousState nextState = some r
          ∧ r.backtrack = (p.backtrack || bt))
      ∧ (bt = true → previousState = Paragraph ∨ previousState = SetextHeading1Line1
          ∨ previousState = SetextHeading2Line1)
      ∧ (previousState = Paragraph →
          (bt = true ↔ (isUnderline (qc '=') text ∨ isUnderline (qc '-') text))) := by
  obtain ⟨e, s, hs, h0, _⟩ :=
    parseLine_uniform text previousState nextState (fresh Unknown) (fresh Unknown) Unknown Unknown
  have hview : (parseLine (fresh Unknown) text Unknown previousState nextState).map view
      = some (s, e.toks, e.bt) := by
    rw [h0]
    simp [view, hs, enter, fresh]
  refine ⟨e.bt, fun p c => ?_, ?_, ?_⟩
  · obtain ⟨r, hr, _, _, hb⟩ := parseLine_of_fresh hview p c
    exact ⟨r, hr, hb⟩
  · intro hbt
    by_cases h1 : previousState = SetextHeading1Line1
    · exact Or.inr (Or.inl h1)
    by_cases h2 : previousState = SetextHeading2Line1
    · exact Or.inr (Or.inr h2)
    left
    obtain ⟨r, hr, hb⟩ := parseLine_backtrack (fresh Unknown) text Unknown previousState
      nextState h1 h2
    rw [h0] at hr
    rw [← Option.some.inj hr] at hb
    simp only [Effect.apply_backtrack, enter, fresh, Bool.false_or, hbt] at hb
    by_contra hne
    simp [hne] at hb
  · intro hp
    subst hp
    obtain ⟨r, hr, hb⟩ := parseLine_backtrack (fresh Unknown) text Unknown Paragraph
      nextState (by decide) (by decide)
    rw [h0] at hr
    rw [← Option.some.inj hr] at hb
    simp only [Effect.apply_backtrack, enter, fresh, Bool.false_or, decide_True,
      Bool.true_and] at hb
    rw [hb, Bool.or_eq_true, heading1Setext_iff, heading2Setext_iff]
/-- C24. Token bounds: for every text, parser object, current, previous and next
state, `parseLine` returns, and every token it emits satisfies
`0 ≤ position`, `0 ≤ length`, `position + length ≤` the length of the text,
`0 ≤` opening markup length, `0 ≤` closing markup length and opening markup
length `+` closing markup length `≤ length`; for a token of an ATX heading
type even opening `+` closing `≤ length - 1`. -/
theorem token_bounds (p : MarkdownParser) (text : QString)
    (c previousState nextState : MarkdownState) :
    ∃ (r : MarkdownParser) (new : List Token),
      parseLine p text c previousState nextState = some r ∧ r.tokens = p.tokens ++ new
      ∧ ∀ t ∈ new,
          0 ≤ t.position ∧ 0 ≤ t.length ∧ t.position + t.length ≤ (text.length : Int)
          ∧ 0 ≤ t.openingMarkupLength ∧ 0 ≤ t.closingMarkupLength
          ∧ t.openingMarkupLength + t.closingMarkupLength ≤ t.length
          ∧ (t.type ∈ atxTokenTypes →
              t.openingMarkupLength + t.closingMarkupLength ≤ t.length - 1) := by
  obtain ⟨b, e1, e3, s1, _, ht1, _, _, ht3, _, _, hline⟩ :=
    parseLine_decompose text previousState nextState (fun w => w.length = text.length)
      (Token.inBounds text.length)
      (length_dummyOutEscapeCharacters text)
      (fun w k h => by
        show (w.set k DUMMY_CHAR).length = text.length
        rw [List.length_set]
        exact h)
      (fun w lo hi h => by
        show (fillRange w lo hi DUMMY_CHAR).length = text.length
        rw [length_fillRange]
        exact h)
      (fun _ => by
        have hb := indexOfChar_bounds (dummyOutEscapeCharacters text) (qc ':')
        rw [length_dummyOutEscapeCharacters] at hb
        simp only [Token.inBounds, referenceDefinitionToken]
        omega)
      (fun w hw hi => by
        have hfit := indexOfStr_fits hi
        have h4 : ((qs "<!--").length : Int) = 4 := rfl
        simp only [Token.inBounds, openCommentToken]
        omega)
      (fun st hst w off i l hw hm => stage_inBounds text st hst w off i l hw hm)
  refine ⟨_, (if b = true then e1.andThen e3 else e1).toks, hline p c, ?_, ?_⟩
  · rw [setextBacktrackCheck_tokens]
    rfl
  · have hblk : ∀ t ∈ e1.toks, t.inBounds text.length
        ∧ (t.type ∈ atxTokenTypes →
            t.openingMarkupLength + t.closingMarkupLength ≤ t.length - 1) :=
      fun t ht => blockToken_inBounds (ht1 t ht)
    have hinl : ∀ t ∈ e3.toks, t.inBounds text.length
        ∧ (t.type ∈ atxTokenTypes →
            t.openingMarkupLength + t.closingMarkupLength ≤ t.length - 1) := by
      intro t ht
      obtain ⟨hty, hq⟩ := ht3 t ht
      refine ⟨hq, fun ha => ?_⟩
      exfalso
      revert hty ha
      generalize t.type = ty
      cases ty <;> simp [inlineTokenTypes, atxTokenTypes]
    intro t ht
    have key : t.inBounds text.length
        ∧ (t.type ∈ atxTokenTypes →
            t.openingMarkupLength + t.closingMarkupLength ≤ t.length - 1) := by
      cases b with
      | true =>
        simp only [if_true, Effect.andThen, List.mem_append] at ht
        rcases ht with ht | ht
        · exact hblk t ht
        · exact hinl t ht
      | false => exact hblk t (by simpa using ht)
    obtain ⟨⟨h1, h2, h3, h4, h5, h6⟩, h7⟩ := key
    exact ⟨h1, h2, h3, h4, h5, h6, h7⟩
/-- C25, as amended. The scan loop of `parseMatches`: for every working text and
every pattern whose matches are not empty (matches lie within the text by the
definition of the search), with any markup counts and replacement flags,
`parseMatches` returns, keeps the length of the working text, changes nothing
of the parser object but the token list, and the tokens it adds have the type
asked for, lie within the text, have positive length and appear in strictly
increasing order of position, each starting at or after the end
(position + length) of every token before it. Of the patterns that the
constructor sets up, all but `paragraphBreakRegex` match only strings that
are not empty, the patterns passed to `parseMatches` among them. -/
theorem parseMatches_scan (ty : MarkdownTokenType) (regex : QRegExp) (ms me : Nat)
    (rm ra : Bool)
    (hpos : ∀ w off i l, regex.indexIn w off = some (i, l) → 0 < l)
    (p : MarkdownParser) (text : QString) :
    (∃ (r : MarkdownParser) (text1 : QString) (new : List Token),
      parseMatches ty regex ms me rm ra p text = some (r, text1)
      ∧ text1.length = text.length
      ∧ r = { p with tokens := p.tokens ++ new }
      ∧ List.Pairwise
          (fun a b => a.position < b.position ∧ a.position + a.length ≤ b.position) new
      ∧ ∀ t ∈ new, t.type = ty ∧ 0 ≤ t.position ∧ 0 < t.length
          ∧ t.position + t.length ≤ (text.length : Int))
    ∧ constructorPatterns = paragraphBreakRegex :: consumingPatterns
    ∧ (∀ st ∈ inlineStages, st.2.1 ∈ consumingPatterns)
    ∧ ∀ re ∈ consumingPatterns,
        (∀ n s l, re.matchHere n s = some l → 0 < l)
        ∧ (∀ w off i l, re.indexIn w off = some (i, l) → 0 < l)
        ∧ re.exactMatch [] = false := by
  refine ⟨?_, rfl, ?_, ?_⟩
  · obtain ⟨toks, text1, hlen, hpw, htoks, hrun⟩ :=
      parseMatchesLoop_ordered ty regex ms me rm ra hpos (text.length + 1) text 0 (by omega)
    refine ⟨_, text1, toks, hrun p, hlen, ?_, ?_, ?_⟩
    · simp [Effect.apply]
    · refine List.Pairwise.imp_of_mem ?_ hpw
      intro a b ha _ hab
      have := (htoks a ha).2.2.1
      exact ⟨by omega, hab⟩
    · intro t ht
      obtain ⟨h1, h2, h3, h4⟩ := htoks t ht
      exact ⟨h1, by simpa using h2, h3, h4⟩
  · intro st hst
    simp only [inlineStages, List.mem_cons, List.mem_singleton, List.not_mem_nil,
      or_false] at hst
    rcases hst with h | h | h | h | h | h | h | h | h | h | h <;> rw [h] <;>
      simp [consumingPatterns]
  · intro re hre
    have hc := consumingPatterns_consuming re hre
    refine ⟨fun n s l h => QRegExp.matchHere_pos hc h,
      fun w off i l h => QRegExp.indexIn_pos hc h, ?_⟩
    cases hm : re.exactMatch []
    · rfl
    · exfalso
      unfold QRegExp.exactMatch at hm
      have h0 : re.matchHere ([] : QString).length [] = some ([] : QString).length := by
        simpa using hm
      have := QRegExp.matchHere_pos hc h0
      simp at this

/-- C25 at the emphasis pattern and the working text `*a* *b*`. -/
theorem parseMatches_scan_witness :
    (∃ (r : MarkdownParser) (text1 : QString) (new : List Token),
      parseMatches TokenEmphasis emphasisRegex 1 1 true false (fresh Unknown) (qs "*a* *b*")
        = some (r, text1)
      ∧ text1.length = (qs "*a* *b*").length
      ∧ r = { fresh Unknown with tokens := (fresh Unknown).tokens ++ new }
      ∧ List.Pairwise
          (fun a b => a.position < b.position ∧ a.position + a.length ≤ b.position) new
      ∧ ∀ t ∈ new, t.type = TokenEmphasis ∧ 0 ≤ t.position ∧ 0 < t.length
          ∧ t.position + t.length ≤ ((qs "*a* *b*").length : Int)) :=
  (parseMatches_scan TokenEmphasis emphasisRegex 1 1 true false
    (fun _ _ _ _ h => QRegExp.indexIn_pos (by rfl) h) (fresh Unknown) (qs "*a* *b*")).1

/-- C25 fails as stated at `paragraphBreakRegex`, the first pattern that the
constructor sets up: it matches the empty string, and a search finds the empty
match at index 0. -/
theorem empty_match_counterexample :
    paragraphBreakRegex ∈ constructorPatterns
    ∧ paragraphBreakRegex.exactMatch [] = true
    ∧ paragraphBreakRegex.indexIn [] 0 = some (0, 0) := by
  refine ⟨List.mem_cons_self _ _, ?_, ?_⟩ <;> decide

end MarkdownParser

end Ghostwriter
